import Mathlib

/-!
# Limit order book (`orderbook/orderbook.go`)

A shallow embedding of the Go order book.  The program works on pointers
(`*Order`, `*Limit`) that are shared between the side lists, the price maps, the
id index and the orders' back references, so the embedding keeps an explicit
memory: a pointer is a natural number and the memory maps pointers to the
current field values of the object they address.

The `float64` sizes, volumes and prices are embedded as integers (`Int`): a
finite `float64` is a whole multiple of `2^-1074`, and the integer is its count
of these units.  Comparisons of `float64` values are exact and so are the
comparisons of the counts.  The program is embedded twice.  The definitions of
this first part (`fillOrder`, `Fill`, `PlaceMarketOrder`, ...) run its
statements in exact arithmetic: `+=` and `-=` store the sum and the difference
as numbers.  That is what the program computes as long as no result needs
rounding, and it is all the claims about pointers, lists, maps, panics and
order of matching depend on.  The definitions under `F64` further down
(`F64.fillOrder`, `F64.Fill`, `F64.PlaceMarketOrder`, ...) are the same
statements with every sum and difference rounded to the nearest `float64`, as
Go does; the claims about sizes and volumes are settled on them.

A Go `panic` is embedded as a `Failure` returned next to the state reached when
the panic was raised.
-/

namespace Orderbook

/-- The two ways the package can panic: the explicit `panic(fmt.Errorf(...))` of
`PlaceMarketOrder`, and the runtime nil-pointer dereference raised when a method
is run on a nil `*Limit`. -/
inductive Failure where
  | notEnoughVolume
  | nilPointer
deriving DecidableEq, Repr

/-- Equality of results is decidable. -/
instance instDecidableEqExcept {ε α : Type} [DecidableEq ε] [DecidableEq α] :
    DecidableEq (Except ε α) := fun a b =>
  match a, b with
  | .ok x, .ok y =>
    if h : x = y then isTrue (congrArg Except.ok h) else isFalse (fun e => h (Except.ok.inj e))
  | .error x, .error y =>
    if h : x = y then isTrue (congrArg Except.error h)
    else isFalse (fun e => h (Except.error.inj e))
  | .ok _, .error _ => isFalse (fun e => Except.noConfusion e)
  | .error _, .ok _ => isFalse (fun e => Except.noConfusion e)

/-- Go `type Match struct`; `Ask` and `Bid` are order pointers. -/
structure Match where
  Ask : Nat
  Bid : Nat
  SizeFilled : Int
  Price : Int
deriving DecidableEq, Repr

/-- Go `type Order struct`; `Limit` is the back reference (`none` is `nil`), and
`Size` is the `float64` size as a count of units of `2^-1074`. -/
structure Order where
  ID : Int
  Size : Int
  Bid : Bool
  Limit : Option Nat
  TimeStamp : Int
deriving DecidableEq, Repr

/-- Go `type Limit struct`; `Orders` is the queue of order pointers, `Price` and
`TotalVolume` are `float64` values as counts of units of `2^-1074`. -/
structure Limit where
  Price : Int
  Orders : List Nat
  TotalVolume : Int
deriving DecidableEq, Repr

/-- Go `type OrderBook struct` (fields `asks`, `bids`, `AskLimits`, `BidLimits`,
`Orders`) together with the memory its pointers refer to: `orderAt` and
`limitAt` give the object stored at a pointer and `nextLimit` is the next
address handed out by `NewLimit`. -/
structure OrderBook where
  asks : List Nat
  bids : List Nat
  AskLimits : Int → Option Nat
  BidLimits : Int → Option Nat
  Orders : Int → Option Nat
  orderAt : Nat → Order
  limitAt : Nat → Limit
  nextLimit : Nat

/-- Go `func (o *Order) IsFilled() bool`. -/
def Order.IsFilled (o : Order) : Bool := decide (o.Size = 0)

/-- Go `NewOrderBook()`, in a memory holding the orders `orders`; the limit memory
is unused so far. -/
def NewOrderBook (orders : Nat → Order) : OrderBook where
  asks := []
  bids := []
  AskLimits := fun _ => none
  BidLimits := fun _ => none
  Orders := fun _ => none
  orderAt := orders
  limitAt := fun _ => { Price := 0, Orders := [], TotalVolume := 0 }
  nextLimit := 0

/-- Go `sort.Sort(l.Orders)` with `Less(i, j) = o[i].TimeStamp < o[j].TimeStamp`:
the queue in ascending time stamp order.  The library promises a sorted
permutation and no more; it is embedded as insertion sort, which is what Go
runs on slices of at most 12 elements, where elements with equal time stamps
keep their order.  On longer slices Go's sort may reorder elements with equal
time stamps, so what is stated about the order of a queue after a sort is
either that it is a sorted permutation, or is stated for queues that were in
time stamp order, which no sort changes. -/
def sortOrders (ob : OrderBook) (q : List Nat) : List Nat :=
  List.insertionSort (fun a b => (ob.orderAt a).TimeStamp ≤ (ob.orderAt b).TimeStamp) q

/-- Go `sort.Sort(ByBestAsk{ob.asks})`: ascending price. -/
def sortAsks (ob : OrderBook) (ls : List Nat) : List Nat :=
  List.insertionSort (fun a b => (ob.limitAt a).Price ≤ (ob.limitAt b).Price) ls

/-- Go `sort.Sort(ByBestBid{ob.bids})`: descending price. -/
def sortBids (ob : OrderBook) (ls : List Nat) : List Nat :=
  List.insertionSort (fun a b => (ob.limitAt b).Price ≤ (ob.limitAt a).Price) ls

/-- Store `v` at the order pointer `o`. -/
def setOrder (ob : OrderBook) (o : Nat) (v : Order) : OrderBook :=
  { ob with orderAt := Function.update ob.orderAt o v }

/-- Store `v` at the limit pointer `l`. -/
def setLimit (ob : OrderBook) (l : Nat) (v : Limit) : OrderBook :=
  { ob with limitAt := Function.update ob.limitAt l v }

/-- Go `func (l *Limit) DeleteOrder(o *Order)`: drop the first occurrence of `o`
from the queue (if any), clear the back reference, subtract the size from the
volume, sort the queue by time stamp. -/
def DeleteOrder (ob : OrderBook) (l o : Nat) : OrderBook :=
  let ob1 := setLimit ob l { ob.limitAt l with Orders := (ob.limitAt l).Orders.erase o }
  let ob2 := setOrder ob1 o { ob1.orderAt o with Limit := none }
  let ob3 := setLimit ob2 l
    { ob2.limitAt l with TotalVolume := (ob2.limitAt l).TotalVolume - (ob2.orderAt o).Size }
  setLimit ob3 l { ob3.limitAt l with Orders := sortOrders ob3 (ob3.limitAt l).Orders }

/-- Go `func (l *Limit) addOrder(o *Order)`. -/
def addOrder (ob : OrderBook) (l o : Nat) : OrderBook :=
  let ob1 := setOrder ob o { ob.orderAt o with Limit := some l }
  let ob2 := setLimit ob1 l { ob1.limitAt l with Orders := (ob1.limitAt l).Orders ++ [o] }
  setLimit ob2 l
    { ob2.limitAt l with TotalVolume := (ob2.limitAt l).TotalVolume + (ob2.orderAt o).Size }

/-- Assignment to the `Size` field of the order at `o`. -/
def setSize (ob : OrderBook) (o : Nat) (s : Int) : OrderBook :=
  setOrder ob o { ob.orderAt o with Size := s }

/-- Go `func (l *Limit) fillOrder(a *Order, b *Order) Match`; the statements of
each branch are run in order on the memory, as the program does. -/
def fillOrder (ob : OrderBook) (l a b : Nat) : OrderBook × Match :=
  let bid := if (ob.orderAt a).Bid then a else b
  let ask := if (ob.orderAt a).Bid then b else a
  if (ob.orderAt a).Size ≥ (ob.orderAt b).Size then
    let ob1 := setSize ob a ((ob.orderAt a).Size - (ob.orderAt b).Size)
    let sizeFilled := (ob1.orderAt b).Size
    let ob2 := setSize ob1 b 0
    (ob2, { Ask := ask, Bid := bid, SizeFilled := sizeFilled, Price := (ob2.limitAt l).Price })
  else
    let ob1 := setSize ob b ((ob.orderAt b).Size - (ob.orderAt a).Size)
    let sizeFilled := (ob1.orderAt a).Size
    let ob2 := setSize ob1 a 0
    (ob2, { Ask := ask, Bid := bid, SizeFilled := sizeFilled, Price := (ob2.limitAt l).Price })

/-- The body of the first loop of `Limit.Fill` up to and including
`l.TotalVolume -= match.SizeFilled`. -/
def fillStep (ob : OrderBook) (l order o : Nat) : OrderBook × Match :=
  let r := fillOrder ob l order o
  (setLimit r.1 l { r.1.limitAt l with TotalVolume := (r.1.limitAt l).TotalVolume - r.2.SizeFilled },
   r.2)

/-- The first loop of `Limit.Fill`, over the queue as it was when the loop
started: returns the memory, the matches and `ordersToDelete`. -/
def fillLoop (l order : Nat) : List Nat → OrderBook → OrderBook × List Match × List Nat
  | [], ob => (ob, [], [])
  | o :: rest, ob =>
    let r := fillStep ob l order o
    let del := if (r.1.orderAt o).IsFilled then [o] else []
    if (r.1.orderAt order).IsFilled then
      (r.1, [r.2], del)
    else
      let r3 := fillLoop l order rest r.1
      (r3.1, r.2 :: r3.2.1, del ++ r3.2.2)

/-- The second loop of `Limit.Fill`: `DeleteOrder` on each collected order. -/
def deleteOrders (ob : OrderBook) (l : Nat) (dels : List Nat) : OrderBook :=
  dels.foldl (fun acc o => DeleteOrder acc l o) ob

/-- Go `func (l *Limit) Fill(order *Order) []Match`. -/
def Fill (ob : OrderBook) (l order : Nat) : OrderBook × List Match :=
  let r := fillLoop l order (ob.limitAt l).Orders ob
  (deleteOrders r.1 l r.2.2, r.2.1)

/-- Go `func (ob *OrderBook) BidTotalVolume() float64` in exact arithmetic: the
sum of the volumes as a number (`F64.BidTotalVolume` adds them up on `float64`,
in list order). -/
def BidTotalVolume (ob : OrderBook) : Int :=
  (ob.bids.map (fun l => (ob.limitAt l).TotalVolume)).sum

/-- Go `func (ob *OrderBook) AskTotalVolume() float64` in exact arithmetic: the
sum of the volumes as a number (`F64.AskTotalVolume` adds them up on `float64`,
in list order). -/
def AskTotalVolume (ob : OrderBook) : Int :=
  (ob.asks.map (fun l => (ob.limitAt l).TotalVolume)).sum

/-- Go `func (ob *OrderBook) Asks() []*Limit`: sorts `ob.asks` in place. -/
def Asks (ob : OrderBook) : OrderBook × List Nat :=
  let ob1 : OrderBook := { ob with asks := sortAsks ob ob.asks }
  (ob1, ob1.asks)

/-- Go `func (ob *OrderBook) Bids() []*Limit`: sorts `ob.bids` in place. -/
def Bids (ob : OrderBook) : OrderBook × List Nat :=
  let ob1 : OrderBook := { ob with bids := sortBids ob ob.bids }
  (ob1, ob1.bids)

/-- Go `func (ob *OrderBook) clearLimit(bid bool, l *Limit)`. -/
def clearLimit (ob : OrderBook) (bid : Bool) (l : Nat) : OrderBook :=
  if bid then
    { ob with
      BidLimits := Function.update ob.BidLimits (ob.limitAt l).Price none
      bids := ob.bids.erase l }
  else
    { ob with
      AskLimits := Function.update ob.AskLimits (ob.limitAt l).Price none
      asks := ob.asks.erase l }

/-- The loop of `PlaceMarketOrder` over the limits returned by `Asks()` or
`Bids()`: returns the memory, the matches and `limitsToClear`. -/
def marketLoop (order : Nat) : List Nat → OrderBook → OrderBook × List Match × List Nat
  | [], ob => (ob, [], [])
  | l :: rest, ob =>
    let r := Fill ob l order
    let ob1 := r.1
    let clear := if (ob1.limitAt l).Orders.length = 0 then [l] else []
    if (ob1.orderAt order).IsFilled then
      (ob1, r.2, clear)
    else
      let r2 := marketLoop order rest ob1
      (r2.1, r.2 ++ r2.2.1, clear ++ r2.2.2)

/-- The last loop of `PlaceMarketOrder`: `ob.clearLimit(!order.Bid, limit)` on
each collected limit. -/
def clearLimits (ob : OrderBook) (order : Nat) (ls : List Nat) : OrderBook :=
  ls.foldl (fun acc l => clearLimit acc (!(acc.orderAt order).Bid) l) ob

/-- Go `func (ob *OrderBook) PlaceMarketOrder(order *Order) []Match`. -/
def PlaceMarketOrder (ob : OrderBook) (order : Nat) : OrderBook × Except Failure (List Match) :=
  if (ob.orderAt order).Bid then
    if (ob.orderAt order).Size > AskTotalVolume ob then
      (ob, .error .notEnoughVolume)
    else
      let s := Asks ob
      let r := marketLoop order s.2 s.1
      (clearLimits r.1 order r.2.2, .ok r.2.1)
  else
    if (ob.orderAt order).Size > BidTotalVolume ob then
      (ob, .error .notEnoughVolume)
    else
      let s := Bids ob
      let r := marketLoop order s.2 s.1
      (clearLimits r.1 order r.2.2, .ok r.2.1)

/-- Go `func NewLimit(price float64) *Limit`: a fresh limit at the next free
address. -/
def NewLimit (ob : OrderBook) (price : Int) : OrderBook × Nat :=
  ({ setLimit ob ob.nextLimit { Price := price, Orders := [], TotalVolume := 0 } with
     nextLimit := ob.nextLimit + 1 },
   ob.nextLimit)

/-- The first statement of `PlaceLimitOrder`: the limit registered at `price`
on the order's side (`none` is `nil`). -/
def lookupLimit (ob : OrderBook) (price : Int) (order : Nat) : Option Nat :=
  if (ob.orderAt order).Bid then ob.BidLimits price else ob.AskLimits price

/-- The `if limit == nil` block of `PlaceLimitOrder`: create a limit and
register it in the list and the price map of the order's side. -/
def registerLimit (ob : OrderBook) (price : Int) (order : Nat) : OrderBook × Nat :=
  let n := NewLimit ob price
  if (ob.orderAt order).Bid then
    ({ n.1 with bids := n.1.bids ++ [n.2], BidLimits := Function.update n.1.BidLimits price (some n.2) }, n.2)
  else
    ({ n.1 with asks := n.1.asks ++ [n.2], AskLimits := Function.update n.1.AskLimits price (some n.2) }, n.2)

/-- Assignment `ob.Orders[id] = v` (`none` deletes the key). -/
def setIndex (ob : OrderBook) (id : Int) (v : Option Nat) : OrderBook :=
  { ob with Orders := Function.update ob.Orders id v }

/-- Go `func (ob *OrderBook) PlaceLimitOrder(price float64, order *Order)`.  The
function has no failing path. -/
def PlaceLimitOrder (ob : OrderBook) (price : Int) (order : Nat) : OrderBook :=
  let r : OrderBook × Nat :=
    match lookupLimit ob price order with
    | some l => (ob, l)
    | none => registerLimit ob price order
  addOrder (setIndex r.1 (r.1.orderAt order).ID (some order)) r.2 order

/-- Go `func (ob *OrderBook) CancelOrder(order *Order)`.  When `order.Limit` is
nil the id has already been deleted from the index when `limit.DeleteOrder`
dereferences the nil limit and panics. -/
def CancelOrder (ob : OrderBook) (order : Nat) : OrderBook × Except Failure Unit :=
  let ob1 := setIndex ob (ob.orderAt order).ID none
  match (ob.orderAt order).Limit with
  | none => (ob1, .error .nilPointer)
  | some limit =>
    let ob2 := DeleteOrder ob1 limit order
    if (ob2.limitAt limit).Orders.length = 0 then
      (clearLimit ob2 (ob2.orderAt order).Bid limit, .ok ())
    else
      (ob2, .ok ())

/-! ## Specification vocabulary -/

/-- The sum of the current sizes of the orders of a queue. -/
def queueVolume (ob : OrderBook) (q : List Nat) : Int :=
  (q.map (fun o => (ob.orderAt o).Size)).sum

/-- The sum of the `SizeFilled` values of a sequence of matches. -/
def filledTotal (ms : List Match) : Int :=
  (ms.map (fun m => m.SizeFilled)).sum

/-- The total volume of the side a market order is matched against: the asks
for a buy, the bids for a sell. -/
def oppositeVolume (ob : OrderBook) (order : Nat) : Int :=
  if (ob.orderAt order).Bid then AskTotalVolume ob else BidTotalVolume ob

/-- The side a market order is matched against, as `PlaceMarketOrder` obtains
it: the result of `Asks()` for a buy and of `Bids()` for a sell. -/
def opposite (ob : OrderBook) (order : Nat) : OrderBook × List Nat :=
  if (ob.orderAt order).Bid then Asks ob else Bids ob

/-- The limits listed on the order's own side. -/
def ownLimits (ob : OrderBook) (order : Nat) : List Nat :=
  if (ob.orderAt order).Bid then ob.bids else ob.asks

/-- The total volume of the order's own side. -/
def ownVolume (ob : OrderBook) (order : Nat) : Int :=
  if (ob.orderAt order).Bid then BidTotalVolume ob else AskTotalVolume ob

/-- The price map of the order's own side. -/
def ownMap (ob : OrderBook) (order : Nat) : Int → Option Nat :=
  if (ob.orderAt order).Bid then ob.BidLimits else ob.AskLimits

/-- The limits listed on the side a market order is matched against. -/
def oppositeLimits (ob : OrderBook) (order : Nat) : List Nat :=
  if (ob.orderAt order).Bid then ob.asks else ob.bids

/-- The price map of the side a market order is matched against. -/
def oppositeMap (ob : OrderBook) (order : Nat) : Int → Option Nat :=
  if (ob.orderAt order).Bid then ob.AskLimits else ob.BidLimits

/-- The order at `o` rests in the book: its back reference is a limit listed
on one of the two sides and it is a member of that limit's queue. -/
def Resting (ob : OrderBook) (o : Nat) : Prop :=
  ∃ l ∈ ob.asks ++ ob.bids, (ob.orderAt o).Limit = some l ∧ o ∈ (ob.limitAt l).Orders

instance (ob : OrderBook) (o : Nat) : Decidable (Resting ob o) :=
  inferInstanceAs (Decidable (∃ l ∈ ob.asks ++ ob.bids,
    (ob.orderAt o).Limit = some l ∧ o ∈ (ob.limitAt l).Orders))

/-- Volume invariant on the limits `ls`: `TotalVolume` equals the sum of the
sizes of the orders in the queue. -/
def VolumeInvOn (ob : OrderBook) (ls : List Nat) : Prop :=
  ∀ l ∈ ls, (ob.limitAt l).TotalVolume = queueVolume ob (ob.limitAt l).Orders

/-- Volume invariant: every listed limit has `TotalVolume` equal to the sum of
the sizes of the orders in its queue. -/
def VolumeInv (ob : OrderBook) : Prop :=
  VolumeInvOn ob (ob.asks ++ ob.bids)

instance (ob : OrderBook) (ls : List Nat) : Decidable (VolumeInvOn ob ls) :=
  inferInstanceAs (Decidable (∀ l ∈ ls,
    (ob.limitAt l).TotalVolume = queueVolume ob (ob.limitAt l).Orders))

instance (ob : OrderBook) : Decidable (VolumeInv ob) :=
  inferInstanceAs (Decidable (VolumeInvOn ob (ob.asks ++ ob.bids)))

/-- No listed limit has an empty queue. -/
def NoEmptyLimit (ob : OrderBook) : Prop :=
  ∀ l ∈ ob.asks ++ ob.bids, (ob.limitAt l).Orders ≠ []

/-- The states reached from the empty book by `PlaceLimitOrder` of orders that
are not resting, successful `PlaceMarketOrder` calls, and `CancelOrder` of
resting orders. -/
inductive Reachable : OrderBook → Prop where
  | init (orders : Nat → Order) : Reachable (NewOrderBook orders)
  | limit {ob : OrderBook} (price : Int) (order : Nat) :
      Reachable ob → ¬ Resting ob order → Reachable (PlaceLimitOrder ob price order)
  | market {ob : OrderBook} (order : Nat) (ms : List Match) :
      Reachable ob → (PlaceMarketOrder ob order).2 = .ok ms →
      Reachable (PlaceMarketOrder ob order).1
  | cancel {ob : OrderBook} (order : Nat) :
      Reachable ob → Resting ob order → Reachable (CancelOrder ob order).1

/-- The limit `PlaceLimitOrder` adds the order to: the one registered at the
price on the order's side, or else the one it allocates. -/
def placedLimit (ob : OrderBook) (price : Int) (order : Nat) : Nat :=
  match lookupLimit ob price order with
  | some l => l
  | none => ob.nextLimit

/-- All resting sizes are non-negative. -/
def NonNegSizes (ob : OrderBook) : Prop :=
  ∀ l ∈ ob.asks ++ ob.bids, ∀ o ∈ (ob.limitAt l).Orders, 0 ≤ (ob.orderAt o).Size

/-- Pointer structure of a well-formed book: each side lists a limit once and
no limit is listed on both sides, the price map of a side has exactly the
entries `price ↦ limit` of the listed limits, listed limits have been
allocated, a queue holds an order once, the back reference of a queued order is
the limit it is queued in (so an order rests in one queue only), and queued
orders are on the side of their `Bid` flag. -/
structure WellFormed (ob : OrderBook) : Prop where
  asks_nodup : ob.asks.Nodup
  bids_nodup : ob.bids.Nodup
  ask_map : ∀ p l, ob.AskLimits p = some l ↔ l ∈ ob.asks ∧ (ob.limitAt l).Price = p
  bid_map : ∀ p l, ob.BidLimits p = some l ↔ l ∈ ob.bids ∧ (ob.limitAt l).Price = p
  allocated : ∀ l ∈ ob.asks ++ ob.bids, l < ob.nextLimit
  queue_nodup : ∀ l ∈ ob.asks ++ ob.bids, (ob.limitAt l).Orders.Nodup
  backref : ∀ l ∈ ob.asks ++ ob.bids, ∀ o ∈ (ob.limitAt l).Orders, (ob.orderAt o).Limit = some l
  ask_side : ∀ l ∈ ob.asks, ∀ o ∈ (ob.limitAt l).Orders, (ob.orderAt o).Bid = false
  bid_side : ∀ l ∈ ob.bids, ∀ o ∈ (ob.limitAt l).Orders, (ob.orderAt o).Bid = true
  disjoint : ∀ l ∈ ob.asks, l ∉ ob.bids

/-- Two states that differ at most in order sizes and limit volumes. -/
structure SameShape (ob ob' : OrderBook) : Prop where
  asks : ob'.asks = ob.asks
  bids : ob'.bids = ob.bids
  askLimits : ob'.AskLimits = ob.AskLimits
  bidLimits : ob'.BidLimits = ob.BidLimits
  index : ob'.Orders = ob.Orders
  nextLimit : ob'.nextLimit = ob.nextLimit
  price : ∀ l, (ob'.limitAt l).Price = (ob.limitAt l).Price
  queue : ∀ l, (ob'.limitAt l).Orders = (ob.limitAt l).Orders
  id : ∀ o, (ob'.orderAt o).ID = (ob.orderAt o).ID
  bid : ∀ o, (ob'.orderAt o).Bid = (ob.orderAt o).Bid
  limit : ∀ o, (ob'.orderAt o).Limit = (ob.orderAt o).Limit
  timeStamp : ∀ o, (ob'.orderAt o).TimeStamp = (ob.orderAt o).TimeStamp

/-! ## Example states -/

/-- A memory of orders in the style of the package's tests: three buy orders
(sizes 5, 8, 10), sell orders of sizes 4, 18 and 30, and an order of size 0. -/
def exampleOrders : Nat → Order
  | 0 => { ID := 100, Size := 5, Bid := true, Limit := none, TimeStamp := 1 }
  | 1 => { ID := 101, Size := 8, Bid := true, Limit := none, TimeStamp := 2 }
  | 2 => { ID := 102, Size := 10, Bid := true, Limit := none, TimeStamp := 3 }
  | 3 => { ID := 103, Size := 4, Bid := false, Limit := none, TimeStamp := 4 }
  | 4 => { ID := 104, Size := 18, Bid := false, Limit := none, TimeStamp := 5 }
  | 5 => { ID := 105, Size := 30, Bid := false, Limit := none, TimeStamp := 6 }
  | 6 => { ID := 106, Size := 0, Bid := false, Limit := none, TimeStamp := 7 }
  | n + 7 => { ID := 107 + n, Size := 1, Bid := false, Limit := none, TimeStamp := 8 + n }

/-- The empty book over `exampleOrders`. -/
def emptyBook : OrderBook := NewOrderBook exampleOrders

/-- The book of `TestPlaceMarketOrderMultiFill`: bids of sizes 5, 8, 10 resting
at prices 10000, 9000, 5000. -/
def bidBook : OrderBook :=
  PlaceLimitOrder (PlaceLimitOrder (PlaceLimitOrder emptyBook 10000 0) 9000 1) 5000 2

/-- A book built by two `PlaceLimitOrder` calls: the order at 0 (a buy of size
5) rests at price 10 and the order at 5 (a sell of size 30) rests at price
20. -/
def crossBook : OrderBook :=
  PlaceLimitOrder (PlaceLimitOrder emptyBook 10 0) 20 5

/-- The book of `TestPlaceMarketOrderMultiFill` after a market sell of size 18
(the order at 4): the bids at 10000 and 9000 are filled, 5 of the bid at 5000
is left. -/
def drainedBook : OrderBook := (PlaceMarketOrder bidBook 4).1

/-- Two resting sells: the order at 3 (size 4) at price 10000 and the order at
4 (size 18) at price 9000. -/
def askBook : OrderBook :=
  PlaceLimitOrder (PlaceLimitOrder emptyBook 10000 3) 9000 4

/-- The taker named by a match of a market order `order`: the `Bid` field for a
buy, the `Ask` field for a sell. -/
def takerOf (ob : OrderBook) (order : Nat) (m : Match) : Nat :=
  if (ob.orderAt order).Bid then m.Bid else m.Ask

/-- The maker named by a match of a market order `order`: the `Ask` field for a
buy, the `Bid` field for a sell. -/
def makerOf (ob : OrderBook) (order : Nat) (m : Match) : Nat :=
  if (ob.orderAt order).Bid then m.Ask else m.Bid

/-- The queue `q` is in non-decreasing `TimeStamp` order. -/
def TimeOrdered (ob : OrderBook) (q : List Nat) : Prop :=
  List.Sorted (fun a b => (ob.orderAt a).TimeStamp ≤ (ob.orderAt b).TimeStamp) q

instance (ob : OrderBook) (q : List Nat) : Decidable (TimeOrdered ob q) :=
  inferInstanceAs (Decidable
    (List.Sorted (fun a b => (ob.orderAt a).TimeStamp ≤ (ob.orderAt b).TimeStamp) q))

/-- The sizes filled at one level, in the words of the specification: the
i-th size is the minimum of the taker's remaining size and the size of the
i-th maker of the queue, and the sequence ends with the first maker after
which the taker has nothing left, or with the queue. -/
def levelFills (s : Int) : List Int → List Int
  | [] => []
  | z :: zs => min s z :: (if s - min s z = 0 then [] else levelFills (s - min s z) zs)

/-- The match of the taker `order` against the maker `o` for the size `x` at
the limit `l`. -/
def matchOf (ob : OrderBook) (l order o : Nat) (x : Int) : Match :=
  { Ask := if (ob.orderAt order).Bid then o else order
    Bid := if (ob.orderAt order).Bid then order else o
    SizeFilled := x
    Price := (ob.limitAt l).Price }

/-- The side index of the book: on each side the listed limits are distinct,
the price map has an entry for a price exactly when a listed limit has that
price, and the entry is that limit; listed limits are allocated, the two lists
are disjoint, and the orders queued on a side carry the side's `Bid` flag. -/
structure SideIndexed (ob : OrderBook) : Prop where
  asks_nodup : ob.asks.Nodup
  bids_nodup : ob.bids.Nodup
  ask_map : ∀ p l, ob.AskLimits p = some l ↔ l ∈ ob.asks ∧ (ob.limitAt l).Price = p
  bid_map : ∀ p l, ob.BidLimits p = some l ↔ l ∈ ob.bids ∧ (ob.limitAt l).Price = p
  allocated : ∀ l ∈ ob.asks ++ ob.bids, l < ob.nextLimit
  ask_side : ∀ l ∈ ob.asks, ∀ o ∈ (ob.limitAt l).Orders, (ob.orderAt o).Bid = false
  bid_side : ∀ l ∈ ob.bids, ∀ o ∈ (ob.limitAt l).Orders, (ob.orderAt o).Bid = true
  disjoint : ∀ l ∈ ob.asks, l ∉ ob.bids

/-- The sizes of the makers after a taker of size `s` has consumed the makers
`M` in priority order: a maker no larger than what is left of the taker is
emptied and the taker goes on with the rest, the first larger maker is reduced
by what is left and ends the consumption. -/
def consume (s : Int) : List Nat → (Nat → Int) → Nat → Int
  | [], f => f
  | o :: rest, f =>
    if f o ≤ s then consume (s - f o) rest (Function.update f o 0)
    else Function.update f o (f o - s)

/-- What is left of a taker of size `s` after it has consumed the makers `M`. -/
def leftover (s : Int) : List Nat → (Nat → Int) → Int
  | [], _ => s
  | o :: rest, f => if f o ≤ s then leftover (s - f o) rest (Function.update f o 0) else 0

/-- The total size filled against the maker `o` in a sequence of matches of a
taker with the flag `bid`: the maker of a match is its `Ask` order for a buying
taker and its `Bid` order for a selling taker. -/
def fillsOf (bid : Bool) (o : Nat) (ms : List Match) : Int :=
  ((ms.filter (fun m => decide ((if bid then m.Ask else m.Bid) = o))).map
    (fun m => m.SizeFilled)).sum

/-- All orders queued in listed limits have a positive size. -/
def PositiveSizes (ob : OrderBook) : Prop :=
  ∀ l ∈ ob.asks ++ ob.bids, ∀ o ∈ (ob.limitAt l).Orders, 0 < (ob.orderAt o).Size

instance (ob : OrderBook) : Decidable (PositiveSizes ob) :=
  inferInstanceAs (Decidable
    (∀ l ∈ ob.asks ++ ob.bids, ∀ o ∈ (ob.limitAt l).Orders, 0 < (ob.orderAt o).Size))

/-- Every queue of a listed limit is in non-decreasing `TimeStamp` order. -/
def TimeOrderedBook (ob : OrderBook) : Prop :=
  ∀ l ∈ ob.asks ++ ob.bids, TimeOrdered ob (ob.limitAt l).Orders

instance (ob : OrderBook) : Decidable (TimeOrderedBook ob) :=
  inferInstanceAs (Decidable (∀ l ∈ ob.asks ++ ob.bids, TimeOrdered ob (ob.limitAt l).Orders))

/-- The current size of each order. -/
def sizes (ob : OrderBook) : Nat → Int := fun o => (ob.orderAt o).Size

/-- The makers queued in the limits `ls`, in priority order. -/
def makers (ob : OrderBook) (ls : List Nat) : List Nat :=
  ls.flatMap (fun l => (ob.limitAt l).Orders)

/-- What the loop of a market order of the taker `t` over the limits `ls`
relies on: the book is well formed, the limits are distinct and listed, the
taker is in none of their queues, the queued makers have positive sizes and are
in time stamp order, and the taker's size is not negative. -/
structure LoopReady (ob : OrderBook) (t : Nat) (ls : List Nat) : Prop where
  wf : WellFormed ob
  nodup : ls.Nodup
  sub : ∀ l ∈ ls, l ∈ ob.asks ++ ob.bids
  free : ∀ l ∈ ls, t ∉ (ob.limitAt l).Orders
  pos : ∀ l ∈ ls, ∀ o ∈ (ob.limitAt l).Orders, 0 < sizes ob o
  ord : ∀ l ∈ ls, TimeOrdered ob (ob.limitAt l).Orders
  nonneg : 0 ≤ sizes ob t

/-- The books order splitting is stated for: well formed, no listed limit with
an empty queue, every `TotalVolume` the sum of the queued sizes, all queued
sizes positive, every queue in time stamp order. -/
structure SplitReady (ob : OrderBook) : Prop where
  wf : WellFormed ob
  noEmpty : NoEmptyLimit ob
  vol : VolumeInv ob
  pos : PositiveSizes ob
  ord : TimeOrderedBook ob

/-- The order at `t` is a market order of size `s` the book can take: it is
not resting and `0 ≤ s ≤` the volume of the opposite side. -/
structure Taker (ob : OrderBook) (t : Nat) (s : Int) : Prop where
  size : sizes ob t = s
  nonneg : 0 ≤ s
  enough : s ≤ oppositeVolume ob t
  fresh : ¬ Resting ob t

/-- One market order `t` of size `a + b` and two market orders `t1`, `t2` of
sizes `a` and `b` on the same side of a book that can take them. -/
structure Split (ob : OrderBook) (t t1 t2 : Nat) (a b : Int) : Prop where
  ready : SplitReady ob
  whole : Taker ob t (a + b)
  first : Taker ob t1 a
  size2 : sizes ob t2 = b
  nonneg2 : 0 ≤ b
  fresh2 : ¬ Resting ob t2
  bid1 : (ob.orderAt t1).Bid = (ob.orderAt t).Bid
  bid2 : (ob.orderAt t2).Bid = (ob.orderAt t).Bid
  ne : t2 ≠ t1

/-- A memory for order splitting: three buy orders of sizes 5, 8 and 10, and
sell orders of sizes 11, 7 and 4. -/
def splitOrders : Nat → Order
  | 0 => { ID := 200, Size := 5, Bid := true, Limit := none, TimeStamp := 1 }
  | 1 => { ID := 201, Size := 8, Bid := true, Limit := none, TimeStamp := 2 }
  | 2 => { ID := 202, Size := 10, Bid := true, Limit := none, TimeStamp := 3 }
  | 3 => { ID := 203, Size := 11, Bid := false, Limit := none, TimeStamp := 4 }
  | 4 => { ID := 204, Size := 7, Bid := false, Limit := none, TimeStamp := 5 }
  | 5 => { ID := 205, Size := 4, Bid := false, Limit := none, TimeStamp := 6 }
  | n + 6 => { ID := 206 + n, Size := 1, Bid := false, Limit := none, TimeStamp := 7 + n }

/-- The book with the bids of sizes 5 and 8 queued at 10000 and the bid of
size 10 at 9000. -/
def splitBook : OrderBook :=
  PlaceLimitOrder (PlaceLimitOrder (PlaceLimitOrder (NewOrderBook splitOrders) 10000 0) 10000 1)
    9000 2

instance (ob : OrderBook) : Decidable (NoEmptyLimit ob) :=
  inferInstanceAs (Decidable (∀ l ∈ ob.asks ++ ob.bids, (ob.limitAt l).Orders ≠ []))

/-! ## `float64` arithmetic

The sizes, volumes and prices of the program are `float64` values.  Every
finite `float64` is a whole multiple of `2^-1074`, the smallest positive one, so
a finite `float64` value `x` is embedded as the integer `x * 2^1074`, its count
of units: `unit64` stands for `1.0`.  The sum or difference of two such values is
an integer count again, and Go (IEEE 754, round to nearest, ties to even)
stores the `float64` nearest to it: `round64`.  Comparisons are exact.  The
definitions under `F64` are the functions of the program with this rounding
after every `+=` and `-=`; the definitions of the same name without `F64` run
the same statements in exact arithmetic, which is what the program computes as
long as no result is rounded.  Infinities and NaN are left out: a result
beyond the largest `float64` is rounded like any other.
-/

/-- The spacing of the `float64` values next to a magnitude of `n` units: one
unit while `n` has at most 53 binary digits, doubled with every further digit.
The first argument bounds the recursion (`n` itself is enough). -/
def ulp : Nat → Nat → Nat
  | 0, _ => 1
  | fuel + 1, n => if n < 2 ^ 53 then 1 else 2 * ulp fuel (n / 2)

/-- The magnitude `n` rounded to the nearest multiple of its spacing, a tie
going to the even multiple. -/
def roundNat (n : Nat) : Nat :=
  if ulp n n < 2 * (n % ulp n n) ∨ (2 * (n % ulp n n) = ulp n n ∧ n / ulp n n % 2 = 1) then
    (n / ulp n n + 1) * ulp n n
  else n / ulp n n * ulp n n

/-- The `float64` nearest to the number `x` (round to nearest, ties to even). -/
def round64 (x : Int) : Int := x.sign * (roundNat x.natAbs : Int)

/-- Go `x + y` on `float64`. -/
def add64 (x y : Int) : Int := round64 (x + y)

/-- Go `x - y` on `float64`. -/
def sub64 (x y : Int) : Int := round64 (x - y)

/-- The count of units of `1.0`: `2^1074`. -/
def unit64 : Int := ((2 ^ 179 * 2 ^ 179 * 2 ^ 179 * 2 ^ 179 * 2 ^ 179 * 2 ^ 179 : Nat) : Int)

/-- The `float64` value `m * 2^-p` for `p ≤ 1074`, in units: `dyadic 3 1` is 1.5. -/
def dyadic (m : Int) (p : Nat) : Int := m * (unit64 / ((2 ^ p : Nat) : Int))

/-- Go `func (l *Limit) DeleteOrder(o *Order)` on `float64`. -/
def F64.DeleteOrder (ob : OrderBook) (l o : Nat) : OrderBook :=
  let ob1 := setLimit ob l { ob.limitAt l with Orders := (ob.limitAt l).Orders.erase o }
  let ob2 := setOrder ob1 o { ob1.orderAt o with Limit := none }
  let ob3 := setLimit ob2 l
    { ob2.limitAt l with TotalVolume := sub64 (ob2.limitAt l).TotalVolume (ob2.orderAt o).Size }
  setLimit ob3 l { ob3.limitAt l with Orders := sortOrders ob3 (ob3.limitAt l).Orders }

/-- Go `func (l *Limit) addOrder(o *Order)` on `float64`. -/
def F64.addOrder (ob : OrderBook) (l o : Nat) : OrderBook :=
  let ob1 := setOrder ob o { ob.orderAt o with Limit := some l }
  let ob2 := setLimit ob1 l { ob1.limitAt l with Orders := (ob1.limitAt l).Orders ++ [o] }
  setLimit ob2 l
    { ob2.limitAt l with TotalVolume := add64 (ob2.limitAt l).TotalVolume (ob2.orderAt o).Size }

/-- Go `func (l *Limit) fillOrder(a *Order, b *Order) Match` on `float64`. -/
def F64.fillOrder (ob : OrderBook) (l a b : Nat) : OrderBook × Match :=
  let bid := if (ob.orderAt a).Bid then a else b
  let ask := if (ob.orderAt a).Bid then b else a
  if (ob.orderAt a).Size ≥ (ob.orderAt b).Size then
    let ob1 := setSize ob a (sub64 (ob.orderAt a).Size (ob.orderAt b).Size)
    let sizeFilled := (ob1.orderAt b).Size
    let ob2 := setSize ob1 b 0
    (ob2, { Ask := ask, Bid := bid, SizeFilled := sizeFilled, Price := (ob2.limitAt l).Price })
  else
    let ob1 := setSize ob b (sub64 (ob.orderAt b).Size (ob.orderAt a).Size)
    let sizeFilled := (ob1.orderAt a).Size
    let ob2 := setSize ob1 a 0
    (ob2, { Ask := ask, Bid := bid, SizeFilled := sizeFilled, Price := (ob2.limitAt l).Price })

/-- The body of the first loop of `Limit.Fill` on `float64`, up to and
including `l.TotalVolume -= match.SizeFilled`. -/
def F64.fillStep (ob : OrderBook) (l order o : Nat) : OrderBook × Match :=
  let r := F64.fillOrder ob l order o
  (setLimit r.1 l
    { r.1.limitAt l with TotalVolume := sub64 (r.1.limitAt l).TotalVolume r.2.SizeFilled },
   r.2)

/-- The first loop of `Limit.Fill` on `float64`. -/
def F64.fillLoop (l order : Nat) : List Nat → OrderBook → OrderBook × List Match × List Nat
  | [], ob => (ob, [], [])
  | o :: rest, ob =>
    let r := F64.fillStep ob l order o
    let del := if (r.1.orderAt o).IsFilled then [o] else []
    if (r.1.orderAt order).IsFilled then
      (r.1, [r.2], del)
    else
      let r3 := F64.fillLoop l order rest r.1
      (r3.1, r.2 :: r3.2.1, del ++ r3.2.2)

/-- The second loop of `Limit.Fill` on `float64`. -/
def F64.deleteOrders (ob : OrderBook) (l : Nat) (dels : List Nat) : OrderBook :=
  dels.foldl (fun acc o => F64.DeleteOrder acc l o) ob

/-- Go `func (l *Limit) Fill(order *Order) []Match` on `float64`. -/
def F64.Fill (ob : OrderBook) (l order : Nat) : OrderBook × List Match :=
  let r := F64.fillLoop l order (ob.limitAt l).Orders ob
  (F64.deleteOrders r.1 l r.2.2, r.2.1)

/-- The loop of `BidTotalVolume` and `AskTotalVolume` on `float64`:
`totalVolume := 0.0`, then `totalVolume += limit.TotalVolume` for each limit of
the list, in list order. -/
def F64.totalVolume (ob : OrderBook) (ls : List Nat) : Int :=
  ls.foldl (fun acc l => add64 acc (ob.limitAt l).TotalVolume) 0

/-- Go `func (ob *OrderBook) BidTotalVolume() float64`. -/
def F64.BidTotalVolume (ob : OrderBook) : Int := F64.totalVolume ob ob.bids

/-- Go `func (ob *OrderBook) AskTotalVolume() float64`. -/
def F64.AskTotalVolume (ob : OrderBook) : Int := F64.totalVolume ob ob.asks

/-- The loop of `PlaceMarketOrder` over the limits returned by `Asks()` or
`Bids()`, on `float64`. -/
def F64.marketLoop (order : Nat) : List Nat → OrderBook → OrderBook × List Match × List Nat
  | [], ob => (ob, [], [])
  | l :: rest, ob =>
    let r := F64.Fill ob l order
    let ob1 := r.1
    let clear := if (ob1.limitAt l).Orders.length = 0 then [l] else []
    if (ob1.orderAt order).IsFilled then
      (ob1, r.2, clear)
    else
      let r2 := F64.marketLoop order rest ob1
      (r2.1, r.2 ++ r2.2.1, clear ++ r2.2.2)

/-- Go `func (ob *OrderBook) PlaceMarketOrder(order *Order) []Match` on
`float64`. -/
def F64.PlaceMarketOrder (ob : OrderBook) (order : Nat) :
    OrderBook × Except Failure (List Match) :=
  if (ob.orderAt order).Bid then
    if (ob.orderAt order).Size > F64.AskTotalVolume ob then
      (ob, .error .notEnoughVolume)
    else
      let s := Asks ob
      let r := F64.marketLoop order s.2 s.1
      (clearLimits r.1 order r.2.2, .ok r.2.1)
  else
    if (ob.orderAt order).Size > F64.BidTotalVolume ob then
      (ob, .error .notEnoughVolume)
    else
      let s := Bids ob
      let r := F64.marketLoop order s.2 s.1
      (clearLimits r.1 order r.2.2, .ok r.2.1)

/-- Go `func (ob *OrderBook) PlaceLimitOrder(price float64, order *Order)` on
`float64`. -/
def F64.PlaceLimitOrder (ob : OrderBook) (price : Int) (order : Nat) : OrderBook :=
  let r : OrderBook × Nat :=
    match lookupLimit ob price order with
    | some l => (ob, l)
    | none => registerLimit ob price order
  F64.addOrder (setIndex r.1 (r.1.orderAt order).ID (some order)) r.2 order

/-- Go `func (ob *OrderBook) CancelOrder(order *Order)` on `float64`. -/
def F64.CancelOrder (ob : OrderBook) (order : Nat) : OrderBook × Except Failure Unit :=
  let ob1 := setIndex ob (ob.orderAt order).ID none
  match (ob.orderAt order).Limit with
  | none => (ob1, .error .nilPointer)
  | some limit =>
    let ob2 := F64.DeleteOrder ob1 limit order
    if (ob2.limitAt limit).Orders.length = 0 then
      (clearLimit ob2 (ob2.orderAt order).Bid limit, .ok ())
    else
      (ob2, .ok ())

/-- The `float64` total of the side a market order is matched against, as
`PlaceMarketOrder` computes it. -/
def F64.oppositeVolume (ob : OrderBook) (order : Nat) : Int :=
  if (ob.orderAt order).Bid then F64.AskTotalVolume ob else F64.BidTotalVolume ob

/-- The `float64` total of the order's own side. -/
def F64.ownVolume (ob : OrderBook) (order : Nat) : Int :=
  if (ob.orderAt order).Bid then F64.BidTotalVolume ob else F64.AskTotalVolume ob

/-! ## Exactness vocabulary -/

/-- The number `x` is a whole multiple of `2^k` units. -/
def OnGrid (k : Nat) (x : Int) : Prop := ((2 ^ k : Nat) : Int) ∣ x

instance (k : Nat) (x : Int) : Decidable (OnGrid k x) :=
  inferInstanceAs (Decidable (((2 ^ k : Nat) : Int) ∣ x))

/-- The number `x` is a non-negative multiple of `2^k` units below `2^(k+53)`
units: it is a `float64`, and so is every non-negative multiple of `2^k` below
it. -/
def Fits (k : Nat) (x : Int) : Prop :=
  OnGrid k x ∧ 0 ≤ x ∧ x < ((2 ^ (k + 53) : Nat) : Int)

instance (k : Nat) (x : Int) : Decidable (Fits k x) :=
  inferInstanceAs (Decidable (OnGrid k x ∧ 0 ≤ x ∧ x < ((2 ^ (k + 53) : Nat) : Int)))

/-- The sum, as a number, of the `TotalVolume`s of the limits `ls`. -/
def sumVolume (ob : OrderBook) (ls : List Nat) : Int :=
  (ls.map (fun l => (ob.limitAt l).TotalVolume)).sum

/-- The sum, as a number, of the sizes of the orders queued in the limits
`ls`. -/
def sumSizes (ob : OrderBook) (ls : List Nat) : Int :=
  (ls.map (fun l => queueVolume ob (ob.limitAt l).Orders)).sum

/-- The sizes queued in the limits `ls` lie on the grid of `2^k` units: each is
a non-negative multiple of `2^k` units, and together they stay below `2^(k+53)`
units; `k ≤ 2045` keeps `2^(k+53)` units within the range of `float64`.  Whole
numbers of total below `2^53` are the case `k = 1074`. -/
def GridSide (k : Nat) (ob : OrderBook) (ls : List Nat) : Prop :=
  k ≤ 2045 ∧
  (∀ l ∈ ls, ∀ o ∈ (ob.limitAt l).Orders,
    OnGrid k (ob.orderAt o).Size ∧ 0 ≤ (ob.orderAt o).Size) ∧
  sumSizes ob ls < ((2 ^ (k + 53) : Nat) : Int)

instance (k : Nat) (ob : OrderBook) (ls : List Nat) : Decidable (GridSide k ob ls) :=
  inferInstanceAs (Decidable (k ≤ 2045 ∧ (∀ l ∈ ls, ∀ o ∈ (ob.limitAt l).Orders,
    OnGrid k (ob.orderAt o).Size ∧ 0 ≤ (ob.orderAt o).Size) ∧
  sumSizes ob ls < ((2 ^ (k + 53) : Nat) : Int)))

/-- The resting sizes of the book lie on the grid of `2^k` units, on each
side. -/
def GridBook (k : Nat) (ob : OrderBook) : Prop :=
  GridSide k ob ob.asks ∧ GridSide k ob ob.bids

instance (k : Nat) (ob : OrderBook) : Decidable (GridBook k ob) :=
  inferInstanceAs (Decidable (GridSide k ob ob.asks ∧ GridSide k ob ob.bids))

/-- What keeps the `float64` loop of a market order of the taker `t` over limits
of `L` exact: the book is well formed, the limits of `L` are listed, the taker
is in none of their queues, their `TotalVolume` is the sum of the queued sizes,
and the queued sizes, the volumes and the taker's size are non-negative
multiples of `2^k` units below `2^(k+53)` units. -/
structure GridReady (k : Nat) (ob : OrderBook) (t : Nat) (L : List Nat) : Prop where
  wf : WellFormed ob
  sub : ∀ l ∈ L, l ∈ ob.asks ++ ob.bids
  free : ∀ l ∈ L, t ∉ (ob.limitAt l).Orders
  vol : VolumeInvOn ob L
  size : ∀ l ∈ L, ∀ o ∈ (ob.limitAt l).Orders, Fits k (ob.orderAt o).Size
  volume : ∀ l ∈ L, Fits k (ob.limitAt l).TotalVolume
  taker : Fits k (ob.orderAt t).Size

/-- The `TotalVolume`s of the limits `ls` lie on the grid of `2^k` units: each
is a non-negative multiple of `2^k` units, and their sum stays below `2^(k+53)`
units, with `k ≤ 2045`. -/
def GridVolumes (k : Nat) (ob : OrderBook) (ls : List Nat) : Prop :=
  k ≤ 2045 ∧
  (∀ l ∈ ls, OnGrid k (ob.limitAt l).TotalVolume ∧ 0 ≤ (ob.limitAt l).TotalVolume) ∧
  sumVolume ob ls < ((2 ^ (k + 53) : Nat) : Int)

instance (k : Nat) (ob : OrderBook) (ls : List Nat) : Decidable (GridVolumes k ob ls) :=
  inferInstanceAs (Decidable (k ≤ 2045 ∧
    (∀ l ∈ ls, OnGrid k (ob.limitAt l).TotalVolume ∧ 0 ≤ (ob.limitAt l).TotalVolume) ∧
      sumVolume ob ls < ((2 ^ (k + 53) : Nat) : Int)))

/-- Assignment to the `TotalVolume` field of the limit at `l`. -/
def setVolume (ob : OrderBook) (l : Nat) (v : Int) : OrderBook :=
  setLimit ob l { ob.limitAt l with TotalVolume := v }

/-- The volume, before `PlaceLimitOrder`, of the limit the order is added to:
that of the limit registered at the price on the order's side, and 0 for the
limit the call allocates. -/
def placedVolume (ob : OrderBook) (price : Int) (order : Nat) : Int :=
  match lookupLimit ob price order with
  | some l => (ob.limitAt l).TotalVolume
  | none => 0

/-- The sizes filled at one level on `float64`, in the words of the
specification: the i-th size is the minimum of the taker's remaining size and
the size of the i-th maker of the queue, the taker's remaining size is lowered
by it (a `float64` subtraction), and the sequence ends with the first maker
after which the taker has nothing left, or with the queue. -/
def levelFills64 (s : Int) : List Int → List Int
  | [] => []
  | z :: zs =>
    min s z :: (if sub64 s (min s z) = 0 then [] else levelFills64 (sub64 s (min s z)) zs)

/-- What is left of the size `s` after the sizes `xs` have been subtracted from
it on `float64`, one after the other. -/
def remaining64 (s : Int) (xs : List Int) : Int := xs.foldl sub64 s

/-- The `TimeStamp`s strictly increase along the queue `q`: the order in which
`sort.Sort` leaves the members of `q` is then the only sorted one. -/
def StrictTimeOrdered (ob : OrderBook) (q : List Nat) : Prop :=
  List.Sorted (fun a b => (ob.orderAt a).TimeStamp < (ob.orderAt b).TimeStamp) q

instance (ob : OrderBook) (q : List Nat) : Decidable (StrictTimeOrdered ob q) :=
  inferInstanceAs (Decidable
    (List.Sorted (fun a b => (ob.orderAt a).TimeStamp < (ob.orderAt b).TimeStamp) q))

/-- The `TimeStamp`s strictly increase along the queue of every listed limit. -/
def StrictTimeOrderedBook (ob : OrderBook) : Prop :=
  ∀ l ∈ ob.asks ++ ob.bids, StrictTimeOrdered ob (ob.limitAt l).Orders

instance (ob : OrderBook) : Decidable (StrictTimeOrderedBook ob) :=
  inferInstanceAs (Decidable
    (∀ l ∈ ob.asks ++ ob.bids, StrictTimeOrdered ob (ob.limitAt l).Orders))
/-! ## Example states on `float64` -/

/-- A memory of orders with `float64` sizes: sells of 0.1, 0.2, 0.3 and 0.4,
buys of 0.1, 0.2, 0.3, 0.30000000000000004, 0.4 and 0.5, sells of 1,
`2^53 + 2` and 1, buys of 1, `2^53 + 2`, 0 and 1, and a sell of 0.1.  Each size
is written as the fraction `float64` stores: 0.1 is `3602879701896397 / 2^55`. -/
def floatOrders : Nat → Order
  | 0 => { ID := 300, Size := dyadic 3602879701896397 55, Bid := false, Limit := none,
           TimeStamp := 1 }
  | 1 => { ID := 301, Size := dyadic 3602879701896397 54, Bid := false, Limit := none,
           TimeStamp := 2 }
  | 2 => { ID := 302, Size := dyadic 5404319552844595 54, Bid := false, Limit := none,
           TimeStamp := 3 }
  | 3 => { ID := 303, Size := dyadic 3602879701896397 53, Bid := false, Limit := none,
           TimeStamp := 4 }
  | 4 => { ID := 304, Size := dyadic 3602879701896397 55, Bid := true, Limit := none,
           TimeStamp := 5 }
  | 5 => { ID := 305, Size := dyadic 3602879701896397 54, Bid := true, Limit := none,
           TimeStamp := 6 }
  | 6 => { ID := 306, Size := dyadic 5404319552844595 54, Bid := true, Limit := none,
           TimeStamp := 7 }
  | 7 => { ID := 307, Size := dyadic 1351079888211149 52, Bid := true, Limit := none,
           TimeStamp := 8 }
  | 8 => { ID := 308, Size := dyadic 3602879701896397 53, Bid := true, Limit := none,
           TimeStamp := 9 }
  | 9 => { ID := 309, Size := dyadic 1 1, Bid := true, Limit := none, TimeStamp := 10 }
  | 10 => { ID := 310, Size := dyadic 1 0, Bid := false, Limit := none, TimeStamp := 11 }
  | 11 => { ID := 311, Size := dyadic 9007199254740994 0, Bid := false, Limit := none,
            TimeStamp := 12 }
  | 12 => { ID := 312, Size := dyadic 1 0, Bid := false, Limit := none, TimeStamp := 13 }
  | 13 => { ID := 313, Size := dyadic 1 0, Bid := true, Limit := none, TimeStamp := 14 }
  | 14 => { ID := 314, Size := dyadic 9007199254740994 0, Bid := true, Limit := none,
            TimeStamp := 15 }
  | 15 => { ID := 315, Size := 0, Bid := true, Limit := none, TimeStamp := 16 }
  | 16 => { ID := 316, Size := dyadic 1 0, Bid := true, Limit := none, TimeStamp := 17 }
  | 17 => { ID := 317, Size := dyadic 3602879701896397 55, Bid := false, Limit := none,
            TimeStamp := 18 }
  | n + 18 => { ID := 318 + n, Size := dyadic 1 0, Bid := false, Limit := none,
                TimeStamp := 19 + n }

/-- The empty book over `floatOrders`. -/
def floatBook : OrderBook := NewOrderBook floatOrders

/-- Asks of 0.1 at price 10 and 0.2 at price 20. -/
def tenthsBook : OrderBook :=
  F64.PlaceLimitOrder (F64.PlaceLimitOrder floatBook (dyadic 10 0) 0) (dyadic 20 0) 1

/-- Asks of 1 at price 10 and `2^53 + 2` at price 20. -/
def wideBook : OrderBook :=
  F64.PlaceLimitOrder (F64.PlaceLimitOrder floatBook (dyadic 10 0) 10) (dyadic 20 0) 11

/-- One ask of `2^53 + 2` at price 10. -/
def largeBook : OrderBook := F64.PlaceLimitOrder floatBook (dyadic 10 0) 11

/-- Asks of 1, `2^53 + 2` and 1 queued at price 10, placed in this order. -/
def largeQueueBook : OrderBook :=
  F64.PlaceLimitOrder (F64.PlaceLimitOrder (F64.PlaceLimitOrder floatBook (dyadic 10 0) 10)
    (dyadic 10 0) 11) (dyadic 10 0) 12

/-- Bids of 0.1, 0.2 and 0.3 queued at price 10, placed in this order. -/
def tenthsQueueBook : OrderBook :=
  F64.PlaceLimitOrder (F64.PlaceLimitOrder (F64.PlaceLimitOrder floatBook (dyadic 10 0) 4)
    (dyadic 10 0) 5) (dyadic 10 0) 6

/-- Asks of 0.1 at price 30, 0.2 at price 20 and 0.3 at price 10, placed in
this order. -/
def unsortedBook : OrderBook :=
  F64.PlaceLimitOrder (F64.PlaceLimitOrder (F64.PlaceLimitOrder floatBook (dyadic 30 0) 0)
    (dyadic 20 0) 1) (dyadic 10 0) 2

/-- Asks of 0.1 at price 10 and 0.4 at price 20. -/
def fifthsBook : OrderBook :=
  F64.PlaceLimitOrder (F64.PlaceLimitOrder floatBook (dyadic 10 0) 0) (dyadic 20 0) 3

/-- Asks of 0.1, 0.1 and 0.3 queued at price 10, placed in this order. -/
def levelBook : OrderBook :=
  F64.PlaceLimitOrder (F64.PlaceLimitOrder (F64.PlaceLimitOrder floatBook (dyadic 10 0) 0)
    (dyadic 10 0) 17) (dyadic 10 0) 2

/-- An ask of 1 at price 10, and at price 20 a limit left listed with an empty
queue: an ask of 1 was placed there and removed again by `DeleteOrder`, the
exported method of `Limit` that does not unlist the limit. -/
def hollowBook : OrderBook :=
  F64.DeleteOrder
    (F64.PlaceLimitOrder (F64.PlaceLimitOrder floatBook (dyadic 10 0) 10) (dyadic 20 0) 12) 1 12

/-- The sum of the sizes of the orders of a queue, added up on `float64` in
queue order. -/
def queueVolume64 (ob : OrderBook) (q : List Nat) : Int :=
  q.foldl (fun acc o => add64 acc (ob.orderAt o).Size) 0

/-- Volume invariant with the sum taken on `float64`: every listed limit has
`TotalVolume` equal to the `float64` sum of the sizes of the orders in its
queue. -/
def VolumeInv64 (ob : OrderBook) : Prop :=
  ∀ l ∈ ob.asks ++ ob.bids, (ob.limitAt l).TotalVolume = queueVolume64 ob (ob.limitAt l).Orders

instance (ob : OrderBook) : Decidable (VolumeInv64 ob) :=
  inferInstanceAs (Decidable (∀ l ∈ ob.asks ++ ob.bids,
    (ob.limitAt l).TotalVolume = queueVolume64 ob (ob.limitAt l).Orders))

instance (ob : OrderBook) : Decidable (NonNegSizes ob) :=
  inferInstanceAs (Decidable
    (∀ l ∈ ob.asks ++ ob.bids, ∀ o ∈ (ob.limitAt l).Orders, 0 ≤ (ob.orderAt o).Size))

/-- The orders of `exampleOrders` with their sizes as whole `float64` numbers:
buys of 5, 8 and 10, sells of 4, 18 and 30. -/
def wholeOrders : Nat → Order :=
  fun n => { exampleOrders n with Size := dyadic (exampleOrders n).Size 0 }

/-- Bids of 5, 8 and 10 at prices 10000, 9000 and 5000. -/
def wholeBook : OrderBook :=
  F64.PlaceLimitOrder (F64.PlaceLimitOrder (F64.PlaceLimitOrder (NewOrderBook wholeOrders)
    (dyadic 10000 0) 0) (dyadic 9000 0) 1) (dyadic 5000 0) 2

/-- Asks of 4 at price 10000 and 18 at price 9000. -/
def wholeAskBook : OrderBook :=
  F64.PlaceLimitOrder (F64.PlaceLimitOrder (NewOrderBook wholeOrders) (dyadic 10000 0) 3)
    (dyadic 9000 0) 4

/-- The orders of `splitOrders` with their sizes as whole `float64` numbers. -/
def wholeSplitOrders : Nat → Order :=
  fun n => { splitOrders n with Size := dyadic (splitOrders n).Size 0 }

/-- Bids of 5 and 8 queued at price 10000 and a bid of 10 at price 9000. -/
def wholeSplitBook : OrderBook :=
  F64.PlaceLimitOrder (F64.PlaceLimitOrder (F64.PlaceLimitOrder (NewOrderBook wholeSplitOrders)
    (dyadic 10000 0) 0) (dyadic 10000 0) 1) (dyadic 9000 0) 2

/-- The sizes 0.1, 0.1 and 0.20000000000000004. -/
def levelBookFills : List Int :=
  [dyadic 3602879701896397 55, dyadic 3602879701896397 55, dyadic 7205759403792795 55]
/-! ## Memory writes -/

@[simp] theorem setOrder_orderAt (ob : OrderBook) (o : Nat) (v : Order) :
    (setOrder ob o v).orderAt = Function.update ob.orderAt o v := rfl
@[simp] theorem setOrder_limitAt (ob : OrderBook) (o : Nat) (v : Order) :
    (setOrder ob o v).limitAt = ob.limitAt := rfl
@[simp] theorem setOrder_asks (ob : OrderBook) (o : Nat) (v : Order) :
    (setOrder ob o v).asks = ob.asks := rfl
@[simp] theorem setOrder_bids (ob : OrderBook) (o : Nat) (v : Order) :
    (setOrder ob o v).bids = ob.bids := rfl
@[simp] theorem setOrder_AskLimits (ob : OrderBook) (o : Nat) (v : Order) :
    (setOrder ob o v).AskLimits = ob.AskLimits := rfl
@[simp] theorem setOrder_BidLimits (ob : OrderBook) (o : Nat) (v : Order) :
    (setOrder ob o v).BidLimits = ob.BidLimits := rfl
@[simp] theorem setOrder_Orders (ob : OrderBook) (o : Nat) (v : Order) :
    (setOrder ob o v).Orders = ob.Orders := rfl
@[simp] theorem setOrder_nextLimit (ob : OrderBook) (o : Nat) (v : Order) :
    (setOrder ob o v).nextLimit = ob.nextLimit := rfl

@[simp] theorem setLimit_orderAt (ob : OrderBook) (l : Nat) (v : Limit) :
    (setLimit ob l v).orderAt = ob.orderAt := rfl
@[simp] theorem setLimit_limitAt (ob : OrderBook) (l : Nat) (v : Limit) :
    (setLimit ob l v).limitAt = Function.update ob.limitAt l v := rfl
@[simp] theorem setLimit_asks (ob : OrderBook) (l : Nat) (v : Limit) :
    (setLimit ob l v).asks = ob.asks := rfl
@[simp] theorem setLimit_bids (ob : OrderBook) (l : Nat) (v : Limit) :
    (setLimit ob l v).bids = ob.bids := rfl
@[simp] theorem setLimit_AskLimits (ob : OrderBook) (l : Nat) (v : Limit) :
    (setLimit ob l v).AskLimits = ob.AskLimits := rfl
@[simp] theorem setLimit_BidLimits (ob : OrderBook) (l : Nat) (v : Limit) :
    (setLimit ob l v).BidLimits = ob.BidLimits := rfl
@[simp] theorem setLimit_Orders (ob : OrderBook) (l : Nat) (v : Limit) :
    (setLimit ob l v).Orders = ob.Orders := rfl
@[simp] theorem setLimit_nextLimit (ob : OrderBook) (l : Nat) (v : Limit) :
    (setLimit ob l v).nextLimit = ob.nextLimit := rfl

@[simp] theorem setIndex_orderAt (ob : OrderBook) (i : Int) (v : Option Nat) :
    (setIndex ob i v).orderAt = ob.orderAt := rfl
@[simp] theorem setIndex_limitAt (ob : OrderBook) (i : Int) (v : Option Nat) :
    (setIndex ob i v).limitAt = ob.limitAt := rfl
@[simp] theorem setIndex_asks (ob : OrderBook) (i : Int) (v : Option Nat) :
    (setIndex ob i v).asks = ob.asks := rfl
@[simp] theorem setIndex_bids (ob : OrderBook) (i : Int) (v : Option Nat) :
    (setIndex ob i v).bids = ob.bids := rfl
@[simp] theorem setIndex_AskLimits (ob : OrderBook) (i : Int) (v : Option Nat) :
    (setIndex ob i v).AskLimits = ob.AskLimits := rfl
@[simp] theorem setIndex_BidLimits (ob : OrderBook) (i : Int) (v : Option Nat) :
    (setIndex ob i v).BidLimits = ob.BidLimits := rfl
@[simp] theorem setIndex_Orders (ob : OrderBook) (i : Int) (v : Option Nat) :
    (setIndex ob i v).Orders = Function.update ob.Orders i v := rfl
theorem SameShape.refl (ob : OrderBook) : SameShape ob ob :=
  ⟨rfl, rfl, rfl, rfl, rfl, rfl, fun _ => rfl, fun _ => rfl, fun _ => rfl, fun _ => rfl,
    fun _ => rfl, fun _ => rfl⟩

theorem SameShape.trans {a b c : OrderBook} (h1 : SameShape a b) (h2 : SameShape b c) :
    SameShape a c where
  asks := h2.asks.trans h1.asks
  bids := h2.bids.trans h1.bids
  askLimits := h2.askLimits.trans h1.askLimits
  bidLimits := h2.bidLimits.trans h1.bidLimits
  index := h2.index.trans h1.index
  nextLimit := h2.nextLimit.trans h1.nextLimit
  price := fun l => (h2.price l).trans (h1.price l)
  queue := fun l => (h2.queue l).trans (h1.queue l)
  id := fun o => (h2.id o).trans (h1.id o)
  bid := fun o => (h2.bid o).trans (h1.bid o)
  limit := fun o => (h2.limit o).trans (h1.limit o)
  timeStamp := fun o => (h2.timeStamp o).trans (h1.timeStamp o)

theorem setSize_sameShape (ob : OrderBook) (o : Nat) (s : Int) : SameShape ob (setSize ob o s) := by
  constructor <;> intros <;> simp only [setSize, setOrder_orderAt, setOrder_limitAt, setOrder_asks,
    setOrder_bids, setOrder_AskLimits, setOrder_BidLimits, setOrder_Orders, setOrder_nextLimit,
    Function.update_apply] <;> split <;> simp_all

theorem setSize_size (ob : OrderBook) (o : Nat) (s : Int) (o' : Nat) :
    ((setSize ob o s).orderAt o').Size = if o' = o then s else (ob.orderAt o').Size := by
  simp only [setSize, setOrder_orderAt, Function.update_apply]
  split <;> rfl

theorem setSize_orderAt_ne (ob : OrderBook) (o : Nat) (s : Int) (o' : Nat) (h : o' ≠ o) :
    (setSize ob o s).orderAt o' = ob.orderAt o' := by
  simp [setSize, Function.update_apply, h]

theorem setSize_limitAt (ob : OrderBook) (o : Nat) (s : Int) :
    (setSize ob o s).limitAt = ob.limitAt := rfl

theorem fillOrder_fst (ob : OrderBook) (l a b : Nat) :
    (fillOrder ob l a b).1 =
      if (ob.orderAt a).Size ≥ (ob.orderAt b).Size then
        setSize (setSize ob a ((ob.orderAt a).Size - (ob.orderAt b).Size)) b 0
      else
        setSize (setSize ob b ((ob.orderAt b).Size - (ob.orderAt a).Size)) a 0 := by
  unfold fillOrder
  simp only []
  split <;> rfl

theorem fillOrder_snd (ob : OrderBook) (l a b : Nat) :
    (fillOrder ob l a b).2 =
      { Ask := if (ob.orderAt a).Bid then b else a
        Bid := if (ob.orderAt a).Bid then a else b
        SizeFilled :=
          if (ob.orderAt a).Size ≥ (ob.orderAt b).Size then
            ((setSize ob a ((ob.orderAt a).Size - (ob.orderAt b).Size)).orderAt b).Size
          else
            ((setSize ob b ((ob.orderAt b).Size - (ob.orderAt a).Size)).orderAt a).Size
        Price := (ob.limitAt l).Price } := by
  unfold fillOrder
  simp only []
  split <;> rfl

theorem fillOrder_sameShape (ob : OrderBook) (l a b : Nat) : SameShape ob (fillOrder ob l a b).1 := by
  rw [fillOrder_fst]
  split
  · exact (setSize_sameShape _ _ _).trans (setSize_sameShape _ _ _)
  · exact (setSize_sameShape _ _ _).trans (setSize_sameShape _ _ _)

theorem fillOrder_limitAt (ob : OrderBook) (l a b : Nat) :
    (fillOrder ob l a b).1.limitAt = ob.limitAt := by
  rw [fillOrder_fst]
  split <;> rfl

theorem fillOrder_orderAt_other (ob : OrderBook) (l a b o : Nat) (ha : o ≠ a) (hb : o ≠ b) :
    (fillOrder ob l a b).1.orderAt o = ob.orderAt o := by
  rw [fillOrder_fst]
  split <;> simp [setSize_orderAt_ne, ha, hb]

theorem fillOrder_price (ob : OrderBook) (l a b : Nat) :
    (fillOrder ob l a b).2.Price = (ob.limitAt l).Price := by
  rw [fillOrder_snd]

theorem fillOrder_sizeFilled (ob : OrderBook) (l a b : Nat) (h : a ≠ b) :
    (fillOrder ob l a b).2.SizeFilled = min (ob.orderAt a).Size (ob.orderAt b).Size := by
  rw [fillOrder_snd]
  simp only []
  split
  · rename_i hge
    simp only [setSize_size, if_neg (Ne.symm h)]
    omega
  · rename_i hge
    simp only [setSize_size, if_neg h, if_true]
    omega

theorem fillOrder_size_taker (ob : OrderBook) (l a b : Nat) (h : a ≠ b) :
    ((fillOrder ob l a b).1.orderAt a).Size =
      (ob.orderAt a).Size - min (ob.orderAt a).Size (ob.orderAt b).Size := by
  rw [fillOrder_fst]
  split
  · rename_i hge
    simp only [setSize_size, if_neg h, if_true]
    omega
  · rename_i hge
    simp only [setSize_size, if_true]
    omega

theorem fillOrder_size_maker (ob : OrderBook) (l a b : Nat) (h : a ≠ b) :
    ((fillOrder ob l a b).1.orderAt b).Size =
      (ob.orderAt b).Size - min (ob.orderAt a).Size (ob.orderAt b).Size := by
  rw [fillOrder_fst]
  split
  · rename_i hge
    simp only [setSize_size, if_true]
    omega
  · rename_i hge
    simp only [setSize_size, if_neg (Ne.symm h), if_true]
    omega

/-! ## The matching loop of `Fill` -/

theorem fillStep_orderAt (ob : OrderBook) (l a o : Nat) :
    (fillStep ob l a o).1.orderAt = (fillOrder ob l a o).1.orderAt := rfl

theorem fillStep_snd (ob : OrderBook) (l a o : Nat) :
    (fillStep ob l a o).2 = (fillOrder ob l a o).2 := rfl

theorem fillStep_limitAt (ob : OrderBook) (l a o : Nat) :
    (fillStep ob l a o).1.limitAt = Function.update ob.limitAt l
      { ob.limitAt l with
        TotalVolume := (ob.limitAt l).TotalVolume - (fillOrder ob l a o).2.SizeFilled } := by
  simp only [fillStep, setLimit_limitAt, fillOrder_limitAt]

theorem fillStep_sameShape (ob : OrderBook) (l a o : Nat) : SameShape ob (fillStep ob l a o).1 := by
  have h := fillOrder_sameShape ob l a o
  refine ⟨h.asks, h.bids, h.askLimits, h.bidLimits, h.index, h.nextLimit, ?_, ?_, h.id, h.bid,
    h.limit, h.timeStamp⟩
  · intro l'
    rw [fillStep_limitAt, Function.update_apply]
    split
    · subst_vars; rfl
    · rfl
  · intro l'
    rw [fillStep_limitAt, Function.update_apply]
    split
    · subst_vars; rfl
    · rfl

theorem fillLoop_nil (l order : Nat) (ob : OrderBook) : fillLoop l order [] ob = (ob, [], []) := rfl

theorem fillLoop_cons_filled (l order o : Nat) (rest : List Nat) (ob : OrderBook)
    (h : ((fillStep ob l order o).1.orderAt order).Size = 0) :
    fillLoop l order (o :: rest) ob =
      ((fillStep ob l order o).1, [(fillStep ob l order o).2],
        if ((fillStep ob l order o).1.orderAt o).Size = 0 then [o] else []) := by
  simp [fillLoop, Order.IsFilled, h]

theorem fillLoop_cons_open (l order o : Nat) (rest : List Nat) (ob : OrderBook)
    (h : ((fillStep ob l order o).1.orderAt order).Size ≠ 0) :
    fillLoop l order (o :: rest) ob =
      ((fillLoop l order rest (fillStep ob l order o).1).1,
        (fillStep ob l order o).2 :: (fillLoop l order rest (fillStep ob l order o).1).2.1,
        (if ((fillStep ob l order o).1.orderAt o).Size = 0 then [o] else []) ++
          (fillLoop l order rest (fillStep ob l order o).1).2.2) := by
  simp [fillLoop, Order.IsFilled, h]

theorem fillLoop_sameShape (l order : Nat) (q : List Nat) (ob : OrderBook) :
    SameShape ob (fillLoop l order q ob).1 := by
  induction q generalizing ob with
  | nil => exact SameShape.refl ob
  | cons o rest ih =>
    by_cases h : ((fillStep ob l order o).1.orderAt order).Size = 0
    · rw [fillLoop_cons_filled _ _ _ _ _ h]
      exact fillStep_sameShape ob l order o
    · rw [fillLoop_cons_open _ _ _ _ _ h]
      exact (fillStep_sameShape ob l order o).trans (ih _)

/-- Orders other than the taker and the queue members are not written. -/
theorem fillLoop_orderAt_other (l order : Nat) (q : List Nat) (ob : OrderBook) (o : Nat)
    (h1 : o ≠ order) (h2 : o ∉ q) : (fillLoop l order q ob).1.orderAt o = ob.orderAt o := by
  induction q generalizing ob with
  | nil => rfl
  | cons m rest ih =>
    have hm : o ≠ m := fun h => h2 (h ▸ List.mem_cons_self _ _)
    have hr : o ∉ rest := fun h => h2 (List.mem_cons_of_mem _ h)
    have hstep : (fillStep ob l order m).1.orderAt o = ob.orderAt o := by
      rw [fillStep_orderAt]; exact fillOrder_orderAt_other ob l order m o h1 hm
    by_cases h : ((fillStep ob l order m).1.orderAt order).Size = 0
    · rw [fillLoop_cons_filled _ _ _ _ _ h]; exact hstep
    · rw [fillLoop_cons_open _ _ _ _ _ h]
      exact (ih _ hr).trans hstep

/-- Limits other than the one being filled are not written. -/
theorem fillLoop_limitAt_other (l order : Nat) (q : List Nat) (ob : OrderBook) (l' : Nat)
    (h1 : l' ≠ l) : (fillLoop l order q ob).1.limitAt l' = ob.limitAt l' := by
  induction q generalizing ob with
  | nil => rfl
  | cons m rest ih =>
    have hstep : (fillStep ob l order m).1.limitAt l' = ob.limitAt l' := by
      rw [fillStep_limitAt, Function.update_noteq h1]
    by_cases h : ((fillStep ob l order m).1.orderAt order).Size = 0
    · rw [fillLoop_cons_filled _ _ _ _ _ h]; exact hstep
    · rw [fillLoop_cons_open _ _ _ _ _ h]
      exact (ih _).trans hstep

/-- The volume of the limit is lowered by the total of the matches. -/
theorem fillLoop_totalVolume (l order : Nat) (q : List Nat) (ob : OrderBook) :
    ((fillLoop l order q ob).1.limitAt l).TotalVolume =
      (ob.limitAt l).TotalVolume - filledTotal (fillLoop l order q ob).2.1 := by
  induction q generalizing ob with
  | nil => simp [fillLoop_nil, filledTotal]
  | cons m rest ih =>
    have hstep : ((fillStep ob l order m).1.limitAt l).TotalVolume =
        (ob.limitAt l).TotalVolume - (fillStep ob l order m).2.SizeFilled := by
      rw [fillStep_limitAt, Function.update_same]; rfl
    by_cases h : ((fillStep ob l order m).1.orderAt order).Size = 0
    · rw [fillLoop_cons_filled _ _ _ _ _ h]
      simp [filledTotal, hstep]
    · rw [fillLoop_cons_open _ _ _ _ _ h]
      simp only [filledTotal, List.map_cons, List.sum_cons] at ih ⊢
      rw [ih, hstep]; omega

/-- Every match of the loop carries the price of the limit. -/
theorem fillLoop_price (l order : Nat) (q : List Nat) (ob : OrderBook) :
    ∀ m ∈ (fillLoop l order q ob).2.1, m.Price = (ob.limitAt l).Price := by
  induction q generalizing ob with
  | nil => simp [fillLoop_nil]
  | cons o rest ih =>
    have hstep : (fillStep ob l order o).2.Price = (ob.limitAt l).Price := by
      rw [fillStep_snd, fillOrder_price]
    by_cases h : ((fillStep ob l order o).1.orderAt order).Size = 0
    · rw [fillLoop_cons_filled _ _ _ _ _ h]
      simp [hstep]
    · rw [fillLoop_cons_open _ _ _ _ _ h]
      intro m hm
      rcases List.mem_cons.1 hm with rfl | hm
      · exact hstep
      · rw [ih _ m hm]
        exact (fillStep_sameShape ob l order o).price l

theorem queueVolume_nil (ob : OrderBook) : queueVolume ob [] = 0 := rfl

theorem queueVolume_cons (ob : OrderBook) (o : Nat) (q : List Nat) :
    queueVolume ob (o :: q) = (ob.orderAt o).Size + queueVolume ob q := by
  simp [queueVolume]

theorem queueVolume_append (ob : OrderBook) (q q' : List Nat) :
    queueVolume ob (q ++ q') = queueVolume ob q + queueVolume ob q' := by
  simp [queueVolume]

theorem queueVolume_congr (ob ob' : OrderBook) (q : List Nat)
    (h : ∀ o ∈ q, (ob'.orderAt o).Size = (ob.orderAt o).Size) :
    queueVolume ob' q = queueVolume ob q := by
  unfold queueVolume
  congr 1
  exact List.map_congr_left h

theorem queueVolume_perm (ob : OrderBook) {q q' : List Nat} (h : q.Perm q') :
    queueVolume ob q = queueVolume ob q' := by
  unfold queueVolume
  exact (h.map _).sum_eq

theorem queueVolume_erase (ob : OrderBook) (q : List Nat) (o : Nat) (h : o ∈ q) :
    queueVolume ob (q.erase o) = queueVolume ob q - (ob.orderAt o).Size := by
  rw [queueVolume_perm ob (List.perm_cons_erase h), queueVolume_cons]
  omega

theorem filledTotal_nil : filledTotal [] = 0 := rfl

theorem filledTotal_cons (m : Match) (ms : List Match) :
    filledTotal (m :: ms) = m.SizeFilled + filledTotal ms := by
  simp [filledTotal]

theorem filledTotal_append (ms ms' : List Match) :
    filledTotal (ms ++ ms') = filledTotal ms + filledTotal ms' := by
  simp [filledTotal]

theorem fillStep_size_taker (ob : OrderBook) (l a o : Nat) (h : a ≠ o) :
    ((fillStep ob l a o).1.orderAt a).Size + (fillStep ob l a o).2.SizeFilled =
      (ob.orderAt a).Size := by
  rw [fillStep_orderAt, fillStep_snd, fillOrder_size_taker ob l a o h,
    fillOrder_sizeFilled ob l a o h]
  omega

theorem fillStep_size_maker (ob : OrderBook) (l a o : Nat) (h : a ≠ o) :
    ((fillStep ob l a o).1.orderAt o).Size + (fillStep ob l a o).2.SizeFilled =
      (ob.orderAt o).Size := by
  rw [fillStep_orderAt, fillStep_snd, fillOrder_size_maker ob l a o h,
    fillOrder_sizeFilled ob l a o h]
  omega

theorem fillStep_taker_nonneg (ob : OrderBook) (l a o : Nat) (h : a ≠ o) :
    0 ≤ ((fillStep ob l a o).1.orderAt a).Size := by
  rw [fillStep_orderAt, fillOrder_size_taker ob l a o h]
  omega

/-- When the taker is left open by a step, the maker of the step is filled. -/
theorem fillStep_maker_filled (ob : OrderBook) (l a o : Nat) (h : a ≠ o)
    (hopen : ((fillStep ob l a o).1.orderAt a).Size ≠ 0) :
    ((fillStep ob l a o).1.orderAt o).Size = 0 := by
  rw [fillStep_orderAt] at hopen ⊢
  rw [fillOrder_size_taker ob l a o h] at hopen
  rw [fillOrder_size_maker ob l a o h]
  omega

theorem fillStep_orderAt_other (ob : OrderBook) (l a o o' : Nat) (h1 : o' ≠ a) (h2 : o' ≠ o) :
    (fillStep ob l a o).1.orderAt o' = ob.orderAt o' := by
  rw [fillStep_orderAt]; exact fillOrder_orderAt_other ob l a o o' h1 h2

/-- Conservation for the taker: what it lost is the total of the matches. -/
theorem fillLoop_taker (l order : Nat) (q : List Nat) (ob : OrderBook) (hq : order ∉ q) :
    ((fillLoop l order q ob).1.orderAt order).Size + filledTotal (fillLoop l order q ob).2.1 =
      (ob.orderAt order).Size := by
  induction q generalizing ob with
  | nil => simp [fillLoop_nil, filledTotal_nil]
  | cons m rest ih =>
    have hm : order ≠ m := fun h => hq (h ▸ List.mem_cons_self _ _)
    have hr : order ∉ rest := fun h => hq (List.mem_cons_of_mem _ h)
    have hstep := fillStep_size_taker ob l order m hm
    by_cases h : ((fillStep ob l order m).1.orderAt order).Size = 0
    · rw [fillLoop_cons_filled _ _ _ _ _ h]
      simp only [filledTotal_cons, filledTotal_nil]
      omega
    · rw [fillLoop_cons_open _ _ _ _ _ h]
      simp only [filledTotal_cons]
      have := ih (fillStep ob l order m).1 hr
      omega

/-- A non-negative taker stays non-negative. -/
theorem fillLoop_taker_nonneg (l order : Nat) (q : List Nat) (ob : OrderBook) (hq : order ∉ q)
    (h0 : 0 ≤ (ob.orderAt order).Size) : 0 ≤ ((fillLoop l order q ob).1.orderAt order).Size := by
  induction q generalizing ob with
  | nil => simpa [fillLoop_nil] using h0
  | cons m rest ih =>
    have hm : order ≠ m := fun h => hq (h ▸ List.mem_cons_self _ _)
    have hr : order ∉ rest := fun h => hq (List.mem_cons_of_mem _ h)
    by_cases h : ((fillStep ob l order m).1.orderAt order).Size = 0
    · rw [fillLoop_cons_filled _ _ _ _ _ h]
      exact fillStep_taker_nonneg ob l order m hm
    · rw [fillLoop_cons_open _ _ _ _ _ h]
      exact ih _ hr (fillStep_taker_nonneg ob l order m hm)

/-- Conservation for the makers: what the queue lost is the total of the
matches. -/
theorem fillLoop_makers (l order : Nat) (q : List Nat) (ob : OrderBook) (hq : order ∉ q)
    (hnd : q.Nodup) :
    queueVolume (fillLoop l order q ob).1 q + filledTotal (fillLoop l order q ob).2.1 =
      queueVolume ob q := by
  induction q generalizing ob with
  | nil => simp [fillLoop_nil, filledTotal_nil, queueVolume_nil]
  | cons m rest ih =>
    have hm : order ≠ m := fun h => hq (h ▸ List.mem_cons_self _ _)
    have hr : order ∉ rest := fun h => hq (List.mem_cons_of_mem _ h)
    have hmr : m ∉ rest := (List.nodup_cons.1 hnd).1
    have hstep := fillStep_size_maker ob l order m hm
    have hrest : queueVolume (fillStep ob l order m).1 rest = queueVolume ob rest :=
      queueVolume_congr _ _ _ (fun o ho => by
        rw [fillStep_orderAt_other ob l order m o (fun h => hr (h ▸ ho)) (fun h => hmr (h ▸ ho))])
    by_cases h : ((fillStep ob l order m).1.orderAt order).Size = 0
    · rw [fillLoop_cons_filled _ _ _ _ _ h]
      simp only [filledTotal_cons, filledTotal_nil, queueVolume_cons]
      omega
    · rw [fillLoop_cons_open _ _ _ _ _ h]
      simp only [filledTotal_cons, queueVolume_cons]
      have h1 := ih (fillStep ob l order m).1 hr (List.nodup_cons.1 hnd).2
      have h2 := fillLoop_orderAt_other l order rest (fillStep ob l order m).1 m (Ne.symm hm) hmr
      rw [h2]
      omega

/-- The orders collected for deletion are queue members, in queue order. -/
theorem fillLoop_delete_sublist (l order : Nat) (q : List Nat) (ob : OrderBook) :
    (fillLoop l order q ob).2.2.Sublist q := by
  induction q generalizing ob with
  | nil => simp [fillLoop_nil]
  | cons m rest ih =>
    by_cases h : ((fillStep ob l order m).1.orderAt order).Size = 0
    · rw [fillLoop_cons_filled _ _ _ _ _ h]
      simp only []
      split
      · exact List.Sublist.cons₂ _ (List.nil_sublist _)
      · exact List.nil_sublist _
    · rw [fillLoop_cons_open _ _ _ _ _ h]
      simp only []
      split
      · exact List.Sublist.cons₂ _ (ih _)
      · exact List.Sublist.cons _ (ih _)

/-- When the loop leaves the taker open, every maker of the queue is filled
and collected for deletion. -/
theorem fillLoop_open (l order : Nat) (q : List Nat) (ob : OrderBook) (hq : order ∉ q)
    (hnd : q.Nodup) (hopen : ((fillLoop l order q ob).1.orderAt order).Size ≠ 0) :
    (fillLoop l order q ob).2.2 = q ∧ ∀ o ∈ q, ((fillLoop l order q ob).1.orderAt o).Size = 0 := by
  induction q generalizing ob with
  | nil => simp [fillLoop_nil]
  | cons m rest ih =>
    have hm : order ≠ m := fun h => hq (h ▸ List.mem_cons_self _ _)
    have hr : order ∉ rest := fun h => hq (List.mem_cons_of_mem _ h)
    have hmr : m ∉ rest := (List.nodup_cons.1 hnd).1
    by_cases h : ((fillStep ob l order m).1.orderAt order).Size = 0
    · rw [fillLoop_cons_filled _ _ _ _ _ h] at hopen
      exact absurd h hopen
    · have hmf := fillStep_maker_filled ob l order m hm h
      rw [fillLoop_cons_open _ _ _ _ _ h] at hopen ⊢
      simp only [] at hopen ⊢
      obtain ⟨h1, h2⟩ := ih (fillStep ob l order m).1 hr (List.nodup_cons.1 hnd).2 hopen
      refine ⟨by rw [h1, if_pos hmf]; rfl, ?_⟩
      intro o ho
      rcases List.mem_cons.1 ho with rfl | ho
      · rw [fillLoop_orderAt_other l order rest _ o (Ne.symm hm) hmr]; exact hmf
      · exact h2 o ho

/-- Every order collected for deletion is filled. -/
theorem fillLoop_delete_filled (l order : Nat) (q : List Nat) (ob : OrderBook) (hq : order ∉ q)
    (hnd : q.Nodup) : ∀ o ∈ (fillLoop l order q ob).2.2, ((fillLoop l order q ob).1.orderAt o).Size = 0 := by
  induction q generalizing ob with
  | nil => simp [fillLoop_nil]
  | cons m rest ih =>
    have hm : order ≠ m := fun h => hq (h ▸ List.mem_cons_self _ _)
    have hr : order ∉ rest := fun h => hq (List.mem_cons_of_mem _ h)
    have hmr : m ∉ rest := (List.nodup_cons.1 hnd).1
    by_cases h : ((fillStep ob l order m).1.orderAt order).Size = 0
    · rw [fillLoop_cons_filled _ _ _ _ _ h]
      simp only []
      intro o ho
      split at ho
      · rename_i hz
        rw [List.mem_singleton.1 ho]; exact hz
      · simp at ho
    · rw [fillLoop_cons_open _ _ _ _ _ h]
      simp only []
      intro o ho
      rcases List.mem_append.1 ho with ho | ho
      · split at ho
        · rename_i hz
          rw [List.mem_singleton.1 ho, fillLoop_orderAt_other l order rest _ m (Ne.symm hm) hmr]
          exact hz
        · simp at ho
      · exact ih _ hr (List.nodup_cons.1 hnd).2 o ho

/-! ## Sorting -/

theorem orderedInsert_congr {α : Type} (r s : α → α → Prop) [DecidableRel r] [DecidableRel s]
    (h : ∀ a b, r a b ↔ s a b) (a : α) (l : List α) :
    List.orderedInsert r a l = List.orderedInsert s a l := by
  induction l with
  | nil => rfl
  | cons b l ih =>
    simp only [List.orderedInsert]
    by_cases hab : r a b
    · rw [if_pos hab, if_pos ((h a b).1 hab)]
    · rw [if_neg hab, if_neg (fun hs => hab ((h a b).2 hs)), ih]

theorem insertionSort_congr {α : Type} (r s : α → α → Prop) [DecidableRel r] [DecidableRel s]
    (h : ∀ a b, r a b ↔ s a b) (l : List α) :
    List.insertionSort r l = List.insertionSort s l := by
  induction l with
  | nil => rfl
  | cons b l ih => simp only [List.insertionSort, ih, orderedInsert_congr r s h]

theorem sortOrders_congr (ob ob' : OrderBook)
    (h : ∀ o, (ob'.orderAt o).TimeStamp = (ob.orderAt o).TimeStamp) (q : List Nat) :
    sortOrders ob' q = sortOrders ob q := by
  unfold sortOrders
  exact insertionSort_congr _ _ (fun a b => by rw [h a, h b]) q

theorem sortOrders_perm (ob : OrderBook) (q : List Nat) : (sortOrders ob q).Perm q :=
  List.perm_insertionSort _ q

theorem sortAsks_perm (ob : OrderBook) (q : List Nat) : (sortAsks ob q).Perm q :=
  List.perm_insertionSort _ q

theorem sortBids_perm (ob : OrderBook) (q : List Nat) : (sortBids ob q).Perm q :=
  List.perm_insertionSort _ q

theorem sortAsks_sorted (ob : OrderBook) (q : List Nat) :
    (sortAsks ob q).Pairwise (fun a b => (ob.limitAt a).Price ≤ (ob.limitAt b).Price) := by
  have : IsTotal Nat (fun a b => (ob.limitAt a).Price ≤ (ob.limitAt b).Price) :=
    ⟨fun a b => le_total _ _⟩
  have : IsTrans Nat (fun a b => (ob.limitAt a).Price ≤ (ob.limitAt b).Price) :=
    ⟨fun a b c => le_trans⟩
  exact List.sorted_insertionSort _ q

theorem sortBids_sorted (ob : OrderBook) (q : List Nat) :
    (sortBids ob q).Pairwise (fun a b => (ob.limitAt b).Price ≤ (ob.limitAt a).Price) := by
  have : IsTotal Nat (fun a b => (ob.limitAt b).Price ≤ (ob.limitAt a).Price) :=
    ⟨fun a b => le_total _ _⟩
  have : IsTrans Nat (fun a b => (ob.limitAt b).Price ≤ (ob.limitAt a).Price) :=
    ⟨fun a b c h1 h2 => le_trans h2 h1⟩
  exact List.sorted_insertionSort _ q

/-! ## `DeleteOrder` -/

theorem DeleteOrder_asks (ob : OrderBook) (l o : Nat) : (DeleteOrder ob l o).asks = ob.asks := rfl
theorem DeleteOrder_bids (ob : OrderBook) (l o : Nat) : (DeleteOrder ob l o).bids = ob.bids := rfl
theorem DeleteOrder_AskLimits (ob : OrderBook) (l o : Nat) :
    (DeleteOrder ob l o).AskLimits = ob.AskLimits := rfl
theorem DeleteOrder_BidLimits (ob : OrderBook) (l o : Nat) :
    (DeleteOrder ob l o).BidLimits = ob.BidLimits := rfl
theorem DeleteOrder_Orders (ob : OrderBook) (l o : Nat) :
    (DeleteOrder ob l o).Orders = ob.Orders := rfl
theorem DeleteOrder_nextLimit (ob : OrderBook) (l o : Nat) :
    (DeleteOrder ob l o).nextLimit = ob.nextLimit := rfl

theorem DeleteOrder_orderAt (ob : OrderBook) (l o : Nat) :
    (DeleteOrder ob l o).orderAt =
      Function.update ob.orderAt o { ob.orderAt o with Limit := none } := rfl

theorem DeleteOrder_limitAt (ob : OrderBook) (l o : Nat) :
    (DeleteOrder ob l o).limitAt =
      Function.update ob.limitAt l
        { Price := (ob.limitAt l).Price
          Orders := sortOrders ob ((ob.limitAt l).Orders.erase o)
          TotalVolume := (ob.limitAt l).TotalVolume - (ob.orderAt o).Size } := by
  have hs : ∀ q, sortOrders
      (setLimit (setOrder (setLimit ob l
        { ob.limitAt l with Orders := (ob.limitAt l).Orders.erase o }) o
        { ob.orderAt o with Limit := none }) l
        { Price := (ob.limitAt l).Price, Orders := (ob.limitAt l).Orders.erase o,
          TotalVolume := (ob.limitAt l).TotalVolume - (ob.orderAt o).Size }) q = sortOrders ob q := by
    intro q
    apply sortOrders_congr
    intro o'
    simp only [setLimit_orderAt, setOrder_orderAt, Function.update_apply]
    split
    · subst_vars; rfl
    · rfl
  simp only [DeleteOrder, setLimit_limitAt, setOrder_limitAt, setOrder_orderAt, setLimit_orderAt,
    Function.update_same, Function.update_idem]
  rw [hs]

theorem DeleteOrder_size (ob : OrderBook) (l o o' : Nat) :
    ((DeleteOrder ob l o).orderAt o').Size = (ob.orderAt o').Size := by
  rw [DeleteOrder_orderAt, Function.update_apply]
  split
  · subst_vars; rfl
  · rfl

theorem DeleteOrder_bid (ob : OrderBook) (l o o' : Nat) :
    ((DeleteOrder ob l o).orderAt o').Bid = (ob.orderAt o').Bid := by
  rw [DeleteOrder_orderAt, Function.update_apply]
  split
  · subst_vars; rfl
  · rfl

theorem DeleteOrder_id (ob : OrderBook) (l o o' : Nat) :
    ((DeleteOrder ob l o).orderAt o').ID = (ob.orderAt o').ID := by
  rw [DeleteOrder_orderAt, Function.update_apply]
  split
  · subst_vars; rfl
  · rfl

theorem DeleteOrder_timeStamp (ob : OrderBook) (l o o' : Nat) :
    ((DeleteOrder ob l o).orderAt o').TimeStamp = (ob.orderAt o').TimeStamp := by
  rw [DeleteOrder_orderAt, Function.update_apply]
  split
  · subst_vars; rfl
  · rfl

theorem DeleteOrder_backref (ob : OrderBook) (l o o' : Nat) :
    ((DeleteOrder ob l o).orderAt o').Limit = if o' = o then none else (ob.orderAt o').Limit := by
  rw [DeleteOrder_orderAt, Function.update_apply]
  split
  · subst_vars; rfl
  · rfl

theorem DeleteOrder_price (ob : OrderBook) (l o l' : Nat) :
    ((DeleteOrder ob l o).limitAt l').Price = (ob.limitAt l').Price := by
  rw [DeleteOrder_limitAt, Function.update_apply]
  split
  · subst_vars; rfl
  · rfl

theorem DeleteOrder_queue (ob : OrderBook) (l o l' : Nat) :
    ((DeleteOrder ob l o).limitAt l').Orders =
      if l' = l then sortOrders ob ((ob.limitAt l).Orders.erase o) else (ob.limitAt l').Orders := by
  rw [DeleteOrder_limitAt, Function.update_apply]
  split <;> rfl

theorem DeleteOrder_totalVolume (ob : OrderBook) (l o l' : Nat) :
    ((DeleteOrder ob l o).limitAt l').TotalVolume =
      if l' = l then (ob.limitAt l).TotalVolume - (ob.orderAt o).Size
      else (ob.limitAt l').TotalVolume := by
  rw [DeleteOrder_limitAt, Function.update_apply]
  split <;> rfl

theorem DeleteOrder_queue_perm (ob : OrderBook) (l o : Nat) :
    ((DeleteOrder ob l o).limitAt l).Orders.Perm ((ob.limitAt l).Orders.erase o) := by
  rw [DeleteOrder_queue, if_pos rfl]
  exact sortOrders_perm _ _

theorem DeleteOrder_limitAt_other (ob : OrderBook) (l o l' : Nat) (h : l' ≠ l) :
    (DeleteOrder ob l o).limitAt l' = ob.limitAt l' := by
  rw [DeleteOrder_limitAt, Function.update_noteq h]

theorem DeleteOrder_queueVolume (ob : OrderBook) (l o : Nat) (q : List Nat) :
    queueVolume (DeleteOrder ob l o) q = queueVolume ob q :=
  queueVolume_congr _ _ _ (fun o' _ => DeleteOrder_size ob l o o')

/-! ## Well-formedness is kept by the primitives -/

theorem WellFormed.of_sameShape {ob ob' : OrderBook} (hs : SameShape ob ob')
    (h : WellFormed ob) : WellFormed ob' := by
  obtain ⟨e1, e2, e3, e4, _, e6, e7, e8, _, e10, e11, _⟩ := hs
  constructor
  · rw [e1]; exact h.asks_nodup
  · rw [e2]; exact h.bids_nodup
  · intro p l; rw [e3, e1, e7]; exact h.ask_map p l
  · intro p l; rw [e4, e2, e7]; exact h.bid_map p l
  · intro l hl; rw [e1, e2] at hl; rw [e6]; exact h.allocated l hl
  · intro l hl; rw [e1, e2] at hl; rw [e8]; exact h.queue_nodup l hl
  · intro l hl o ho; rw [e1, e2] at hl; rw [e8] at ho; rw [e11]; exact h.backref l hl o ho
  · intro l hl o ho; rw [e1] at hl; rw [e8] at ho; rw [e10]; exact h.ask_side l hl o ho
  · intro l hl o ho; rw [e2] at hl; rw [e8] at ho; rw [e10]; exact h.bid_side l hl o ho
  · rw [e1, e2]; exact h.disjoint

/-- In a well-formed book an order is queued in at most one listed limit. -/
theorem WellFormed.queue_unique {ob : OrderBook} (h : WellFormed ob) {l l' o : Nat}
    (hl : l ∈ ob.asks ++ ob.bids) (hl' : l' ∈ ob.asks ++ ob.bids)
    (ho : o ∈ (ob.limitAt l).Orders) (ho' : o ∈ (ob.limitAt l').Orders) : l = l' := by
  have h1 := h.backref l hl o ho
  have h2 := h.backref l' hl' o ho'
  rw [h1] at h2
  exact Option.some.inj h2

theorem mem_queue_DeleteOrder {ob : OrderBook} {l o l' o' : Nat}
    (h : o' ∈ ((DeleteOrder ob l o).limitAt l').Orders) : o' ∈ (ob.limitAt l').Orders := by
  rw [DeleteOrder_queue] at h
  split at h
  · subst_vars
    exact List.mem_of_mem_erase ((sortOrders_perm _ _).mem_iff.1 h)
  · exact h

theorem wellFormed_deleteOrder {ob : OrderBook} (h : WellFormed ob) {l o : Nat}
    (hl : l ∈ ob.asks ++ ob.bids) (ho : o ∈ (ob.limitAt l).Orders) :
    WellFormed (DeleteOrder ob l o) := by
  constructor
  · exact h.asks_nodup
  · exact h.bids_nodup
  · intro p l'; rw [DeleteOrder_AskLimits, DeleteOrder_asks, DeleteOrder_price]
    exact h.ask_map p l'
  · intro p l'; rw [DeleteOrder_BidLimits, DeleteOrder_bids, DeleteOrder_price]
    exact h.bid_map p l'
  · exact h.allocated
  · intro l' hl'
    rw [DeleteOrder_queue]
    split
    · exact ((sortOrders_perm _ _).nodup_iff).2 ((h.queue_nodup l hl).erase o)
    · exact h.queue_nodup l' hl'
  · intro l' hl' o' ho'
    have hmem := mem_queue_DeleteOrder ho'
    have hne : o' ≠ o := by
      intro he
      subst he
      have hll : l' = l := h.queue_unique hl' hl hmem ho
      subst hll
      rw [DeleteOrder_queue, if_pos rfl] at ho'
      have := (sortOrders_perm _ _).mem_iff.1 ho'
      exact absurd this (List.Nodup.not_mem_erase (h.queue_nodup l' hl))
    rw [DeleteOrder_backref, if_neg hne]
    exact h.backref l' hl' o' hmem
  · intro l' hl' o' ho'
    rw [DeleteOrder_bid]
    exact h.ask_side l' hl' o' (mem_queue_DeleteOrder ho')
  · intro l' hl' o' ho'
    rw [DeleteOrder_bid]
    exact h.bid_side l' hl' o' (mem_queue_DeleteOrder ho')
  · exact h.disjoint

theorem deleteOrders_nil (ob : OrderBook) (l : Nat) : deleteOrders ob l [] = ob := rfl

theorem deleteOrders_cons (ob : OrderBook) (l d : Nat) (ds : List Nat) :
    deleteOrders ob l (d :: ds) = deleteOrders (DeleteOrder ob l d) l ds := rfl

theorem wellFormed_deleteOrders {ob : OrderBook} (h : WellFormed ob) {l : Nat} {dels : List Nat}
    (hl : l ∈ ob.asks ++ ob.bids) (hnd : dels.Nodup)
    (hsub : ∀ d ∈ dels, d ∈ (ob.limitAt l).Orders) : WellFormed (deleteOrders ob l dels) := by
  induction dels generalizing ob with
  | nil => exact h
  | cons d ds ih =>
    rw [deleteOrders_cons]
    have hd := hsub d (List.mem_cons_self _ _)
    refine ih (wellFormed_deleteOrder h hl hd) hl (List.nodup_cons.1 hnd).2 ?_
    intro d' hd'
    have hne : d' ≠ d := fun he => (List.nodup_cons.1 hnd).1 (he ▸ hd')
    exact (DeleteOrder_queue_perm ob l d).mem_iff.2
      ((List.mem_erase_of_ne hne).2 (hsub d' (List.mem_cons_of_mem _ hd')))

/-! ### `deleteOrders`: what is written -/

theorem deleteOrders_asks (ob : OrderBook) (l : Nat) (dels : List Nat) :
    (deleteOrders ob l dels).asks = ob.asks := by
  induction dels generalizing ob with
  | nil => rfl
  | cons d ds ih => rw [deleteOrders_cons, ih, DeleteOrder_asks]

theorem deleteOrders_bids (ob : OrderBook) (l : Nat) (dels : List Nat) :
    (deleteOrders ob l dels).bids = ob.bids := by
  induction dels generalizing ob with
  | nil => rfl
  | cons d ds ih => rw [deleteOrders_cons, ih, DeleteOrder_bids]

theorem deleteOrders_Orders (ob : OrderBook) (l : Nat) (dels : List Nat) :
    (deleteOrders ob l dels).Orders = ob.Orders := by
  induction dels generalizing ob with
  | nil => rfl
  | cons d ds ih => rw [deleteOrders_cons, ih, DeleteOrder_Orders]

theorem deleteOrders_nextLimit (ob : OrderBook) (l : Nat) (dels : List Nat) :
    (deleteOrders ob l dels).nextLimit = ob.nextLimit := by
  induction dels generalizing ob with
  | nil => rfl
  | cons d ds ih => rw [deleteOrders_cons, ih, DeleteOrder_nextLimit]

theorem deleteOrders_size (ob : OrderBook) (l : Nat) (dels : List Nat) (o : Nat) :
    ((deleteOrders ob l dels).orderAt o).Size = (ob.orderAt o).Size := by
  induction dels generalizing ob with
  | nil => rfl
  | cons d ds ih => rw [deleteOrders_cons, ih, DeleteOrder_size]

theorem deleteOrders_bid (ob : OrderBook) (l : Nat) (dels : List Nat) (o : Nat) :
    ((deleteOrders ob l dels).orderAt o).Bid = (ob.orderAt o).Bid := by
  induction dels generalizing ob with
  | nil => rfl
  | cons d ds ih => rw [deleteOrders_cons, ih, DeleteOrder_bid]

theorem deleteOrders_id (ob : OrderBook) (l : Nat) (dels : List Nat) (o : Nat) :
    ((deleteOrders ob l dels).orderAt o).ID = (ob.orderAt o).ID := by
  induction dels generalizing ob with
  | nil => rfl
  | cons d ds ih => rw [deleteOrders_cons, ih, DeleteOrder_id]

theorem deleteOrders_timeStamp (ob : OrderBook) (l : Nat) (dels : List Nat) (o : Nat) :
    ((deleteOrders ob l dels).orderAt o).TimeStamp = (ob.orderAt o).TimeStamp := by
  induction dels generalizing ob with
  | nil => rfl
  | cons d ds ih => rw [deleteOrders_cons, ih, DeleteOrder_timeStamp]

theorem deleteOrders_backref (ob : OrderBook) (l : Nat) (dels : List Nat) (o : Nat) :
    ((deleteOrders ob l dels).orderAt o).Limit = if o ∈ dels then none else (ob.orderAt o).Limit := by
  induction dels generalizing ob with
  | nil => simp [deleteOrders_nil]
  | cons d ds ih =>
    rw [deleteOrders_cons, ih, DeleteOrder_backref]
    by_cases h1 : o ∈ ds
    · simp [h1]
    · by_cases h2 : o = d
      · simp [h2]
      · simp [h1, h2]

theorem deleteOrders_orderAt_other (ob : OrderBook) (l : Nat) (dels : List Nat) (o : Nat)
    (h : o ∉ dels) : (deleteOrders ob l dels).orderAt o = ob.orderAt o := by
  induction dels generalizing ob with
  | nil => rfl
  | cons d ds ih =>
    rw [deleteOrders_cons, ih _ (fun hm => h (List.mem_cons_of_mem _ hm)), DeleteOrder_orderAt,
      Function.update_noteq (fun he : o = d => h (he ▸ List.mem_cons_self _ _))]

theorem deleteOrders_price (ob : OrderBook) (l : Nat) (dels : List Nat) (l' : Nat) :
    ((deleteOrders ob l dels).limitAt l').Price = (ob.limitAt l').Price := by
  induction dels generalizing ob with
  | nil => rfl
  | cons d ds ih => rw [deleteOrders_cons, ih, DeleteOrder_price]

theorem deleteOrders_limitAt_other (ob : OrderBook) (l : Nat) (dels : List Nat) (l' : Nat)
    (h : l' ≠ l) : (deleteOrders ob l dels).limitAt l' = ob.limitAt l' := by
  induction dels generalizing ob with
  | nil => rfl
  | cons d ds ih => rw [deleteOrders_cons, ih, DeleteOrder_limitAt_other _ _ _ _ h]

theorem deleteOrders_queueVolume (ob : OrderBook) (l : Nat) (dels : List Nat) (q : List Nat) :
    queueVolume (deleteOrders ob l dels) q = queueVolume ob q :=
  queueVolume_congr _ _ _ (fun o' _ => deleteOrders_size ob l dels o')

theorem deleteOrders_totalVolume (ob : OrderBook) (l : Nat) (dels : List Nat) :
    ((deleteOrders ob l dels).limitAt l).TotalVolume =
      (ob.limitAt l).TotalVolume - queueVolume ob dels := by
  induction dels generalizing ob with
  | nil => simp [deleteOrders_nil, queueVolume_nil]
  | cons d ds ih =>
    rw [deleteOrders_cons, ih, DeleteOrder_totalVolume, if_pos rfl, DeleteOrder_queueVolume,
      queueVolume_cons]
    omega

theorem deleteOrders_queue_perm (ob : OrderBook) (l : Nat) (dels : List Nat) :
    ((deleteOrders ob l dels).limitAt l).Orders.Perm ((ob.limitAt l).Orders.diff dels) := by
  induction dels generalizing ob with
  | nil => simp [deleteOrders_nil]
  | cons d ds ih =>
    rw [deleteOrders_cons, List.diff_cons]
    exact (ih _).trans ((DeleteOrder_queue_perm ob l d).diff_right ds)

/-! ## `Fill` -/

theorem queueVolume_diff_filled (ob : OrderBook) (q dels : List Nat)
    (h : ∀ d ∈ dels, (ob.orderAt d).Size = 0) : queueVolume ob (q.diff dels) = queueVolume ob q := by
  induction dels generalizing q with
  | nil => simp
  | cons d ds ih =>
    rw [List.diff_cons, ih _ (fun d' hd' => h d' (List.mem_cons_of_mem _ hd'))]
    by_cases hd : d ∈ q
    · rw [queueVolume_erase ob q d hd, h d (List.mem_cons_self _ _)]; omega
    · rw [List.erase_of_not_mem hd]

theorem queueVolume_filled (ob : OrderBook) (q : List Nat)
    (h : ∀ d ∈ q, (ob.orderAt d).Size = 0) : queueVolume ob q = 0 := by
  induction q with
  | nil => rfl
  | cons d ds ih =>
    rw [queueVolume_cons, h d (List.mem_cons_self _ _), ih (fun d' hd' => h d' (List.mem_cons_of_mem _ hd'))]
    rfl

theorem Fill_fst (ob : OrderBook) (l order : Nat) :
    (Fill ob l order).1 =
      deleteOrders (fillLoop l order (ob.limitAt l).Orders ob).1 l
        (fillLoop l order (ob.limitAt l).Orders ob).2.2 := rfl

theorem Fill_snd (ob : OrderBook) (l order : Nat) :
    (Fill ob l order).2 = (fillLoop l order (ob.limitAt l).Orders ob).2.1 := rfl

theorem Fill_asks (ob : OrderBook) (l order : Nat) : (Fill ob l order).1.asks = ob.asks := by
  rw [Fill_fst, deleteOrders_asks]; exact (fillLoop_sameShape _ _ _ _).asks

theorem Fill_bids (ob : OrderBook) (l order : Nat) : (Fill ob l order).1.bids = ob.bids := by
  rw [Fill_fst, deleteOrders_bids]; exact (fillLoop_sameShape _ _ _ _).bids

theorem Fill_Orders (ob : OrderBook) (l order : Nat) : (Fill ob l order).1.Orders = ob.Orders := by
  rw [Fill_fst, deleteOrders_Orders]; exact (fillLoop_sameShape _ _ _ _).index

theorem Fill_nextLimit (ob : OrderBook) (l order : Nat) :
    (Fill ob l order).1.nextLimit = ob.nextLimit := by
  rw [Fill_fst, deleteOrders_nextLimit]; exact (fillLoop_sameShape _ _ _ _).nextLimit

theorem Fill_price (ob : OrderBook) (l order l' : Nat) :
    ((Fill ob l order).1.limitAt l').Price = (ob.limitAt l').Price := by
  rw [Fill_fst, deleteOrders_price]; exact (fillLoop_sameShape _ _ _ _).price l'

theorem Fill_bid (ob : OrderBook) (l order o : Nat) :
    ((Fill ob l order).1.orderAt o).Bid = (ob.orderAt o).Bid := by
  rw [Fill_fst, deleteOrders_bid]; exact (fillLoop_sameShape _ _ _ _).bid o

theorem Fill_id (ob : OrderBook) (l order o : Nat) :
    ((Fill ob l order).1.orderAt o).ID = (ob.orderAt o).ID := by
  rw [Fill_fst, deleteOrders_id]; exact (fillLoop_sameShape _ _ _ _).id o

theorem Fill_timeStamp (ob : OrderBook) (l order o : Nat) :
    ((Fill ob l order).1.orderAt o).TimeStamp = (ob.orderAt o).TimeStamp := by
  rw [Fill_fst, deleteOrders_timeStamp]; exact (fillLoop_sameShape _ _ _ _).timeStamp o

theorem Fill_limitAt_other (ob : OrderBook) (l order l' : Nat) (h : l' ≠ l) :
    (Fill ob l order).1.limitAt l' = ob.limitAt l' := by
  rw [Fill_fst, deleteOrders_limitAt_other _ _ _ _ h, fillLoop_limitAt_other _ _ _ _ _ h]

theorem Fill_orderAt_other (ob : OrderBook) (l order o : Nat) (h1 : o ≠ order)
    (h2 : o ∉ (ob.limitAt l).Orders) : (Fill ob l order).1.orderAt o = ob.orderAt o := by
  rw [Fill_fst, deleteOrders_orderAt_other, fillLoop_orderAt_other _ _ _ _ _ h1 h2]
  exact fun h => h2 ((fillLoop_delete_sublist _ _ _ _).subset h)

theorem Fill_queue_perm (ob : OrderBook) (l order : Nat) :
    ((Fill ob l order).1.limitAt l).Orders.Perm
      ((ob.limitAt l).Orders.diff (fillLoop l order (ob.limitAt l).Orders ob).2.2) := by
  have h := deleteOrders_queue_perm (fillLoop l order (ob.limitAt l).Orders ob).1 l
    (fillLoop l order (ob.limitAt l).Orders ob).2.2
  rw [(fillLoop_sameShape _ _ _ _).queue l] at h
  exact h

theorem Fill_queue_subset (ob : OrderBook) (l order l' o : Nat)
    (h : o ∈ ((Fill ob l order).1.limitAt l').Orders) : o ∈ (ob.limitAt l').Orders := by
  by_cases hl : l' = l
  · subst hl
    exact List.diff_subset _ _ ((Fill_queue_perm ob l' order).mem_iff.1 h)
  · rwa [Fill_limitAt_other _ _ _ _ hl] at h

theorem Fill_size_taker (ob : OrderBook) (l order : Nat) (hq : order ∉ (ob.limitAt l).Orders) :
    ((Fill ob l order).1.orderAt order).Size + filledTotal (Fill ob l order).2 =
      (ob.orderAt order).Size := by
  rw [Fill_fst, Fill_snd, deleteOrders_size]
  exact fillLoop_taker _ _ _ _ hq

theorem Fill_taker_nonneg (ob : OrderBook) (l order : Nat) (hq : order ∉ (ob.limitAt l).Orders)
    (h0 : 0 ≤ (ob.orderAt order).Size) : 0 ≤ ((Fill ob l order).1.orderAt order).Size := by
  rw [Fill_fst, deleteOrders_size]
  exact fillLoop_taker_nonneg _ _ _ _ hq h0

theorem Fill_match_price (ob : OrderBook) (l order : Nat) :
    ∀ m ∈ (Fill ob l order).2, m.Price = (ob.limitAt l).Price := by
  rw [Fill_snd]; exact fillLoop_price _ _ _ _

/-- The call `Fill` keeps the volume invariant of the limit it works on. -/
theorem Fill_volume (ob : OrderBook) (l order : Nat) (hq : order ∉ (ob.limitAt l).Orders)
    (hnd : (ob.limitAt l).Orders.Nodup)
    (hv : (ob.limitAt l).TotalVolume = queueVolume ob (ob.limitAt l).Orders) :
    ((Fill ob l order).1.limitAt l).TotalVolume =
      queueVolume (Fill ob l order).1 ((Fill ob l order).1.limitAt l).Orders := by
  have hz := fillLoop_delete_filled l order _ ob hq hnd
  rw [queueVolume_perm _ (Fill_queue_perm ob l order)]
  rw [Fill_fst, deleteOrders_totalVolume, deleteOrders_queueVolume,
    queueVolume_diff_filled _ _ _ hz, queueVolume_filled _ _ hz, fillLoop_totalVolume, hv]
  have := fillLoop_makers l order _ ob hq hnd
  omega

/-- The volume of the limit is lowered by the total of the matches. -/
theorem Fill_totalVolume (ob : OrderBook) (l order : Nat) (hq : order ∉ (ob.limitAt l).Orders)
    (hnd : (ob.limitAt l).Orders.Nodup) :
    ((Fill ob l order).1.limitAt l).TotalVolume =
      (ob.limitAt l).TotalVolume - filledTotal (Fill ob l order).2 := by
  have hz := fillLoop_delete_filled l order _ ob hq hnd
  rw [Fill_fst, Fill_snd, deleteOrders_totalVolume, queueVolume_filled _ _ hz, fillLoop_totalVolume]
  omega

/-- When `Fill` leaves the taker open the limit is drained: its queue is empty,
its former members are all filled. -/
theorem Fill_open (ob : OrderBook) (l order : Nat) (hq : order ∉ (ob.limitAt l).Orders)
    (hnd : (ob.limitAt l).Orders.Nodup)
    (hopen : ((Fill ob l order).1.orderAt order).Size ≠ 0) :
    ((Fill ob l order).1.limitAt l).Orders = [] ∧
      (∀ o ∈ (ob.limitAt l).Orders, ((Fill ob l order).1.orderAt o).Size = 0) ∧
      filledTotal (Fill ob l order).2 = queueVolume ob (ob.limitAt l).Orders := by
  have hopen' : ((fillLoop l order (ob.limitAt l).Orders ob).1.orderAt order).Size ≠ 0 := by
    rwa [Fill_fst, deleteOrders_size] at hopen
  obtain ⟨h1, h2⟩ := fillLoop_open l order _ ob hq hnd hopen'
  refine ⟨?_, ?_, ?_⟩
  · have hp := Fill_queue_perm ob l order
    rw [h1] at hp
    have hnil : (ob.limitAt l).Orders.diff (ob.limitAt l).Orders = [] := by
      apply List.eq_nil_iff_forall_not_mem.2
      intro a ha
      exact ((hnd.mem_diff_iff).1 ha).2 ((hnd.mem_diff_iff).1 ha).1
    rw [hnil] at hp
    exact hp.eq_nil
  · intro o ho
    rw [Fill_fst, deleteOrders_size]; exact h2 o ho
  · have := fillLoop_makers l order _ ob hq hnd
    rw [queueVolume_filled _ _ h2] at this
    rw [Fill_snd]; omega

theorem Fill_wellFormed {ob : OrderBook} (h : WellFormed ob) {l : Nat} (order : Nat)
    (hl : l ∈ ob.asks ++ ob.bids) : WellFormed (Fill ob l order).1 := by
  have hs := fillLoop_sameShape l order (ob.limitAt l).Orders ob
  have hw : WellFormed (fillLoop l order (ob.limitAt l).Orders ob).1 := h.of_sameShape hs
  have hsub := fillLoop_delete_sublist l order (ob.limitAt l).Orders ob
  rw [Fill_fst]
  refine wellFormed_deleteOrders hw ?_ (hsub.nodup (h.queue_nodup l hl)) ?_
  · rw [hs.asks, hs.bids]; exact hl
  · intro d hd
    rw [hs.queue]; exact hsub.subset hd

/-! ## The loop of `PlaceMarketOrder` -/

theorem marketLoop_nil (order : Nat) (ob : OrderBook) : marketLoop order [] ob = (ob, [], []) := rfl

theorem marketLoop_cons_filled (order l : Nat) (rest : List Nat) (ob : OrderBook)
    (h : ((Fill ob l order).1.orderAt order).Size = 0) :
    marketLoop order (l :: rest) ob =
      ((Fill ob l order).1, (Fill ob l order).2,
        if ((Fill ob l order).1.limitAt l).Orders.length = 0 then [l] else []) := by
  simp [marketLoop, Order.IsFilled, h]

theorem marketLoop_cons_open (order l : Nat) (rest : List Nat) (ob : OrderBook)
    (h : ((Fill ob l order).1.orderAt order).Size ≠ 0) :
    marketLoop order (l :: rest) ob =
      ((marketLoop order rest (Fill ob l order).1).1,
        (Fill ob l order).2 ++ (marketLoop order rest (Fill ob l order).1).2.1,
        (if ((Fill ob l order).1.limitAt l).Orders.length = 0 then [l] else []) ++
          (marketLoop order rest (Fill ob l order).1).2.2) := by
  simp [marketLoop, Order.IsFilled, h]

/-- Induction principle for facts `P ob ob'` relating the state before and
after the loop that hold by reflexivity, for one `Fill`, and compose. -/
theorem marketLoop_induction (order : Nat) (P : OrderBook → OrderBook → Prop)
    (hrefl : ∀ ob, P ob ob)
    (hfill : ∀ ob l, P ob (Fill ob l order).1)
    (htrans : ∀ a b c, P a b → P b c → P a c)
    (ls : List Nat) (ob : OrderBook) : P ob (marketLoop order ls ob).1 := by
  induction ls generalizing ob with
  | nil => exact hrefl ob
  | cons l rest ih =>
    by_cases h : ((Fill ob l order).1.orderAt order).Size = 0
    · rw [marketLoop_cons_filled _ _ _ _ h]; exact hfill ob l
    · rw [marketLoop_cons_open _ _ _ _ h]; exact htrans _ _ _ (hfill ob l) (ih _)

theorem marketLoop_asks (order : Nat) (ls : List Nat) (ob : OrderBook) :
    (marketLoop order ls ob).1.asks = ob.asks :=
  marketLoop_induction order (fun a b => b.asks = a.asks) (fun _ => rfl)
    (fun ob l => Fill_asks ob l order) (fun _ _ _ h1 h2 => h2.trans h1) ls ob

theorem marketLoop_bids (order : Nat) (ls : List Nat) (ob : OrderBook) :
    (marketLoop order ls ob).1.bids = ob.bids :=
  marketLoop_induction order (fun a b => b.bids = a.bids) (fun _ => rfl)
    (fun ob l => Fill_bids ob l order) (fun _ _ _ h1 h2 => h2.trans h1) ls ob

theorem marketLoop_Orders (order : Nat) (ls : List Nat) (ob : OrderBook) :
    (marketLoop order ls ob).1.Orders = ob.Orders :=
  marketLoop_induction order (fun a b => b.Orders = a.Orders) (fun _ => rfl)
    (fun ob l => Fill_Orders ob l order) (fun _ _ _ h1 h2 => h2.trans h1) ls ob

theorem marketLoop_nextLimit (order : Nat) (ls : List Nat) (ob : OrderBook) :
    (marketLoop order ls ob).1.nextLimit = ob.nextLimit :=
  marketLoop_induction order (fun a b => b.nextLimit = a.nextLimit) (fun _ => rfl)
    (fun ob l => Fill_nextLimit ob l order) (fun _ _ _ h1 h2 => h2.trans h1) ls ob

theorem marketLoop_price (order : Nat) (ls : List Nat) (ob : OrderBook) (l' : Nat) :
    ((marketLoop order ls ob).1.limitAt l').Price = (ob.limitAt l').Price :=
  marketLoop_induction order (fun a b => (b.limitAt l').Price = (a.limitAt l').Price)
    (fun _ => rfl) (fun ob l => Fill_price ob l order l') (fun _ _ _ h1 h2 => h2.trans h1) ls ob

theorem marketLoop_bid (order : Nat) (ls : List Nat) (ob : OrderBook) (o : Nat) :
    ((marketLoop order ls ob).1.orderAt o).Bid = (ob.orderAt o).Bid :=
  marketLoop_induction order (fun a b => (b.orderAt o).Bid = (a.orderAt o).Bid)
    (fun _ => rfl) (fun ob l => Fill_bid ob l order o) (fun _ _ _ h1 h2 => h2.trans h1) ls ob

theorem marketLoop_id (order : Nat) (ls : List Nat) (ob : OrderBook) (o : Nat) :
    ((marketLoop order ls ob).1.orderAt o).ID = (ob.orderAt o).ID :=
  marketLoop_induction order (fun a b => (b.orderAt o).ID = (a.orderAt o).ID)
    (fun _ => rfl) (fun ob l => Fill_id ob l order o) (fun _ _ _ h1 h2 => h2.trans h1) ls ob

theorem marketLoop_timeStamp (order : Nat) (ls : List Nat) (ob : OrderBook) (o : Nat) :
    ((marketLoop order ls ob).1.orderAt o).TimeStamp = (ob.orderAt o).TimeStamp :=
  marketLoop_induction order (fun a b => (b.orderAt o).TimeStamp = (a.orderAt o).TimeStamp)
    (fun _ => rfl) (fun ob l => Fill_timeStamp ob l order o) (fun _ _ _ h1 h2 => h2.trans h1) ls ob

theorem marketLoop_queue_subset (order : Nat) (ls : List Nat) (ob : OrderBook) (l' o : Nat)
    (h : o ∈ ((marketLoop order ls ob).1.limitAt l').Orders) : o ∈ (ob.limitAt l').Orders :=
  marketLoop_induction order
    (fun a b => o ∈ (b.limitAt l').Orders → o ∈ (a.limitAt l').Orders)
    (fun _ h => h) (fun ob l => Fill_queue_subset ob l order l' o)
    (fun _ _ _ h1 h2 h => h1 (h2 h)) ls ob h

theorem marketLoop_limitAt_other (order : Nat) (ls : List Nat) (ob : OrderBook) (l' : Nat)
    (h : l' ∉ ls) : (marketLoop order ls ob).1.limitAt l' = ob.limitAt l' := by
  induction ls generalizing ob with
  | nil => rfl
  | cons l rest ih =>
    have h1 : l' ≠ l := fun he => h (he ▸ List.mem_cons_self _ _)
    have h2 : l' ∉ rest := fun hm => h (List.mem_cons_of_mem _ hm)
    by_cases hf : ((Fill ob l order).1.orderAt order).Size = 0
    · rw [marketLoop_cons_filled _ _ _ _ hf]; exact Fill_limitAt_other _ _ _ _ h1
    · rw [marketLoop_cons_open _ _ _ _ hf]
      exact (ih _ h2).trans (Fill_limitAt_other _ _ _ _ h1)

theorem marketLoop_orderAt_other (order : Nat) (ls : List Nat) (ob : OrderBook) (o : Nat)
    (h1 : o ≠ order) (h2 : ∀ l ∈ ls, o ∉ (ob.limitAt l).Orders) :
    (marketLoop order ls ob).1.orderAt o = ob.orderAt o := by
  induction ls generalizing ob with
  | nil => rfl
  | cons l rest ih =>
    have hl := h2 l (List.mem_cons_self _ _)
    by_cases hf : ((Fill ob l order).1.orderAt order).Size = 0
    · rw [marketLoop_cons_filled _ _ _ _ hf]; exact Fill_orderAt_other _ _ _ _ h1 hl
    · rw [marketLoop_cons_open _ _ _ _ hf]
      refine (ih _ ?_).trans (Fill_orderAt_other _ _ _ _ h1 hl)
      intro l' hl' hm
      exact h2 l' (List.mem_cons_of_mem _ hl') (Fill_queue_subset _ _ _ _ _ hm)

theorem marketLoop_wellFormed (order : Nat) (ls : List Nat) {ob : OrderBook} (h : WellFormed ob)
    (hsub : ∀ l ∈ ls, l ∈ ob.asks ++ ob.bids) : WellFormed (marketLoop order ls ob).1 := by
  induction ls generalizing ob with
  | nil => exact h
  | cons l rest ih =>
    have hw := Fill_wellFormed h order (hsub l (List.mem_cons_self _ _))
    by_cases hf : ((Fill ob l order).1.orderAt order).Size = 0
    · rw [marketLoop_cons_filled _ _ _ _ hf]; exact hw
    · rw [marketLoop_cons_open _ _ _ _ hf]
      refine ih hw ?_
      intro l' hl'
      rw [Fill_asks, Fill_bids]
      exact hsub l' (List.mem_cons_of_mem _ hl')

/-- Conservation for the taker over the whole loop. -/
theorem marketLoop_taker (order : Nat) (ls : List Nat) (ob : OrderBook)
    (hfree : ∀ l ∈ ls, order ∉ (ob.limitAt l).Orders) :
    ((marketLoop order ls ob).1.orderAt order).Size + filledTotal (marketLoop order ls ob).2.1 =
      (ob.orderAt order).Size := by
  induction ls generalizing ob with
  | nil => simp [marketLoop_nil, filledTotal_nil]
  | cons l rest ih =>
    have hl := hfree l (List.mem_cons_self _ _)
    have hstep := Fill_size_taker ob l order hl
    by_cases hf : ((Fill ob l order).1.orderAt order).Size = 0
    · rw [marketLoop_cons_filled _ _ _ _ hf]; exact hstep
    · rw [marketLoop_cons_open _ _ _ _ hf]
      simp only [filledTotal_append]
      have := ih (Fill ob l order).1 (fun l' hl' hm =>
        hfree l' (List.mem_cons_of_mem _ hl') (Fill_queue_subset _ _ _ _ _ hm))
      omega

theorem marketLoop_taker_nonneg (order : Nat) (ls : List Nat) (ob : OrderBook)
    (hfree : ∀ l ∈ ls, order ∉ (ob.limitAt l).Orders) (h0 : 0 ≤ (ob.orderAt order).Size) :
    0 ≤ ((marketLoop order ls ob).1.orderAt order).Size := by
  induction ls generalizing ob with
  | nil => simpa [marketLoop_nil] using h0
  | cons l rest ih =>
    have hl := hfree l (List.mem_cons_self _ _)
    have hstep := Fill_taker_nonneg ob l order hl h0
    by_cases hf : ((Fill ob l order).1.orderAt order).Size = 0
    · rw [marketLoop_cons_filled _ _ _ _ hf]; exact hstep
    · rw [marketLoop_cons_open _ _ _ _ hf]
      exact ih (Fill ob l order).1 (fun l' hl' hm =>
        hfree l' (List.mem_cons_of_mem _ hl') (Fill_queue_subset _ _ _ _ _ hm)) hstep

theorem marketLoop_clear_sublist (order : Nat) (ls : List Nat) (ob : OrderBook) :
    (marketLoop order ls ob).2.2.Sublist ls := by
  induction ls generalizing ob with
  | nil => simp [marketLoop_nil]
  | cons l rest ih =>
    by_cases hf : ((Fill ob l order).1.orderAt order).Size = 0
    · rw [marketLoop_cons_filled _ _ _ _ hf]
      simp only []
      split
      · exact List.Sublist.cons₂ _ (List.nil_sublist _)
      · exact List.nil_sublist _
    · rw [marketLoop_cons_open _ _ _ _ hf]
      simp only []
      split
      · exact List.Sublist.cons₂ _ (ih _)
      · exact List.Sublist.cons _ (ih _)

/-- The limits collected for clearing are exactly the visited limits whose
queue is empty at the end: a collected limit has an empty queue, and a limit
that had orders and was not collected still has orders. -/
theorem marketLoop_clear_empty (order : Nat) (ls : List Nat) (ob : OrderBook) (hnd : ls.Nodup) :
    ∀ l ∈ (marketLoop order ls ob).2.2, ((marketLoop order ls ob).1.limitAt l).Orders = [] := by
  induction ls generalizing ob with
  | nil => simp [marketLoop_nil]
  | cons l rest ih =>
    have hlr : l ∉ rest := (List.nodup_cons.1 hnd).1
    by_cases hf : ((Fill ob l order).1.orderAt order).Size = 0
    · rw [marketLoop_cons_filled _ _ _ _ hf]
      simp only []
      intro l' hl'
      split at hl'
      · rename_i hz
        rw [List.mem_singleton.1 hl']; exact List.length_eq_zero.1 hz
      · simp at hl'
    · rw [marketLoop_cons_open _ _ _ _ hf]
      simp only []
      intro l' hl'
      rcases List.mem_append.1 hl' with hl' | hl'
      · split at hl'
        · rename_i hz
          rw [List.mem_singleton.1 hl', marketLoop_limitAt_other _ _ _ _ hlr]
          exact List.length_eq_zero.1 hz
        · simp at hl'
      · exact ih _ (List.nodup_cons.1 hnd).2 l' hl'

theorem marketLoop_not_cleared (order : Nat) (ls : List Nat) (ob : OrderBook) (hnd : ls.Nodup)
    (l : Nat) (hne : (ob.limitAt l).Orders ≠ []) (hl : l ∉ (marketLoop order ls ob).2.2) :
    ((marketLoop order ls ob).1.limitAt l).Orders ≠ [] := by
  induction ls generalizing ob with
  | nil => simpa [marketLoop_nil] using hne
  | cons l0 rest ih =>
    have hlr : l0 ∉ rest := (List.nodup_cons.1 hnd).1
    by_cases hf : ((Fill ob l0 order).1.orderAt order).Size = 0
    · rw [marketLoop_cons_filled _ _ _ _ hf] at hl ⊢
      simp only [] at hl ⊢
      by_cases hll : l = l0
      · subst hll
        intro hq
        rw [hq] at hl
        simp at hl
      · rwa [Fill_limitAt_other _ _ _ _ hll]
    · rw [marketLoop_cons_open _ _ _ _ hf] at hl ⊢
      simp only [] at hl ⊢
      have hl1 := fun h => hl (List.mem_append_left _ h)
      have hl2 := fun h => hl (List.mem_append_right _ h)
      refine ih _ (List.nodup_cons.1 hnd).2 ?_ hl2
      by_cases hll : l = l0
      · subst hll
        intro hq
        rw [hq] at hl1
        simp at hl1
      · rwa [Fill_limitAt_other _ _ _ _ hll]

/-! ## Volumes through `Fill` and the market loop -/

theorem Fill_volumeOn {ob : OrderBook} (h : WellFormed ob) (order : Nat) {l : Nat} {L : List Nat}
    (hL : ∀ l' ∈ L, l' ∈ ob.asks ++ ob.bids) (hl : l ∈ L)
    (hfree : ∀ l' ∈ L, order ∉ (ob.limitAt l').Orders) (hv : VolumeInvOn ob L) :
    VolumeInvOn (Fill ob l order).1 L := by
  intro l' hl'
  by_cases hll : l' = l
  · subst hll
    exact Fill_volume ob l' order (hfree l' hl') (h.queue_nodup l' (hL l' hl')) (hv l' hl')
  · rw [Fill_limitAt_other _ _ _ _ hll, hv l' hl']
    symm
    apply queueVolume_congr
    intro o ho
    rw [Fill_orderAt_other]
    · exact fun he => hfree l' hl' (he ▸ ho)
    · exact fun hm => hll (h.queue_unique (hL l' hl') (hL l hl) ho hm)

theorem marketLoop_volumeOn (order : Nat) (ls : List Nat) {ob : OrderBook} (h : WellFormed ob)
    {L : List Nat} (hL : ∀ l' ∈ L, l' ∈ ob.asks ++ ob.bids) (hsub : ∀ l ∈ ls, l ∈ L)
    (hfree : ∀ l' ∈ L, order ∉ (ob.limitAt l').Orders) (hv : VolumeInvOn ob L) :
    VolumeInvOn (marketLoop order ls ob).1 L := by
  induction ls generalizing ob with
  | nil => exact hv
  | cons l rest ih =>
    have hl := hsub l (List.mem_cons_self _ _)
    have hstep := Fill_volumeOn h order hL hl hfree hv
    by_cases hf : ((Fill ob l order).1.orderAt order).Size = 0
    · rw [marketLoop_cons_filled _ _ _ _ hf]; exact hstep
    · rw [marketLoop_cons_open _ _ _ _ hf]
      refine ih (Fill_wellFormed h order (hL l hl)) ?_ (fun l' hl' => hsub l' (List.mem_cons_of_mem _ hl'))
        ?_ hstep
      · intro l' hl'; rw [Fill_asks, Fill_bids]; exact hL l' hl'
      · intro l' hl' hm; exact hfree l' hl' (Fill_queue_subset _ _ _ _ _ hm)

/-- When the loop leaves the taker open, the matches add up to the whole volume
of the limits visited. -/
theorem marketLoop_open (order : Nat) (ls : List Nat) {ob : OrderBook} (h : WellFormed ob)
    (hnd : ls.Nodup) (hsub : ∀ l ∈ ls, l ∈ ob.asks ++ ob.bids)
    (hfree : ∀ l ∈ ls, order ∉ (ob.limitAt l).Orders) (hv : VolumeInvOn ob ls)
    (hopen : ((marketLoop order ls ob).1.orderAt order).Size ≠ 0) :
    filledTotal (marketLoop order ls ob).2.1 = (ls.map (fun l => (ob.limitAt l).TotalVolume)).sum := by
  induction ls generalizing ob with
  | nil => simp [marketLoop_nil, filledTotal_nil]
  | cons l rest ih =>
    have hl := hsub l (List.mem_cons_self _ _)
    have hlr : l ∉ rest := (List.nodup_cons.1 hnd).1
    by_cases hf : ((Fill ob l order).1.orderAt order).Size = 0
    · rw [marketLoop_cons_filled _ _ _ _ hf] at hopen
      exact absurd hf hopen
    · rw [marketLoop_cons_open _ _ _ _ hf] at hopen ⊢
      simp only [filledTotal_append, List.map_cons, List.sum_cons] at hopen ⊢
      have hstep := Fill_volumeOn h order hsub (List.mem_cons_self _ _) hfree hv
      have h1 := ih (Fill_wellFormed h order hl) (List.nodup_cons.1 hnd).2
        (fun l' hl' => by rw [Fill_asks, Fill_bids]; exact hsub l' (List.mem_cons_of_mem _ hl'))
        (fun l' hl' hm => hfree l' (List.mem_cons_of_mem _ hl') (Fill_queue_subset _ _ _ _ _ hm))
        (fun l' hl' => hstep l' (List.mem_cons_of_mem _ hl')) hopen
      have h2 := (Fill_open ob l order (hfree l (List.mem_cons_self _ _)) (h.queue_nodup l hl) hf).2.2
      have h3 : (rest.map (fun l' => ((Fill ob l order).1.limitAt l').TotalVolume)) =
          (rest.map (fun l' => (ob.limitAt l').TotalVolume)) :=
        List.map_congr_left (fun l' hl' => by
          rw [Fill_limitAt_other _ _ _ _ (fun he : l' = l => hlr (he ▸ hl'))])
      rw [h1, h2, h3, hv l (List.mem_cons_self _ _)]

theorem clearLimit_orderAt (ob : OrderBook) (b : Bool) (l : Nat) :
    (clearLimit ob b l).orderAt = ob.orderAt := by
  unfold clearLimit; split <;> rfl

theorem clearLimit_limitAt (ob : OrderBook) (b : Bool) (l : Nat) :
    (clearLimit ob b l).limitAt = ob.limitAt := by
  unfold clearLimit; split <;> rfl

theorem clearLimit_Orders (ob : OrderBook) (b : Bool) (l : Nat) :
    (clearLimit ob b l).Orders = ob.Orders := by
  unfold clearLimit; split <;> rfl

theorem clearLimit_nextLimit (ob : OrderBook) (b : Bool) (l : Nat) :
    (clearLimit ob b l).nextLimit = ob.nextLimit := by
  unfold clearLimit; split <;> rfl

theorem clearLimit_ask_asks (ob : OrderBook) (l : Nat) :
    (clearLimit ob false l).asks = ob.asks.erase l := rfl
theorem clearLimit_ask_bids (ob : OrderBook) (l : Nat) :
    (clearLimit ob false l).bids = ob.bids := rfl
theorem clearLimit_ask_AskLimits (ob : OrderBook) (l : Nat) :
    (clearLimit ob false l).AskLimits = Function.update ob.AskLimits (ob.limitAt l).Price none := rfl
theorem clearLimit_ask_BidLimits (ob : OrderBook) (l : Nat) :
    (clearLimit ob false l).BidLimits = ob.BidLimits := rfl

theorem clearLimit_bid_asks (ob : OrderBook) (l : Nat) :
    (clearLimit ob true l).asks = ob.asks := rfl
theorem clearLimit_bid_bids (ob : OrderBook) (l : Nat) :
    (clearLimit ob true l).bids = ob.bids.erase l := rfl
theorem clearLimit_bid_AskLimits (ob : OrderBook) (l : Nat) :
    (clearLimit ob true l).AskLimits = ob.AskLimits := rfl
theorem clearLimit_bid_BidLimits (ob : OrderBook) (l : Nat) :
    (clearLimit ob true l).BidLimits = Function.update ob.BidLimits (ob.limitAt l).Price none := rfl

/-- Removing a listed limit from a list and its price from the matching map
keeps the list and the map in step. -/
theorem map_erase_consistent (limitAt : Nat → Limit) (side : List Nat) (m : Int → Option Nat)
    (hnd : side.Nodup)
    (hm : ∀ p l, m p = some l ↔ l ∈ side ∧ (limitAt l).Price = p) (l : Nat) (hl : l ∈ side) :
    ∀ p l', Function.update m (limitAt l).Price none p = some l' ↔
      l' ∈ side.erase l ∧ (limitAt l').Price = p := by
  intro p l'
  by_cases hp : p = (limitAt l).Price
  · subst hp
    rw [Function.update_same]
    constructor
    · intro h; cases h
    · rintro ⟨h1, h2⟩
      have hl' := (hnd.mem_erase_iff.1 h1)
      have e1 := (hm _ l').2 ⟨hl'.2, h2⟩
      have e2 := (hm _ l).2 ⟨hl, rfl⟩
      rw [e1] at e2
      exact absurd (Option.some.inj e2) hl'.1
  · rw [Function.update_noteq hp, hm p l']
    constructor
    · rintro ⟨h1, h2⟩
      refine ⟨(List.mem_erase_of_ne ?_).2 h1, h2⟩
      intro he; subst he; exact hp h2.symm
    · rintro ⟨h1, h2⟩
      exact ⟨List.mem_of_mem_erase h1, h2⟩

theorem wellFormed_clearLimit_ask {ob : OrderBook} (h : WellFormed ob) {l : Nat} (hl : l ∈ ob.asks) :
    WellFormed (clearLimit ob false l) := by
  have hsub : ∀ l', l' ∈ ob.asks.erase l ++ ob.bids → l' ∈ ob.asks ++ ob.bids := by
    intro l' hl'
    rcases List.mem_append.1 hl' with h1 | h1
    · exact List.mem_append_left _ (List.mem_of_mem_erase h1)
    · exact List.mem_append_right _ h1
  constructor
  · exact h.asks_nodup.erase l
  · exact h.bids_nodup
  · exact map_erase_consistent ob.limitAt ob.asks ob.AskLimits h.asks_nodup h.ask_map l hl
  · exact h.bid_map
  · intro l' hl'; exact h.allocated l' (hsub l' hl')
  · intro l' hl'; exact h.queue_nodup l' (hsub l' hl')
  · intro l' hl'; exact h.backref l' (hsub l' hl')
  · intro l' hl'; exact h.ask_side l' (List.mem_of_mem_erase hl')
  · exact h.bid_side
  · intro l' hl'; exact h.disjoint l' (List.mem_of_mem_erase hl')

theorem wellFormed_clearLimit_bid {ob : OrderBook} (h : WellFormed ob) {l : Nat} (hl : l ∈ ob.bids) :
    WellFormed (clearLimit ob true l) := by
  have hsub : ∀ l', l' ∈ ob.asks ++ ob.bids.erase l → l' ∈ ob.asks ++ ob.bids := by
    intro l' hl'
    rcases List.mem_append.1 hl' with h1 | h1
    · exact List.mem_append_left _ h1
    · exact List.mem_append_right _ (List.mem_of_mem_erase h1)
  constructor
  · exact h.asks_nodup
  · exact h.bids_nodup.erase l
  · exact h.ask_map
  · exact map_erase_consistent ob.limitAt ob.bids ob.BidLimits h.bids_nodup h.bid_map l hl
  · intro l' hl'; exact h.allocated l' (hsub l' hl')
  · intro l' hl'; exact h.queue_nodup l' (hsub l' hl')
  · intro l' hl'; exact h.backref l' (hsub l' hl')
  · exact h.ask_side
  · intro l' hl'; exact h.bid_side l' (List.mem_of_mem_erase hl')
  · intro l' hl' hb; exact h.disjoint l' hl' (List.mem_of_mem_erase hb)

/-! ## `clearLimits` -/

theorem clearLimits_nil (ob : OrderBook) (order : Nat) : clearLimits ob order [] = ob := rfl

theorem clearLimits_cons (ob : OrderBook) (order l : Nat) (ls : List Nat) :
    clearLimits ob order (l :: ls) =
      clearLimits (clearLimit ob (!(ob.orderAt order).Bid) l) order ls := rfl

theorem clearLimits_orderAt (ob : OrderBook) (order : Nat) (ls : List Nat) :
    (clearLimits ob order ls).orderAt = ob.orderAt := by
  induction ls generalizing ob with
  | nil => rfl
  | cons l rest ih => rw [clearLimits_cons, ih, clearLimit_orderAt]

theorem clearLimits_limitAt (ob : OrderBook) (order : Nat) (ls : List Nat) :
    (clearLimits ob order ls).limitAt = ob.limitAt := by
  induction ls generalizing ob with
  | nil => rfl
  | cons l rest ih => rw [clearLimits_cons, ih, clearLimit_limitAt]

theorem clearLimits_Orders (ob : OrderBook) (order : Nat) (ls : List Nat) :
    (clearLimits ob order ls).Orders = ob.Orders := by
  induction ls generalizing ob with
  | nil => rfl
  | cons l rest ih => rw [clearLimits_cons, ih, clearLimit_Orders]

theorem clearLimits_nextLimit (ob : OrderBook) (order : Nat) (ls : List Nat) :
    (clearLimits ob order ls).nextLimit = ob.nextLimit := by
  induction ls generalizing ob with
  | nil => rfl
  | cons l rest ih => rw [clearLimits_cons, ih, clearLimit_nextLimit]

theorem clearLimits_buy_asks (ob : OrderBook) (order : Nat) (ls : List Nat)
    (hb : (ob.orderAt order).Bid = true) : (clearLimits ob order ls).asks = ob.asks.diff ls := by
  induction ls generalizing ob with
  | nil => simp [clearLimits_nil]
  | cons l rest ih =>
    rw [clearLimits_cons, hb, List.diff_cons]
    exact ih _ (by rw [clearLimit_orderAt]; exact hb)

theorem clearLimits_buy_bids (ob : OrderBook) (order : Nat) (ls : List Nat)
    (hb : (ob.orderAt order).Bid = true) : (clearLimits ob order ls).bids = ob.bids := by
  induction ls generalizing ob with
  | nil => rfl
  | cons l rest ih =>
    rw [clearLimits_cons, hb]
    exact ih _ (by rw [clearLimit_orderAt]; exact hb)

theorem clearLimits_buy_BidLimits (ob : OrderBook) (order : Nat) (ls : List Nat)
    (hb : (ob.orderAt order).Bid = true) : (clearLimits ob order ls).BidLimits = ob.BidLimits := by
  induction ls generalizing ob with
  | nil => rfl
  | cons l rest ih =>
    rw [clearLimits_cons, hb]
    exact ih _ (by rw [clearLimit_orderAt]; exact hb)

theorem clearLimits_buy_AskLimits (ob : OrderBook) (order : Nat) (ls : List Nat)
    (hb : (ob.orderAt order).Bid = true) (p : Int) :
    (clearLimits ob order ls).AskLimits p =
      if ∃ l ∈ ls, (ob.limitAt l).Price = p then none else ob.AskLimits p := by
  induction ls generalizing ob with
  | nil => simp [clearLimits_nil]
  | cons l rest ih =>
    rw [clearLimits_cons, hb, ih _ (by rw [clearLimit_orderAt]; exact hb)]
    simp only [Bool.not_true, clearLimit_limitAt, clearLimit_ask_AskLimits, List.mem_cons,
      exists_eq_or_imp, Function.update_apply]
    by_cases h1 : ∃ a ∈ rest, (ob.limitAt a).Price = p
    · simp [h1]
    · by_cases h2 : (ob.limitAt l).Price = p
      · simp [h2]
      · simp [h1, h2, Ne.symm h2]

theorem clearLimits_sell_bids (ob : OrderBook) (order : Nat) (ls : List Nat)
    (hb : (ob.orderAt order).Bid = false) : (clearLimits ob order ls).bids = ob.bids.diff ls := by
  induction ls generalizing ob with
  | nil => simp [clearLimits_nil]
  | cons l rest ih =>
    rw [clearLimits_cons, hb, List.diff_cons]
    exact ih _ (by rw [clearLimit_orderAt]; exact hb)

theorem clearLimits_sell_asks (ob : OrderBook) (order : Nat) (ls : List Nat)
    (hb : (ob.orderAt order).Bid = false) : (clearLimits ob order ls).asks = ob.asks := by
  induction ls generalizing ob with
  | nil => rfl
  | cons l rest ih =>
    rw [clearLimits_cons, hb]
    exact ih _ (by rw [clearLimit_orderAt]; exact hb)

theorem clearLimits_sell_AskLimits (ob : OrderBook) (order : Nat) (ls : List Nat)
    (hb : (ob.orderAt order).Bid = false) : (clearLimits ob order ls).AskLimits = ob.AskLimits := by
  induction ls generalizing ob with
  | nil => rfl
  | cons l rest ih =>
    rw [clearLimits_cons, hb]
    exact ih _ (by rw [clearLimit_orderAt]; exact hb)

theorem clearLimits_sell_BidLimits (ob : OrderBook) (order : Nat) (ls : List Nat)
    (hb : (ob.orderAt order).Bid = false) (p : Int) :
    (clearLimits ob order ls).BidLimits p =
      if ∃ l ∈ ls, (ob.limitAt l).Price = p then none else ob.BidLimits p := by
  induction ls generalizing ob with
  | nil => simp [clearLimits_nil]
  | cons l rest ih =>
    rw [clearLimits_cons, hb, ih _ (by rw [clearLimit_orderAt]; exact hb)]
    simp only [Bool.not_false, clearLimit_limitAt, clearLimit_bid_BidLimits, List.mem_cons,
      exists_eq_or_imp, Function.update_apply]
    by_cases h1 : ∃ a ∈ rest, (ob.limitAt a).Price = p
    · simp [h1]
    · by_cases h2 : (ob.limitAt l).Price = p
      · simp [h2]
      · simp [h1, h2, Ne.symm h2]

theorem wellFormed_clearLimits_buy {ob : OrderBook} (h : WellFormed ob) (order : Nat)
    {ls : List Nat} (hb : (ob.orderAt order).Bid = true) (hnd : ls.Nodup)
    (hsub : ∀ l ∈ ls, l ∈ ob.asks) : WellFormed (clearLimits ob order ls) := by
  induction ls generalizing ob with
  | nil => exact h
  | cons l rest ih =>
    rw [clearLimits_cons, hb]
    refine ih (wellFormed_clearLimit_ask h (hsub l (List.mem_cons_self _ _)))
      (by rw [clearLimit_orderAt]; exact hb) (List.nodup_cons.1 hnd).2 ?_
    intro l' hl'
    rw [Bool.not_true, clearLimit_ask_asks]
    refine (List.mem_erase_of_ne ?_).2 (hsub l' (List.mem_cons_of_mem _ hl'))
    exact fun he => (List.nodup_cons.1 hnd).1 (he ▸ hl')

theorem wellFormed_clearLimits_sell {ob : OrderBook} (h : WellFormed ob) (order : Nat)
    {ls : List Nat} (hb : (ob.orderAt order).Bid = false) (hnd : ls.Nodup)
    (hsub : ∀ l ∈ ls, l ∈ ob.bids) : WellFormed (clearLimits ob order ls) := by
  induction ls generalizing ob with
  | nil => exact h
  | cons l rest ih =>
    rw [clearLimits_cons, hb]
    refine ih (wellFormed_clearLimit_bid h (hsub l (List.mem_cons_self _ _)))
      (by rw [clearLimit_orderAt]; exact hb) (List.nodup_cons.1 hnd).2 ?_
    intro l' hl'
    rw [Bool.not_false, clearLimit_bid_bids]
    refine (List.mem_erase_of_ne ?_).2 (hsub l' (List.mem_cons_of_mem _ hl'))
    exact fun he => (List.nodup_cons.1 hnd).1 (he ▸ hl')

/-! ## `PlaceMarketOrder` -/

theorem PlaceMarketOrder_eq (ob : OrderBook) (order : Nat) :
    PlaceMarketOrder ob order =
      if (ob.orderAt order).Size > oppositeVolume ob order then (ob, .error .notEnoughVolume)
      else
        (clearLimits (marketLoop order (opposite ob order).2 (opposite ob order).1).1 order
          (marketLoop order (opposite ob order).2 (opposite ob order).1).2.2,
         .ok (marketLoop order (opposite ob order).2 (opposite ob order).1).2.1) := by
  unfold PlaceMarketOrder oppositeVolume opposite
  by_cases hb : (ob.orderAt order).Bid = true
  · simp only [hb, if_true]
  · simp only [hb]
    rfl

theorem PlaceMarketOrder_ok (ob : OrderBook) (order : Nat)
    (h : (ob.orderAt order).Size ≤ oppositeVolume ob order) :
    PlaceMarketOrder ob order =
        (clearLimits (marketLoop order (opposite ob order).2 (opposite ob order).1).1 order
          (marketLoop order (opposite ob order).2 (opposite ob order).1).2.2,
         .ok (marketLoop order (opposite ob order).2 (opposite ob order).1).2.1) := by
  rw [PlaceMarketOrder_eq, if_neg (not_lt.2 h)]

theorem opposite_snd (ob : OrderBook) (order : Nat) :
    (opposite ob order).2.Perm (oppositeLimits ob order) := by
  unfold opposite oppositeLimits
  split
  · exact sortAsks_perm _ _
  · exact sortBids_perm _ _

theorem opposite_orderAt (ob : OrderBook) (order : Nat) :
    (opposite ob order).1.orderAt = ob.orderAt := by
  unfold opposite; split <;> rfl

theorem opposite_limitAt (ob : OrderBook) (order : Nat) :
    (opposite ob order).1.limitAt = ob.limitAt := by
  unfold opposite; split <;> rfl

theorem opposite_Orders (ob : OrderBook) (order : Nat) :
    (opposite ob order).1.Orders = ob.Orders := by
  unfold opposite; split <;> rfl

theorem opposite_nextLimit (ob : OrderBook) (order : Nat) :
    (opposite ob order).1.nextLimit = ob.nextLimit := by
  unfold opposite; split <;> rfl

theorem opposite_AskLimits (ob : OrderBook) (order : Nat) :
    (opposite ob order).1.AskLimits = ob.AskLimits := by
  unfold opposite; split <;> rfl

theorem opposite_BidLimits (ob : OrderBook) (order : Nat) :
    (opposite ob order).1.BidLimits = ob.BidLimits := by
  unfold opposite; split <;> rfl

theorem opposite_asks_perm (ob : OrderBook) (order : Nat) :
    (opposite ob order).1.asks.Perm ob.asks := by
  unfold opposite; split
  · exact sortAsks_perm _ _
  · exact List.Perm.refl _

theorem opposite_bids_perm (ob : OrderBook) (order : Nat) :
    (opposite ob order).1.bids.Perm ob.bids := by
  unfold opposite; split
  · exact List.Perm.refl _
  · exact sortBids_perm _ _

theorem opposite_mem_book (ob : OrderBook) (order l : Nat) :
    l ∈ (opposite ob order).1.asks ++ (opposite ob order).1.bids ↔ l ∈ ob.asks ++ ob.bids := by
  rw [List.mem_append, List.mem_append, (opposite_asks_perm ob order).mem_iff,
    (opposite_bids_perm ob order).mem_iff]

theorem opposite_wellFormed {ob : OrderBook} (h : WellFormed ob) (order : Nat) :
    WellFormed (opposite ob order).1 := by
  have ha := opposite_asks_perm ob order
  have hb := opposite_bids_perm ob order
  constructor
  · exact ha.nodup_iff.2 h.asks_nodup
  · exact hb.nodup_iff.2 h.bids_nodup
  · intro p l; rw [opposite_AskLimits, opposite_limitAt, ha.mem_iff]; exact h.ask_map p l
  · intro p l; rw [opposite_BidLimits, opposite_limitAt, hb.mem_iff]; exact h.bid_map p l
  · intro l hl; rw [opposite_nextLimit]; exact h.allocated l ((opposite_mem_book ob order l).1 hl)
  · intro l hl; rw [opposite_limitAt]; exact h.queue_nodup l ((opposite_mem_book ob order l).1 hl)
  · intro l hl o ho; rw [opposite_limitAt] at ho; rw [opposite_orderAt]
    exact h.backref l ((opposite_mem_book ob order l).1 hl) o ho
  · intro l hl o ho; rw [opposite_limitAt] at ho; rw [opposite_orderAt]
    exact h.ask_side l (ha.mem_iff.1 hl) o ho
  · intro l hl o ho; rw [opposite_limitAt] at ho; rw [opposite_orderAt]
    exact h.bid_side l (hb.mem_iff.1 hl) o ho
  · intro l hl hl'
    exact h.disjoint l (ha.mem_iff.1 hl) (hb.mem_iff.1 hl')

theorem oppositeLimits_sub (ob : OrderBook) (order l : Nat) (hl : l ∈ oppositeLimits ob order) :
    l ∈ ob.asks ++ ob.bids := by
  unfold oppositeLimits at hl
  split at hl
  · exact List.mem_append_left _ hl
  · exact List.mem_append_right _ hl

theorem opposite_snd_sub (ob : OrderBook) (order l : Nat) (hl : l ∈ (opposite ob order).2) :
    l ∈ (opposite ob order).1.asks ++ (opposite ob order).1.bids :=
  (opposite_mem_book ob order l).2
    (oppositeLimits_sub ob order l ((opposite_snd ob order).mem_iff.1 hl))

theorem opposite_snd_nodup {ob : OrderBook} (h : WellFormed ob) (order : Nat) :
    (opposite ob order).2.Nodup := by
  rw [(opposite_snd ob order).nodup_iff]
  unfold oppositeLimits
  split
  · exact h.asks_nodup
  · exact h.bids_nodup

/-- In a well-formed book the taker is not queued on the side it is matched
against: the orders queued there carry the other `Bid` flag. -/
theorem oppositeLimits_free {ob : OrderBook} (h : WellFormed ob) (order : Nat) :
    ∀ l ∈ oppositeLimits ob order, order ∉ (ob.limitAt l).Orders := by
  intro l hl ho
  unfold oppositeLimits at hl
  by_cases hb : (ob.orderAt order).Bid = true
  · rw [if_pos hb] at hl
    have := h.ask_side l hl order ho
    rw [hb] at this; cases this
  · rw [if_neg hb] at hl
    exact hb (h.bid_side l hl order ho)

theorem opposite_snd_free {ob : OrderBook} (h : WellFormed ob) (order : Nat) :
    ∀ l ∈ (opposite ob order).2, order ∉ ((opposite ob order).1.limitAt l).Orders := by
  intro l hl
  rw [opposite_limitAt]
  exact oppositeLimits_free h order l ((opposite_snd ob order).mem_iff.1 hl)

theorem opposite_snd_volume (ob : OrderBook) (order : Nat) :
    ((opposite ob order).2.map (fun l => ((opposite ob order).1.limitAt l).TotalVolume)).sum =
      oppositeVolume ob order := by
  rw [opposite_limitAt, ((opposite_snd ob order).map _).sum_eq]
  unfold oppositeLimits oppositeVolume AskTotalVolume BidTotalVolume
  split <;> rfl

theorem opposite_volumeOn {ob : OrderBook} (hv : VolumeInv ob) (order : Nat) (L : List Nat)
    (hL : ∀ l ∈ L, l ∈ ob.asks ++ ob.bids) : VolumeInvOn (opposite ob order).1 L := by
  intro l hl
  rw [opposite_limitAt]
  rw [queueVolume_congr ob (opposite ob order).1 _ (fun o _ => by rw [opposite_orderAt])]
  exact hv l (hL l hl)

/-! ## `addOrder`, `NewLimit`, `PlaceLimitOrder` -/

theorem addOrder_asks (ob : OrderBook) (l o : Nat) : (addOrder ob l o).asks = ob.asks := rfl
theorem addOrder_bids (ob : OrderBook) (l o : Nat) : (addOrder ob l o).bids = ob.bids := rfl
theorem addOrder_AskLimits (ob : OrderBook) (l o : Nat) :
    (addOrder ob l o).AskLimits = ob.AskLimits := rfl
theorem addOrder_BidLimits (ob : OrderBook) (l o : Nat) :
    (addOrder ob l o).BidLimits = ob.BidLimits := rfl
theorem addOrder_orderAt (ob : OrderBook) (l o : Nat) :
    (addOrder ob l o).orderAt = Function.update ob.orderAt o { ob.orderAt o with Limit := some l } :=
  rfl

theorem addOrder_limitAt (ob : OrderBook) (l o : Nat) :
    (addOrder ob l o).limitAt =
      Function.update ob.limitAt l
        { Price := (ob.limitAt l).Price
          Orders := (ob.limitAt l).Orders ++ [o]
          TotalVolume := (ob.limitAt l).TotalVolume + (ob.orderAt o).Size } := by
  simp only [addOrder, setLimit_limitAt, setOrder_limitAt, setOrder_orderAt, setLimit_orderAt,
    Function.update_same, Function.update_idem]

theorem addOrder_size (ob : OrderBook) (l o o' : Nat) :
    ((addOrder ob l o).orderAt o').Size = (ob.orderAt o').Size := by
  rw [addOrder_orderAt, Function.update_apply]
  split
  · subst_vars; rfl
  · rfl

theorem addOrder_bid (ob : OrderBook) (l o o' : Nat) :
    ((addOrder ob l o).orderAt o').Bid = (ob.orderAt o').Bid := by
  rw [addOrder_orderAt, Function.update_apply]
  split
  · subst_vars; rfl
  · rfl

theorem addOrder_id (ob : OrderBook) (l o o' : Nat) :
    ((addOrder ob l o).orderAt o').ID = (ob.orderAt o').ID := by
  rw [addOrder_orderAt, Function.update_apply]
  split
  · subst_vars; rfl
  · rfl

theorem addOrder_backref (ob : OrderBook) (l o o' : Nat) :
    ((addOrder ob l o).orderAt o').Limit = if o' = o then some l else (ob.orderAt o').Limit := by
  rw [addOrder_orderAt, Function.update_apply]
  split
  · subst_vars; rfl
  · rfl

theorem addOrder_price (ob : OrderBook) (l o l' : Nat) :
    ((addOrder ob l o).limitAt l').Price = (ob.limitAt l').Price := by
  rw [addOrder_limitAt, Function.update_apply]
  split
  · subst_vars; rfl
  · rfl

theorem addOrder_queue (ob : OrderBook) (l o l' : Nat) :
    ((addOrder ob l o).limitAt l').Orders =
      if l' = l then (ob.limitAt l).Orders ++ [o] else (ob.limitAt l').Orders := by
  rw [addOrder_limitAt, Function.update_apply]
  split <;> rfl

theorem addOrder_totalVolume (ob : OrderBook) (l o l' : Nat) :
    ((addOrder ob l o).limitAt l').TotalVolume =
      if l' = l then (ob.limitAt l).TotalVolume + (ob.orderAt o).Size
      else (ob.limitAt l').TotalVolume := by
  rw [addOrder_limitAt, Function.update_apply]
  split <;> rfl

theorem addOrder_queueVolume (ob : OrderBook) (l o : Nat) (q : List Nat) :
    queueVolume (addOrder ob l o) q = queueVolume ob q :=
  queueVolume_congr _ _ _ (fun o' _ => addOrder_size ob l o o')

theorem wellFormed_addOrder {ob : OrderBook} (h : WellFormed ob) {l o : Nat}
    (hl : l ∈ ob.asks ++ ob.bids) (hr : ¬ Resting ob o)
    (hask : l ∈ ob.asks → (ob.orderAt o).Bid = false)
    (hbid : l ∈ ob.bids → (ob.orderAt o).Bid = true) : WellFormed (addOrder ob l o) := by
  have hfree : ∀ l' ∈ ob.asks ++ ob.bids, o ∉ (ob.limitAt l').Orders :=
    fun l' hl' ho => hr ⟨l', hl', h.backref l' hl' o ho, ho⟩
  constructor
  · exact h.asks_nodup
  · exact h.bids_nodup
  · intro p l'; rw [addOrder_AskLimits, addOrder_asks, addOrder_price]; exact h.ask_map p l'
  · intro p l'; rw [addOrder_BidLimits, addOrder_bids, addOrder_price]; exact h.bid_map p l'
  · exact h.allocated
  · intro l' hl'
    rw [addOrder_queue]
    split
    · refine List.Nodup.append (h.queue_nodup l hl) (List.nodup_singleton o) ?_
      intro a ha hb
      rw [List.mem_singleton.1 hb] at ha
      exact hfree l hl ha
    · exact h.queue_nodup l' hl'
  · intro l' hl' o' ho'
    rw [addOrder_queue] at ho'
    rw [addOrder_backref]
    split at ho'
    · rename_i hll
      rcases List.mem_append.1 ho' with ho' | ho'
      · rw [if_neg (fun he : o' = o => hfree l hl (he ▸ ho')), hll]
        exact h.backref l hl o' ho'
      · rw [if_pos (List.mem_singleton.1 ho'), hll]
    · rw [if_neg (fun he : o' = o => hfree l' hl' (he ▸ ho'))]
      exact h.backref l' hl' o' ho'
  · intro l' hl' o' ho'
    rw [addOrder_asks] at hl'
    rw [addOrder_queue] at ho'
    rw [addOrder_bid]
    split at ho'
    · rename_i hll
      rcases List.mem_append.1 ho' with ho' | ho'
      · exact h.ask_side l (hll ▸ hl') o' ho'
      · rw [List.mem_singleton.1 ho']; exact hask (hll ▸ hl')
    · exact h.ask_side l' hl' o' ho'
  · intro l' hl' o' ho'
    rw [addOrder_bids] at hl'
    rw [addOrder_queue] at ho'
    rw [addOrder_bid]
    split at ho'
    · rename_i hll
      rcases List.mem_append.1 ho' with ho' | ho'
      · exact h.bid_side l (hll ▸ hl') o' ho'
      · rw [List.mem_singleton.1 ho']; exact hbid (hll ▸ hl')
    · exact h.bid_side l' hl' o' ho'
  · exact h.disjoint

theorem wellFormed_setIndex {ob : OrderBook} (h : WellFormed ob) (i : Int) (v : Option Nat) :
    WellFormed (setIndex ob i v) :=
  ⟨h.asks_nodup, h.bids_nodup, h.ask_map, h.bid_map, h.allocated, h.queue_nodup, h.backref,
    h.ask_side, h.bid_side, h.disjoint⟩

theorem Resting_setIndex (ob : OrderBook) (i : Int) (v : Option Nat) (o : Nat) :
    Resting (setIndex ob i v) o ↔ Resting ob o := Iff.rfl

/-! ### Registering a new limit -/

theorem registerLimit_snd (ob : OrderBook) (price : Int) (order : Nat) :
    (registerLimit ob price order).2 = ob.nextLimit := by
  unfold registerLimit; simp only []; split <;> rfl

theorem registerLimit_orderAt (ob : OrderBook) (price : Int) (order : Nat) :
    (registerLimit ob price order).1.orderAt = ob.orderAt := by
  unfold registerLimit; simp only []; split <;> rfl

theorem registerLimit_nextLimit (ob : OrderBook) (price : Int) (order : Nat) :
    (registerLimit ob price order).1.nextLimit = ob.nextLimit + 1 := by
  unfold registerLimit; simp only []; split <;> rfl

theorem registerLimit_limitAt (ob : OrderBook) (price : Int) (order : Nat) :
    (registerLimit ob price order).1.limitAt =
      Function.update ob.limitAt ob.nextLimit { Price := price, Orders := [], TotalVolume := 0 } := by
  unfold registerLimit; simp only []; split <;> rfl

theorem registerLimit_asks (ob : OrderBook) (price : Int) (order : Nat) :
    (registerLimit ob price order).1.asks =
      if (ob.orderAt order).Bid then ob.asks else ob.asks ++ [ob.nextLimit] := by
  unfold registerLimit; simp only []; split <;> rfl

theorem registerLimit_bids (ob : OrderBook) (price : Int) (order : Nat) :
    (registerLimit ob price order).1.bids =
      if (ob.orderAt order).Bid then ob.bids ++ [ob.nextLimit] else ob.bids := by
  unfold registerLimit; simp only []; split <;> rfl

theorem registerLimit_AskLimits (ob : OrderBook) (price : Int) (order : Nat) :
    (registerLimit ob price order).1.AskLimits =
      if (ob.orderAt order).Bid then ob.AskLimits
      else Function.update ob.AskLimits price (some ob.nextLimit) := by
  unfold registerLimit; simp only []; split <;> rfl

theorem registerLimit_BidLimits (ob : OrderBook) (price : Int) (order : Nat) :
    (registerLimit ob price order).1.BidLimits =
      if (ob.orderAt order).Bid then Function.update ob.BidLimits price (some ob.nextLimit)
      else ob.BidLimits := by
  unfold registerLimit; simp only []; split <;> rfl

theorem registerLimit_mem_book (ob : OrderBook) (price : Int) (order l : Nat) :
    l ∈ (registerLimit ob price order).1.asks ++ (registerLimit ob price order).1.bids ↔
      l ∈ ob.asks ++ ob.bids ∨ l = ob.nextLimit := by
  rw [registerLimit_asks, registerLimit_bids]
  split <;> simp only [List.mem_append, List.mem_singleton] <;> tauto

/-- Adding a fresh limit at a price not yet in the map keeps the list and the
map of the side in step. -/
theorem map_append_consistent (limitAt : Nat → Limit) (side : List Nat) (m : Int → Option Nat)
    (hm : ∀ p l, m p = some l ↔ l ∈ side ∧ (limitAt l).Price = p) (n : Nat) (price : Int)
    (v : Limit) (hv : v.Price = price) (hn : n ∉ side) (hnone : m price = none) :
    ∀ p l, Function.update m price (some n) p = some l ↔
      l ∈ side ++ [n] ∧ ((Function.update limitAt n v) l).Price = p := by
  intro p l
  by_cases hp : p = price
  · subst hp
    rw [Function.update_same]
    constructor
    · intro h
      have : n = l := Option.some.inj h
      subst this
      exact ⟨by simp, by rw [Function.update_same]; exact hv⟩
    · rintro ⟨h1, h2⟩
      by_cases hl : l = n
      · rw [hl]
      · rw [Function.update_noteq hl] at h2
        have hs : l ∈ side := by
          rcases List.mem_append.1 h1 with h | h
          · exact h
          · exact absurd (List.mem_singleton.1 h) hl
        have := (hm _ l).2 ⟨hs, h2⟩
        rw [hnone] at this; cases this
  · rw [Function.update_noteq hp, hm p l]
    constructor
    · rintro ⟨h1, h2⟩
      have hl : l ≠ n := fun he => hn (he ▸ h1)
      exact ⟨List.mem_append_left _ h1, by rw [Function.update_noteq hl]; exact h2⟩
    · rintro ⟨h1, h2⟩
      by_cases hl : l = n
      · subst hl
        rw [Function.update_same, hv] at h2
        exact absurd h2.symm hp
      · rw [Function.update_noteq hl] at h2
        rcases List.mem_append.1 h1 with h | h
        · exact ⟨h, h2⟩
        · exact absurd (List.mem_singleton.1 h) hl

/-- Writing a fresh limit does not disturb the map of a side that does not list
it. -/
theorem map_fresh_consistent (limitAt : Nat → Limit) (side : List Nat) (m : Int → Option Nat)
    (hm : ∀ p l, m p = some l ↔ l ∈ side ∧ (limitAt l).Price = p) (n : Nat) (v : Limit)
    (hn : n ∉ side) :
    ∀ p l, m p = some l ↔ l ∈ side ∧ ((Function.update limitAt n v) l).Price = p := by
  intro p l
  rw [hm p l]
  constructor
  · rintro ⟨h1, h2⟩
    exact ⟨h1, by rw [Function.update_noteq (fun he : l = n => hn (he ▸ h1))]; exact h2⟩
  · rintro ⟨h1, h2⟩
    rw [Function.update_noteq (fun he : l = n => hn (he ▸ h1))] at h2
    exact ⟨h1, h2⟩

theorem WellFormed.fresh {ob : OrderBook} (h : WellFormed ob) :
    ob.nextLimit ∉ ob.asks ++ ob.bids :=
  fun hm => lt_irrefl _ (h.allocated _ hm)

theorem wellFormed_registerLimit {ob : OrderBook} (h : WellFormed ob) (price : Int) (order : Nat)
    (hnone : lookupLimit ob price order = none) : WellFormed (registerLimit ob price order).1 := by
  have hfresh := h.fresh
  have hfa : ob.nextLimit ∉ ob.asks := fun hm => hfresh (List.mem_append_left _ hm)
  have hfb : ob.nextLimit ∉ ob.bids := fun hm => hfresh (List.mem_append_right _ hm)
  have hq : ∀ l, l ∈ (registerLimit ob price order).1.asks ++ (registerLimit ob price order).1.bids →
      ∀ o ∈ ((registerLimit ob price order).1.limitAt l).Orders,
        l ∈ ob.asks ++ ob.bids ∧ o ∈ (ob.limitAt l).Orders := by
    intro l hl o ho
    rw [registerLimit_limitAt, Function.update_apply] at ho
    split at ho
    · simp at ho
    · rename_i hne
      rcases (registerLimit_mem_book ob price order l).1 hl with h1 | h1
      · exact ⟨h1, ho⟩
      · exact absurd h1 hne
  constructor
  · rw [registerLimit_asks]
    split
    · exact h.asks_nodup
    · exact List.Nodup.append h.asks_nodup (List.nodup_singleton _)
        (fun a ha hb => hfa (List.mem_singleton.1 hb ▸ ha))
  · rw [registerLimit_bids]
    split
    · exact List.Nodup.append h.bids_nodup (List.nodup_singleton _)
        (fun a ha hb => hfb (List.mem_singleton.1 hb ▸ ha))
    · exact h.bids_nodup
  · rw [registerLimit_AskLimits, registerLimit_asks, registerLimit_limitAt]
    unfold lookupLimit at hnone
    split
    · exact map_fresh_consistent ob.limitAt ob.asks ob.AskLimits h.ask_map _ _ hfa
    · rename_i hb
      rw [if_neg hb] at hnone
      exact map_append_consistent ob.limitAt ob.asks ob.AskLimits h.ask_map _ price _ rfl hfa hnone
  · rw [registerLimit_BidLimits, registerLimit_bids, registerLimit_limitAt]
    unfold lookupLimit at hnone
    split
    · rename_i hb
      rw [if_pos hb] at hnone
      exact map_append_consistent ob.limitAt ob.bids ob.BidLimits h.bid_map _ price _ rfl hfb hnone
    · exact map_fresh_consistent ob.limitAt ob.bids ob.BidLimits h.bid_map _ _ hfb
  · intro l hl
    rw [registerLimit_nextLimit]
    rcases (registerLimit_mem_book ob price order l).1 hl with h1 | h1
    · exact Nat.lt_succ_of_lt (h.allocated l h1)
    · rw [h1]; exact Nat.lt_succ_self _
  · intro l hl
    rw [registerLimit_limitAt, Function.update_apply]
    split
    · exact List.nodup_nil
    · rename_i hne
      rcases (registerLimit_mem_book ob price order l).1 hl with h1 | h1
      · exact h.queue_nodup l h1
      · exact absurd h1 hne
  · intro l hl o ho
    obtain ⟨h1, h2⟩ := hq l hl o ho
    rw [registerLimit_orderAt]
    exact h.backref l h1 o h2
  · intro l hl o ho
    obtain ⟨_, h2⟩ := hq l (List.mem_append_left _ hl) o ho
    rw [registerLimit_orderAt]
    rw [registerLimit_asks] at hl
    split at hl
    · exact h.ask_side l hl o h2
    · rcases List.mem_append.1 hl with h3 | h3
      · exact h.ask_side l h3 o h2
      · rw [List.mem_singleton.1 h3, registerLimit_limitAt, Function.update_same] at ho
        simp at ho
  · intro l hl o ho
    obtain ⟨_, h2⟩ := hq l (List.mem_append_right _ hl) o ho
    rw [registerLimit_orderAt]
    rw [registerLimit_bids] at hl
    split at hl
    · rcases List.mem_append.1 hl with h3 | h3
      · exact h.bid_side l h3 o h2
      · rw [List.mem_singleton.1 h3, registerLimit_limitAt, Function.update_same] at ho
        simp at ho
    · exact h.bid_side l hl o h2
  · intro l hl hl'
    rw [registerLimit_asks] at hl
    rw [registerLimit_bids] at hl'
    split at hl
    · rename_i hb
      rw [if_pos hb] at hl'
      rcases List.mem_append.1 hl' with h3 | h3
      · exact h.disjoint l hl h3
      · exact hfa (List.mem_singleton.1 h3 ▸ hl)
    · rename_i hb
      rw [if_neg hb] at hl'
      rcases List.mem_append.1 hl with h3 | h3
      · exact h.disjoint l h3 hl'
      · exact hfb (List.mem_singleton.1 h3 ▸ hl')

/-! ## `PlaceLimitOrder` -/

theorem PlaceLimitOrder_found (ob : OrderBook) (price : Int) (order l : Nat)
    (h : lookupLimit ob price order = some l) :
    PlaceLimitOrder ob price order =
      addOrder (setIndex ob (ob.orderAt order).ID (some order)) l order := by
  unfold PlaceLimitOrder
  rw [h]

theorem PlaceLimitOrder_new (ob : OrderBook) (price : Int) (order : Nat)
    (h : lookupLimit ob price order = none) :
    PlaceLimitOrder ob price order =
      addOrder (setIndex (registerLimit ob price order).1 (ob.orderAt order).ID (some order))
        ob.nextLimit order := by
  unfold PlaceLimitOrder
  rw [h]
  simp only [registerLimit_snd, registerLimit_orderAt]

theorem lookupLimit_found {ob : OrderBook} (h : WellFormed ob) {price : Int} {order l : Nat}
    (hf : lookupLimit ob price order = some l) :
    l ∈ ownLimits ob order ∧ (ob.limitAt l).Price = price := by
  unfold lookupLimit at hf
  unfold ownLimits
  split
  · rename_i hb; rw [if_pos hb] at hf; exact (h.bid_map price l).1 hf
  · rename_i hb; rw [if_neg hb] at hf; exact (h.ask_map price l).1 hf

theorem ownLimits_sub (ob : OrderBook) (order l : Nat) (hl : l ∈ ownLimits ob order) :
    l ∈ ob.asks ++ ob.bids := by
  unfold ownLimits at hl
  split at hl
  · exact List.mem_append_right _ hl
  · exact List.mem_append_left _ hl

theorem ownLimits_ask {ob : OrderBook} (h : WellFormed ob) {order l : Nat}
    (hl : l ∈ ownLimits ob order) (ha : l ∈ ob.asks) : (ob.orderAt order).Bid = false := by
  unfold ownLimits at hl
  split at hl
  · exact absurd hl (h.disjoint l ha)
  · rename_i hb; simpa using hb

theorem ownLimits_bid {ob : OrderBook} (h : WellFormed ob) {order l : Nat}
    (hl : l ∈ ownLimits ob order) (ha : l ∈ ob.bids) : (ob.orderAt order).Bid = true := by
  unfold ownLimits at hl
  split at hl
  · rename_i hb; exact hb
  · exact absurd ha (h.disjoint l hl)

theorem registerLimit_own (ob : OrderBook) (price : Int) (order : Nat) :
    ownLimits (registerLimit ob price order).1 order = ownLimits ob order ++ [ob.nextLimit] := by
  unfold ownLimits
  rw [registerLimit_orderAt, registerLimit_asks, registerLimit_bids]
  split <;> rfl

theorem wellFormed_PlaceLimitOrder {ob : OrderBook} (h : WellFormed ob) (price : Int) {order : Nat}
    (hr : ¬ Resting ob order) : WellFormed (PlaceLimitOrder ob price order) := by
  cases hf : lookupLimit ob price order with
  | some l =>
    rw [PlaceLimitOrder_found _ _ _ _ hf]
    have hl := (lookupLimit_found h hf).1
    exact wellFormed_addOrder (wellFormed_setIndex h _ _) (ownLimits_sub ob order l hl) hr
      (ownLimits_ask h hl) (ownLimits_bid h hl)
  | none =>
    rw [PlaceLimitOrder_new _ _ _ hf]
    have hw := wellFormed_registerLimit h price order hf
    have hown : ob.nextLimit ∈ ownLimits (registerLimit ob price order).1 order := by
      rw [registerLimit_own]; simp
    have hr' : ¬ Resting (registerLimit ob price order).1 order := by
      rintro ⟨l, hl, hb, ho⟩
      rw [registerLimit_limitAt, Function.update_apply] at ho
      rw [registerLimit_orderAt] at hb
      split at ho
      · simp at ho
      · rename_i hne
        rcases (registerLimit_mem_book ob price order l).1 hl with h1 | h1
        · exact hr ⟨l, h1, hb, ho⟩
        · exact hne h1
    refine wellFormed_addOrder (wellFormed_setIndex hw _ _)
      (ownLimits_sub _ order _ hown) hr' ?_ ?_
    · intro ha
      exact ownLimits_ask hw hown ha
    · intro ha
      exact ownLimits_bid hw hown ha

theorem volumeInvOn_addOrder (ob : OrderBook) {L : List Nat} (hv : VolumeInvOn ob L) (l o : Nat) :
    VolumeInvOn (addOrder ob l o) L := by
  intro l' hl'
  rw [addOrder_totalVolume, addOrder_queue, addOrder_queueVolume]
  split
  · rename_i hll
    rw [queueVolume_append, queueVolume_cons, queueVolume_nil, ← hll, hv l' hl']
    omega
  · exact hv l' hl'

theorem volumeInv_PlaceLimitOrder {ob : OrderBook} (hv : VolumeInv ob)
    (price : Int) (order : Nat) : VolumeInv (PlaceLimitOrder ob price order) := by
  cases hf : lookupLimit ob price order with
  | some l =>
    rw [PlaceLimitOrder_found _ _ _ _ hf]
    exact volumeInvOn_addOrder (setIndex ob _ _) hv l order
  | none =>
    rw [PlaceLimitOrder_new _ _ _ hf]
    have h1 : VolumeInvOn (setIndex (registerLimit ob price order).1 (ob.orderAt order).ID (some order))
        ((registerLimit ob price order).1.asks ++ (registerLimit ob price order).1.bids) := by
      intro l hl
      show ((registerLimit ob price order).1.limitAt l).TotalVolume =
        queueVolume (registerLimit ob price order).1 ((registerLimit ob price order).1.limitAt l).Orders
      rw [queueVolume_congr ob (registerLimit ob price order).1 _
        (fun o _ => by rw [registerLimit_orderAt])]
      rw [registerLimit_limitAt, Function.update_apply]
      split
      · rfl
      · rename_i hne
        rcases (registerLimit_mem_book ob price order l).1 hl with h2 | h2
        · exact hv l h2
        · exact absurd h2 hne
    exact volumeInvOn_addOrder _ h1 _ order

/-- Changing one entry of a function by `d` changes the sum over a
duplicate-free list containing the entry by `d`. -/
theorem sum_map_shift (L : List Nat) (f g : Nat → Int) (l : Nat) (d : Int) (hnd : L.Nodup)
    (hl : l ∈ L) (hsame : ∀ x ∈ L, x ≠ l → g x = f x) (hd : g l = f l + d) :
    (L.map g).sum = (L.map f).sum + d := by
  induction L with
  | nil => cases hl
  | cons a rest ih =>
    simp only [List.map_cons, List.sum_cons]
    have hnd' := List.nodup_cons.1 hnd
    by_cases ha : a = l
    · subst ha
      have : (rest.map g) = (rest.map f) :=
        List.map_congr_left (fun x hx =>
          hsame x (List.mem_cons_of_mem _ hx) (fun he => hnd'.1 (he ▸ hx)))
      rw [this, hd]; omega
    · have hl' : l ∈ rest := by
        rcases List.mem_cons.1 hl with h | h
        · exact absurd h.symm ha
        · exact h
      rw [ih hnd'.2 hl' (fun x hx => hsame x (List.mem_cons_of_mem _ hx)),
        hsame a (List.mem_cons_self _ _) ha]
      omega

theorem sum_map_same (L : List Nat) (f g : Nat → Int) (hsame : ∀ x ∈ L, g x = f x) :
    (L.map g).sum = (L.map f).sum := by
  rw [List.map_congr_left hsame]

theorem ownVolume_eq (ob : OrderBook) (order : Nat) :
    ownVolume ob order = ((ownLimits ob order).map (fun l => (ob.limitAt l).TotalVolume)).sum := by
  unfold ownVolume ownLimits BidTotalVolume AskTotalVolume
  split <;> rfl

theorem oppositeVolume_eq (ob : OrderBook) (order : Nat) :
    oppositeVolume ob order =
      ((oppositeLimits ob order).map (fun l => (ob.limitAt l).TotalVolume)).sum := by
  unfold oppositeVolume oppositeLimits BidTotalVolume AskTotalVolume
  split <;> rfl

theorem ownLimits_nodup {ob : OrderBook} (h : WellFormed ob) (order : Nat) :
    (ownLimits ob order).Nodup := by
  unfold ownLimits; split
  · exact h.bids_nodup
  · exact h.asks_nodup

/-! ## `PlaceMarketOrder`: the state after a successful call -/

theorem wellFormed_NewOrderBook (orders : Nat → Order) : WellFormed (NewOrderBook orders) := by
  constructor <;> simp [NewOrderBook]

theorem volumeInv_NewOrderBook (orders : Nat → Order) : VolumeInv (NewOrderBook orders) := by
  intro l hl
  simp [NewOrderBook] at hl

theorem wellFormed_clearLimits {ob : OrderBook} (h : WellFormed ob) (order : Nat) {ls : List Nat}
    (hnd : ls.Nodup) (hsub : ∀ l ∈ ls, l ∈ oppositeLimits ob order) :
    WellFormed (clearLimits ob order ls) := by
  unfold oppositeLimits at hsub
  by_cases hb : (ob.orderAt order).Bid = true
  · rw [if_pos hb] at hsub
    exact wellFormed_clearLimits_buy h order hb hnd hsub
  · rw [if_neg hb] at hsub
    exact wellFormed_clearLimits_sell h order (by simpa using hb) hnd hsub

theorem marketLoop_oppositeLimits (order : Nat) (ls : List Nat) (ob : OrderBook) :
    oppositeLimits (marketLoop order ls ob).1 order = oppositeLimits ob order := by
  unfold oppositeLimits
  rw [marketLoop_bid, marketLoop_asks, marketLoop_bids]

theorem opposite_oppositeLimits (ob : OrderBook) (order : Nat) :
    oppositeLimits (opposite ob order).1 order = (opposite ob order).2 := by
  unfold oppositeLimits
  rw [opposite_orderAt]
  unfold opposite
  by_cases hb : (ob.orderAt order).Bid = true
  · rw [if_pos hb, if_pos hb]; rfl
  · rw [if_neg hb, if_neg hb]; rfl

/-- The limits collected for clearing are listed on the side that was
traversed. -/
theorem marketLoop_clear_sub (ob : OrderBook) (order : Nat) :
    ∀ l ∈ (marketLoop order (opposite ob order).2 (opposite ob order).1).2.2,
      l ∈ oppositeLimits (marketLoop order (opposite ob order).2 (opposite ob order).1).1 order := by
  intro l hl
  rw [marketLoop_oppositeLimits, opposite_oppositeLimits]
  exact (marketLoop_clear_sublist _ _ _).subset hl

theorem wellFormed_PlaceMarketOrder {ob : OrderBook} (h : WellFormed ob) (order : Nat) :
    WellFormed (PlaceMarketOrder ob order).1 := by
  rw [PlaceMarketOrder_eq]
  split
  · exact h
  · refine wellFormed_clearLimits
      (marketLoop_wellFormed order _ (opposite_wellFormed h order) (opposite_snd_sub ob order)) order
      ((marketLoop_clear_sublist _ _ _).nodup (opposite_snd_nodup h order))
      (marketLoop_clear_sub ob order)

/-- The list of the traversed side after the last loop: the limits collected
for clearing are gone, the others stay. -/
theorem clearLimits_oppositeLimits (ob : OrderBook) (order : Nat) (ls : List Nat) :
    oppositeLimits (clearLimits ob order ls) order = (oppositeLimits ob order).diff ls := by
  unfold oppositeLimits
  rw [clearLimits_orderAt]
  by_cases hb : (ob.orderAt order).Bid = true
  · rw [if_pos hb, if_pos hb, clearLimits_buy_asks _ _ _ hb]
  · rw [if_neg hb, if_neg hb, clearLimits_sell_bids _ _ _ (by simpa using hb)]

theorem clearLimits_ownLimits (ob : OrderBook) (order : Nat) (ls : List Nat) :
    ownLimits (clearLimits ob order ls) order = ownLimits ob order := by
  unfold ownLimits
  rw [clearLimits_orderAt]
  by_cases hb : (ob.orderAt order).Bid = true
  · rw [if_pos hb, if_pos hb, clearLimits_buy_bids _ _ _ hb]
  · rw [if_neg hb, if_neg hb, clearLimits_sell_asks _ _ _ (by simpa using hb)]

theorem mem_book_iff (ob : OrderBook) (order l : Nat) :
    l ∈ ob.asks ++ ob.bids ↔ l ∈ oppositeLimits ob order ∨ l ∈ ownLimits ob order := by
  unfold oppositeLimits ownLimits
  rw [List.mem_append]
  split
  · rfl
  · exact or_comm

theorem marketLoop_ownLimits (order : Nat) (ls : List Nat) (ob : OrderBook) :
    ownLimits (marketLoop order ls ob).1 order = ownLimits ob order := by
  unfold ownLimits
  rw [marketLoop_bid, marketLoop_asks, marketLoop_bids]

theorem opposite_ownLimits (ob : OrderBook) (order : Nat) :
    ownLimits (opposite ob order).1 order = ownLimits ob order := by
  unfold ownLimits
  rw [opposite_orderAt]
  unfold opposite
  by_cases hb : (ob.orderAt order).Bid = true
  · rw [if_pos hb, if_pos hb, if_pos hb]; rfl
  · rw [if_neg hb, if_neg hb, if_neg hb]; rfl

/-- After a successful call, the listed limits are the limits that were listed
before and were not collected for clearing. -/
theorem PlaceMarketOrder_mem_book {ob : OrderBook} (h : WellFormed ob) (order l : Nat)
    (hle : (ob.orderAt order).Size ≤ oppositeVolume ob order) :
    l ∈ (PlaceMarketOrder ob order).1.asks ++ (PlaceMarketOrder ob order).1.bids ↔
      l ∈ ob.asks ++ ob.bids ∧
        l ∉ (marketLoop order (opposite ob order).2 (opposite ob order).1).2.2 := by
  rw [PlaceMarketOrder_ok ob order hle]
  simp only []
  rw [mem_book_iff _ order, clearLimits_oppositeLimits, clearLimits_ownLimits,
    marketLoop_oppositeLimits, marketLoop_ownLimits, opposite_oppositeLimits, opposite_ownLimits,
    (opposite_snd_nodup h order).mem_diff_iff, (opposite_snd ob order).mem_iff,
    mem_book_iff ob order]
  constructor
  · rintro (⟨h1, h2⟩ | h1)
    · exact ⟨Or.inl h1, h2⟩
    · refine ⟨Or.inr h1, ?_⟩
      intro hc
      have hopp : l ∈ oppositeLimits ob order :=
        (opposite_snd ob order).mem_iff.1 ((marketLoop_clear_sublist _ _ _).subset hc)
      unfold oppositeLimits at hopp
      unfold ownLimits at h1
      by_cases hb : (ob.orderAt order).Bid = true
      · rw [if_pos hb] at hopp h1; exact h.disjoint l hopp h1
      · rw [if_neg hb] at hopp h1; exact h.disjoint l h1 hopp
  · rintro ⟨h1 | h1, h2⟩
    · exact Or.inl ⟨h1, h2⟩
    · exact Or.inr h1

theorem PlaceMarketOrder_orderAt (ob : OrderBook) (order : Nat)
    (hle : (ob.orderAt order).Size ≤ oppositeVolume ob order) :
    (PlaceMarketOrder ob order).1.orderAt =
      (marketLoop order (opposite ob order).2 (opposite ob order).1).1.orderAt := by
  rw [PlaceMarketOrder_ok ob order hle]
  exact clearLimits_orderAt _ _ _

theorem PlaceMarketOrder_limitAt (ob : OrderBook) (order : Nat)
    (hle : (ob.orderAt order).Size ≤ oppositeVolume ob order) :
    (PlaceMarketOrder ob order).1.limitAt =
      (marketLoop order (opposite ob order).2 (opposite ob order).1).1.limitAt := by
  rw [PlaceMarketOrder_ok ob order hle]
  exact clearLimits_limitAt _ _ _

/-- A market order that passes the volume check on a well-formed book with the
volume invariant ends filled. -/
theorem marketLoop_fills {ob : OrderBook} (hwf : WellFormed ob) (hv : VolumeInv ob) (order : Nat)
    (h0 : 0 ≤ (ob.orderAt order).Size)
    (hle : (ob.orderAt order).Size ≤ oppositeVolume ob order) :
    ((marketLoop order (opposite ob order).2 (opposite ob order).1).1.orderAt order).Size = 0 := by
  have hfree := opposite_snd_free hwf order
  have hT := marketLoop_taker order (opposite ob order).2 (opposite ob order).1 hfree
  have hN := marketLoop_taker_nonneg order (opposite ob order).2 (opposite ob order).1 hfree
    (by rw [opposite_orderAt]; exact h0)
  rw [opposite_orderAt] at hT
  by_contra hopen
  have hF := marketLoop_open order (opposite ob order).2 (opposite_wellFormed hwf order)
    (opposite_snd_nodup hwf order) (opposite_snd_sub ob order) hfree
    (opposite_volumeOn hv order _ (fun l hl =>
      oppositeLimits_sub ob order l ((opposite_snd ob order).mem_iff.1 hl))) hopen
  rw [opposite_snd_volume] at hF
  omega

/-! ## Price priority -/

theorem CancelOrder_nil (ob : OrderBook) (order : Nat) (h : (ob.orderAt order).Limit = none) :
    CancelOrder ob order = (setIndex ob (ob.orderAt order).ID none, .error .nilPointer) := by
  unfold CancelOrder
  rw [h]

theorem CancelOrder_some (ob : OrderBook) (order l : Nat) (h : (ob.orderAt order).Limit = some l) :
    CancelOrder ob order =
      (if ((DeleteOrder (setIndex ob (ob.orderAt order).ID none) l order).limitAt l).Orders = [] then
          clearLimit (DeleteOrder (setIndex ob (ob.orderAt order).ID none) l order)
            (ob.orderAt order).Bid l
        else DeleteOrder (setIndex ob (ob.orderAt order).ID none) l order,
       .ok ()) := by
  unfold CancelOrder
  rw [h]
  simp only [List.length_eq_zero, DeleteOrder_bid, setIndex_orderAt]
  split <;> rfl

theorem CancelOrder_result (ob : OrderBook) (order l : Nat)
    (h : (ob.orderAt order).Limit = some l) : (CancelOrder ob order).2 = .ok () := by
  rw [CancelOrder_some ob order l h]

theorem CancelOrder_orderAt (ob : OrderBook) (order l : Nat)
    (h : (ob.orderAt order).Limit = some l) :
    (CancelOrder ob order).1.orderAt =
      Function.update ob.orderAt order { ob.orderAt order with Limit := none } := by
  rw [CancelOrder_some ob order l h]
  simp only []
  split
  · rw [clearLimit_orderAt, DeleteOrder_orderAt]; rfl
  · rw [DeleteOrder_orderAt]; rfl

theorem CancelOrder_limitAt (ob : OrderBook) (order l : Nat)
    (h : (ob.orderAt order).Limit = some l) :
    (CancelOrder ob order).1.limitAt =
      Function.update ob.limitAt l
        { Price := (ob.limitAt l).Price
          Orders := sortOrders ob ((ob.limitAt l).Orders.erase order)
          TotalVolume := (ob.limitAt l).TotalVolume - (ob.orderAt order).Size } := by
  have hd : (DeleteOrder (setIndex ob (ob.orderAt order).ID none) l order).limitAt =
      Function.update ob.limitAt l
        { Price := (ob.limitAt l).Price
          Orders := sortOrders ob ((ob.limitAt l).Orders.erase order)
          TotalVolume := (ob.limitAt l).TotalVolume - (ob.orderAt order).Size } := by
    rw [DeleteOrder_limitAt]
    rfl
  rw [CancelOrder_some ob order l h]
  simp only []
  split
  · rw [clearLimit_limitAt, hd]
  · rw [hd]

theorem CancelOrder_Orders (ob : OrderBook) (order l : Nat)
    (h : (ob.orderAt order).Limit = some l) :
    (CancelOrder ob order).1.Orders = Function.update ob.Orders (ob.orderAt order).ID none := by
  rw [CancelOrder_some ob order l h]
  simp only []
  split
  · rw [clearLimit_Orders, DeleteOrder_Orders]; rfl
  · rw [DeleteOrder_Orders]; rfl

theorem CancelOrder_queue (ob : OrderBook) (order l : Nat)
    (h : (ob.orderAt order).Limit = some l) :
    ((CancelOrder ob order).1.limitAt l).Orders = sortOrders ob ((ob.limitAt l).Orders.erase order) := by
  rw [CancelOrder_limitAt ob order l h, Function.update_same]

/-- The lists after `CancelOrder`: the limit is erased from the side named by
the order's `Bid` flag exactly when its queue became empty. -/
theorem CancelOrder_bids (ob : OrderBook) (order l : Nat)
    (h : (ob.orderAt order).Limit = some l) :
    (CancelOrder ob order).1.bids =
      if ((CancelOrder ob order).1.limitAt l).Orders = [] ∧ (ob.orderAt order).Bid = true then
        ob.bids.erase l
      else ob.bids := by
  rw [CancelOrder_queue ob order l h]
  rw [CancelOrder_some ob order l h]
  simp only []
  rw [DeleteOrder_queue, if_pos rfl]
  simp only [setIndex_limitAt, setIndex_orderAt]
  by_cases hq : sortOrders ob ((ob.limitAt l).Orders.erase order) = []
  · have hq' : sortOrders (setIndex ob (ob.orderAt order).ID none)
        ((ob.limitAt l).Orders.erase order) = [] := hq
    rw [if_pos hq']
    by_cases hb : (ob.orderAt order).Bid = true
    · rw [if_pos ⟨hq, hb⟩, hb]; rfl
    · rw [if_neg (fun hc => hb hc.2)]
      have hb' : (ob.orderAt order).Bid = false := by simpa using hb
      rw [hb']; rfl
  · have hq' : ¬ sortOrders (setIndex ob (ob.orderAt order).ID none)
        ((ob.limitAt l).Orders.erase order) = [] := hq
    rw [if_neg hq', if_neg (fun hc => hq hc.1)]; rfl

theorem CancelOrder_asks (ob : OrderBook) (order l : Nat)
    (h : (ob.orderAt order).Limit = some l) :
    (CancelOrder ob order).1.asks =
      if ((CancelOrder ob order).1.limitAt l).Orders = [] ∧ (ob.orderAt order).Bid = false then
        ob.asks.erase l
      else ob.asks := by
  rw [CancelOrder_queue ob order l h]
  rw [CancelOrder_some ob order l h]
  simp only []
  rw [DeleteOrder_queue, if_pos rfl]
  simp only [setIndex_limitAt, setIndex_orderAt]
  by_cases hq : sortOrders ob ((ob.limitAt l).Orders.erase order) = []
  · have hq' : sortOrders (setIndex ob (ob.orderAt order).ID none)
        ((ob.limitAt l).Orders.erase order) = [] := hq
    rw [if_pos hq']
    by_cases hb : (ob.orderAt order).Bid = true
    · rw [if_neg (fun hc => by rw [hb] at hc; exact Bool.noConfusion hc.2), hb]; rfl
    · have hb' : (ob.orderAt order).Bid = false := by simpa using hb
      rw [if_pos ⟨hq, hb'⟩, hb']; rfl
  · have hq' : ¬ sortOrders (setIndex ob (ob.orderAt order).ID none)
        ((ob.limitAt l).Orders.erase order) = [] := hq
    rw [if_neg hq', if_neg (fun hc => hq hc.1)]; rfl

theorem CancelOrder_BidLimits (ob : OrderBook) (order l : Nat)
    (h : (ob.orderAt order).Limit = some l) :
    (CancelOrder ob order).1.BidLimits =
      if ((CancelOrder ob order).1.limitAt l).Orders = [] ∧ (ob.orderAt order).Bid = true then
        Function.update ob.BidLimits (ob.limitAt l).Price none
      else ob.BidLimits := by
  rw [CancelOrder_queue ob order l h]
  rw [CancelOrder_some ob order l h]
  simp only []
  rw [DeleteOrder_queue, if_pos rfl]
  simp only [setIndex_limitAt, setIndex_orderAt]
  by_cases hq : sortOrders ob ((ob.limitAt l).Orders.erase order) = []
  · have hq' : sortOrders (setIndex ob (ob.orderAt order).ID none)
        ((ob.limitAt l).Orders.erase order) = [] := hq
    rw [if_pos hq']
    by_cases hb : (ob.orderAt order).Bid = true
    · rw [if_pos ⟨hq, hb⟩, hb, clearLimit_bid_BidLimits, DeleteOrder_price]; rfl
    · rw [if_neg (fun hc => hb hc.2)]
      have hb' : (ob.orderAt order).Bid = false := by simpa using hb
      rw [hb']; rfl
  · have hq' : ¬ sortOrders (setIndex ob (ob.orderAt order).ID none)
        ((ob.limitAt l).Orders.erase order) = [] := hq
    rw [if_neg hq', if_neg (fun hc => hq hc.1)]; rfl

theorem CancelOrder_AskLimits (ob : OrderBook) (order l : Nat)
    (h : (ob.orderAt order).Limit = some l) :
    (CancelOrder ob order).1.AskLimits =
      if ((CancelOrder ob order).1.limitAt l).Orders = [] ∧ (ob.orderAt order).Bid = false then
        Function.update ob.AskLimits (ob.limitAt l).Price none
      else ob.AskLimits := by
  rw [CancelOrder_queue ob order l h]
  rw [CancelOrder_some ob order l h]
  simp only []
  rw [DeleteOrder_queue, if_pos rfl]
  simp only [setIndex_limitAt, setIndex_orderAt]
  by_cases hq : sortOrders ob ((ob.limitAt l).Orders.erase order) = []
  · have hq' : sortOrders (setIndex ob (ob.orderAt order).ID none)
        ((ob.limitAt l).Orders.erase order) = [] := hq
    rw [if_pos hq']
    by_cases hb : (ob.orderAt order).Bid = true
    · rw [if_neg (fun hc => by rw [hb] at hc; exact Bool.noConfusion hc.2), hb]; rfl
    · have hb' : (ob.orderAt order).Bid = false := by simpa using hb
      rw [if_pos ⟨hq, hb'⟩, hb', clearLimit_ask_AskLimits, DeleteOrder_price]; rfl
  · have hq' : ¬ sortOrders (setIndex ob (ob.orderAt order).ID none)
        ((ob.limitAt l).Orders.erase order) = [] := hq
    rw [if_neg hq', if_neg (fun hc => hq hc.1)]; rfl

/-- In a well-formed book the limit of a resting order is listed on the side of
the order's `Bid` flag. -/
theorem resting_side {ob : OrderBook} (h : WellFormed ob) {order l : Nat}
    (hl : l ∈ ob.asks ++ ob.bids) (ho : order ∈ (ob.limitAt l).Orders) :
    l ∈ ownLimits ob order := by
  unfold ownLimits
  rcases List.mem_append.1 hl with h1 | h1
  · rw [h.ask_side l h1 order ho]; simpa using h1
  · rw [h.bid_side l h1 order ho]; simpa using h1

/-- After `CancelOrder` the listed limits are the limits listed before, without
the order's limit when its queue became empty. -/
theorem CancelOrder_mem_book {ob : OrderBook} (h : WellFormed ob) {order l : Nat}
    (hl : l ∈ ob.asks ++ ob.bids) (hb : (ob.orderAt order).Limit = some l)
    (ho : order ∈ (ob.limitAt l).Orders) (l' : Nat) :
    l' ∈ (CancelOrder ob order).1.asks ++ (CancelOrder ob order).1.bids ↔
      l' ∈ ob.asks ++ ob.bids ∧ (l' = l → ((CancelOrder ob order).1.limitAt l).Orders ≠ []) := by
  rw [CancelOrder_asks ob order l hb, CancelOrder_bids ob order l hb]
  have hside := resting_side h hl ho
  unfold ownLimits at hside
  by_cases hq : ((CancelOrder ob order).1.limitAt l).Orders = []
  · by_cases hbid : (ob.orderAt order).Bid = true
    · rw [if_pos hbid] at hside
      rw [if_neg (fun hc => by rw [hbid] at hc; exact Bool.noConfusion hc.2), if_pos ⟨hq, hbid⟩,
        List.mem_append, List.mem_append, h.bids_nodup.mem_erase_iff]
      constructor
      · rintro (h1 | ⟨h1, h2⟩)
        · exact ⟨Or.inl h1, fun he => absurd hside (h.disjoint l (he ▸ h1))⟩
        · exact ⟨Or.inr h2, fun he => absurd he h1⟩
      · rintro ⟨h1 | h1, h2⟩
        · exact Or.inl h1
        · exact Or.inr ⟨fun he => h2 he hq, h1⟩
    · rw [if_neg hbid] at hside
      have hb' : (ob.orderAt order).Bid = false := by simpa using hbid
      rw [if_pos ⟨hq, hb'⟩, if_neg (fun hc => hbid hc.2),
        List.mem_append, List.mem_append, h.asks_nodup.mem_erase_iff]
      constructor
      · rintro (⟨h1, h2⟩ | h1)
        · exact ⟨Or.inl h2, fun he => absurd he h1⟩
        · exact ⟨Or.inr h1, fun he => absurd (he ▸ h1) (h.disjoint l hside)⟩
      · rintro ⟨h1 | h1, h2⟩
        · exact Or.inl ⟨fun he => h2 he hq, h1⟩
        · exact Or.inr h1
  · rw [if_neg (fun hc => hq hc.1), if_neg (fun hc => hq hc.1)]
    exact ⟨fun h1 => ⟨h1, fun _ => hq⟩, fun h1 => h1.1⟩

/-! ## The volume invariant through the operations -/

theorem not_resting_free {ob : OrderBook} (h : WellFormed ob) {order : Nat}
    (hr : ¬ Resting ob order) : ∀ l ∈ ob.asks ++ ob.bids, order ∉ (ob.limitAt l).Orders :=
  fun l hl ho => hr ⟨l, hl, h.backref l hl order ho, ho⟩

theorem volumeInv_PlaceMarketOrder {ob : OrderBook} (hwf : WellFormed ob) (hv : VolumeInv ob)
    {order : Nat} (hr : ¬ Resting ob order) : VolumeInv (PlaceMarketOrder ob order).1 := by
  by_cases hle : (ob.orderAt order).Size ≤ oppositeVolume ob order
  · have hfree := not_resting_free hwf hr
    have hL : ∀ l' ∈ ob.asks ++ ob.bids,
        l' ∈ (opposite ob order).1.asks ++ (opposite ob order).1.bids :=
      fun l' hl' => (opposite_mem_book ob order l').2 hl'
    have hvl := marketLoop_volumeOn order (opposite ob order).2 (opposite_wellFormed hwf order) hL
      (fun l hl => oppositeLimits_sub ob order l ((opposite_snd ob order).mem_iff.1 hl))
      (fun l' hl' => by rw [opposite_limitAt]; exact hfree l' hl')
      (opposite_volumeOn hv order _ (fun _ hl => hl))
    intro l hl
    have hmem := ((PlaceMarketOrder_mem_book hwf order l hle).1 hl).1
    rw [PlaceMarketOrder_limitAt ob order hle]
    rw [queueVolume_congr (marketLoop order (opposite ob order).2 (opposite ob order).1).1
      (PlaceMarketOrder ob order).1 _ (fun o _ => by rw [PlaceMarketOrder_orderAt ob order hle])]
    exact hvl l hmem
  · rw [PlaceMarketOrder_eq, if_pos (not_le.1 hle)]
    exact hv

theorem volumeInv_CancelOrder {ob : OrderBook} (hwf : WellFormed ob) (hv : VolumeInv ob)
    {order : Nat} (hr : Resting ob order) : VolumeInv (CancelOrder ob order).1 := by
  obtain ⟨l, hl, hb, ho⟩ := hr
  intro l' hl'
  have hmem := ((CancelOrder_mem_book hwf hl hb ho l').1 hl').1
  have hsize : ∀ q, queueVolume (CancelOrder ob order).1 q = queueVolume ob q := by
    intro q
    apply queueVolume_congr
    intro o _
    rw [CancelOrder_orderAt ob order l hb, Function.update_apply]
    split
    · subst_vars; rfl
    · rfl
  rw [hsize, CancelOrder_limitAt ob order l hb, Function.update_apply]
  split
  · simp only []
    rw [queueVolume_perm ob (sortOrders_perm ob _), queueVolume_erase ob _ _ ho, hv l hl]
  · exact hv l' hmem

/-! ## `PlaceLimitOrder`: what is written -/

theorem placedLimit_found (ob : OrderBook) (price : Int) (order l : Nat)
    (h : lookupLimit ob price order = some l) : placedLimit ob price order = l := by
  unfold placedLimit; rw [h]

theorem placedLimit_new (ob : OrderBook) (price : Int) (order : Nat)
    (h : lookupLimit ob price order = none) : placedLimit ob price order = ob.nextLimit := by
  unfold placedLimit; rw [h]

theorem PlaceLimitOrder_orderAt (ob : OrderBook) (price : Int) (order : Nat) :
    (PlaceLimitOrder ob price order).orderAt =
      Function.update ob.orderAt order
        { ob.orderAt order with Limit := some (placedLimit ob price order) } := by
  cases hf : lookupLimit ob price order with
  | some l =>
    rw [PlaceLimitOrder_found _ _ _ _ hf, placedLimit_found _ _ _ _ hf, addOrder_orderAt]; rfl
  | none =>
    rw [PlaceLimitOrder_new _ _ _ hf, placedLimit_new _ _ _ hf, addOrder_orderAt]
    simp only [setIndex_orderAt, registerLimit_orderAt]

theorem PlaceLimitOrder_size (ob : OrderBook) (price : Int) (order o : Nat) :
    ((PlaceLimitOrder ob price order).orderAt o).Size = (ob.orderAt o).Size := by
  rw [PlaceLimitOrder_orderAt, Function.update_apply]
  split
  · subst_vars; rfl
  · rfl

theorem PlaceLimitOrder_bid (ob : OrderBook) (price : Int) (order o : Nat) :
    ((PlaceLimitOrder ob price order).orderAt o).Bid = (ob.orderAt o).Bid := by
  rw [PlaceLimitOrder_orderAt, Function.update_apply]
  split
  · subst_vars; rfl
  · rfl

theorem PlaceLimitOrder_limitAt_found (ob : OrderBook) (price : Int) (order l : Nat)
    (hf : lookupLimit ob price order = some l) :
    (PlaceLimitOrder ob price order).limitAt =
      Function.update ob.limitAt l
        { Price := (ob.limitAt l).Price
          Orders := (ob.limitAt l).Orders ++ [order]
          TotalVolume := (ob.limitAt l).TotalVolume + (ob.orderAt order).Size } := by
  rw [PlaceLimitOrder_found _ _ _ _ hf, addOrder_limitAt]; rfl

theorem PlaceLimitOrder_limitAt_new (ob : OrderBook) (price : Int) (order : Nat)
    (hf : lookupLimit ob price order = none) :
    (PlaceLimitOrder ob price order).limitAt =
      Function.update ob.limitAt ob.nextLimit
        { Price := price
          Orders := [order]
          TotalVolume := (ob.orderAt order).Size } := by
  rw [PlaceLimitOrder_new _ _ _ hf, addOrder_limitAt]
  simp only [setIndex_limitAt, setIndex_orderAt, registerLimit_limitAt, registerLimit_orderAt,
    Function.update_same, Function.update_idem, List.nil_append, zero_add]

theorem PlaceLimitOrder_limitAt_other (ob : OrderBook) (price : Int) (order l : Nat)
    (h : l ≠ placedLimit ob price order) :
    (PlaceLimitOrder ob price order).limitAt l = ob.limitAt l := by
  cases hf : lookupLimit ob price order with
  | some l0 =>
    rw [placedLimit_found _ _ _ _ hf] at h
    rw [PlaceLimitOrder_limitAt_found _ _ _ _ hf, Function.update_noteq h]
  | none =>
    rw [placedLimit_new _ _ _ hf] at h
    rw [PlaceLimitOrder_limitAt_new _ _ _ hf, Function.update_noteq h]

theorem PlaceLimitOrder_asks (ob : OrderBook) (price : Int) (order : Nat) :
    (PlaceLimitOrder ob price order).asks =
      if lookupLimit ob price order = none ∧ (ob.orderAt order).Bid = false then
        ob.asks ++ [ob.nextLimit]
      else ob.asks := by
  cases hf : lookupLimit ob price order with
  | some l0 =>
    rw [PlaceLimitOrder_found _ _ _ _ hf, addOrder_asks, if_neg (fun hc => by cases hc.1)]; rfl
  | none =>
    rw [PlaceLimitOrder_new _ _ _ hf, addOrder_asks, setIndex_asks, registerLimit_asks]
    by_cases hb : (ob.orderAt order).Bid = true
    · rw [if_pos hb, if_neg (fun hc => by rw [hb] at hc; exact Bool.noConfusion hc.2)]
    · have hb' : (ob.orderAt order).Bid = false := by simpa using hb
      rw [if_neg hb, if_pos ⟨rfl, hb'⟩]

theorem PlaceLimitOrder_bids (ob : OrderBook) (price : Int) (order : Nat) :
    (PlaceLimitOrder ob price order).bids =
      if lookupLimit ob price order = none ∧ (ob.orderAt order).Bid = true then
        ob.bids ++ [ob.nextLimit]
      else ob.bids := by
  cases hf : lookupLimit ob price order with
  | some l0 =>
    rw [PlaceLimitOrder_found _ _ _ _ hf, addOrder_bids, if_neg (fun hc => by cases hc.1)]; rfl
  | none =>
    rw [PlaceLimitOrder_new _ _ _ hf, addOrder_bids, setIndex_bids, registerLimit_bids]
    by_cases hb : (ob.orderAt order).Bid = true
    · rw [if_pos hb, if_pos ⟨rfl, hb⟩]
    · rw [if_neg hb, if_neg (fun hc => hb hc.2)]

theorem PlaceLimitOrder_AskLimits (ob : OrderBook) (price : Int) (order : Nat) :
    (PlaceLimitOrder ob price order).AskLimits =
      if lookupLimit ob price order = none ∧ (ob.orderAt order).Bid = false then
        Function.update ob.AskLimits price (some ob.nextLimit)
      else ob.AskLimits := by
  cases hf : lookupLimit ob price order with
  | some l0 =>
    rw [PlaceLimitOrder_found _ _ _ _ hf, addOrder_AskLimits, if_neg (fun hc => by cases hc.1)]; rfl
  | none =>
    rw [PlaceLimitOrder_new _ _ _ hf, addOrder_AskLimits, setIndex_AskLimits,
      registerLimit_AskLimits]
    by_cases hb : (ob.orderAt order).Bid = true
    · rw [if_pos hb, if_neg (fun hc => by rw [hb] at hc; exact Bool.noConfusion hc.2)]
    · have hb' : (ob.orderAt order).Bid = false := by simpa using hb
      rw [if_neg hb, if_pos ⟨rfl, hb'⟩]

theorem PlaceLimitOrder_BidLimits (ob : OrderBook) (price : Int) (order : Nat) :
    (PlaceLimitOrder ob price order).BidLimits =
      if lookupLimit ob price order = none ∧ (ob.orderAt order).Bid = true then
        Function.update ob.BidLimits price (some ob.nextLimit)
      else ob.BidLimits := by
  cases hf : lookupLimit ob price order with
  | some l0 =>
    rw [PlaceLimitOrder_found _ _ _ _ hf, addOrder_BidLimits, if_neg (fun hc => by cases hc.1)]; rfl
  | none =>
    rw [PlaceLimitOrder_new _ _ _ hf, addOrder_BidLimits, setIndex_BidLimits,
      registerLimit_BidLimits]
    by_cases hb : (ob.orderAt order).Bid = true
    · rw [if_pos hb, if_pos ⟨rfl, hb⟩]
    · rw [if_neg hb, if_neg (fun hc => hb hc.2)]

theorem PlaceMarketOrder_nextLimit (ob : OrderBook) (order : Nat) :
    (PlaceMarketOrder ob order).1.nextLimit = ob.nextLimit := by
  rw [PlaceMarketOrder_eq]
  split
  · rfl
  · simp only []
    rw [clearLimits_nextLimit, marketLoop_nextLimit, opposite_nextLimit]

theorem noEmpty_PlaceMarketOrder {ob : OrderBook} (h : WellFormed ob) (hn : NoEmptyLimit ob)
    (order : Nat) : NoEmptyLimit (PlaceMarketOrder ob order).1 := by
  by_cases hle : (ob.orderAt order).Size ≤ oppositeVolume ob order
  · intro l hl
    obtain ⟨h1, h2⟩ := (PlaceMarketOrder_mem_book h order l hle).1 hl
    rw [PlaceMarketOrder_limitAt ob order hle]
    exact marketLoop_not_cleared order _ _ (opposite_snd_nodup h order) l
      (by rw [opposite_limitAt]; exact hn l h1) h2
  · rw [PlaceMarketOrder_eq, if_pos (not_le.1 hle)]
    exact hn

theorem sum_map_erase (L : List Nat) (f : Nat → Int) (l : Nat) (hl : l ∈ L) :
    ((L.erase l).map f).sum = (L.map f).sum - f l := by
  rw [((List.perm_cons_erase hl).map f).sum_eq]
  simp only [List.map_cons, List.sum_cons]
  omega

theorem CancelOrder_bid (ob : OrderBook) (order l : Nat) (h : (ob.orderAt order).Limit = some l)
    (o : Nat) : ((CancelOrder ob order).1.orderAt o).Bid = (ob.orderAt o).Bid := by
  rw [CancelOrder_orderAt ob order l h, Function.update_apply]
  split
  · subst_vars; rfl
  · rfl

theorem CancelOrder_size (ob : OrderBook) (order l : Nat) (h : (ob.orderAt order).Limit = some l)
    (o : Nat) : ((CancelOrder ob order).1.orderAt o).Size = (ob.orderAt o).Size := by
  rw [CancelOrder_orderAt ob order l h, Function.update_apply]
  split
  · subst_vars; rfl
  · rfl

theorem CancelOrder_ownLimits (ob : OrderBook) (order l : Nat)
    (h : (ob.orderAt order).Limit = some l) :
    ownLimits (CancelOrder ob order).1 order =
      if ((CancelOrder ob order).1.limitAt l).Orders = [] then (ownLimits ob order).erase l
      else ownLimits ob order := by
  unfold ownLimits
  rw [CancelOrder_bid ob order l h, CancelOrder_asks ob order l h, CancelOrder_bids ob order l h]
  by_cases hb : (ob.orderAt order).Bid = true
  · simp only [hb, if_true, and_true]
  · have hb' : (ob.orderAt order).Bid = false := by simpa using hb
    simp only [hb', and_true, Bool.false_eq_true, if_false]

theorem CancelOrder_oppositeLimits (ob : OrderBook) (order l : Nat)
    (h : (ob.orderAt order).Limit = some l) :
    oppositeLimits (CancelOrder ob order).1 order = oppositeLimits ob order := by
  unfold oppositeLimits
  rw [CancelOrder_bid ob order l h, CancelOrder_asks ob order l h, CancelOrder_bids ob order l h]
  by_cases hb : (ob.orderAt order).Bid = true
  · simp [hb]
  · have hb' : (ob.orderAt order).Bid = false := by simpa using hb
    simp [hb']

theorem CancelOrder_ownMap (ob : OrderBook) (order l : Nat)
    (h : (ob.orderAt order).Limit = some l) :
    ownMap (CancelOrder ob order).1 order =
      if ((CancelOrder ob order).1.limitAt l).Orders = [] then
        Function.update (ownMap ob order) (ob.limitAt l).Price none
      else ownMap ob order := by
  unfold ownMap
  rw [CancelOrder_bid ob order l h, CancelOrder_AskLimits ob order l h,
    CancelOrder_BidLimits ob order l h]
  by_cases hb : (ob.orderAt order).Bid = true
  · simp only [hb, if_true, and_true]
  · have hb' : (ob.orderAt order).Bid = false := by simpa using hb
    simp only [hb', and_true, Bool.false_eq_true, if_false]

theorem CancelOrder_oppositeMap (ob : OrderBook) (order l : Nat)
    (h : (ob.orderAt order).Limit = some l) :
    oppositeMap (CancelOrder ob order).1 order = oppositeMap ob order := by
  unfold oppositeMap
  rw [CancelOrder_bid ob order l h, CancelOrder_AskLimits ob order l h,
    CancelOrder_BidLimits ob order l h]
  by_cases hb : (ob.orderAt order).Bid = true
  · simp [hb]
  · have hb' : (ob.orderAt order).Bid = false := by simpa using hb
    simp [hb']

theorem own_not_opposite {ob : OrderBook} (h : WellFormed ob) {order l : Nat}
    (hl : l ∈ ownLimits ob order) : l ∉ oppositeLimits ob order := by
  unfold ownLimits at hl
  unfold oppositeLimits
  by_cases hb : (ob.orderAt order).Bid = true
  · rw [if_pos hb] at hl ⊢
    exact fun ha => h.disjoint l ha hl
  · rw [if_neg hb] at hl ⊢
    exact h.disjoint l hl

theorem oppositeLimits_nodup {ob : OrderBook} (h : WellFormed ob) (order : Nat) :
    (oppositeLimits ob order).Nodup := by
  unfold oppositeLimits; split
  · exact h.asks_nodup
  · exact h.bids_nodup

/-- The total volume of the order's own side drops by the order's size. -/
theorem CancelOrder_ownVolume {ob : OrderBook} (hwf : WellFormed ob) (hv : VolumeInv ob)
    {order l : Nat} (hl : l ∈ ob.asks ++ ob.bids) (hb : (ob.orderAt order).Limit = some l)
    (ho : order ∈ (ob.limitAt l).Orders) :
    ownVolume (CancelOrder ob order).1 order = ownVolume ob order - (ob.orderAt order).Size := by
  have hown := resting_side hwf hl ho
  have hnd := ownLimits_nodup hwf order
  rw [ownVolume_eq, ownVolume_eq, CancelOrder_ownLimits ob order l hb]
  have hother : ∀ x, x ≠ l →
      ((CancelOrder ob order).1.limitAt x).TotalVolume = (ob.limitAt x).TotalVolume := by
    intro x hx
    rw [CancelOrder_limitAt ob order l hb, Function.update_noteq hx]
  have hat : ((CancelOrder ob order).1.limitAt l).TotalVolume =
      (ob.limitAt l).TotalVolume + (-(ob.orderAt order).Size) := by
    rw [CancelOrder_limitAt ob order l hb, Function.update_same]
    simp only []
    omega
  by_cases hq : ((CancelOrder ob order).1.limitAt l).Orders = []
  · rw [if_pos hq]
    have h1 : ((ownLimits ob order).erase l).map
          (fun x => ((CancelOrder ob order).1.limitAt x).TotalVolume) =
        ((ownLimits ob order).erase l).map (fun x => (ob.limitAt x).TotalVolume) :=
      List.map_congr_left (fun x hx => hother x (hnd.mem_erase_iff.1 hx).1)
    rw [h1, sum_map_erase _ _ l hown, hv l hl]
    rw [CancelOrder_queue ob order l hb] at hq
    have he : (ob.limitAt l).Orders.erase order = [] :=
      ((sortOrders_perm ob _).symm.trans (by rw [hq])).eq_nil
    rw [queueVolume_perm ob (List.perm_cons_erase ho), he, queueVolume_cons, queueVolume_nil]
    omega
  · rw [if_neg hq]
    rw [sum_map_shift (ownLimits ob order) (fun x => (ob.limitAt x).TotalVolume)
      (fun x => ((CancelOrder ob order).1.limitAt x).TotalVolume) l (-(ob.orderAt order).Size)
      hnd hown (fun x _ hx => hother x hx) hat]
    omega

theorem CancelOrder_oppositeVolume {ob : OrderBook} (hwf : WellFormed ob)
    {order l : Nat} (hl : l ∈ ob.asks ++ ob.bids) (hb : (ob.orderAt order).Limit = some l)
    (ho : order ∈ (ob.limitAt l).Orders) :
    oppositeVolume (CancelOrder ob order).1 order = oppositeVolume ob order := by
  have hown := resting_side hwf hl ho
  rw [oppositeVolume_eq, oppositeVolume_eq, CancelOrder_oppositeLimits ob order l hb]
  apply sum_map_same
  intro x hx
  have hne : x ≠ l := fun he => own_not_opposite hwf hown (he ▸ hx)
  rw [CancelOrder_limitAt ob order l hb, Function.update_noteq hne]

theorem PlaceLimitOrder_ownLimits (ob : OrderBook) (price : Int) (order : Nat) :
    ownLimits (PlaceLimitOrder ob price order) order =
      if lookupLimit ob price order = none then ownLimits ob order ++ [ob.nextLimit]
      else ownLimits ob order := by
  unfold ownLimits
  rw [PlaceLimitOrder_bid, PlaceLimitOrder_asks, PlaceLimitOrder_bids]
  by_cases hb : (ob.orderAt order).Bid = true
  · simp only [hb, if_true, and_true]
  · have hb' : (ob.orderAt order).Bid = false := by simpa using hb
    simp only [hb', and_true, Bool.false_eq_true, if_false]

theorem PlaceLimitOrder_oppositeLimits (ob : OrderBook) (price : Int) (order : Nat) :
    oppositeLimits (PlaceLimitOrder ob price order) order = oppositeLimits ob order := by
  unfold oppositeLimits
  rw [PlaceLimitOrder_bid, PlaceLimitOrder_asks, PlaceLimitOrder_bids]
  by_cases hb : (ob.orderAt order).Bid = true
  · simp [hb]
  · have hb' : (ob.orderAt order).Bid = false := by simpa using hb
    simp [hb']

theorem PlaceLimitOrder_oppositeMap (ob : OrderBook) (price : Int) (order : Nat) :
    oppositeMap (PlaceLimitOrder ob price order) order = oppositeMap ob order := by
  unfold oppositeMap
  rw [PlaceLimitOrder_bid, PlaceLimitOrder_AskLimits, PlaceLimitOrder_BidLimits]
  by_cases hb : (ob.orderAt order).Bid = true
  · simp [hb]
  · have hb' : (ob.orderAt order).Bid = false := by simpa using hb
    simp [hb']

theorem ownLimits_fresh {ob : OrderBook} (hwf : WellFormed ob) (order : Nat) :
    ob.nextLimit ∉ ownLimits ob order :=
  fun hm => hwf.fresh (ownLimits_sub ob order _ hm)

/-- The total volume of the order's own side grows by the order's size. -/
theorem PlaceLimitOrder_ownVolume {ob : OrderBook} (hwf : WellFormed ob) (price : Int)
    (order : Nat) :
    ownVolume (PlaceLimitOrder ob price order) order =
      ownVolume ob order + (ob.orderAt order).Size := by
  rw [ownVolume_eq, ownVolume_eq, PlaceLimitOrder_ownLimits]
  cases hf : lookupLimit ob price order with
  | some l0 =>
    rw [if_neg (fun hc => by cases hc)]
    apply sum_map_shift _ _ _ l0 _ (ownLimits_nodup hwf order) (lookupLimit_found hwf hf).1
    · intro x _ hx
      rw [PlaceLimitOrder_limitAt_found _ _ _ _ hf, Function.update_noteq hx]
    · rw [PlaceLimitOrder_limitAt_found _ _ _ _ hf, Function.update_same]
  | none =>
    rw [if_pos rfl, List.map_append, List.sum_append]
    have h1 : (ownLimits ob order).map
          (fun x => ((PlaceLimitOrder ob price order).limitAt x).TotalVolume) =
        (ownLimits ob order).map (fun x => (ob.limitAt x).TotalVolume) :=
      List.map_congr_left (fun x hx => by
        rw [PlaceLimitOrder_limitAt_new _ _ _ hf,
          Function.update_noteq (fun he : x = ob.nextLimit => ownLimits_fresh hwf order (he ▸ hx))])
    rw [h1, PlaceLimitOrder_limitAt_new _ _ _ hf]
    simp

/-! ## Facts about the example states -/

theorem bidBook_volumeInv : VolumeInv bidBook :=
  volumeInv_PlaceLimitOrder
    (volumeInv_PlaceLimitOrder
      (volumeInv_PlaceLimitOrder (volumeInv_NewOrderBook exampleOrders) 10000 0) 9000 1) 5000 2

theorem crossBook_wellFormed : WellFormed crossBook :=
  wellFormed_PlaceLimitOrder
    (wellFormed_PlaceLimitOrder (wellFormed_NewOrderBook exampleOrders) 10 (by decide))
    20 (by decide)

theorem crossBook_volumeInv : VolumeInv crossBook :=
  volumeInv_PlaceLimitOrder (volumeInv_PlaceLimitOrder (volumeInv_NewOrderBook exampleOrders) 10 0) 20 5

theorem askBook_wellFormed : WellFormed askBook :=
  wellFormed_PlaceLimitOrder
    (wellFormed_PlaceLimitOrder (wellFormed_NewOrderBook exampleOrders) 10000 (by decide))
    9000 (by decide)

theorem bidBook_reachable : Reachable bidBook :=
  Reachable.limit 5000 2
    (Reachable.limit 9000 1
      (Reachable.limit 10000 0 (Reachable.init exampleOrders) (by decide)) (by decide))
    (by decide)

theorem drainedBook_reachable : Reachable drainedBook :=
  Reachable.market 4
    [{ Ask := 4, Bid := 0, SizeFilled := 5, Price := 10000 },
     { Ask := 4, Bid := 1, SizeFilled := 8, Price := 9000 },
     { Ask := 4, Bid := 2, SizeFilled := 5, Price := 5000 }] bidBook_reachable (by decide)

/-! ## Side totals through `PlaceMarketOrder` -/

theorem sum_map_diff_zero (f : Nat → Int) (L C : List Nat) (hz : ∀ c ∈ C, f c = 0) :
    ((L.diff C).map f).sum = (L.map f).sum := by
  induction C generalizing L with
  | nil => simp
  | cons c cs ih =>
    rw [List.diff_cons, ih _ (fun c' hc' => hz c' (List.mem_cons_of_mem _ hc'))]
    by_cases hc : c ∈ L
    · rw [sum_map_erase L f c hc, hz c (List.mem_cons_self _ _)]; omega
    · rw [List.erase_of_not_mem hc]

/-- The volumes of the limits visited drop, in total, by the total of the
matches. -/
theorem marketLoop_totalVolume (order : Nat) (ls : List Nat) {ob : OrderBook} (h : WellFormed ob)
    (hnd : ls.Nodup) (hsub : ∀ l ∈ ls, l ∈ ob.asks ++ ob.bids)
    (hfree : ∀ l ∈ ls, order ∉ (ob.limitAt l).Orders) :
    (ls.map (fun l => ((marketLoop order ls ob).1.limitAt l).TotalVolume)).sum =
      (ls.map (fun l => (ob.limitAt l).TotalVolume)).sum -
        filledTotal (marketLoop order ls ob).2.1 := by
  induction ls generalizing ob with
  | nil => simp [marketLoop_nil, filledTotal_nil]
  | cons l rest ih =>
    have hl := hsub l (List.mem_cons_self _ _)
    have hlr : l ∉ rest := (List.nodup_cons.1 hnd).1
    have hstep := Fill_totalVolume ob l order (hfree l (List.mem_cons_self _ _))
      (h.queue_nodup l hl)
    have hrest : (rest.map (fun l' => ((Fill ob l order).1.limitAt l').TotalVolume)) =
        (rest.map (fun l' => (ob.limitAt l').TotalVolume)) :=
      List.map_congr_left (fun l' hl' => by
        rw [Fill_limitAt_other _ _ _ _ (fun he : l' = l => hlr (he ▸ hl'))])
    by_cases hf : ((Fill ob l order).1.orderAt order).Size = 0
    · rw [marketLoop_cons_filled _ _ _ _ hf]
      simp only [List.map_cons, List.sum_cons]
      rw [hrest, hstep]; omega
    · rw [marketLoop_cons_open _ _ _ _ hf]
      simp only [List.map_cons, List.sum_cons, filledTotal_append]
      have h1 := ih (Fill_wellFormed h order hl) (List.nodup_cons.1 hnd).2
        (fun l' hl' => by rw [Fill_asks, Fill_bids]; exact hsub l' (List.mem_cons_of_mem _ hl'))
        (fun l' hl' hm => hfree l' (List.mem_cons_of_mem _ hl') (Fill_queue_subset _ _ _ _ _ hm))
      rw [h1, hrest, marketLoop_limitAt_other _ _ _ _ hlr, hstep]
      omega

/-- The total of the traversed side drops by the total of the matches. -/
theorem PlaceMarketOrder_oppositeVolume {ob : OrderBook} (hwf : WellFormed ob) (hv : VolumeInv ob)
    (order : Nat) (hle : (ob.orderAt order).Size ≤ oppositeVolume ob order) :
    oppositeVolume (PlaceMarketOrder ob order).1 order =
      oppositeVolume ob order -
        filledTotal (marketLoop order (opposite ob order).2 (opposite ob order).1).2.1 := by
  have hfree := opposite_snd_free hwf order
  have hnd := opposite_snd_nodup hwf order
  have hsub := opposite_snd_sub ob order
  have hwf' := opposite_wellFormed hwf order
  have hvl := marketLoop_volumeOn order (opposite ob order).2 hwf' hsub (fun _ hl => hl) hfree
    (opposite_volumeOn hv order _ (fun l hl =>
      oppositeLimits_sub ob order l ((opposite_snd ob order).mem_iff.1 hl)))
  have hzero : ∀ c ∈ (marketLoop order (opposite ob order).2 (opposite ob order).1).2.2,
      ((marketLoop order (opposite ob order).2 (opposite ob order).1).1.limitAt c).TotalVolume = 0 := by
    intro c hc
    rw [hvl c ((marketLoop_clear_sublist _ _ _).subset hc),
      marketLoop_clear_empty order _ _ hnd c hc, queueVolume_nil]
  rw [oppositeVolume_eq, PlaceMarketOrder_limitAt ob order hle]
  have hlist : oppositeLimits (PlaceMarketOrder ob order).1 order =
      (opposite ob order).2.diff (marketLoop order (opposite ob order).2 (opposite ob order).1).2.2 := by
    rw [PlaceMarketOrder_ok ob order hle]
    simp only []
    rw [clearLimits_oppositeLimits, marketLoop_oppositeLimits, opposite_oppositeLimits]
  rw [hlist, sum_map_diff_zero _ _ _ hzero, marketLoop_totalVolume order _ hwf' hnd hsub hfree,
    opposite_snd_volume]

theorem PlaceMarketOrder_ownLimits (ob : OrderBook) (order : Nat) :
    ownLimits (PlaceMarketOrder ob order).1 order = ownLimits ob order := by
  rw [PlaceMarketOrder_eq]
  split
  · rfl
  · simp only []
    rw [clearLimits_ownLimits, marketLoop_ownLimits, opposite_ownLimits]

theorem PlaceMarketOrder_ownVolume {ob : OrderBook} (hwf : WellFormed ob) (order : Nat) :
    ownVolume (PlaceMarketOrder ob order).1 order = ownVolume ob order := by
  by_cases hle : (ob.orderAt order).Size ≤ oppositeVolume ob order
  · rw [ownVolume_eq, ownVolume_eq, PlaceMarketOrder_ownLimits, PlaceMarketOrder_limitAt ob order hle]
    apply sum_map_same
    intro l hl
    rw [marketLoop_limitAt_other, opposite_limitAt]
    intro hm
    exact own_not_opposite hwf hl ((opposite_snd ob order).mem_iff.1 hm)
  · rw [PlaceMarketOrder_eq, if_pos (not_le.1 hle)]

/-! ## The parties and the sizes of the matches -/

theorem fillStep_parties (ob : OrderBook) (l order o : Nat) :
    takerOf ob order (fillStep ob l order o).2 = order ∧
      makerOf ob order (fillStep ob l order o).2 = o := by
  rw [fillStep_snd, fillOrder_snd]
  unfold takerOf makerOf
  simp only []
  by_cases hb : (ob.orderAt order).Bid = true
  · simp [hb]
  · simp [hb]

theorem takerOf_congr {ob ob' : OrderBook} (h : SameShape ob ob') (order : Nat) (m : Match) :
    takerOf ob' order m = takerOf ob order m := by
  unfold takerOf; rw [h.bid]

theorem makerOf_congr {ob ob' : OrderBook} (h : SameShape ob ob') (order : Nat) (m : Match) :
    makerOf ob' order m = makerOf ob order m := by
  unfold makerOf; rw [h.bid]

/-- Every match of the loop names the taker and a member of the queue. -/
theorem fillLoop_parties (l order : Nat) (q : List Nat) (ob : OrderBook) :
    ∀ m ∈ (fillLoop l order q ob).2.1,
      takerOf ob order m = order ∧ makerOf ob order m ∈ q := by
  induction q generalizing ob with
  | nil => simp [fillLoop_nil]
  | cons o rest ih =>
    have hp := fillStep_parties ob l order o
    by_cases h : ((fillStep ob l order o).1.orderAt order).Size = 0
    · rw [fillLoop_cons_filled _ _ _ _ _ h]
      intro m hm
      rw [List.mem_singleton.1 hm]
      exact ⟨hp.1, by rw [hp.2]; exact List.mem_cons_self _ _⟩
    · rw [fillLoop_cons_open _ _ _ _ _ h]
      intro m hm
      rcases List.mem_cons.1 hm with rfl | hm
      · exact ⟨hp.1, by rw [hp.2]; exact List.mem_cons_self _ _⟩
      · have := ih _ m hm
        rw [takerOf_congr (fillStep_sameShape ob l order o),
          makerOf_congr (fillStep_sameShape ob l order o)] at this
        exact ⟨this.1, List.mem_cons_of_mem _ this.2⟩

theorem Fill_parties (ob : OrderBook) (l order : Nat) :
    ∀ m ∈ (Fill ob l order).2,
      takerOf ob order m = order ∧ makerOf ob order m ∈ (ob.limitAt l).Orders := by
  rw [Fill_snd]; exact fillLoop_parties _ _ _ _

theorem takerOf_Fill (ob : OrderBook) (l order order' : Nat) (m : Match) :
    takerOf (Fill ob l order).1 order' m = takerOf ob order' m := by
  unfold takerOf; rw [Fill_bid]

theorem makerOf_Fill (ob : OrderBook) (l order order' : Nat) (m : Match) :
    makerOf (Fill ob l order).1 order' m = makerOf ob order' m := by
  unfold makerOf; rw [Fill_bid]

/-- Every match of the market loop names the taker, a maker queued in one of
the limits of the list, and the price of that limit. -/
theorem marketLoop_parties (order : Nat) (ls : List Nat) (ob : OrderBook) :
    ∀ m ∈ (marketLoop order ls ob).2.1, takerOf ob order m = order ∧
      ∃ l ∈ ls, makerOf ob order m ∈ (ob.limitAt l).Orders ∧ m.Price = (ob.limitAt l).Price := by
  induction ls generalizing ob with
  | nil => simp [marketLoop_nil]
  | cons l0 rest ih =>
    have h0 : ∀ m ∈ (Fill ob l0 order).2, takerOf ob order m = order ∧
        ∃ l ∈ l0 :: rest, makerOf ob order m ∈ (ob.limitAt l).Orders ∧
          m.Price = (ob.limitAt l).Price :=
      fun m hm => ⟨(Fill_parties ob l0 order m hm).1, l0, List.mem_cons_self _ _,
        (Fill_parties ob l0 order m hm).2, Fill_match_price ob l0 order m hm⟩
    by_cases hf : ((Fill ob l0 order).1.orderAt order).Size = 0
    · rw [marketLoop_cons_filled _ _ _ _ hf]
      exact h0
    · rw [marketLoop_cons_open _ _ _ _ hf]
      simp only []
      intro m hm
      rcases List.mem_append.1 hm with hm | hm
      · exact h0 m hm
      · obtain ⟨h1, l, hl, h2, h3⟩ := ih _ m hm
        rw [takerOf_Fill] at h1
        rw [makerOf_Fill] at h2
        exact ⟨h1, l, List.mem_cons_of_mem _ hl, Fill_queue_subset _ _ _ _ _ h2,
          by rw [h3, Fill_price]⟩

theorem sortOrders_of_timeOrdered {ob : OrderBook} {q : List Nat} (h : TimeOrdered ob q) :
    sortOrders ob q = q :=
  List.Sorted.insertionSort_eq h

theorem timeOrdered_congr {ob ob' : OrderBook}
    (h : ∀ o, (ob'.orderAt o).TimeStamp = (ob.orderAt o).TimeStamp) (q : List Nat) :
    TimeOrdered ob' q ↔ TimeOrdered ob q := by
  unfold TimeOrdered
  have : (fun a b => (ob'.orderAt a).TimeStamp ≤ (ob'.orderAt b).TimeStamp) =
      (fun a b => (ob.orderAt a).TimeStamp ≤ (ob.orderAt b).TimeStamp) := by
    funext a b; rw [h a, h b]
  rw [this]

theorem TimeOrdered.sublist {ob : OrderBook} {q q' : List Nat} (h : TimeOrdered ob q)
    (hs : q'.Sublist q) : TimeOrdered ob q' :=
  List.Pairwise.sublist hs h

theorem DeleteOrder_queue_ordered (ob : OrderBook) (l o : Nat)
    (h : TimeOrdered ob (ob.limitAt l).Orders) :
    ((DeleteOrder ob l o).limitAt l).Orders = (ob.limitAt l).Orders.erase o := by
  rw [DeleteOrder_queue, if_pos rfl]
  exact sortOrders_of_timeOrdered (h.sublist (List.erase_sublist _ _))

theorem deleteOrders_queue_ordered (ob : OrderBook) (l : Nat) (dels : List Nat)
    (h : TimeOrdered ob (ob.limitAt l).Orders) :
    ((deleteOrders ob l dels).limitAt l).Orders = (ob.limitAt l).Orders.diff dels := by
  induction dels generalizing ob with
  | nil => simp [deleteOrders_nil]
  | cons d ds ih =>
    rw [deleteOrders_cons, List.diff_cons, ih, DeleteOrder_queue_ordered ob l d h]
    rw [timeOrdered_congr (DeleteOrder_timeStamp ob l d), DeleteOrder_queue_ordered ob l d h]
    exact h.sublist (List.erase_sublist _ _)

theorem Fill_queue_ordered (ob : OrderBook) (l order : Nat)
    (h : TimeOrdered ob (ob.limitAt l).Orders) :
    ((Fill ob l order).1.limitAt l).Orders =
      (ob.limitAt l).Orders.diff (fillLoop l order (ob.limitAt l).Orders ob).2.2 := by
  have hs := fillLoop_sameShape l order (ob.limitAt l).Orders ob
  rw [Fill_fst, deleteOrders_queue_ordered, hs.queue l]
  rw [timeOrdered_congr hs.timeStamp, hs.queue l]
  exact h

theorem levelFills_nil (s : Int) : levelFills s [] = [] := rfl

theorem levelFills_cons_filled (s z : Int) (zs : List Int) (h : s - min s z = 0) :
    levelFills s (z :: zs) = [min s z] := by
  simp [levelFills, h]

theorem levelFills_cons_open (s z : Int) (zs : List Int) (h : s - min s z ≠ 0) :
    levelFills s (z :: zs) = min s z :: levelFills (s - min s z) zs := by
  simp [levelFills, h]

theorem levelFills_length_le (s : Int) (zs : List Int) :
    (levelFills s zs).length ≤ zs.length := by
  induction zs generalizing s with
  | nil => simp [levelFills_nil]
  | cons z zs ih =>
    by_cases h : s - min s z = 0
    · rw [levelFills_cons_filled _ _ _ h]; simp
    · rw [levelFills_cons_open _ _ _ h]
      simpa using ih (s - min s z)

theorem levelFills_length_pos (s : Int) (zs : List Int) (h : zs ≠ []) :
    0 < (levelFills s zs).length := by
  cases zs with
  | nil => exact absurd rfl h
  | cons z zs =>
    by_cases h : s - min s z = 0
    · rw [levelFills_cons_filled _ _ _ h]; simp
    · rw [levelFills_cons_open _ _ _ h]; simp

/-- Each filled size is the minimum of the taker's remaining size and the
maker's size. -/
theorem levelFills_getD (s : Int) (zs : List Int) (i : Nat)
    (hi : i < (levelFills s zs).length) :
    (levelFills s zs).getD i 0 =
      min (s - ((levelFills s zs).take i).sum) (zs.getD i 0) := by
  induction zs generalizing s i with
  | nil => simp [levelFills_nil] at hi
  | cons z zs ih =>
    by_cases h : s - min s z = 0
    · rw [levelFills_cons_filled _ _ _ h] at hi ⊢
      have : i = 0 := by simpa using hi
      subst this
      simp
    · rw [levelFills_cons_open _ _ _ h] at hi ⊢
      cases i with
      | zero => simp
      | succ i =>
        have hi' : i < (levelFills (s - min s z) zs).length := by simpa using hi
        have := ih (s - min s z) i hi'
        simp only [List.getD_cons_succ, List.take_succ_cons, List.sum_cons]
        rw [this, sub_sub]

/-- The taker is open after each match but the last. -/
theorem levelFills_open (s : Int) (zs : List Int) (j : Nat) (h0 : 0 < j)
    (hj : j < (levelFills s zs).length) : s - ((levelFills s zs).take j).sum ≠ 0 := by
  induction zs generalizing s j with
  | nil => simp [levelFills_nil] at hj
  | cons z zs ih =>
    by_cases h : s - min s z = 0
    · rw [levelFills_cons_filled _ _ _ h] at hj
      simp at hj; omega
    · rw [levelFills_cons_open _ _ _ h] at hj ⊢
      cases j with
      | zero => omega
      | succ j =>
        simp only [List.take_succ_cons, List.sum_cons]
        cases j with
        | zero => simpa using h
        | succ j =>
          have hj' : j + 1 < (levelFills (s - min s z) zs).length := by simpa using hj
          have := ih (s - min s z) (j + 1) (by omega) hj'
          rwa [sub_sub] at this

/-- When the matches end before the queue does, the taker is filled. -/
theorem levelFills_filled (s : Int) (zs : List Int)
    (h : (levelFills s zs).length < zs.length) : s - (levelFills s zs).sum = 0 := by
  induction zs generalizing s with
  | nil => simp at h
  | cons z zs ih =>
    by_cases hf : s - min s z = 0
    · rw [levelFills_cons_filled _ _ _ hf]; simpa using hf
    · rw [levelFills_cons_open _ _ _ hf] at h ⊢
      have h' : (levelFills (s - min s z) zs).length < zs.length := by simpa using h
      have := ih (s - min s z) h'
      rw [List.sum_cons, ← sub_sub]; exact this

theorem fillStep_match (ob : OrderBook) (l order o : Nat) (h : order ≠ o) :
    (fillStep ob l order o).2 =
      matchOf ob l order o (min (ob.orderAt order).Size (ob.orderAt o).Size) := by
  have h1 := fillOrder_sizeFilled ob l order o h
  rw [fillStep_snd]
  rw [fillOrder_snd] at h1 ⊢
  simp only [] at h1
  unfold matchOf
  rw [h1]

theorem fillStep_taker (ob : OrderBook) (l order o : Nat) (h : order ≠ o) :
    ((fillStep ob l order o).1.orderAt order).Size =
      (ob.orderAt order).Size - min (ob.orderAt order).Size (ob.orderAt o).Size := by
  rw [fillStep_orderAt, fillOrder_size_taker ob l order o h]

theorem fillStep_maker (ob : OrderBook) (l order o : Nat) (h : order ≠ o) :
    ((fillStep ob l order o).1.orderAt o).Size =
      (ob.orderAt o).Size - min (ob.orderAt order).Size (ob.orderAt o).Size := by
  rw [fillStep_orderAt, fillOrder_size_maker ob l order o h]

theorem matchOf_congr {ob ob' : OrderBook} (h : SameShape ob ob') (l order : Nat) :
    matchOf ob' l order = matchOf ob l order := by
  funext o x
  unfold matchOf
  rw [h.bid, h.price]

theorem fillStep_sizes_rest (ob : OrderBook) (l order o : Nat) (rest : List Nat)
    (hr : order ∉ rest) (hor : o ∉ rest) :
    rest.map (fun m => ((fillStep ob l order o).1.orderAt m).Size) =
      rest.map (fun m => (ob.orderAt m).Size) :=
  List.map_congr_left (fun m hm => by
    rw [fillStep_orderAt_other ob l order o m (fun he => hr (he ▸ hm)) (fun he => hor (he ▸ hm))])

/-- The matches of the loop are the matches of the taker against the makers of
the queue, in queue order, for the sizes of `levelFills`. -/
theorem fillLoop_matches (l order : Nat) (q : List Nat) (ob : OrderBook) (hq : order ∉ q)
    (hnd : q.Nodup) :
    (fillLoop l order q ob).2.1 =
      List.zipWith (matchOf ob l order) q
        (levelFills (ob.orderAt order).Size (q.map (fun o => (ob.orderAt o).Size))) := by
  induction q generalizing ob with
  | nil => simp [fillLoop_nil, levelFills_nil]
  | cons o rest ih =>
    have hne : order ≠ o := fun h => hq (h ▸ List.mem_cons_self _ _)
    have hr : order ∉ rest := fun h => hq (List.mem_cons_of_mem _ h)
    have hor : o ∉ rest := (List.nodup_cons.1 hnd).1
    have ht := fillStep_taker ob l order o hne
    by_cases h : ((fillStep ob l order o).1.orderAt order).Size = 0
    · rw [fillLoop_cons_filled _ _ _ _ _ h, List.map_cons,
        levelFills_cons_filled _ _ _ (ht ▸ h), fillStep_match ob l order o hne]
      simp
    · rw [fillLoop_cons_open _ _ _ _ _ h, List.map_cons,
        levelFills_cons_open _ _ _ (ht ▸ h), fillStep_match ob l order o hne]
      simp only [List.zipWith_cons_cons]
      rw [ih _ hr (List.nodup_cons.1 hnd).2, matchOf_congr (fillStep_sameShape ob l order o),
        fillStep_sizes_rest ob l order o rest hr hor, ht]

/-- The sizes of the makers after the loop: the matched makers are reduced by
the sizes of `levelFills`, the others keep their size. -/
theorem fillLoop_sizes (l order : Nat) (q : List Nat) (ob : OrderBook) (hq : order ∉ q)
    (hnd : q.Nodup) :
    q.map (fun o => ((fillLoop l order q ob).1.orderAt o).Size) =
      List.zipWith (fun z x => z - x) (q.map (fun o => (ob.orderAt o).Size))
          (levelFills (ob.orderAt order).Size (q.map (fun o => (ob.orderAt o).Size))) ++
        (q.drop (levelFills (ob.orderAt order).Size
          (q.map (fun o => (ob.orderAt o).Size))).length).map (fun o => (ob.orderAt o).Size) := by
  induction q generalizing ob with
  | nil => simp [fillLoop_nil, levelFills_nil]
  | cons o rest ih =>
    have hne : order ≠ o := fun h => hq (h ▸ List.mem_cons_self _ _)
    have hr : order ∉ rest := fun h => hq (List.mem_cons_of_mem _ h)
    have hor : o ∉ rest := (List.nodup_cons.1 hnd).1
    have ht := fillStep_taker ob l order o hne
    have hm := fillStep_maker ob l order o hne
    have hrest := fillStep_sizes_rest ob l order o rest hr hor
    by_cases h : ((fillStep ob l order o).1.orderAt order).Size = 0
    · rw [fillLoop_cons_filled _ _ _ _ _ h, List.map_cons, List.map_cons,
        levelFills_cons_filled _ _ _ (ht ▸ h)]
      simp only [List.zipWith_cons_cons, List.zipWith_nil_right, List.length_singleton,
        List.drop_succ_cons, List.drop_zero, List.cons_append, List.nil_append]
      rw [hm, hrest]
    · rw [fillLoop_cons_open _ _ _ _ _ h, List.map_cons, List.map_cons,
        levelFills_cons_open _ _ _ (ht ▸ h)]
      simp only [List.zipWith_cons_cons, List.length_cons, List.drop_succ_cons,
        List.cons_append]
      rw [fillLoop_orderAt_other l order rest _ o (Ne.symm hne) hor, hm,
        ih _ hr (List.nodup_cons.1 hnd).2, hrest, ht]
      congr 2
      exact List.map_congr_left (fun m hm' => by
        have hmr : m ∈ rest := List.mem_of_mem_drop hm'
        rw [fillStep_orderAt_other ob l order o m (fun he => hr (he ▸ hmr))
          (fun he => hor (he ▸ hmr))])

/-- Every maker matched before the last match ends with size 0. -/
theorem fillLoop_earlier_filled (l order : Nat) (q : List Nat) (ob : OrderBook) (hq : order ∉ q)
    (hnd : q.Nodup) :
    ∀ o ∈ q.take ((levelFills (ob.orderAt order).Size
        (q.map (fun o => (ob.orderAt o).Size))).length - 1),
      ((fillLoop l order q ob).1.orderAt o).Size = 0 := by
  induction q generalizing ob with
  | nil => simp
  | cons o rest ih =>
    have hne : order ≠ o := fun h => hq (h ▸ List.mem_cons_self _ _)
    have hr : order ∉ rest := fun h => hq (List.mem_cons_of_mem _ h)
    have hor : o ∉ rest := (List.nodup_cons.1 hnd).1
    have ht := fillStep_taker ob l order o hne
    have hrest := fillStep_sizes_rest ob l order o rest hr hor
    by_cases h : ((fillStep ob l order o).1.orderAt order).Size = 0
    · rw [List.map_cons, levelFills_cons_filled _ _ _ (ht ▸ h)]
      simp
    · rw [fillLoop_cons_open _ _ _ _ _ h, List.map_cons, levelFills_cons_open _ _ _ (ht ▸ h)]
      simp only [List.length_cons, Nat.add_sub_cancel]
      have hih := ih (fillStep ob l order o).1 hr (List.nodup_cons.1 hnd).2
      rw [hrest, ht] at hih
      intro x hx
      cases hk : (levelFills ((ob.orderAt order).Size -
          min (ob.orderAt order).Size (ob.orderAt o).Size)
          (rest.map (fun o => (ob.orderAt o).Size))).length with
      | zero => rw [hk] at hx; simp at hx
      | succ j =>
        rw [hk, List.take_succ_cons] at hx
        rcases List.mem_cons.1 hx with rfl | hx
        · rw [fillLoop_orderAt_other l order rest _ x (Ne.symm hne) hor]
          exact fillStep_maker_filled ob l order x hne h
        · rw [hk] at hih
          exact hih x (by simpa using hx)

/-- The orders collected for deletion are the matched makers that ended with
size 0. -/
theorem fillLoop_deletes (l order : Nat) (q : List Nat) (ob : OrderBook) (hq : order ∉ q)
    (hnd : q.Nodup) :
    (fillLoop l order q ob).2.2 =
      (q.take (levelFills (ob.orderAt order).Size
          (q.map (fun o => (ob.orderAt o).Size))).length).filter
        (fun o => decide (((fillLoop l order q ob).1.orderAt o).Size = 0)) := by
  induction q generalizing ob with
  | nil => simp [fillLoop_nil]
  | cons o rest ih =>
    have hne : order ≠ o := fun h => hq (h ▸ List.mem_cons_self _ _)
    have hr : order ∉ rest := fun h => hq (List.mem_cons_of_mem _ h)
    have hor : o ∉ rest := (List.nodup_cons.1 hnd).1
    have ht := fillStep_taker ob l order o hne
    have hrest := fillStep_sizes_rest ob l order o rest hr hor
    by_cases h : ((fillStep ob l order o).1.orderAt order).Size = 0
    · rw [fillLoop_cons_filled _ _ _ _ _ h, List.map_cons, levelFills_cons_filled _ _ _ (ht ▸ h)]
      simp only [List.length_singleton, List.take_succ_cons, List.take_zero]
      by_cases hz : ((fillStep ob l order o).1.orderAt o).Size = 0
      · simp [hz]
      · simp [hz]
    · rw [fillLoop_cons_open _ _ _ _ _ h, List.map_cons, levelFills_cons_open _ _ _ (ht ▸ h)]
      simp only [List.length_cons, List.take_succ_cons]
      have hih := ih (fillStep ob l order o).1 hr (List.nodup_cons.1 hnd).2
      rw [hrest, ht] at hih
      rw [hih, List.filter_cons,
        fillLoop_orderAt_other l order rest _ o (Ne.symm hne) hor]
      by_cases hz : ((fillStep ob l order o).1.orderAt o).Size = 0
      · simp [hz]
      · simp [hz]

/-- After `Fill` the queue holds the orders of the old queue but the matched
makers that ended with size 0. -/
theorem Fill_queue_mem (ob : OrderBook) (l order : Nat) (hq : order ∉ (ob.limitAt l).Orders)
    (hnd : (ob.limitAt l).Orders.Nodup) (o : Nat) :
    o ∈ ((Fill ob l order).1.limitAt l).Orders ↔
      o ∈ (ob.limitAt l).Orders ∧
        ¬ (o ∈ (ob.limitAt l).Orders.take (levelFills (ob.orderAt order).Size
              ((ob.limitAt l).Orders.map (fun o => (ob.orderAt o).Size))).length ∧
            ((Fill ob l order).1.orderAt o).Size = 0) := by
  rw [(Fill_queue_perm ob l order).mem_iff, hnd.mem_diff_iff, fillLoop_deletes _ _ _ _ hq hnd,
    List.mem_filter, Fill_fst, deleteOrders_size]
  simp

theorem Fill_queue_nodup (ob : OrderBook) (l order : Nat) (hnd : (ob.limitAt l).Orders.Nodup) :
    ((Fill ob l order).1.limitAt l).Orders.Nodup :=
  (Fill_queue_perm ob l order).nodup_iff.2 (hnd.sublist (List.diff_sublist _ _))

theorem makerOf_matchOf (ob : OrderBook) (l order o : Nat) (x : Int) :
    makerOf ob order (matchOf ob l order o x) = o := by
  unfold makerOf matchOf
  by_cases hb : (ob.orderAt order).Bid = true
  · simp [hb]
  · simp [hb]

theorem takerOf_matchOf (ob : OrderBook) (l order o : Nat) (x : Int) :
    takerOf ob order (matchOf ob l order o x) = order := by
  unfold takerOf matchOf
  by_cases hb : (ob.orderAt order).Bid = true
  · simp [hb]
  · simp [hb]

theorem zipWith_matchOf_makers (ob : OrderBook) (l order : Nat) (q : List Nat) (fills : List Int) :
    (List.zipWith (matchOf ob l order) q fills).map (makerOf ob order) = q.take fills.length := by
  induction q generalizing fills with
  | nil => simp
  | cons o rest ih =>
    cases fills with
    | nil => simp
    | cons x xs => simp [makerOf_matchOf, ih]

theorem zipWith_matchOf_sizes (ob : OrderBook) (l order : Nat) (q : List Nat) (fills : List Int)
    (h : fills.length ≤ q.length) :
    (List.zipWith (matchOf ob l order) q fills).map (fun m => m.SizeFilled) = fills := by
  induction q generalizing fills with
  | nil =>
    have : fills = [] := List.length_eq_zero.1 (by simpa using h)
    simp [this]
  | cons o rest ih =>
    cases fills with
    | nil => simp
    | cons x xs =>
      have h' : xs.length ≤ rest.length := by simpa using h
      simp [matchOf, ih xs h']

/-! ## The side index -/

theorem SideIndexed.of_wellFormed {ob : OrderBook} (h : WellFormed ob) : SideIndexed ob :=
  ⟨h.asks_nodup, h.bids_nodup, h.ask_map, h.bid_map, h.allocated, h.ask_side, h.bid_side,
    h.disjoint⟩

theorem SideIndexed.lookup {ob : OrderBook} (h : SideIndexed ob) {price : Int} {order l : Nat}
    (hf : lookupLimit ob price order = some l) : l ∈ ownLimits ob order := by
  unfold lookupLimit at hf
  unfold ownLimits
  split
  · rename_i hb; rw [if_pos hb] at hf; exact ((h.bid_map price l).1 hf).1
  · rename_i hb; rw [if_neg hb] at hf; exact ((h.ask_map price l).1 hf).1

theorem SideIndexed.own_apart {ob : OrderBook} (h : SideIndexed ob) {order l : Nat}
    (hl : l ∈ ownLimits ob order) : l ∉ oppositeLimits ob order := by
  unfold ownLimits at hl
  unfold oppositeLimits
  by_cases hb : (ob.orderAt order).Bid = true
  · rw [if_pos hb] at hl ⊢
    exact fun ha => h.disjoint l ha hl
  · rw [if_neg hb] at hl ⊢
    exact h.disjoint l hl

theorem SideIndexed.unallocated {ob : OrderBook} (h : SideIndexed ob) :
    ob.nextLimit ∉ ob.asks ++ ob.bids :=
  fun hm => lt_irrefl _ (h.allocated _ hm)

/-! ## Consuming makers in priority order -/

theorem consume_nil (s : Int) (f : Nat → Int) : consume s [] f = f := rfl

theorem consume_cons_le (s : Int) (o : Nat) (rest : List Nat) (f : Nat → Int) (h : f o ≤ s) :
    consume s (o :: rest) f = consume (s - f o) rest (Function.update f o 0) := by
  simp [consume, h]

theorem consume_cons_gt (s : Int) (o : Nat) (rest : List Nat) (f : Nat → Int) (h : ¬ f o ≤ s) :
    consume s (o :: rest) f = Function.update f o (f o - s) := by
  simp [consume, h]

theorem leftover_nil (s : Int) (f : Nat → Int) : leftover s [] f = s := rfl

theorem leftover_cons_le (s : Int) (o : Nat) (rest : List Nat) (f : Nat → Int) (h : f o ≤ s) :
    leftover s (o :: rest) f = leftover (s - f o) rest (Function.update f o 0) := by
  simp [leftover, h]

theorem leftover_cons_gt (s : Int) (o : Nat) (rest : List Nat) (f : Nat → Int) (h : ¬ f o ≤ s) :
    leftover s (o :: rest) f = 0 := by
  simp [leftover, h]

theorem consume_not_mem (s : Int) (M : List Nat) (f : Nat → Int) (o : Nat) (h : o ∉ M) :
    consume s M f o = f o := by
  induction M generalizing s f with
  | nil => rfl
  | cons m rest ih =>
    have hne : o ≠ m := fun he => h (he ▸ List.mem_cons_self _ _)
    have hr : o ∉ rest := fun hm => h (List.mem_cons_of_mem _ hm)
    by_cases hle : f m ≤ s
    · rw [consume_cons_le _ _ _ _ hle, ih _ _ hr, Function.update_noteq hne]
    · rw [consume_cons_gt _ _ _ _ hle, Function.update_noteq hne]

/-- The result at `o` depends on the sizes of the makers and of `o` only. -/
theorem consume_congr (s : Int) (M : List Nat) (f g : Nat → Int) (o : Nat)
    (hM : ∀ x ∈ M, f x = g x) (ho : f o = g o) : consume s M f o = consume s M g o := by
  induction M generalizing s f g with
  | nil => exact ho
  | cons m rest ih =>
    have hm := hM m (List.mem_cons_self _ _)
    by_cases hle : f m ≤ s
    · rw [consume_cons_le _ _ _ _ hle, consume_cons_le _ _ _ _ (hm ▸ hle), hm]
      refine ih _ _ _ ?_ ?_
      · intro x hx
        simp only [Function.update_apply]
        split
        · rfl
        · exact hM x (List.mem_cons_of_mem _ hx)
      · simp only [Function.update_apply]
        split
        · rfl
        · exact ho
    · rw [consume_cons_gt _ _ _ _ hle, consume_cons_gt _ _ _ _ (hm ▸ hle), hm]
      simp only [Function.update_apply]
      split
      · rfl
      · exact ho

/-- A taker with nothing left changes no positive maker. -/
theorem consume_zero (M : List Nat) (f : Nat → Int) (hpos : ∀ x ∈ M, 0 < f x) :
    consume 0 M f = f := by
  cases M with
  | nil => rfl
  | cons m rest =>
    have := hpos m (List.mem_cons_self _ _)
    rw [consume_cons_gt _ _ _ _ (by omega), sub_zero, Function.update_eq_self]

theorem leftover_nonneg (s : Int) (M : List Nat) (f : Nat → Int) (hs : 0 ≤ s) :
    0 ≤ leftover s M f := by
  induction M generalizing s f with
  | nil => exact hs
  | cons m rest ih =>
    by_cases hle : f m ≤ s
    · rw [leftover_cons_le _ _ _ _ hle]; exact ih _ _ (by omega)
    · rw [leftover_cons_gt _ _ _ _ hle]

theorem update_pos_rest (f : Nat → Int) (m : Nat) (v : Int) (rest : List Nat) (hm : m ∉ rest)
    (hpos : ∀ x ∈ rest, 0 < f x) : ∀ x ∈ rest, 0 < Function.update f m v x := by
  intro x hx
  rw [Function.update_noteq (fun he : x = m => hm (he ▸ hx))]
  exact hpos x hx

theorem consume_nonneg (s : Int) (M : List Nat) (f : Nat → Int) (hnd : M.Nodup)
    (hpos : ∀ x ∈ M, 0 < f x) (hs : 0 ≤ s) : ∀ x ∈ M, 0 ≤ consume s M f x := by
  induction M generalizing s f with
  | nil => simp
  | cons m rest ih =>
    have hm : m ∉ rest := (List.nodup_cons.1 hnd).1
    have hpm := hpos m (List.mem_cons_self _ _)
    intro x hx
    by_cases hle : f m ≤ s
    · rw [consume_cons_le _ _ _ _ hle]
      rcases List.mem_cons.1 hx with rfl | hx
      · rw [consume_not_mem _ _ _ _ hm, Function.update_same]
      · exact ih _ _ (List.nodup_cons.1 hnd).2
          (update_pos_rest f m 0 rest hm (fun y hy => hpos y (List.mem_cons_of_mem _ hy)))
          (by omega) x hx
    · rw [consume_cons_gt _ _ _ _ hle, Function.update_apply]
      split
      · omega
      · exact le_of_lt (hpos x hx)

/-- Consuming a list in two parts. -/
theorem consume_append (s : Int) (q M : List Nat) (f : Nat → Int) (hnd : (q ++ M).Nodup)
    (hpos : ∀ x ∈ q ++ M, 0 < f x) :
    consume s (q ++ M) f = consume (leftover s q f) M (consume s q f) := by
  induction q generalizing s f with
  | nil => rfl
  | cons m rest ih =>
    have hnd' : (m :: (rest ++ M)).Nodup := by simpa using hnd
    have hm : m ∉ rest ++ M := (List.nodup_cons.1 hnd').1
    have hpm := hpos m (by simp)
    by_cases hle : f m ≤ s
    · rw [List.cons_append, consume_cons_le _ _ _ _ hle, consume_cons_le _ _ _ _ hle,
        leftover_cons_le _ _ _ _ hle]
      exact ih _ _ (List.nodup_cons.1 hnd').2
        (update_pos_rest f m 0 _ hm (fun y hy => hpos y (by simp at hy ⊢; tauto)))
    · rw [List.cons_append, consume_cons_gt _ _ _ _ hle, consume_cons_gt _ _ _ _ hle,
        leftover_cons_gt _ _ _ _ hle, consume_zero]
      intro x hx
      have hxm : x ≠ m := fun he => hm (he ▸ List.mem_append_right _ hx)
      rw [Function.update_noteq hxm]
      exact hpos x (by simp; right; right; exact hx)

/-- Order splitting on the sizes: consuming `a` and then `b` from what is left
gives the sizes of consuming `a + b`. -/
theorem consume_add (a b : Int) (M : List Nat) (f : Nat → Int) (hnd : M.Nodup)
    (hpos : ∀ x ∈ M, 0 < f x) (ha : 0 ≤ a) (hb : 0 ≤ b) :
    consume b (M.filter (fun o => decide (consume a M f o ≠ 0))) (consume a M f) =
      consume (a + b) M f := by
  induction M generalizing a f with
  | nil => rfl
  | cons m rest ih =>
    have hm : m ∉ rest := (List.nodup_cons.1 hnd).1
    have hpm := hpos m (List.mem_cons_self _ _)
    have hpr : ∀ y ∈ rest, 0 < f y := fun y hy => hpos y (List.mem_cons_of_mem _ hy)
    by_cases hle : f m ≤ a
    · have hle' : f m ≤ a + b := by omega
      rw [consume_cons_le _ _ _ _ hle, consume_cons_le _ _ _ _ hle']
      have h0 : consume (a - f m) rest (Function.update f m 0) m = 0 := by
        rw [consume_not_mem _ _ _ _ hm, Function.update_same]
      rw [List.filter_cons_of_neg (by simp [h0])]
      have := ih (a - f m) (Function.update f m 0) (List.nodup_cons.1 hnd).2
        (update_pos_rest f m 0 rest hm hpr) (by omega)
      rw [this, show a - f m + b = a + b - f m by ring]
    · rw [consume_cons_gt _ _ _ _ hle]
      have hall : (m :: rest).filter
          (fun o => decide (Function.update f m (f m - a) o ≠ 0)) = m :: rest := by
        rw [List.filter_eq_self]
        intro x hx
        rcases List.mem_cons.1 hx with rfl | hx
        · rw [Function.update_same]
          simp only [ne_eq, decide_eq_true_eq]
          omega
        · rw [Function.update_noteq (fun he : x = m => hm (he ▸ hx))]
          simp only [ne_eq, decide_eq_true_eq]
          have := hpr x hx
          omega
      rw [hall]
      by_cases hle' : f m ≤ a + b
      · have h1 : Function.update f m (f m - a) m ≤ b := by
          rw [Function.update_same]; omega
        rw [consume_cons_le _ _ _ _ h1, consume_cons_le _ _ _ _ hle', Function.update_same,
          Function.update_idem, show b - (f m - a) = a + b - f m by ring]
      · have h1 : ¬ Function.update f m (f m - a) m ≤ b := by
          rw [Function.update_same]; omega
        rw [consume_cons_gt _ _ _ _ h1, consume_cons_gt _ _ _ _ hle', Function.update_same,
          Function.update_idem, show f m - a - b = f m - (a + b) by ring]

/-! ## The sizes after `Fill` -/

theorem leftover_zero (M : List Nat) (f : Nat → Int) (hpos : ∀ x ∈ M, 0 < f x) :
    leftover 0 M f = 0 := by
  cases M with
  | nil => rfl
  | cons m rest =>
    have := hpos m (List.mem_cons_self _ _)
    rw [leftover_cons_gt _ _ _ _ (by omega)]

theorem leftover_congr (s : Int) (M : List Nat) (f g : Nat → Int) (hM : ∀ x ∈ M, f x = g x) :
    leftover s M f = leftover s M g := by
  induction M generalizing s f g with
  | nil => rfl
  | cons m rest ih =>
    have hm := hM m (List.mem_cons_self _ _)
    by_cases hle : f m ≤ s
    · rw [leftover_cons_le _ _ _ _ hle, leftover_cons_le _ _ _ _ (hm ▸ hle), hm]
      refine ih _ _ _ ?_
      intro x hx
      simp only [Function.update_apply]
      split
      · rfl
      · exact hM x (List.mem_cons_of_mem _ hx)
    · rw [leftover_cons_gt _ _ _ _ hle, leftover_cons_gt _ _ _ _ (hm ▸ hle)]

theorem sizes_apply (ob : OrderBook) (o : Nat) : sizes ob o = (ob.orderAt o).Size := rfl

/-- The sizes after one step of the loop. -/
theorem fillStep_sizes (ob : OrderBook) (l t m : Nat) (h : t ≠ m) (o : Nat) (ho : o ≠ t) :
    sizes (fillStep ob l t m).1 o =
      Function.update (sizes ob) m (sizes ob m - min (sizes ob t) (sizes ob m)) o := by
  by_cases hom : o = m
  · subst hom
    rw [Function.update_same, sizes_apply, fillStep_maker ob l t o h]; rfl
  · rw [Function.update_noteq hom, sizes_apply, fillStep_orderAt_other ob l t m o ho hom]; rfl

/-- The sizes after the loop of `Fill` on a queue of positive makers: the
makers are consumed in queue order, the taker keeps what is left. -/
theorem fillLoop_consume (l t : Nat) (q : List Nat) (ob : OrderBook) (hq : t ∉ q)
    (hnd : q.Nodup) (hpos : ∀ o ∈ q, 0 < sizes ob o) (hs : 0 ≤ sizes ob t) :
    (∀ o, o ≠ t → sizes (fillLoop l t q ob).1 o = consume (sizes ob t) q (sizes ob) o) ∧
      sizes (fillLoop l t q ob).1 t = leftover (sizes ob t) q (sizes ob) := by
  induction q generalizing ob with
  | nil => exact ⟨fun _ _ => rfl, rfl⟩
  | cons m rest ih =>
    have hne : t ≠ m := fun h => hq (h ▸ List.mem_cons_self _ _)
    have hr : t ∉ rest := fun h => hq (List.mem_cons_of_mem _ h)
    have hmr : m ∉ rest := (List.nodup_cons.1 hnd).1
    have hpm : 0 < sizes ob m := hpos m (List.mem_cons_self _ _)
    have hpr : ∀ y ∈ rest, 0 < sizes ob y := fun y hy => hpos y (List.mem_cons_of_mem _ hy)
    have ht : sizes (fillStep ob l t m).1 t = sizes ob t - min (sizes ob t) (sizes ob m) :=
      fillStep_taker ob l t m hne
    have hst := fillStep_sizes ob l t m hne
    by_cases h : ((fillStep ob l t m).1.orderAt t).Size = 0
    · rw [fillLoop_cons_filled _ _ _ _ _ h]
      simp only []
      have h' : sizes ob t - min (sizes ob t) (sizes ob m) = 0 := by rw [← ht]; exact h
      by_cases hle : sizes ob m ≤ sizes ob t
      · have hz : sizes ob t - sizes ob m = 0 := by omega
        have hmin : sizes ob m - min (sizes ob t) (sizes ob m) = 0 := by omega
        rw [consume_cons_le _ _ _ _ hle, leftover_cons_le _ _ _ _ hle, hz,
          consume_zero _ _ (update_pos_rest _ m 0 rest hmr hpr),
          leftover_zero _ _ (update_pos_rest _ m 0 rest hmr hpr)]
        refine ⟨fun o ho => ?_, h⟩
        rw [hst o ho, hmin]
      · have hmin : sizes ob m - min (sizes ob t) (sizes ob m) = sizes ob m - sizes ob t := by
          omega
        rw [consume_cons_gt _ _ _ _ hle, leftover_cons_gt _ _ _ _ hle]
        refine ⟨fun o ho => ?_, h⟩
        rw [hst o ho, hmin]
    · rw [fillLoop_cons_open _ _ _ _ _ h]
      simp only []
      have h' : sizes ob t - min (sizes ob t) (sizes ob m) ≠ 0 := by rw [← ht]; exact h
      have hle : sizes ob m ≤ sizes ob t := by omega
      have hmin : sizes ob m - min (sizes ob t) (sizes ob m) = 0 := by omega
      have ht' : sizes (fillStep ob l t m).1 t = sizes ob t - sizes ob m := by rw [ht]; omega
      have hagree : ∀ x, x ≠ t →
          sizes (fillStep ob l t m).1 x = Function.update (sizes ob) m 0 x := by
        intro x hx; rw [hst x hx, hmin]
      have hpos1 : ∀ o ∈ rest, 0 < sizes (fillStep ob l t m).1 o := by
        intro o ho
        rw [hagree o (fun he => hr (he ▸ ho))]
        exact update_pos_rest _ m 0 rest hmr hpr o ho
      obtain ⟨i1, i2⟩ := ih (fillStep ob l t m).1 hr (List.nodup_cons.1 hnd).2 hpos1
        (by rw [ht']; omega)
      rw [consume_cons_le _ _ _ _ hle, leftover_cons_le _ _ _ _ hle]
      refine ⟨fun o ho => ?_, ?_⟩
      · rw [i1 o ho, ht']
        exact consume_congr _ _ _ _ _
          (fun x hx => hagree x (fun he => hr (he ▸ hx))) (hagree o ho)
      · rw [i2, ht']
        exact leftover_congr _ _ _ _ (fun x hx => hagree x (fun he => hr (he ▸ hx)))

theorem Fill_sizes (ob : OrderBook) (l order o : Nat) :
    sizes (Fill ob l order).1 o = sizes (fillLoop l order (ob.limitAt l).Orders ob).1 o := by
  rw [sizes_apply, Fill_fst, deleteOrders_size]; rfl

theorem Fill_consume (ob : OrderBook) (l t : Nat) (hq : t ∉ (ob.limitAt l).Orders)
    (hnd : (ob.limitAt l).Orders.Nodup) (hpos : ∀ o ∈ (ob.limitAt l).Orders, 0 < sizes ob o)
    (hs : 0 ≤ sizes ob t) :
    (∀ o, o ≠ t →
        sizes (Fill ob l t).1 o = consume (sizes ob t) (ob.limitAt l).Orders (sizes ob) o) ∧
      sizes (Fill ob l t).1 t = leftover (sizes ob t) (ob.limitAt l).Orders (sizes ob) := by
  have := fillLoop_consume l t _ ob hq hnd hpos hs
  exact ⟨fun o ho => by rw [Fill_sizes]; exact this.1 o ho, by rw [Fill_sizes]; exact this.2⟩

/-- On a queue of positive makers the orders collected for deletion are the
makers that ended with size 0. -/
theorem fillLoop_deletes_pos (l t : Nat) (q : List Nat) (ob : OrderBook) (hq : t ∉ q)
    (hnd : q.Nodup) (hpos : ∀ o ∈ q, 0 < sizes ob o) :
    (fillLoop l t q ob).2.2 =
      q.filter (fun o => decide (sizes (fillLoop l t q ob).1 o = 0)) := by
  induction q generalizing ob with
  | nil => simp [fillLoop_nil]
  | cons m rest ih =>
    have hne : t ≠ m := fun h => hq (h ▸ List.mem_cons_self _ _)
    have hr : t ∉ rest := fun h => hq (List.mem_cons_of_mem _ h)
    have hmr : m ∉ rest := (List.nodup_cons.1 hnd).1
    have hpos1 : ∀ o ∈ rest, 0 < sizes (fillStep ob l t m).1 o := by
      intro o ho
      rw [sizes_apply, fillStep_orderAt_other ob l t m o (fun he => hr (he ▸ ho))
        (fun he => hmr (he ▸ ho))]
      exact hpos o (List.mem_cons_of_mem _ ho)
    by_cases h : ((fillStep ob l t m).1.orderAt t).Size = 0
    · rw [fillLoop_cons_filled _ _ _ _ _ h]
      simp only []
      have hnil : rest.filter (fun o => decide (sizes (fillStep ob l t m).1 o = 0)) = [] := by
        rw [List.filter_eq_nil_iff]
        intro o ho
        have := hpos1 o ho
        simp only [decide_eq_true_eq]
        omega
      rw [List.filter_cons, hnil]
      by_cases hz : ((fillStep ob l t m).1.orderAt m).Size = 0
      · simp [hz, sizes_apply]
      · simp [hz, sizes_apply]
    · rw [fillLoop_cons_open _ _ _ _ _ h]
      simp only []
      rw [ih _ hr (List.nodup_cons.1 hnd).2 hpos1, List.filter_cons, sizes_apply,
        fillLoop_orderAt_other l t rest _ m (Ne.symm hne) hmr]
      by_cases hz : ((fillStep ob l t m).1.orderAt m).Size = 0
      · simp [hz]
      · simp [hz]

theorem diff_filter_self (q : List Nat) (p : Nat → Bool) (hnd : q.Nodup) :
    q.diff (q.filter p) = q.filter (fun x => !p x) := by
  rw [hnd.diff_eq_filter]
  refine List.filter_congr (fun x hx => ?_)
  by_cases hp : p x = true
  · simp [List.mem_filter, hx, hp]
  · simp [List.mem_filter, hp]

/-- After `Fill` on a time-ordered queue of positive makers, the queue holds
the makers with a size left, in their old order. -/
theorem Fill_queue_filter (ob : OrderBook) (l t : Nat) (hq : t ∉ (ob.limitAt l).Orders)
    (hnd : (ob.limitAt l).Orders.Nodup) (hpos : ∀ o ∈ (ob.limitAt l).Orders, 0 < sizes ob o)
    (hts : TimeOrdered ob (ob.limitAt l).Orders) :
    ((Fill ob l t).1.limitAt l).Orders =
      (ob.limitAt l).Orders.filter (fun o => decide (sizes (Fill ob l t).1 o ≠ 0)) := by
  rw [Fill_queue_ordered ob l t hts, fillLoop_deletes_pos l t _ ob hq hnd hpos,
    diff_filter_self _ _ hnd]
  refine List.filter_congr (fun x _ => ?_)
  rw [Fill_sizes]
  simp

/-- After `Fill` the makers that ended with size 0 have lost their back
reference; no other back reference has changed. -/
theorem Fill_backref (ob : OrderBook) (l t : Nat) (hq : t ∉ (ob.limitAt l).Orders)
    (hnd : (ob.limitAt l).Orders.Nodup) (hpos : ∀ o ∈ (ob.limitAt l).Orders, 0 < sizes ob o)
    (o : Nat) :
    ((Fill ob l t).1.orderAt o).Limit =
      if o ∈ (ob.limitAt l).Orders ∧ sizes (Fill ob l t).1 o = 0 then none
      else (ob.orderAt o).Limit := by
  rw [Fill_sizes, Fill_fst, deleteOrders_backref, (fillLoop_sameShape _ _ _ _).limit,
    fillLoop_deletes_pos l t _ ob hq hnd hpos]
  simp only [List.mem_filter, decide_eq_true_eq]

/-! ## The sizes after the loop of a market order -/

theorem makers_nil (ob : OrderBook) : makers ob [] = [] := rfl

theorem makers_cons (ob : OrderBook) (l : Nat) (ls : List Nat) :
    makers ob (l :: ls) = (ob.limitAt l).Orders ++ makers ob ls := by
  simp [makers]

theorem mem_makers (ob : OrderBook) (ls : List Nat) (o : Nat) :
    o ∈ makers ob ls ↔ ∃ l ∈ ls, o ∈ (ob.limitAt l).Orders := by
  simp [makers, List.mem_flatMap]

theorem makers_congr (ob ob' : OrderBook) (ls : List Nat)
    (h : ∀ l ∈ ls, (ob'.limitAt l).Orders = (ob.limitAt l).Orders) :
    makers ob' ls = makers ob ls := by
  induction ls with
  | nil => rfl
  | cons l rest ih =>
    rw [makers_cons, makers_cons, h l (List.mem_cons_self _ _),
      ih (fun l' hl' => h l' (List.mem_cons_of_mem _ hl'))]

theorem LoopReady.tail {ob : OrderBook} {t l : Nat} {rest : List Nat}
    (h : LoopReady ob t (l :: rest)) : LoopReady ob t rest :=
  ⟨h.wf, (List.nodup_cons.1 h.nodup).2, fun l' hl' => h.sub l' (List.mem_cons_of_mem _ hl'),
    fun l' hl' => h.free l' (List.mem_cons_of_mem _ hl'),
    fun l' hl' => h.pos l' (List.mem_cons_of_mem _ hl'),
    fun l' hl' => h.ord l' (List.mem_cons_of_mem _ hl'), h.nonneg⟩

theorem LoopReady.not_maker {ob : OrderBook} {t : Nat} {ls : List Nat} (h : LoopReady ob t ls) :
    t ∉ makers ob ls := by
  rw [mem_makers]
  rintro ⟨l, hl, ho⟩
  exact h.free l hl ho

theorem LoopReady.makers_pos {ob : OrderBook} {t : Nat} {ls : List Nat} (h : LoopReady ob t ls) :
    ∀ o ∈ makers ob ls, 0 < sizes ob o := by
  intro o ho
  obtain ⟨l, hl, ho'⟩ := (mem_makers ob ls o).1 ho
  exact h.pos l hl o ho'

/-- The queue of the first limit shares no order with the later limits. -/
theorem LoopReady.head_disjoint {ob : OrderBook} {t l : Nat} {rest : List Nat}
    (h : LoopReady ob t (l :: rest)) :
    ∀ o ∈ (ob.limitAt l).Orders, o ∉ makers ob rest := by
  intro o ho hm
  obtain ⟨l', hl', ho'⟩ := (mem_makers ob rest o).1 hm
  have := h.wf.queue_unique (h.sub l (List.mem_cons_self _ _))
    (h.sub l' (List.mem_cons_of_mem _ hl')) ho ho'
  exact (List.nodup_cons.1 h.nodup).1 (this ▸ hl')

theorem LoopReady.makers_nodup {ob : OrderBook} {t : Nat} {ls : List Nat}
    (h : LoopReady ob t ls) : (makers ob ls).Nodup := by
  induction ls with
  | nil => exact List.nodup_nil
  | cons l rest ih =>
    rw [makers_cons]
    exact List.Nodup.append (h.wf.queue_nodup l (h.sub l (List.mem_cons_self _ _))) (ih h.tail)
      (fun o ho hm => h.head_disjoint o ho hm)

/-- The orders of the later limits are untouched by `Fill` on the first. -/
theorem LoopReady.fill_other {ob : OrderBook} {t l : Nat} {rest : List Nat}
    (h : LoopReady ob t (l :: rest)) {l' : Nat} (hl' : l' ∈ rest) :
    (Fill ob l t).1.limitAt l' = ob.limitAt l' ∧
      ∀ o ∈ (ob.limitAt l').Orders, (Fill ob l t).1.orderAt o = ob.orderAt o := by
  have hne : l' ≠ l := fun he => (List.nodup_cons.1 h.nodup).1 (he ▸ hl')
  refine ⟨Fill_limitAt_other _ _ _ _ hne, fun o ho => ?_⟩
  refine Fill_orderAt_other _ _ _ _ (fun he => h.free l' (List.mem_cons_of_mem _ hl') (he ▸ ho)) ?_
  intro hq
  exact hne (h.wf.queue_unique (h.sub l' (List.mem_cons_of_mem _ hl'))
    (h.sub l (List.mem_cons_self _ _)) ho hq)

theorem LoopReady.step {ob : OrderBook} {t l : Nat} {rest : List Nat}
    (h : LoopReady ob t (l :: rest)) : LoopReady (Fill ob l t).1 t rest := by
  have hl := h.sub l (List.mem_cons_self _ _)
  refine ⟨Fill_wellFormed h.wf t hl, (List.nodup_cons.1 h.nodup).2, ?_, ?_, ?_, ?_, ?_⟩
  · intro l' hl'
    rw [Fill_asks, Fill_bids]; exact h.sub l' (List.mem_cons_of_mem _ hl')
  · intro l' hl' hq
    exact h.free l' (List.mem_cons_of_mem _ hl') (Fill_queue_subset _ _ _ _ _ hq)
  · intro l' hl' o ho
    obtain ⟨e1, e2⟩ := h.fill_other hl'
    rw [e1] at ho
    rw [sizes_apply, e2 o ho]
    exact h.pos l' (List.mem_cons_of_mem _ hl') o ho
  · intro l' hl'
    obtain ⟨e1, _⟩ := h.fill_other hl'
    rw [e1, timeOrdered_congr (Fill_timeStamp ob l t)]
    exact h.ord l' (List.mem_cons_of_mem _ hl')
  · exact Fill_taker_nonneg ob l t (h.free l (List.mem_cons_self _ _)) h.nonneg

theorem LoopReady.makers_step {ob : OrderBook} {t l : Nat} {rest : List Nat}
    (h : LoopReady ob t (l :: rest)) : makers (Fill ob l t).1 rest = makers ob rest :=
  makers_congr _ _ _ (fun _ hl' => by rw [(h.fill_other hl').1])

/-- The sizes of the makers after the loop of a market order: the makers of the
traversed limits are consumed in priority order. -/
theorem marketLoop_consume (t : Nat) (ls : List Nat) {ob : OrderBook} (h : LoopReady ob t ls) :
    ∀ o, o ≠ t →
      sizes (marketLoop t ls ob).1 o = consume (sizes ob t) (makers ob ls) (sizes ob) o := by
  induction ls generalizing ob with
  | nil => intro o _; rfl
  | cons l rest ih =>
    have hl := h.sub l (List.mem_cons_self _ _)
    obtain ⟨f1, f2⟩ := Fill_consume ob l t (h.free l (List.mem_cons_self _ _))
      (h.wf.queue_nodup l hl) (h.pos l (List.mem_cons_self _ _)) h.nonneg
    have hnd := h.makers_nodup
    have hpos := h.makers_pos
    rw [makers_cons] at hnd hpos
    have hg : ∀ x ∈ makers ob rest,
        sizes (Fill ob l t).1 x = consume (sizes ob t) (ob.limitAt l).Orders (sizes ob) x :=
      fun x hx => f1 x (fun he => h.tail.not_maker (he ▸ hx))
    intro o ho
    rw [makers_cons, consume_append _ _ _ _ hnd hpos, ← f2]
    by_cases hf : ((Fill ob l t).1.orderAt t).Size = 0
    · rw [marketLoop_cons_filled _ _ _ _ hf]
      simp only []
      have h0 : sizes (Fill ob l t).1 t = 0 := hf
      rw [h0, consume_zero, f1 o ho]
      intro x hx
      rw [← hg x hx]
      exact h.step.makers_pos x (by rw [h.makers_step]; exact hx)
    · rw [marketLoop_cons_open _ _ _ _ hf]
      simp only []
      rw [ih h.step o ho, h.makers_step]
      exact consume_congr _ _ _ _ _ hg (f1 o ho)

/-- The sizes of the makers of the first limit are final once `Fill` has run
on it. -/
theorem LoopReady.head_final {ob : OrderBook} {t l : Nat} {rest : List Nat}
    (h : LoopReady ob t (l :: rest)) :
    ∀ o ∈ (ob.limitAt l).Orders,
      (marketLoop t rest (Fill ob l t).1).1.orderAt o = (Fill ob l t).1.orderAt o := by
  intro o ho
  refine marketLoop_orderAt_other t rest _ o
    (fun he => h.free l (List.mem_cons_self _ _) (he ▸ ho)) ?_
  intro l' hl' hq
  rw [(h.fill_other hl').1] at hq
  exact h.head_disjoint o ho ((mem_makers ob rest o).2 ⟨l', hl', hq⟩)

/-- After the loop of a market order the queue of each traversed limit holds
the makers with a size left, in their old order. -/
theorem marketLoop_queue_filter (t : Nat) (ls : List Nat) {ob : OrderBook}
    (h : LoopReady ob t ls) :
    ∀ l ∈ ls, ((marketLoop t ls ob).1.limitAt l).Orders =
      (ob.limitAt l).Orders.filter (fun o => decide (sizes (marketLoop t ls ob).1 o ≠ 0)) := by
  induction ls generalizing ob with
  | nil => simp
  | cons l0 rest ih =>
    have hl0 := h.sub l0 (List.mem_cons_self _ _)
    have hq0 := Fill_queue_filter ob l0 t (h.free l0 (List.mem_cons_self _ _))
      (h.wf.queue_nodup l0 hl0) (h.pos l0 (List.mem_cons_self _ _))
      (h.ord l0 (List.mem_cons_self _ _))
    have hl0r : l0 ∉ rest := (List.nodup_cons.1 h.nodup).1
    intro l hl
    by_cases hf : ((Fill ob l0 t).1.orderAt t).Size = 0
    · rw [marketLoop_cons_filled _ _ _ _ hf]
      simp only []
      rcases List.mem_cons.1 hl with rfl | hl
      · exact hq0
      · rw [(h.fill_other hl).1, eq_comm, List.filter_eq_self]
        intro o ho
        have := h.step.pos l hl o (by rw [(h.fill_other hl).1]; exact ho)
        simp only [ne_eq, decide_eq_true_eq]
        omega
    · rw [marketLoop_cons_open _ _ _ _ hf]
      simp only []
      rcases List.mem_cons.1 hl with rfl | hl
      · rw [marketLoop_limitAt_other t rest _ l hl0r, hq0]
        refine List.filter_congr (fun o ho => ?_)
        rw [sizes_apply, sizes_apply, h.head_final o ho]
      · rw [ih h.step l hl, (h.fill_other hl).1]

/-- After the loop of a market order the makers that ended with size 0 have
lost their back reference; no other back reference has changed. -/
theorem marketLoop_backref (t : Nat) (ls : List Nat) {ob : OrderBook} (h : LoopReady ob t ls)
    (o : Nat) :
    ((marketLoop t ls ob).1.orderAt o).Limit =
      if o ∈ makers ob ls ∧ sizes (marketLoop t ls ob).1 o = 0 then none
      else (ob.orderAt o).Limit := by
  induction ls generalizing ob with
  | nil => simp [marketLoop_nil, makers_nil]
  | cons l0 rest ih =>
    have hl0 := h.sub l0 (List.mem_cons_self _ _)
    have hb0 := Fill_backref ob l0 t (h.free l0 (List.mem_cons_self _ _))
      (h.wf.queue_nodup l0 hl0) (h.pos l0 (List.mem_cons_self _ _)) o
    have hmem : o ∈ makers ob (l0 :: rest) ↔
        o ∈ (ob.limitAt l0).Orders ∨ o ∈ makers ob rest := by
      rw [makers_cons, List.mem_append]
    by_cases hf : ((Fill ob l0 t).1.orderAt t).Size = 0
    · rw [marketLoop_cons_filled _ _ _ _ hf]
      simp only []
      rw [hb0]
      by_cases ho : o ∈ (ob.limitAt l0).Orders
      · by_cases hz : sizes (Fill ob l0 t).1 o = 0
        · rw [if_pos ⟨ho, hz⟩, if_pos ⟨hmem.2 (Or.inl ho), hz⟩]
        · rw [if_neg (fun c => hz c.2), if_neg (fun c => hz c.2)]
      · rw [if_neg (fun c => ho c.1), if_neg]
        rintro ⟨hm, hz⟩
        rcases hmem.1 hm with h1 | h1
        · exact ho h1
        · have := h.step.makers_pos o (by rw [h.makers_step]; exact h1)
          omega
    · rw [marketLoop_cons_open _ _ _ _ hf]
      simp only []
      rw [ih h.step, h.makers_step, hb0]
      by_cases ho : o ∈ (ob.limitAt l0).Orders
      · have hm : o ∉ makers ob rest := h.head_disjoint o ho
        have hfin : sizes (marketLoop t rest (Fill ob l0 t).1).1 o = sizes (Fill ob l0 t).1 o := by
          rw [sizes_apply, sizes_apply, h.head_final o ho]
        rw [if_neg (fun c => hm c.1)]
        by_cases hz : sizes (Fill ob l0 t).1 o = 0
        · rw [if_pos ⟨ho, hz⟩, if_pos ⟨hmem.2 (Or.inl ho), hfin.trans hz⟩]
        · rw [if_neg (fun c => hz c.2), if_neg (fun c => hz (hfin.symm.trans c.2))]
      · by_cases hc : o ∈ makers ob rest ∧ sizes (marketLoop t rest (Fill ob l0 t).1).1 o = 0
        · rw [if_pos hc, if_pos ⟨hmem.2 (Or.inr hc.1), hc.2⟩]
        · rw [if_neg hc, if_neg (fun c => ho c.1),
            if_neg (fun c => hc ⟨(hmem.1 c.1).resolve_left ho, c.2⟩)]

/-! ## The state after a market order, from the sizes it leaves -/

theorem sizes_opposite (ob : OrderBook) (t : Nat) : sizes (opposite ob t).1 = sizes ob := by
  funext o; rw [sizes_apply, opposite_orderAt]; rfl

theorem makers_opposite (ob : OrderBook) (t : Nat) (ls : List Nat) :
    makers (opposite ob t).1 ls = makers ob ls :=
  makers_congr _ _ _ (fun _ _ => by rw [opposite_limitAt])

theorem Taker.le {ob : OrderBook} {t : Nat} {s : Int} (ht : Taker ob t s) :
    (ob.orderAt t).Size ≤ oppositeVolume ob t := by
  have := ht.size
  rw [sizes_apply] at this
  rw [this]; exact ht.enough

theorem loopReady_opposite {ob : OrderBook} (h : SplitReady ob) {t : Nat} {s : Int}
    (ht : Taker ob t s) : LoopReady (opposite ob t).1 t (opposite ob t).2 := by
  have hsub := opposite_snd_sub ob t
  have hbook : ∀ l ∈ (opposite ob t).2, l ∈ ob.asks ++ ob.bids :=
    fun l hl => (opposite_mem_book ob t l).1 (hsub l hl)
  refine ⟨opposite_wellFormed h.wf t, opposite_snd_nodup h.wf t, hsub,
    opposite_snd_free h.wf t, ?_, ?_, ?_⟩
  · intro l hl o ho
    rw [opposite_limitAt] at ho
    rw [sizes_opposite]
    exact h.pos l (hbook l hl) o ho
  · intro l hl
    rw [opposite_limitAt]
    have e : ∀ o, ((opposite ob t).1.orderAt o).TimeStamp = (ob.orderAt o).TimeStamp :=
      fun o => by rw [opposite_orderAt]
    exact (timeOrdered_congr e _).2 (h.ord l (hbook l hl))
  · rw [sizes_opposite, ht.size]; exact ht.nonneg

theorem PlaceMarketOrder_sizes_eq {ob : OrderBook} {t : Nat} {s : Int} (ht : Taker ob t s) :
    sizes (PlaceMarketOrder ob t).1 =
      sizes (marketLoop t (opposite ob t).2 (opposite ob t).1).1 := by
  funext o
  rw [sizes_apply, PlaceMarketOrder_orderAt ob t ht.le]; rfl

/-- The sizes after a market order: the makers of the opposite side are
consumed in priority order. -/
theorem PlaceMarketOrder_consume {ob : OrderBook} (h : SplitReady ob) {t : Nat} {s : Int}
    (ht : Taker ob t s) (o : Nat) (ho : o ≠ t) :
    sizes (PlaceMarketOrder ob t).1 o = consume s (makers ob (opposite ob t).2) (sizes ob) o := by
  rw [PlaceMarketOrder_sizes_eq ht, marketLoop_consume t _ (loopReady_opposite h ht) o ho,
    sizes_opposite, makers_opposite, ht.size]

/-- The queues of the opposite side after a market order. -/
theorem PlaceMarketOrder_queue {ob : OrderBook} (h : SplitReady ob) {t : Nat} {s : Int}
    (ht : Taker ob t s) (l : Nat) (hl : l ∈ (opposite ob t).2) :
    ((PlaceMarketOrder ob t).1.limitAt l).Orders =
      (ob.limitAt l).Orders.filter (fun o => decide (sizes (PlaceMarketOrder ob t).1 o ≠ 0)) := by
  rw [PlaceMarketOrder_sizes_eq ht, PlaceMarketOrder_limitAt ob t ht.le,
    marketLoop_queue_filter t _ (loopReady_opposite h ht) l hl, opposite_limitAt]

/-- The back references after a market order. -/
theorem PlaceMarketOrder_backref {ob : OrderBook} (h : SplitReady ob) {t : Nat} {s : Int}
    (ht : Taker ob t s) (o : Nat) :
    ((PlaceMarketOrder ob t).1.orderAt o).Limit =
      if o ∈ makers ob (opposite ob t).2 ∧ sizes (PlaceMarketOrder ob t).1 o = 0 then none
      else (ob.orderAt o).Limit := by
  rw [PlaceMarketOrder_sizes_eq ht, PlaceMarketOrder_orderAt ob t ht.le,
    marketLoop_backref t _ (loopReady_opposite h ht) o, makers_opposite, opposite_orderAt]

theorem PlaceMarketOrder_fields {ob : OrderBook} {t : Nat} {s : Int} (ht : Taker ob t s)
    (o : Nat) :
    ((PlaceMarketOrder ob t).1.orderAt o).ID = (ob.orderAt o).ID ∧
      ((PlaceMarketOrder ob t).1.orderAt o).Bid = (ob.orderAt o).Bid ∧
      ((PlaceMarketOrder ob t).1.orderAt o).TimeStamp = (ob.orderAt o).TimeStamp := by
  rw [PlaceMarketOrder_orderAt ob t ht.le, marketLoop_id, marketLoop_bid, marketLoop_timeStamp,
    opposite_orderAt]
  exact ⟨rfl, rfl, rfl⟩

theorem PlaceMarketOrder_price {ob : OrderBook} {t : Nat} {s : Int} (ht : Taker ob t s)
    (l : Nat) : ((PlaceMarketOrder ob t).1.limitAt l).Price = (ob.limitAt l).Price := by
  rw [PlaceMarketOrder_limitAt ob t ht.le, marketLoop_price, opposite_limitAt]

/-- A market order leaves the limits of its own side and the unlisted limits
as they are. -/
theorem PlaceMarketOrder_limitAt_other {ob : OrderBook} {t : Nat} {s : Int} (ht : Taker ob t s)
    (l : Nat) (hl : l ∉ (opposite ob t).2) :
    (PlaceMarketOrder ob t).1.limitAt l = ob.limitAt l := by
  rw [PlaceMarketOrder_limitAt ob t ht.le, marketLoop_limitAt_other t _ _ l hl, opposite_limitAt]

/-- A market order leaves the orders as they are but the taker and the makers
of the opposite side. -/
theorem PlaceMarketOrder_orderAt_other {ob : OrderBook} {t : Nat} {s : Int} (ht : Taker ob t s)
    (o : Nat) (h1 : o ≠ t) (h2 : o ∉ makers ob (opposite ob t).2) :
    (PlaceMarketOrder ob t).1.orderAt o = ob.orderAt o := by
  rw [PlaceMarketOrder_orderAt ob t ht.le, marketLoop_orderAt_other t _ _ o h1, opposite_orderAt]
  intro l hl ho
  rw [opposite_limitAt] at ho
  exact h2 ((mem_makers ob _ o).2 ⟨l, hl, ho⟩)

/-- After a market order every limit of the opposite side, cleared or not, has
the sum of its queued sizes as `TotalVolume`. -/
theorem PlaceMarketOrder_totalVolume {ob : OrderBook} (h : SplitReady ob) {t : Nat} {s : Int}
    (ht : Taker ob t s) (l : Nat) (hl : l ∈ (opposite ob t).2) :
    ((PlaceMarketOrder ob t).1.limitAt l).TotalVolume =
      queueVolume (PlaceMarketOrder ob t).1 ((PlaceMarketOrder ob t).1.limitAt l).Orders := by
  have hr := loopReady_opposite h ht
  have hv := marketLoop_volumeOn t (opposite ob t).2 hr.wf hr.sub (fun _ hx => hx) hr.free
    (opposite_volumeOn h.vol t _
      (fun l' hl' => (opposite_mem_book ob t l').1 (hr.sub l' hl'))) l hl
  rw [PlaceMarketOrder_limitAt ob t ht.le, hv]
  exact queueVolume_congr _ _ _ (fun o _ => by rw [PlaceMarketOrder_orderAt ob t ht.le])

theorem opposite_of_bid (ob : OrderBook) {t t' : Nat}
    (hb : (ob.orderAt t').Bid = (ob.orderAt t).Bid) : opposite ob t' = opposite ob t := by
  unfold opposite; rw [hb]

theorem oppositeLimits_of_bid (ob : OrderBook) {t t' : Nat}
    (hb : (ob.orderAt t').Bid = (ob.orderAt t).Bid) :
    oppositeLimits ob t' = oppositeLimits ob t := by
  unfold oppositeLimits; rw [hb]

theorem ownLimits_of_bid (ob : OrderBook) {t t' : Nat}
    (hb : (ob.orderAt t').Bid = (ob.orderAt t).Bid) : ownLimits ob t' = ownLimits ob t := by
  unfold ownLimits; rw [hb]

theorem oppositeVolume_of_bid (ob : OrderBook) {t t' : Nat}
    (hb : (ob.orderAt t').Bid = (ob.orderAt t).Bid) :
    oppositeVolume ob t' = oppositeVolume ob t := by
  unfold oppositeVolume; rw [hb]

/-- The makers of the opposite side are distinct, positive and do not include
the taker. -/
theorem makers_ready {ob : OrderBook} (h : SplitReady ob) {t : Nat} {s : Int}
    (ht : Taker ob t s) :
    (makers ob (opposite ob t).2).Nodup ∧
      (∀ x ∈ makers ob (opposite ob t).2, 0 < sizes ob x) ∧
      t ∉ makers ob (opposite ob t).2 := by
  have hr := loopReady_opposite h ht
  have h1 := hr.makers_nodup
  have h2 := hr.makers_pos
  have h3 := hr.not_maker
  rw [makers_opposite] at h1 h2 h3
  rw [sizes_opposite] at h2
  exact ⟨h1, h2, h3⟩

theorem opposite_snd_book (ob : OrderBook) (t l : Nat) (hl : l ∈ (opposite ob t).2) :
    l ∈ ob.asks ++ ob.bids :=
  (opposite_mem_book ob t l).1 (opposite_snd_sub ob t l hl)

/-- The list of the opposite side after a market order: the limits of the
sorted list whose queue is not empty. -/
theorem PlaceMarketOrder_oppositeLimits_filter {ob : OrderBook} (h : SplitReady ob) {t : Nat}
    {s : Int} (ht : Taker ob t s) :
    oppositeLimits (PlaceMarketOrder ob t).1 t =
      (opposite ob t).2.filter
        (fun l => decide (((PlaceMarketOrder ob t).1.limitAt l).Orders ≠ [])) := by
  have e1 : oppositeLimits (PlaceMarketOrder ob t).1 t =
      (opposite ob t).2.diff (marketLoop t (opposite ob t).2 (opposite ob t).1).2.2 := by
    rw [PlaceMarketOrder_ok ob t ht.le]
    simp only []
    rw [clearLimits_oppositeLimits, marketLoop_oppositeLimits, opposite_oppositeLimits]
  have hnd := opposite_snd_nodup h.wf t
  rw [e1, PlaceMarketOrder_limitAt ob t ht.le, hnd.diff_eq_filter]
  refine List.filter_congr (fun l hl => ?_)
  by_cases hc : l ∈ (marketLoop t (opposite ob t).2 (opposite ob t).1).2.2
  · have := marketLoop_clear_empty t _ _ hnd l hc
    simp [hc, this]
  · have := marketLoop_not_cleared t _ (opposite ob t).1 hnd l
      (by rw [opposite_limitAt]; exact h.noEmpty l (opposite_snd_book ob t l hl)) hc
    simp [hc, this]

theorem PlaceMarketOrder_index (ob : OrderBook) (t : Nat) :
    (PlaceMarketOrder ob t).1.Orders = ob.Orders := by
  rw [PlaceMarketOrder_eq]
  split
  · rfl
  · simp only []
    rw [clearLimits_Orders, marketLoop_Orders, opposite_Orders]

/-- A market order that the book can take is filled for its whole size. -/
theorem PlaceMarketOrder_filled_total {ob : OrderBook} (h : SplitReady ob) {t : Nat} {s : Int}
    (ht : Taker ob t s) :
    filledTotal (marketLoop t (opposite ob t).2 (opposite ob t).1).2.1 = s := by
  have h0 : 0 ≤ (ob.orderAt t).Size := by
    have := ht.size; rw [sizes_apply] at this; rw [this]; exact ht.nonneg
  have hz := marketLoop_fills h.wf h.vol t h0 ht.le
  have hT := marketLoop_taker t (opposite ob t).2 (opposite ob t).1 (opposite_snd_free h.wf t)
  rw [opposite_orderAt, hz] at hT
  have := ht.size
  rw [sizes_apply] at this
  omega

theorem splitReady_PlaceMarketOrder {ob : OrderBook} (h : SplitReady ob) {t : Nat} {s : Int}
    (ht : Taker ob t s) : SplitReady (PlaceMarketOrder ob t).1 := by
  obtain ⟨hMnd, hMpos, htM⟩ := makers_ready h ht
  have hfree := not_resting_free h.wf ht.fresh
  have hold : ∀ l, l ∈ (PlaceMarketOrder ob t).1.asks ++ (PlaceMarketOrder ob t).1.bids →
      l ∈ ob.asks ++ ob.bids := fun l hl => ((PlaceMarketOrder_mem_book h.wf t l ht.le).1 hl).1
  have hts : ∀ o, (((PlaceMarketOrder ob t).1).orderAt o).TimeStamp = (ob.orderAt o).TimeStamp :=
    fun o => (PlaceMarketOrder_fields ht o).2.2
  refine ⟨wellFormed_PlaceMarketOrder h.wf t, noEmpty_PlaceMarketOrder h.wf h.noEmpty t,
    volumeInv_PlaceMarketOrder h.wf h.vol ht.fresh, ?_, ?_⟩
  · intro l hl o ho
    have hlb := hold l hl
    by_cases hL : l ∈ (opposite ob t).2
    · rw [PlaceMarketOrder_queue h ht l hL, List.mem_filter] at ho
      have hoM : o ∈ makers ob (opposite ob t).2 := (mem_makers ob _ o).2 ⟨l, hL, ho.1⟩
      have hot : o ≠ t := fun he => htM (he ▸ hoM)
      have hnn := consume_nonneg s _ (sizes ob) hMnd hMpos ht.nonneg o hoM
      rw [← PlaceMarketOrder_consume h ht o hot] at hnn
      have hne : sizes (PlaceMarketOrder ob t).1 o ≠ 0 := by simpa using ho.2
      exact lt_of_le_of_ne hnn (Ne.symm hne)
    · rw [PlaceMarketOrder_limitAt_other ht l hL] at ho
      have hot : o ≠ t := fun he => hfree l hlb (he ▸ ho)
      have hoM : o ∉ makers ob (opposite ob t).2 := by
        intro hm
        obtain ⟨l', hl', ho'⟩ := (mem_makers ob _ o).1 hm
        exact hL (h.wf.queue_unique hlb (opposite_snd_book ob t l' hl') ho ho' ▸ hl')
      rw [PlaceMarketOrder_orderAt_other ht o hot hoM]
      exact h.pos l hlb o ho
  · intro l hl
    have hlb := hold l hl
    refine (timeOrdered_congr hts _).2 ?_
    by_cases hL : l ∈ (opposite ob t).2
    · rw [PlaceMarketOrder_queue h ht l hL]
      exact (h.ord l hlb).sublist (List.filter_sublist _)
    · rw [PlaceMarketOrder_limitAt_other ht l hL]
      exact h.ord l hlb

/-- A second market order of the same side that the remaining volume can take
is a taker of the book the first has left. -/
theorem taker_after {ob : OrderBook} (h : SplitReady ob) {t1 t2 : Nat} {a b : Int}
    (h1 : Taker ob t1 a) (hs : sizes ob t2 = b) (hb : 0 ≤ b)
    (hab : a + b ≤ oppositeVolume ob t1) (hr : ¬ Resting ob t2)
    (hbid : (ob.orderAt t2).Bid = (ob.orderAt t1).Bid) (hne : t2 ≠ t1) :
    Taker (PlaceMarketOrder ob t1).1 t2 b := by
  have hfree := not_resting_free h.wf hr
  have hM : t2 ∉ makers ob (opposite ob t1).2 := by
    intro hm
    obtain ⟨l, hl, ho⟩ := (mem_makers ob _ t2).1 hm
    exact hfree l (opposite_snd_book ob t1 l hl) ho
  have hsame := PlaceMarketOrder_orderAt_other h1 t2 hne hM
  have hbid' : ((PlaceMarketOrder ob t1).1.orderAt t2).Bid =
      ((PlaceMarketOrder ob t1).1.orderAt t1).Bid := by
    rw [(PlaceMarketOrder_fields h1 t2).2.1, (PlaceMarketOrder_fields h1 t1).2.1, hbid]
  refine ⟨by rw [sizes_apply, hsame]; exact hs, hb, ?_, ?_⟩
  · rw [oppositeVolume_of_bid _ hbid', PlaceMarketOrder_oppositeVolume h.wf h.vol t1 h1.le,
      PlaceMarketOrder_filled_total h h1]
    omega
  · rintro ⟨l, hl, _, ho⟩
    have hlb := ((PlaceMarketOrder_mem_book h.wf t1 l h1.le).1 hl).1
    rw [PlaceMarketOrder_limitAt ob t1 h1.le] at ho
    have := marketLoop_queue_subset t1 _ _ l t2 ho
    rw [opposite_limitAt] at this
    exact hfree l hlb this

/-! ## Order splitting -/

theorem Split.opp1 {ob : OrderBook} {t t1 t2 : Nat} {a b : Int} (h : Split ob t t1 t2 a b) :
    opposite ob t1 = opposite ob t := opposite_of_bid ob h.bid1

theorem Split.second {ob : OrderBook} {t t1 t2 : Nat} {a b : Int} (h : Split ob t t1 t2 a b) :
    Taker (PlaceMarketOrder ob t1).1 t2 b :=
  taker_after h.ready h.first h.size2 h.nonneg2
    (by rw [oppositeVolume_of_bid ob h.bid1]; exact h.whole.enough) h.fresh2
    (h.bid2.trans h.bid1.symm) h.ne

theorem Split.readyA {ob : OrderBook} {t t1 t2 : Nat} {a b : Int} (h : Split ob t t1 t2 a b) :
    SplitReady (PlaceMarketOrder ob t1).1 :=
  splitReady_PlaceMarketOrder h.ready h.first

/-- No taker is a maker of the opposite side. -/
theorem Split.takers_apart {ob : OrderBook} {t t1 t2 : Nat} {a b : Int}
    (h : Split ob t t1 t2 a b) :
    ∀ x ∈ makers ob (opposite ob t).2, x ≠ t ∧ x ≠ t1 ∧ x ≠ t2 := by
  intro x hx
  refine ⟨fun he => (makers_ready h.ready h.whole).2.2 (he ▸ hx), fun he => ?_, fun he => ?_⟩
  · have := (makers_ready h.ready h.first).2.2
    rw [h.opp1] at this
    exact this (he ▸ hx)
  · obtain ⟨l, hl, ho⟩ := (mem_makers ob _ x).1 hx
    exact not_resting_free h.ready.wf h.fresh2 l (opposite_snd_book ob t l hl) (he ▸ ho)

/-- The sizes after the first of the two orders. -/
theorem Split.sizesA {ob : OrderBook} {t t1 t2 : Nat} {a b : Int} (h : Split ob t t1 t2 a b)
    (x : Nat) (hx : x ≠ t1) :
    sizes (PlaceMarketOrder ob t1).1 x =
      consume a (makers ob (opposite ob t).2) (sizes ob) x := by
  rw [PlaceMarketOrder_consume h.ready h.first x hx, h.opp1]

theorem sorted_filter_asks (ob A : OrderBook) (ls : List Nat) (p : Nat → Bool)
    (hprice : ∀ l, (A.limitAt l).Price = (ob.limitAt l).Price) :
    sortAsks A ((sortAsks ob ls).filter p) = (sortAsks ob ls).filter p := by
  unfold sortAsks
  refine List.Sorted.insertionSort_eq ?_
  have := (sortAsks_sorted ob ls).filter p
  unfold sortAsks at this
  exact this.imp (fun {a b} hab => by rw [hprice a, hprice b]; exact hab)

theorem sorted_filter_bids (ob A : OrderBook) (ls : List Nat) (p : Nat → Bool)
    (hprice : ∀ l, (A.limitAt l).Price = (ob.limitAt l).Price) :
    sortBids A ((sortBids ob ls).filter p) = (sortBids ob ls).filter p := by
  unfold sortBids
  refine List.Sorted.insertionSort_eq ?_
  have := (sortBids_sorted ob ls).filter p
  unfold sortBids at this
  exact this.imp (fun {a b} hab => by rw [hprice a, hprice b]; exact hab)

/-- The side traversed by a later order: the sorted list the earlier order
traversed, without the limits that are no longer listed. -/
theorem opposite_after (ob A : OrderBook) (t t' : Nat) (p : Nat → Bool)
    (hprice : ∀ l, (A.limitAt l).Price = (ob.limitAt l).Price)
    (hbid : (A.orderAt t').Bid = (ob.orderAt t).Bid)
    (hlist : oppositeLimits A t' = (opposite ob t).2.filter p) :
    (opposite A t').2 = (opposite ob t).2.filter p := by
  unfold oppositeLimits at hlist
  unfold opposite at hlist ⊢
  rw [hbid] at hlist ⊢
  by_cases hb : (ob.orderAt t).Bid = true
  · rw [if_pos hb] at hlist ⊢
    rw [if_pos hb] at hlist
    rw [if_pos hb]
    show sortAsks A A.asks = (sortAsks ob ob.asks).filter p
    rw [show A.asks = (sortAsks ob ob.asks).filter p from hlist]
    exact sorted_filter_asks ob A _ p hprice
  · rw [if_neg hb] at hlist ⊢
    rw [if_neg hb] at hlist
    rw [if_neg hb]
    show sortBids A A.bids = (sortBids ob ob.bids).filter p
    rw [show A.bids = (sortBids ob ob.bids).filter p from hlist]
    exact sorted_filter_bids ob A _ p hprice

theorem makers_filter_nonempty (ob : OrderBook) (ls : List Nat) :
    makers ob (ls.filter (fun l => decide ((ob.limitAt l).Orders ≠ []))) = makers ob ls := by
  induction ls with
  | nil => rfl
  | cons l rest ih =>
    by_cases hq : (ob.limitAt l).Orders = []
    · rw [List.filter_cons_of_neg (by simp [hq]), ih, makers_cons, hq, List.nil_append]
    · rw [List.filter_cons_of_pos (by simp [hq]), makers_cons, makers_cons, ih]

theorem makers_filter (ob A : OrderBook) (ls : List Nat) (p : Nat → Bool)
    (h : ∀ l ∈ ls, (A.limitAt l).Orders = (ob.limitAt l).Orders.filter p) :
    makers A ls = (makers ob ls).filter p := by
  induction ls with
  | nil => rfl
  | cons l rest ih =>
    rw [makers_cons, makers_cons, List.filter_append, h l (List.mem_cons_self _ _),
      ih (fun l' hl' => h l' (List.mem_cons_of_mem _ hl'))]

theorem Split.bidA {ob : OrderBook} {t t1 t2 : Nat} {a b : Int} (h : Split ob t t1 t2 a b)
    (o : Nat) : ((PlaceMarketOrder ob t1).1.orderAt o).Bid = (ob.orderAt o).Bid :=
  (PlaceMarketOrder_fields h.first o).2.1

/-- The limits the second order traverses. -/
theorem Split.oppA {ob : OrderBook} {t t1 t2 : Nat} {a b : Int} (h : Split ob t t1 t2 a b) :
    (opposite (PlaceMarketOrder ob t1).1 t2).2 =
      (opposite ob t).2.filter
        (fun l => decide (((PlaceMarketOrder ob t1).1.limitAt l).Orders ≠ [])) := by
  refine opposite_after ob _ t t2 _ (PlaceMarketOrder_price h.first) ?_ ?_
  · rw [h.bidA, h.bid2]
  · rw [oppositeLimits_of_bid _ (show ((PlaceMarketOrder ob t1).1.orderAt t2).Bid =
        ((PlaceMarketOrder ob t1).1.orderAt t1).Bid by rw [h.bidA, h.bidA, h.bid2, h.bid1]),
      PlaceMarketOrder_oppositeLimits_filter h.ready h.first, h.opp1]

/-- The makers the second order meets: the makers with a size left. -/
theorem Split.makersA {ob : OrderBook} {t t1 t2 : Nat} {a b : Int} (h : Split ob t t1 t2 a b) :
    makers (PlaceMarketOrder ob t1).1 (opposite (PlaceMarketOrder ob t1).1 t2).2 =
      (makers ob (opposite ob t).2).filter
        (fun o => decide (sizes (PlaceMarketOrder ob t1).1 o ≠ 0)) := by
  rw [h.oppA, makers_filter_nonempty]
  exact makers_filter ob _ _ _
    (fun l hl => PlaceMarketOrder_queue h.ready h.first l (by rw [h.opp1]; exact hl))

/-- The sizes after the two orders are the sizes after the one order. -/
theorem Split.sizes_eq {ob : OrderBook} {t t1 t2 : Nat} {a b : Int} (h : Split ob t t1 t2 a b)
    (o : Nat) (h0 : o ≠ t) (h1 : o ≠ t1) (h2 : o ≠ t2) :
    sizes (PlaceMarketOrder (PlaceMarketOrder ob t1).1 t2).1 o =
      sizes (PlaceMarketOrder ob t).1 o := by
  obtain ⟨hnd, hpos, _⟩ := makers_ready h.ready h.whole
  have hM := h.takers_apart
  rw [PlaceMarketOrder_consume h.readyA h.second o h2, h.makersA,
    PlaceMarketOrder_consume h.ready h.whole o h0,
    ← consume_add a b _ (sizes ob) hnd hpos h.first.nonneg h.nonneg2]
  have hf : (makers ob (opposite ob t).2).filter
        (fun o => decide (sizes (PlaceMarketOrder ob t1).1 o ≠ 0)) =
      (makers ob (opposite ob t).2).filter
        (fun o => decide (consume a (makers ob (opposite ob t).2) (sizes ob) o ≠ 0)) :=
    List.filter_congr (fun x hx => by rw [h.sizesA x (hM x hx).2.1])
  rw [hf]
  exact consume_congr _ _ _ _ _
    (fun x hx => h.sizesA x (hM x (List.mem_of_mem_filter hx)).2.1) (h.sizesA o h1)

/-- A maker emptied by the first order stays empty. -/
theorem Split.mono {ob : OrderBook} {t t1 t2 : Nat} {a b : Int} (h : Split ob t t1 t2 a b)
    (x : Nat) (hx : x ∈ makers ob (opposite ob t).2)
    (hz : sizes (PlaceMarketOrder ob t1).1 x = 0) :
    sizes (PlaceMarketOrder (PlaceMarketOrder ob t1).1 t2).1 x = 0 := by
  rw [PlaceMarketOrder_consume h.readyA h.second x (h.takers_apart x hx).2.2, h.makersA,
    consume_not_mem, hz]
  rw [List.mem_filter]
  rintro ⟨_, hne⟩
  simp [hz] at hne

theorem limit_eq (x y : Limit) (h1 : x.Price = y.Price) (h2 : x.Orders = y.Orders)
    (h3 : x.TotalVolume = y.TotalVolume) : x = y := by
  cases x; cases y; simp_all

theorem order_eq (x y : Order) (h1 : x.ID = y.ID) (h2 : x.Size = y.Size) (h3 : x.Bid = y.Bid)
    (h4 : x.Limit = y.Limit) (h5 : x.TimeStamp = y.TimeStamp) : x = y := by
  cases x; cases y; simp_all

/-- A limit the first order has emptied is not traversed by the second. -/
theorem Split.emptied {ob : OrderBook} {t t1 t2 : Nat} {a b : Int} (h : Split ob t t1 t2 a b)
    (l : Nat) (hl : l ∈ (opposite ob t).2)
    (hLA : l ∉ (opposite (PlaceMarketOrder ob t1).1 t2).2) :
    ((PlaceMarketOrder ob t1).1.limitAt l).Orders = [] := by
  rw [h.oppA, List.mem_filter] at hLA
  by_contra hne
  exact hLA ⟨hl, by simpa using hne⟩

theorem Split.queueB {ob : OrderBook} {t t1 t2 : Nat} {a b : Int} (h : Split ob t t1 t2 a b)
    (l : Nat) (hl : l ∈ (opposite ob t).2) :
    ((PlaceMarketOrder (PlaceMarketOrder ob t1).1 t2).1.limitAt l).Orders =
      ((PlaceMarketOrder ob t1).1.limitAt l).Orders.filter
        (fun o => decide (sizes (PlaceMarketOrder (PlaceMarketOrder ob t1).1 t2).1 o ≠ 0)) := by
  by_cases hLA : l ∈ (opposite (PlaceMarketOrder ob t1).1 t2).2
  · exact PlaceMarketOrder_queue h.readyA h.second l hLA
  · rw [PlaceMarketOrder_limitAt_other h.second l hLA, h.emptied l hl hLA]
    rfl

/-- The queues after the two orders are the queues after the one order. -/
theorem Split.queue_eq {ob : OrderBook} {t t1 t2 : Nat} {a b : Int} (h : Split ob t t1 t2 a b)
    (l : Nat) (hl : l ∈ (opposite ob t).2) :
    ((PlaceMarketOrder (PlaceMarketOrder ob t1).1 t2).1.limitAt l).Orders =
      ((PlaceMarketOrder ob t).1.limitAt l).Orders := by
  rw [h.queueB l hl, PlaceMarketOrder_queue h.ready h.first l (by rw [h.opp1]; exact hl),
    List.filter_filter, PlaceMarketOrder_queue h.ready h.whole l hl]
  refine List.filter_congr (fun o ho => ?_)
  have hoM : o ∈ makers ob (opposite ob t).2 := (mem_makers ob _ o).2 ⟨l, hl, ho⟩
  obtain ⟨n0, n1, n2⟩ := h.takers_apart o hoM
  have he := h.sizes_eq o n0 n1 n2
  by_cases hA : sizes (PlaceMarketOrder ob t1).1 o = 0
  · have hB := h.mono o hoM hA
    have hC : sizes (PlaceMarketOrder ob t).1 o = 0 := by rw [← he]; exact hB
    simp [hA, hB, hC]
  · rw [he]
    simp [hA]

theorem Split.volB {ob : OrderBook} {t t1 t2 : Nat} {a b : Int} (h : Split ob t t1 t2 a b)
    (l : Nat) (hl : l ∈ (opposite ob t).2) :
    ((PlaceMarketOrder (PlaceMarketOrder ob t1).1 t2).1.limitAt l).TotalVolume =
      queueVolume (PlaceMarketOrder (PlaceMarketOrder ob t1).1 t2).1
        ((PlaceMarketOrder (PlaceMarketOrder ob t1).1 t2).1.limitAt l).Orders := by
  by_cases hLA : l ∈ (opposite (PlaceMarketOrder ob t1).1 t2).2
  · exact PlaceMarketOrder_totalVolume h.readyA h.second l hLA
  · rw [PlaceMarketOrder_limitAt_other h.second l hLA,
      PlaceMarketOrder_totalVolume h.ready h.first l (by rw [h.opp1]; exact hl),
      h.emptied l hl hLA, queueVolume_nil, queueVolume_nil]

/-- The limits after the two orders are the limits after the one order. -/
theorem Split.limitAt_eq {ob : OrderBook} {t t1 t2 : Nat} {a b : Int}
    (h : Split ob t t1 t2 a b) :
    (PlaceMarketOrder (PlaceMarketOrder ob t1).1 t2).1.limitAt =
      (PlaceMarketOrder ob t).1.limitAt := by
  funext l
  by_cases hl : l ∈ (opposite ob t).2
  · refine limit_eq _ _ ?_ (h.queue_eq l hl) ?_
    · rw [PlaceMarketOrder_price h.second, PlaceMarketOrder_price h.first,
        PlaceMarketOrder_price h.whole]
    · rw [h.volB l hl, PlaceMarketOrder_totalVolume h.ready h.whole l hl, h.queue_eq l hl]
      refine queueVolume_congr _ _ _ (fun o ho => ?_)
      rw [PlaceMarketOrder_queue h.ready h.whole l hl, List.mem_filter] at ho
      obtain ⟨n0, n1, n2⟩ := h.takers_apart o ((mem_makers ob _ o).2 ⟨l, hl, ho.1⟩)
      exact h.sizes_eq o n0 n1 n2
  · have hLA : l ∉ (opposite (PlaceMarketOrder ob t1).1 t2).2 := by
      rw [h.oppA]
      exact fun hm => hl (List.mem_of_mem_filter hm)
    rw [PlaceMarketOrder_limitAt_other h.second l hLA,
      PlaceMarketOrder_limitAt_other h.first l (by rw [h.opp1]; exact hl),
      PlaceMarketOrder_limitAt_other h.whole l hl]

/-- The orders after the two orders are the orders after the one order, the
three takers apart. -/
theorem Split.orderAt_eq {ob : OrderBook} {t t1 t2 : Nat} {a b : Int} (h : Split ob t t1 t2 a b)
    (o : Nat) (h0 : o ≠ t) (h1 : o ≠ t1) (h2 : o ≠ t2) :
    (PlaceMarketOrder (PlaceMarketOrder ob t1).1 t2).1.orderAt o =
      (PlaceMarketOrder ob t).1.orderAt o := by
  obtain ⟨b1, b2, b3⟩ := PlaceMarketOrder_fields h.second o
  obtain ⟨a1, a2, a3⟩ := PlaceMarketOrder_fields h.first o
  obtain ⟨c1, c2, c3⟩ := PlaceMarketOrder_fields h.whole o
  have hs := h.sizes_eq o h0 h1 h2
  refine order_eq _ _ (by rw [b1, a1, c1]) hs (by rw [b2, a2, c2]) ?_ (by rw [b3, a3, c3])
  have hB := PlaceMarketOrder_backref h.readyA h.second o
  have hA := PlaceMarketOrder_backref h.ready h.first o
  have hC := PlaceMarketOrder_backref h.ready h.whole o
  rw [h.opp1] at hA
  have memA : o ∈ makers (PlaceMarketOrder ob t1).1 (opposite (PlaceMarketOrder ob t1).1 t2).2 ↔
      o ∈ makers ob (opposite ob t).2 ∧ sizes (PlaceMarketOrder ob t1).1 o ≠ 0 := by
    rw [h.makersA, List.mem_filter]; simp
  by_cases hoM : o ∈ makers ob (opposite ob t).2
  · by_cases hA0 : sizes (PlaceMarketOrder ob t1).1 o = 0
    · have hB0 := h.mono o hoM hA0
      rw [if_neg (fun c => (memA.1 c.1).2 hA0), hA, if_pos ⟨hoM, hA0⟩] at hB
      rw [if_pos ⟨hoM, hs ▸ hB0⟩] at hC
      rw [hB, hC]
    · rw [if_neg (fun c => hA0 c.2)] at hA
      by_cases hB0 : sizes (PlaceMarketOrder (PlaceMarketOrder ob t1).1 t2).1 o = 0
      · rw [if_pos ⟨memA.2 ⟨hoM, hA0⟩, hB0⟩] at hB
        rw [if_pos ⟨hoM, hs ▸ hB0⟩] at hC
        rw [hB, hC]
      · rw [if_neg (fun c => hB0 c.2), hA] at hB
        rw [if_neg (fun c => hB0 (hs.trans c.2))] at hC
        rw [hB, hC]
  · rw [if_neg (fun c => hoM (memA.1 c.1).1), hA, if_neg (fun c => hoM c.1)] at hB
    rw [if_neg (fun c => hoM c.1)] at hC
    rw [hB, hC]

theorem Split.opp_eq {ob : OrderBook} {t t1 t2 : Nat} {a b : Int} (h : Split ob t t1 t2 a b) :
    oppositeLimits (PlaceMarketOrder (PlaceMarketOrder ob t1).1 t2).1 t2 =
      oppositeLimits (PlaceMarketOrder ob t).1 t := by
  rw [PlaceMarketOrder_oppositeLimits_filter h.readyA h.second, h.oppA, List.filter_filter,
    PlaceMarketOrder_oppositeLimits_filter h.ready h.whole]
  refine List.filter_congr (fun l hl => ?_)
  have hq := h.queue_eq l hl
  by_cases hA : ((PlaceMarketOrder ob t1).1.limitAt l).Orders = []
  · have hB : ((PlaceMarketOrder (PlaceMarketOrder ob t1).1 t2).1.limitAt l).Orders = [] := by
      rw [h.queueB l hl, hA]; rfl
    have hC : ((PlaceMarketOrder ob t).1.limitAt l).Orders = [] := by rw [← hq]; exact hB
    simp [hA, hB, hC]
  · rw [hq]
    simp [hA]

theorem Split.own_eq {ob : OrderBook} {t t1 t2 : Nat} {a b : Int} (h : Split ob t t1 t2 a b) :
    ownLimits (PlaceMarketOrder (PlaceMarketOrder ob t1).1 t2).1 t2 =
      ownLimits (PlaceMarketOrder ob t).1 t := by
  rw [PlaceMarketOrder_ownLimits, PlaceMarketOrder_ownLimits,
    ownLimits_of_bid _ (show ((PlaceMarketOrder ob t1).1.orderAt t2).Bid =
      ((PlaceMarketOrder ob t1).1.orderAt t1).Bid by rw [h.bidA, h.bidA, h.bid2, h.bid1]),
    PlaceMarketOrder_ownLimits, ownLimits_of_bid ob h.bid1]

/-- Two books whose takers carry the same flag and see the same opposite and
own lists have the same two lists. -/
theorem sides_eq (X Y : OrderBook) (t t' : Nat) (hb : (X.orderAt t').Bid = (Y.orderAt t).Bid)
    (ho : oppositeLimits X t' = oppositeLimits Y t) (hw : ownLimits X t' = ownLimits Y t) :
    X.asks = Y.asks ∧ X.bids = Y.bids := by
  unfold oppositeLimits at ho
  unfold ownLimits at hw
  rw [hb] at ho hw
  by_cases hc : (Y.orderAt t).Bid = true
  · rw [if_pos hc, if_pos hc] at ho hw
    exact ⟨ho, hw⟩
  · rw [if_neg hc, if_neg hc] at ho hw
    exact ⟨hw, ho⟩

/-- A price map is determined by the list and the prices it is in step with. -/
theorem map_unique (limitAt : Nat → Limit) (side : List Nat) (m m' : Int → Option Nat)
    (hm : ∀ p l, m p = some l ↔ l ∈ side ∧ (limitAt l).Price = p)
    (hm' : ∀ p l, m' p = some l ↔ l ∈ side ∧ (limitAt l).Price = p) : m' = m := by
  funext p
  cases h : m p with
  | some l => exact (hm' p l).2 ((hm p l).1 h)
  | none =>
    cases h' : m' p with
    | none => rfl
    | some l =>
      have := (hm p l).2 ((hm' p l).1 h')
      rw [h] at this
      cases this

theorem Split.lists_eq {ob : OrderBook} {t t1 t2 : Nat} {a b : Int} (h : Split ob t t1 t2 a b) :
    (PlaceMarketOrder (PlaceMarketOrder ob t1).1 t2).1.asks = (PlaceMarketOrder ob t).1.asks ∧
      (PlaceMarketOrder (PlaceMarketOrder ob t1).1 t2).1.bids =
        (PlaceMarketOrder ob t).1.bids := by
  refine sides_eq _ _ t t2 ?_ h.opp_eq h.own_eq
  rw [(PlaceMarketOrder_fields h.second t2).2.1, h.bidA, (PlaceMarketOrder_fields h.whole t).2.1,
    h.bid2]

theorem Split.maps_eq {ob : OrderBook} {t t1 t2 : Nat} {a b : Int} (h : Split ob t t1 t2 a b) :
    (PlaceMarketOrder (PlaceMarketOrder ob t1).1 t2).1.AskLimits =
        (PlaceMarketOrder ob t).1.AskLimits ∧
      (PlaceMarketOrder (PlaceMarketOrder ob t1).1 t2).1.BidLimits =
        (PlaceMarketOrder ob t).1.BidLimits := by
  have hB := (splitReady_PlaceMarketOrder h.readyA h.second).wf
  have hC := (splitReady_PlaceMarketOrder h.ready h.whole).wf
  have hBa := hB.ask_map
  have hBb := hB.bid_map
  rw [h.lists_eq.1, h.limitAt_eq] at hBa
  rw [h.lists_eq.2, h.limitAt_eq] at hBb
  exact ⟨map_unique _ _ _ _ hC.ask_map hBa, map_unique _ _ _ _ hC.bid_map hBb⟩

theorem Split.rest_eq {ob : OrderBook} {t t1 t2 : Nat} {a b : Int} (_ : Split ob t t1 t2 a b) :
    (PlaceMarketOrder (PlaceMarketOrder ob t1).1 t2).1.Orders = (PlaceMarketOrder ob t).1.Orders ∧
      (PlaceMarketOrder (PlaceMarketOrder ob t1).1 t2).1.nextLimit =
        (PlaceMarketOrder ob t).1.nextLimit := by
  rw [PlaceMarketOrder_index, PlaceMarketOrder_index, PlaceMarketOrder_index,
    PlaceMarketOrder_nextLimit, PlaceMarketOrder_nextLimit, PlaceMarketOrder_nextLimit]
  exact ⟨rfl, rfl⟩

/-! ## The size filled per maker -/

theorem fillsOf_nil (bid : Bool) (o : Nat) : fillsOf bid o [] = 0 := rfl

theorem fillsOf_cons (bid : Bool) (o : Nat) (m : Match) (ms : List Match) :
    fillsOf bid o (m :: ms) =
      (if (if bid then m.Ask else m.Bid) = o then m.SizeFilled else 0) + fillsOf bid o ms := by
  unfold fillsOf
  by_cases h : (if bid then m.Ask else m.Bid) = o
  · rw [List.filter_cons_of_pos (by simpa using h), if_pos h, List.map_cons, List.sum_cons]
  · rw [List.filter_cons_of_neg (by simpa using h), if_neg h, zero_add]

theorem fillsOf_append (bid : Bool) (o : Nat) (ms ms' : List Match) :
    fillsOf bid o (ms ++ ms') = fillsOf bid o ms + fillsOf bid o ms' := by
  unfold fillsOf
  rw [List.filter_append, List.map_append, List.sum_append]

theorem fillsOf_eq_zero (bid : Bool) (o : Nat) (ms : List Match)
    (h : ∀ m ∈ ms, (if bid then m.Ask else m.Bid) ≠ o) : fillsOf bid o ms = 0 := by
  induction ms with
  | nil => rfl
  | cons m rest ih =>
    rw [fillsOf_cons, if_neg (h m (List.mem_cons_self _ _)),
      ih (fun m' hm' => h m' (List.mem_cons_of_mem _ hm')), add_zero]

theorem fillStep_fillsOf (ob : OrderBook) (l t m : Nat) (h : t ≠ m) (o : Nat) (ho : o ≠ t) :
    (if (if (ob.orderAt t).Bid then (fillStep ob l t m).2.Ask else (fillStep ob l t m).2.Bid) = o
        then (fillStep ob l t m).2.SizeFilled else 0) + sizes (fillStep ob l t m).1 o =
      sizes ob o := by
  have hmk : (if (ob.orderAt t).Bid then (fillStep ob l t m).2.Ask
      else (fillStep ob l t m).2.Bid) = m := (fillStep_parties ob l t m).2
  rw [hmk]
  by_cases hom : m = o
  · subst hom
    rw [if_pos rfl, sizes_apply, sizes_apply]
    have := fillStep_size_maker ob l t m h
    omega
  · rw [if_neg hom, zero_add, sizes_apply, fillStep_orderAt_other ob l t m o ho (Ne.symm hom)]
    rfl

/-- What the loop of `Fill` fills against a maker is what the maker loses. -/
theorem fillLoop_fillsOf (l t : Nat) (q : List Nat) (ob : OrderBook) (hq : t ∉ q) (o : Nat)
    (ho : o ≠ t) :
    fillsOf (ob.orderAt t).Bid o (fillLoop l t q ob).2.1 + sizes (fillLoop l t q ob).1 o =
      sizes ob o := by
  induction q generalizing ob with
  | nil => simp [fillLoop_nil, fillsOf_nil]
  | cons m rest ih =>
    have hne : t ≠ m := fun h => hq (h ▸ List.mem_cons_self _ _)
    have hr : t ∉ rest := fun h => hq (List.mem_cons_of_mem _ h)
    have hstep := fillStep_fillsOf ob l t m hne o ho
    by_cases h : ((fillStep ob l t m).1.orderAt t).Size = 0
    · rw [fillLoop_cons_filled _ _ _ _ _ h]
      simp only []
      rw [fillsOf_cons, fillsOf_nil, add_zero]
      exact hstep
    · rw [fillLoop_cons_open _ _ _ _ _ h]
      simp only []
      have := ih (fillStep ob l t m).1 hr
      rw [(fillStep_sameShape ob l t m).bid] at this
      rw [fillsOf_cons]
      omega

theorem Fill_fillsOf (ob : OrderBook) (l t : Nat) (hq : t ∉ (ob.limitAt l).Orders) (o : Nat)
    (ho : o ≠ t) :
    fillsOf (ob.orderAt t).Bid o (Fill ob l t).2 + sizes (Fill ob l t).1 o = sizes ob o := by
  rw [Fill_snd, Fill_sizes]
  exact fillLoop_fillsOf l t _ ob hq o ho

/-- What a market order fills against a maker is what the maker loses. -/
theorem marketLoop_fillsOf (t : Nat) (ls : List Nat) (ob : OrderBook)
    (hfree : ∀ l ∈ ls, t ∉ (ob.limitAt l).Orders) (o : Nat) (ho : o ≠ t) :
    fillsOf (ob.orderAt t).Bid o (marketLoop t ls ob).2.1 + sizes (marketLoop t ls ob).1 o =
      sizes ob o := by
  induction ls generalizing ob with
  | nil => simp [marketLoop_nil, fillsOf_nil]
  | cons l rest ih =>
    have h0 := Fill_fillsOf ob l t (hfree l (List.mem_cons_self _ _)) o ho
    by_cases hf : ((Fill ob l t).1.orderAt t).Size = 0
    · rw [marketLoop_cons_filled _ _ _ _ hf]
      exact h0
    · rw [marketLoop_cons_open _ _ _ _ hf]
      simp only []
      have := ih (Fill ob l t).1
        (fun l' hl' hq => hfree l' (List.mem_cons_of_mem _ hl') (Fill_queue_subset _ _ _ _ _ hq))
      rw [Fill_bid] at this
      rw [fillsOf_append]
      omega

theorem PlaceMarketOrder_fillsOf {ob : OrderBook} (h : SplitReady ob) {t : Nat} {s : Int}
    (ht : Taker ob t s) (o : Nat) (ho : o ≠ t) :
    fillsOf (ob.orderAt t).Bid o (marketLoop t (opposite ob t).2 (opposite ob t).1).2.1 +
        sizes (PlaceMarketOrder ob t).1 o = sizes ob o := by
  have := marketLoop_fillsOf t (opposite ob t).2 (opposite ob t).1 (opposite_snd_free h.wf t) o ho
  rw [opposite_orderAt, sizes_opposite] at this
  rw [PlaceMarketOrder_sizes_eq ht]
  exact this

/-- Nothing is filled against an order that is no maker of the opposite side. -/
theorem PlaceMarketOrder_fillsOf_other (ob : OrderBook) (t : Nat) (o : Nat)
    (ho : o ∉ makers ob (opposite ob t).2) :
    fillsOf (ob.orderAt t).Bid o (marketLoop t (opposite ob t).2 (opposite ob t).1).2.1 = 0 := by
  refine fillsOf_eq_zero _ _ _ (fun m hm he => ?_)
  obtain ⟨_, l, hl, hq, _⟩ := marketLoop_parties t (opposite ob t).2 (opposite ob t).1 m hm
  unfold makerOf at hq
  rw [opposite_orderAt, opposite_limitAt, he] at hq
  exact ho ((mem_makers ob _ o).2 ⟨l, hl, hq⟩)

theorem splitBook_wellFormed : WellFormed splitBook :=
  wellFormed_PlaceLimitOrder
    (wellFormed_PlaceLimitOrder
      (wellFormed_PlaceLimitOrder (wellFormed_NewOrderBook splitOrders) 10000 (by decide))
      10000 (by decide))
    9000 (by decide)

theorem splitBook_volumeInv : VolumeInv splitBook :=
  volumeInv_PlaceLimitOrder
    (volumeInv_PlaceLimitOrder
      (volumeInv_PlaceLimitOrder (volumeInv_NewOrderBook splitOrders) 10000 0) 10000 1) 9000 2

/-! ## Rounding -/

theorem ulp_pos (fuel n : Nat) : 0 < ulp fuel n := by
  induction fuel generalizing n with
  | zero => simp [ulp]
  | succ f ih =>
    unfold ulp
    split
    · exact Nat.one_pos
    · have := ih (n / 2); omega

theorem ulp_dvd (fuel n j : Nat) (h : n < 2 ^ (53 + j)) : ulp fuel n ∣ 2 ^ j := by
  induction fuel generalizing n j with
  | zero => simp [ulp]
  | succ f ih =>
    unfold ulp
    split
    · exact one_dvd _
    · rename_i hn
      cases j with
      | zero => exact absurd h hn
      | succ j =>
        have h2 : n / 2 < 2 ^ (53 + j) := by
          rw [Nat.div_lt_iff_lt_mul (by norm_num)]
          calc n < 2 ^ (53 + (j + 1)) := h
            _ = 2 ^ (53 + j) * 2 := by rw [← Nat.add_assoc, pow_succ]
        rw [pow_succ']
        exact Nat.mul_dvd_mul_left 2 (ih (n / 2) j h2)

theorem roundNat_of_dvd (n : Nat) (h : ulp n n ∣ n) : roundNat n = n := by
  have hp := ulp_pos n n
  have hm : n % ulp n n = 0 := Nat.mod_eq_zero_of_dvd h
  unfold roundNat
  rw [hm, if_neg, Nat.div_mul_cancel h]
  rintro (h1 | ⟨h1, _⟩)
  · omega
  · omega

/-- A multiple of `2^k` units of magnitude below `2^(k+53)` units is a `float64`:
rounding keeps it. -/
theorem round64_of_grid (k : Nat) (x : Int) (hd : ((2 ^ k : Nat) : Int) ∣ x)
    (hb : x.natAbs < 2 ^ (k + 53)) : round64 x = x := by
  have h1 : 2 ^ k ∣ x.natAbs := Int.natCast_dvd.1 hd
  have h2 : ulp x.natAbs x.natAbs ∣ x.natAbs :=
    Nat.dvd_trans (ulp_dvd _ _ k (by rw [Nat.add_comm]; exact hb)) h1
  unfold round64
  rw [roundNat_of_dvd _ h2]
  exact Int.sign_mul_natAbs x

theorem round64_zero : round64 0 = 0 := by decide

theorem fits_round {k : Nat} {x : Int} (h : Fits k x) : round64 x = x := by
  refine round64_of_grid k x h.1 ?_
  have h1 := h.2.1
  have h2 := h.2.2
  omega

theorem fits_zero (k : Nat) : Fits k 0 :=
  ⟨dvd_zero _, le_refl _, by exact_mod_cast Nat.two_pow_pos (k + 53)⟩

theorem fits_of_le {k : Nat} {x y : Int} (hy : Fits k y) (hx : OnGrid k x) (h0 : 0 ≤ x)
    (hle : x ≤ y) : Fits k x :=
  ⟨hx, h0, lt_of_le_of_lt hle hy.2.2⟩

theorem onGrid_sub {k : Nat} {x y : Int} (hx : OnGrid k x) (hy : OnGrid k y) : OnGrid k (x - y) :=
  dvd_sub hx hy

theorem onGrid_add {k : Nat} {x y : Int} (hx : OnGrid k x) (hy : OnGrid k y) : OnGrid k (x + y) :=
  dvd_add hx hy

theorem onGrid_zero (k : Nat) : OnGrid k 0 := dvd_zero _

theorem fits_sub {k : Nat} {x y : Int} (hx : Fits k x) (hy : Fits k y) (hle : y ≤ x) :
    Fits k (x - y) :=
  fits_of_le hx (onGrid_sub hx.1 hy.1) (by omega) (by have := hy.2.1; omega)

theorem fits_add {k : Nat} {x y : Int} (hx : Fits k x) (hy : Fits k y)
    (hlt : x + y < ((2 ^ (k + 53) : Nat) : Int)) : Fits k (x + y) :=
  ⟨onGrid_add hx.1 hy.1, by have := hx.2.1; have := hy.2.1; omega, hlt⟩

theorem fits_min {k : Nat} {x y : Int} (hx : Fits k x) (hy : Fits k y) : Fits k (min x y) := by
  rcases le_total x y with h | h
  · rwa [min_eq_left h]
  · rwa [min_eq_right h]

theorem sub64_self (x : Int) : sub64 x x = 0 := by
  unfold sub64
  rw [sub_self]; exact round64_zero

theorem fits_sub64 {k : Nat} {x y : Int} (hx : Fits k x) (hy : Fits k y) (hle : y ≤ x) :
    sub64 x y = x - y :=
  fits_round (fits_sub hx hy hle)

theorem fits_add64 {k : Nat} {x y : Int} (hx : Fits k x) (hy : Fits k y)
    (hlt : x + y < ((2 ^ (k + 53) : Nat) : Int)) : add64 x y = x + y :=
  fits_round (fits_add hx hy hlt)
/-! ## The `float64` fill on a grid -/

theorem fillOrder64_exact (k : Nat) (ob : OrderBook) (l a b : Nat)
    (ha : Fits k (ob.orderAt a).Size) (hb : Fits k (ob.orderAt b).Size) :
    F64.fillOrder ob l a b = fillOrder ob l a b := by
  unfold F64.fillOrder fillOrder
  by_cases h : (ob.orderAt a).Size ≥ (ob.orderAt b).Size
  · simp only [if_pos h, fits_sub64 ha hb h]
  · simp only [if_neg h, fits_sub64 hb ha (by omega)]

theorem fillStep64_exact (k : Nat) (ob : OrderBook) (l a o : Nat) (hne : a ≠ o)
    (ha : Fits k (ob.orderAt a).Size) (hb : Fits k (ob.orderAt o).Size)
    (hv : Fits k (ob.limitAt l).TotalVolume)
    (hle : (ob.orderAt o).Size ≤ (ob.limitAt l).TotalVolume) :
    F64.fillStep ob l a o = fillStep ob l a o := by
  unfold F64.fillStep fillStep
  rw [fillOrder64_exact k ob l a o ha hb]
  have hs := fillOrder_sizeFilled ob l a o hne
  have hm := fits_min ha hb
  simp only [fillOrder_limitAt, hs]
  rw [fits_sub64 hv hm (le_trans (min_le_right _ _) hle)]

theorem fillStep_totalVolume (ob : OrderBook) (l a o : Nat) (hne : a ≠ o) :
    ((fillStep ob l a o).1.limitAt l).TotalVolume =
      (ob.limitAt l).TotalVolume - min (ob.orderAt a).Size (ob.orderAt o).Size := by
  rw [fillStep_limitAt, Function.update_same, fillOrder_sizeFilled ob l a o hne]

/-- On a grid the `float64` loop of `Fill` is the exact loop, and it keeps the
grid: the sizes of the taker and of the makers and the volume of the limit stay
non-negative multiples of `2^k` no larger than they were. -/
theorem fillLoop64_exact (k l order : Nat) (q : List Nat) (ob : OrderBook) (hq : order ∉ q)
    (hnd : q.Nodup) (hs : ∀ o ∈ q, Fits k (ob.orderAt o).Size)
    (ht : Fits k (ob.orderAt order).Size) (hv : Fits k (ob.limitAt l).TotalVolume)
    (hle : queueVolume ob q ≤ (ob.limitAt l).TotalVolume) :
    F64.fillLoop l order q ob = fillLoop l order q ob ∧
      Fits k ((fillLoop l order q ob).1.limitAt l).TotalVolume ∧
      Fits k ((fillLoop l order q ob).1.orderAt order).Size ∧
      (∀ o ∈ q, Fits k ((fillLoop l order q ob).1.orderAt o).Size) := by
  induction q generalizing ob with
  | nil => exact ⟨rfl, hv, ht, fun _ h => absurd h (List.not_mem_nil _)⟩
  | cons o rest ih =>
    have hne : order ≠ o := fun h => hq (h ▸ List.mem_cons_self _ _)
    have hr : order ∉ rest := fun h => hq (List.mem_cons_of_mem _ h)
    have hor : o ∉ rest := (List.nodup_cons.1 hnd).1
    have hso := hs o (List.mem_cons_self _ _)
    have hrest0 : 0 ≤ queueVolume ob rest := by
      unfold queueVolume
      exact List.sum_nonneg (fun x hx => by
        obtain ⟨m, hm, rfl⟩ := List.mem_map.1 hx
        exact (hs m (List.mem_cons_of_mem _ hm)).2.1)
    rw [queueVolume_cons] at hle
    have hole : (ob.orderAt o).Size ≤ (ob.limitAt l).TotalVolume := by omega
    have hstep := fillStep64_exact k ob l order o hne ht hso hv hole
    have hT := fillStep_taker ob l order o hne
    have hM := fillStep_maker ob l order o hne
    have hV := fillStep_totalVolume ob l order o hne
    have hmin := fits_min ht hso
    have ht1 : Fits k ((fillStep ob l order o).1.orderAt order).Size := by
      rw [hT]; exact fits_sub ht hmin (min_le_left _ _)
    have hm1 : Fits k ((fillStep ob l order o).1.orderAt o).Size := by
      rw [hM]; exact fits_sub hso hmin (min_le_right _ _)
    have hv1 : Fits k ((fillStep ob l order o).1.limitAt l).TotalVolume := by
      rw [hV]; exact fits_sub hv hmin (le_trans (min_le_right _ _) hole)
    have hs1 : ∀ m ∈ rest, ((fillStep ob l order o).1.orderAt m).Size = (ob.orderAt m).Size :=
      fun m hm => by
        rw [fillStep_orderAt_other ob l order o m (fun he => hr (he ▸ hm))
          (fun he => hor (he ▸ hm))]
    by_cases h : ((fillStep ob l order o).1.orderAt order).Size = 0
    · have h64 : ((F64.fillStep ob l order o).1.orderAt order).Size = 0 := by rw [hstep]; exact h
      refine ⟨?_, ?_, ?_, ?_⟩
      · rw [fillLoop_cons_filled _ _ _ _ _ h]
        simp [F64.fillLoop, Order.IsFilled, hstep, h]
      · rw [fillLoop_cons_filled _ _ _ _ _ h]; exact hv1
      · rw [fillLoop_cons_filled _ _ _ _ _ h]; exact ht1
      · rw [fillLoop_cons_filled _ _ _ _ _ h]
        intro m hm
        rcases List.mem_cons.1 hm with rfl | hm
        · exact hm1
        · show Fits k ((fillStep ob l order o).1.orderAt m).Size
          rw [hs1 m hm]; exact hs m (List.mem_cons_of_mem _ hm)
    · have hqv : queueVolume (fillStep ob l order o).1 rest = queueVolume ob rest := by
        unfold queueVolume
        exact congrArg List.sum (List.map_congr_left hs1)
      obtain ⟨e1, e2, e3, e4⟩ := ih (fillStep ob l order o).1 hr (List.nodup_cons.1 hnd).2
        (fun m hm => by rw [hs1 m hm]; exact hs m (List.mem_cons_of_mem _ hm)) ht1 hv1
        (by rw [hqv, hV]; have := min_le_right (ob.orderAt order).Size (ob.orderAt o).Size; omega)
      refine ⟨?_, ?_, ?_, ?_⟩
      · rw [fillLoop_cons_open _ _ _ _ _ h]
        simp [F64.fillLoop, Order.IsFilled, hstep, h, e1]
      · rw [fillLoop_cons_open _ _ _ _ _ h]; exact e2
      · rw [fillLoop_cons_open _ _ _ _ _ h]; exact e3
      · rw [fillLoop_cons_open _ _ _ _ _ h]
        intro m hm
        rcases List.mem_cons.1 hm with rfl | hm
        · show Fits k ((fillLoop l order rest (fillStep ob l order m).1).1.orderAt m).Size
          rw [fillLoop_orderAt_other l order rest _ m (Ne.symm hne) hor]
          exact hm1
        · exact e4 m hm
theorem DeleteOrder64_exact (ob : OrderBook) (l o : Nat)
    (h : round64 ((ob.limitAt l).TotalVolume - (ob.orderAt o).Size) =
      (ob.limitAt l).TotalVolume - (ob.orderAt o).Size) :
    F64.DeleteOrder ob l o = DeleteOrder ob l o := by
  unfold F64.DeleteOrder DeleteOrder
  simp only [sub64, setLimit, setOrder, Function.update_same, h]

theorem deleteOrders64_exact (ob : OrderBook) (l : Nat) (dels : List Nat)
    (hz : ∀ o ∈ dels, (ob.orderAt o).Size = 0)
    (hv : round64 (ob.limitAt l).TotalVolume = (ob.limitAt l).TotalVolume) :
    F64.deleteOrders ob l dels = deleteOrders ob l dels := by
  induction dels generalizing ob with
  | nil => rfl
  | cons d ds ih =>
    have hd := hz d (List.mem_cons_self _ _)
    have e : F64.DeleteOrder ob l d = DeleteOrder ob l d :=
      DeleteOrder64_exact ob l d (by rw [hd, sub_zero]; exact hv)
    show F64.deleteOrders (F64.DeleteOrder ob l d) l ds = deleteOrders (DeleteOrder ob l d) l ds
    rw [e]
    refine ih _ (fun o ho => ?_) ?_
    · rw [DeleteOrder_size]; exact hz o (List.mem_cons_of_mem _ ho)
    · rw [DeleteOrder_totalVolume, if_pos rfl, hd, sub_zero]; exact hv

/-- On a grid the `float64` run of `Fill` is the exact run, and it keeps the
grid. -/
theorem Fill64_exact (k : Nat) (ob : OrderBook) (l order : Nat)
    (hq : order ∉ (ob.limitAt l).Orders) (hnd : (ob.limitAt l).Orders.Nodup)
    (hs : ∀ o ∈ (ob.limitAt l).Orders, Fits k (ob.orderAt o).Size)
    (ht : Fits k (ob.orderAt order).Size) (hv : Fits k (ob.limitAt l).TotalVolume)
    (hle : queueVolume ob (ob.limitAt l).Orders ≤ (ob.limitAt l).TotalVolume) :
    F64.Fill ob l order = Fill ob l order ∧
      Fits k ((Fill ob l order).1.limitAt l).TotalVolume ∧
      Fits k ((Fill ob l order).1.orderAt order).Size ∧
      (∀ o ∈ (ob.limitAt l).Orders, Fits k ((Fill ob l order).1.orderAt o).Size) := by
  obtain ⟨e1, e2, e3, e4⟩ := fillLoop64_exact k l order _ ob hq hnd hs ht hv hle
  have hz := fillLoop_delete_filled l order _ ob hq hnd
  have ed := deleteOrders64_exact (fillLoop l order (ob.limitAt l).Orders ob).1 l
    (fillLoop l order (ob.limitAt l).Orders ob).2.2 hz (fits_round e2)
  refine ⟨?_, ?_, ?_, ?_⟩
  · unfold F64.Fill Fill
    simp only [e1, ed]
  · rw [Fill_fst, deleteOrders_totalVolume]
    have : queueVolume (fillLoop l order (ob.limitAt l).Orders ob).1
        (fillLoop l order (ob.limitAt l).Orders ob).2.2 = 0 := by
      unfold queueVolume
      apply List.sum_eq_zero
      intro x hx
      obtain ⟨m, hm, rfl⟩ := List.mem_map.1 hx
      exact hz m hm
    rw [this, sub_zero]; exact e2
  · rw [Fill_fst, deleteOrders_size]; exact e3
  · intro o ho
    rw [Fill_fst, deleteOrders_size]; exact e4 o ho
theorem gridReady_Fill {k : Nat} {ob : OrderBook} {t : Nat} {L : List Nat}
    (h : GridReady k ob t L) {l : Nat} (hl : l ∈ L) :
    F64.Fill ob l t = Fill ob l t ∧ GridReady k (Fill ob l t).1 t L := by
  obtain ⟨e1, e2, e3, e4⟩ := Fill64_exact k ob l t (h.free l hl)
    (h.wf.queue_nodup l (h.sub l hl)) (h.size l hl) h.taker (h.volume l hl)
    (le_of_eq (h.vol l hl).symm)
  refine ⟨e1, Fill_wellFormed h.wf t (h.sub l hl), ?_, ?_,
    Fill_volumeOn h.wf t h.sub hl h.free h.vol, ?_, ?_, e3⟩
  · intro l' hl'; rw [Fill_asks, Fill_bids]; exact h.sub l' hl'
  · intro l' hl' hm; exact h.free l' hl' (Fill_queue_subset _ _ _ _ _ hm)
  · intro l' hl' o ho
    have ho' := Fill_queue_subset _ _ _ _ _ ho
    by_cases hll : l' = l
    · subst hll; exact e4 o ho'
    · rw [Fill_orderAt_other ob l t o (fun he => h.free l' hl' (he ▸ ho'))
        (fun hm => hll (h.wf.queue_unique (h.sub l' hl') (h.sub l hl) ho' hm))]
      exact h.size l' hl' o ho'
  · intro l' hl'
    by_cases hll : l' = l
    · subst hll; exact e2
    · rw [Fill_limitAt_other _ _ _ _ hll]; exact h.volume l' hl'

/-- On a grid the `float64` loop of a market order is the exact loop, and it
keeps the grid. -/
theorem marketLoop64_exact {k : Nat} {t : Nat} {L : List Nat} (ls : List Nat) {ob : OrderBook}
    (h : GridReady k ob t L) (hsub : ∀ l ∈ ls, l ∈ L) :
    F64.marketLoop t ls ob = marketLoop t ls ob ∧ GridReady k (marketLoop t ls ob).1 t L := by
  induction ls generalizing ob with
  | nil => exact ⟨rfl, h⟩
  | cons l rest ih =>
    obtain ⟨e, hg⟩ := gridReady_Fill h (hsub l (List.mem_cons_self _ _))
    by_cases hf : ((Fill ob l t).1.orderAt t).Size = 0
    · rw [marketLoop_cons_filled _ _ _ _ hf]
      refine ⟨?_, hg⟩
      simp [F64.marketLoop, Order.IsFilled, e, hf]
    · obtain ⟨e', hg'⟩ := ih hg (fun l' hl' => hsub l' (List.mem_cons_of_mem _ hl'))
      rw [marketLoop_cons_open _ _ _ _ hf]
      refine ⟨?_, hg'⟩
      simp [F64.marketLoop, Order.IsFilled, e, hf, e']
/-! ## The `float64` totals and market order on a grid -/

theorem foldl_add64_exact (k : Nat) (f : Nat → Int) (ls : List Nat) (acc : Int)
    (hacc : Fits k acc) (hf : ∀ l ∈ ls, OnGrid k (f l) ∧ 0 ≤ f l)
    (hb : acc + (ls.map f).sum < ((2 ^ (k + 53) : Nat) : Int)) :
    ls.foldl (fun a l => add64 a (f l)) acc = acc + (ls.map f).sum := by
  induction ls generalizing acc with
  | nil => simp
  | cons l rest ih =>
    have hl := hf l (List.mem_cons_self _ _)
    have hr0 : 0 ≤ (rest.map f).sum :=
      List.sum_nonneg (fun x hx => by
        obtain ⟨m, hm, rfl⟩ := List.mem_map.1 hx
        exact (hf m (List.mem_cons_of_mem _ hm)).2)
    rw [List.map_cons, List.sum_cons] at hb
    have hfl : Fits k (f l) := ⟨hl.1, hl.2, by have := hacc.2.1; omega⟩
    have hsum : acc + f l < ((2 ^ (k + 53) : Nat) : Int) := by omega
    rw [List.foldl_cons, fits_add64 hacc hfl hsum,
      ih _ (fits_add hacc hfl hsum) (fun m hm => hf m (List.mem_cons_of_mem _ hm)) (by omega),
      List.map_cons, List.sum_cons]
    omega

/-- On a grid the `float64` total of a side is the sum of its volumes. -/
theorem totalVolume64_exact {k : Nat} {ob : OrderBook} {ls : List Nat}
    (h : GridVolumes k ob ls) : F64.totalVolume ob ls = sumVolume ob ls := by
  unfold F64.totalVolume sumVolume
  rw [foldl_add64_exact k (fun l => (ob.limitAt l).TotalVolume) ls 0 (fits_zero k) h.2.1
    (by rw [zero_add]; exact h.2.2), zero_add]

theorem queueVolume_onGrid {k : Nat} {ob : OrderBook} {q : List Nat}
    (h : ∀ o ∈ q, OnGrid k (ob.orderAt o).Size) : OnGrid k (queueVolume ob q) := by
  unfold queueVolume OnGrid
  apply List.dvd_sum
  intro x hx
  obtain ⟨m, hm, rfl⟩ := List.mem_map.1 hx
  exact h m hm

theorem queueVolume_nonneg {ob : OrderBook} {q : List Nat}
    (h : ∀ o ∈ q, 0 ≤ (ob.orderAt o).Size) : 0 ≤ queueVolume ob q := by
  unfold queueVolume
  exact List.sum_nonneg (fun x hx => by
    obtain ⟨m, hm, rfl⟩ := List.mem_map.1 hx
    exact h m hm)

theorem size_le_queueVolume {ob : OrderBook} {q : List Nat}
    (h : ∀ o ∈ q, 0 ≤ (ob.orderAt o).Size) {o : Nat} (ho : o ∈ q) :
    (ob.orderAt o).Size ≤ queueVolume ob q := by
  unfold queueVolume
  exact List.single_le_sum (fun x hx => by
    obtain ⟨m, hm, rfl⟩ := List.mem_map.1 hx
    exact h m hm) _ (List.mem_map.2 ⟨o, ho, rfl⟩)

theorem queueVolume_le_sumSizes {k : Nat} {ob : OrderBook} {ls : List Nat}
    (h : GridSide k ob ls) {l : Nat} (hl : l ∈ ls) :
    queueVolume ob (ob.limitAt l).Orders ≤ sumSizes ob ls := by
  unfold sumSizes
  exact List.single_le_sum (fun x hx => by
    obtain ⟨m, hm, rfl⟩ := List.mem_map.1 hx
    exact queueVolume_nonneg (fun o ho => (h.2.1 m hm o ho).2)) _
    (List.mem_map.2 ⟨l, hl, rfl⟩)

theorem sumVolume_eq_sumSizes {ob : OrderBook} {ls : List Nat} (hv : VolumeInvOn ob ls) :
    sumVolume ob ls = sumSizes ob ls := by
  unfold sumVolume sumSizes
  exact congrArg List.sum (List.map_congr_left (fun l hl => hv l hl))

theorem gridSide_size {k : Nat} {ob : OrderBook} {ls : List Nat} (h : GridSide k ob ls)
    {l : Nat} (hl : l ∈ ls) {o : Nat} (ho : o ∈ (ob.limitAt l).Orders) :
    Fits k (ob.orderAt o).Size :=
  ⟨(h.2.1 l hl o ho).1, (h.2.1 l hl o ho).2,
    lt_of_le_of_lt (le_trans (size_le_queueVolume (fun m hm => (h.2.1 l hl m hm).2) ho)
      (queueVolume_le_sumSizes h hl)) h.2.2⟩

theorem gridSide_volume {k : Nat} {ob : OrderBook} {ls : List Nat} (h : GridSide k ob ls)
    (hv : VolumeInvOn ob ls) {l : Nat} (hl : l ∈ ls) : Fits k (ob.limitAt l).TotalVolume := by
  rw [hv l hl]
  exact ⟨queueVolume_onGrid (fun o ho => (h.2.1 l hl o ho).1),
    queueVolume_nonneg (fun o ho => (h.2.1 l hl o ho).2),
    lt_of_le_of_lt (queueVolume_le_sumSizes h hl) h.2.2⟩

theorem gridVolumes_of_gridSide {k : Nat} {ob : OrderBook} {ls : List Nat}
    (h : GridSide k ob ls) (hv : VolumeInvOn ob ls) : GridVolumes k ob ls :=
  ⟨h.1, fun l hl => ⟨(gridSide_volume h hv hl).1, (gridSide_volume h hv hl).2.1⟩,
    by rw [sumVolume_eq_sumSizes hv]; exact h.2.2⟩
theorem PlaceMarketOrder64_eq (ob : OrderBook) (order : Nat) :
    F64.PlaceMarketOrder ob order =
      if (ob.orderAt order).Size > F64.oppositeVolume ob order then
        (ob, .error .notEnoughVolume)
      else
        (clearLimits (F64.marketLoop order (opposite ob order).2 (opposite ob order).1).1 order
          (F64.marketLoop order (opposite ob order).2 (opposite ob order).1).2.2,
         .ok (F64.marketLoop order (opposite ob order).2 (opposite ob order).1).2.1) := by
  unfold F64.PlaceMarketOrder F64.oppositeVolume opposite
  by_cases hb : (ob.orderAt order).Bid = true
  · simp only [hb, if_true]
  · simp only [hb]
    rfl

theorem sumVolume_oppositeLimits (ob : OrderBook) (order : Nat) :
    sumVolume ob (oppositeLimits ob order) = oppositeVolume ob order := by
  unfold sumVolume oppositeLimits oppositeVolume AskTotalVolume BidTotalVolume
  split <;> rfl

theorem totalVolume64_oppositeLimits (ob : OrderBook) (order : Nat) :
    F64.totalVolume ob (oppositeLimits ob order) = F64.oppositeVolume ob order := by
  unfold oppositeLimits F64.oppositeVolume F64.AskTotalVolume F64.BidTotalVolume
  split <;> rfl

theorem volumeInvOn_oppositeLimits {ob : OrderBook} (hv : VolumeInv ob) (order : Nat) :
    VolumeInvOn ob (oppositeLimits ob order) :=
  fun l hl => hv l (oppositeLimits_sub ob order l hl)

/-- On a grid the `float64` total of the opposite side is the sum of its
volumes. -/
theorem oppositeVolume64_exact {k : Nat} {ob : OrderBook} (hv : VolumeInv ob) (order : Nat)
    (hg : GridSide k ob (oppositeLimits ob order)) :
    F64.oppositeVolume ob order = oppositeVolume ob order := by
  rw [← totalVolume64_oppositeLimits, ← sumVolume_oppositeLimits]
  exact totalVolume64_exact (gridVolumes_of_gridSide hg (volumeInvOn_oppositeLimits hv order))

theorem gridReady_opposite {k : Nat} {ob : OrderBook} (hwf : WellFormed ob) (hv : VolumeInv ob)
    (order : Nat) (hg : GridSide k ob (oppositeLimits ob order))
    (ht : Fits k (ob.orderAt order).Size) :
    GridReady k (opposite ob order).1 order (opposite ob order).2 := by
  have hmem : ∀ l ∈ (opposite ob order).2, l ∈ oppositeLimits ob order :=
    fun l hl => (opposite_snd ob order).mem_iff.1 hl
  refine ⟨opposite_wellFormed hwf order, opposite_snd_sub ob order, opposite_snd_free hwf order,
    opposite_volumeOn hv order _ (fun l hl => oppositeLimits_sub ob order l (hmem l hl)),
    ?_, ?_, ?_⟩
  · intro l hl o ho
    rw [opposite_limitAt] at ho
    rw [opposite_orderAt]
    exact gridSide_size hg (hmem l hl) ho
  · intro l hl
    rw [opposite_limitAt]
    exact gridSide_volume hg (volumeInvOn_oppositeLimits hv order) (hmem l hl)
  · rw [opposite_orderAt]; exact ht

/-- On a grid the `float64` run of `PlaceMarketOrder` is the exact run: with a
well-formed book whose volumes are the sums of the queued sizes, the sizes
queued on the opposite side non-negative multiples of `2^k` units of sum below
`2^(k+53)` units, and the size of the order a non-negative multiple of `2^k`
units, no sum or difference computed by the call is rounded. -/
theorem PlaceMarketOrder64_exact {k : Nat} {ob : OrderBook} (hwf : WellFormed ob)
    (hv : VolumeInv ob) (order : Nat) (hg : GridSide k ob (oppositeLimits ob order))
    (hs : OnGrid k (ob.orderAt order).Size) (h0 : 0 ≤ (ob.orderAt order).Size) :
    F64.PlaceMarketOrder ob order = PlaceMarketOrder ob order := by
  have hV := oppositeVolume64_exact hv order hg
  rw [PlaceMarketOrder64_eq, PlaceMarketOrder_eq, hV]
  by_cases hgt : (ob.orderAt order).Size > oppositeVolume ob order
  · rw [if_pos hgt, if_pos hgt]
  · rw [if_neg hgt, if_neg hgt]
    have hlt : oppositeVolume ob order < ((2 ^ (k + 53) : Nat) : Int) := by
      rw [← sumVolume_oppositeLimits, sumVolume_eq_sumSizes (volumeInvOn_oppositeLimits hv order)]
      exact hg.2.2
    have ht : Fits k (ob.orderAt order).Size := ⟨hs, h0, by omega⟩
    rw [(marketLoop64_exact (opposite ob order).2 (gridReady_opposite hwf hv order hg ht)
      (fun l hl => hl)).1]
/-- A successful market order on a grid leaves the opposite side on the grid,
with every volume the sum of the queued sizes. -/
theorem PlaceMarketOrder_gridSide {k : Nat} {ob : OrderBook} (hwf : WellFormed ob)
    (hv : VolumeInv ob) (order : Nat) (hg : GridSide k ob (oppositeLimits ob order))
    (hs : OnGrid k (ob.orderAt order).Size) (h0 : 0 ≤ (ob.orderAt order).Size)
    (hle : (ob.orderAt order).Size ≤ oppositeVolume ob order) :
    GridSide k (PlaceMarketOrder ob order).1 (oppositeLimits (PlaceMarketOrder ob order).1 order) ∧
      VolumeInvOn (PlaceMarketOrder ob order).1
        (oppositeLimits (PlaceMarketOrder ob order).1 order) := by
  have hlt : oppositeVolume ob order < ((2 ^ (k + 53) : Nat) : Int) := by
    rw [← sumVolume_oppositeLimits, sumVolume_eq_sumSizes (volumeInvOn_oppositeLimits hv order)]
    exact hg.2.2
  have ht : Fits k (ob.orderAt order).Size := ⟨hs, h0, by omega⟩
  have hR := (marketLoop64_exact (opposite ob order).2 (gridReady_opposite hwf hv order hg ht)
    (fun l hl => hl)).2
  have hlist : oppositeLimits (PlaceMarketOrder ob order).1 order =
      (opposite ob order).2.diff (marketLoop order (opposite ob order).2 (opposite ob order).1).2.2 := by
    rw [PlaceMarketOrder_ok ob order hle]
    simp only []
    rw [clearLimits_oppositeLimits, marketLoop_oppositeLimits, opposite_oppositeLimits]
  have hmem : ∀ l ∈ oppositeLimits (PlaceMarketOrder ob order).1 order, l ∈ (opposite ob order).2 :=
    fun l hl => (List.diff_sublist _ _).subset (hlist ▸ hl)
  have hvol : VolumeInvOn (PlaceMarketOrder ob order).1
      (oppositeLimits (PlaceMarketOrder ob order).1 order) := by
    intro l hl
    have := hR.vol l (hmem l hl)
    rw [PlaceMarketOrder_limitAt ob order hle]
    rw [queueVolume_congr (marketLoop order (opposite ob order).2 (opposite ob order).1).1
      (PlaceMarketOrder ob order).1 _ (fun o _ => by rw [PlaceMarketOrder_orderAt ob order hle])]
    exact this
  refine ⟨⟨hg.1, ?_, ?_⟩, hvol⟩
  · intro l hl o ho
    rw [PlaceMarketOrder_limitAt ob order hle] at ho
    rw [PlaceMarketOrder_orderAt ob order hle]
    have := hR.size l (hmem l hl) o ho
    exact ⟨this.1, this.2.1⟩
  · rw [← sumVolume_eq_sumSizes hvol, sumVolume_oppositeLimits,
      PlaceMarketOrder_oppositeVolume hwf hv order hle]
    have hz := marketLoop_fills hwf hv order h0 hle
    have hT := marketLoop_taker order (opposite ob order).2 (opposite ob order).1
      (opposite_snd_free hwf order)
    rw [opposite_orderAt, hz] at hT
    omega
/-! ## `float64` and exact runs of `PlaceLimitOrder` and `CancelOrder` -/

theorem setVolume_limitAt (ob : OrderBook) (l : Nat) (v : Int) :
    (setVolume ob l v).limitAt =
      Function.update ob.limitAt l { ob.limitAt l with TotalVolume := v } := rfl

theorem setVolume_same (ob : OrderBook) (l : Nat) :
    setVolume ob l (ob.limitAt l).TotalVolume = ob := by
  unfold setVolume setLimit
  simp

/-- The `float64` run of `addOrder` differs from the exact run in the volume
stored, and only there. -/
theorem addOrder64_eq (ob : OrderBook) (l o : Nat) :
    F64.addOrder ob l o =
      setVolume (addOrder ob l o) l (add64 (ob.limitAt l).TotalVolume (ob.orderAt o).Size) := by
  unfold F64.addOrder addOrder setVolume
  simp [setLimit, setOrder]

/-- The `float64` run of `DeleteOrder` differs from the exact run in the volume
stored, and only there. -/
theorem DeleteOrder64_eq (ob : OrderBook) (l o : Nat) :
    F64.DeleteOrder ob l o =
      setVolume (DeleteOrder ob l o) l (sub64 (ob.limitAt l).TotalVolume (ob.orderAt o).Size) := by
  unfold F64.DeleteOrder DeleteOrder setVolume
  simp [setLimit, setOrder, sortOrders]

theorem addOrder64_exact (ob : OrderBook) (l o : Nat)
    (h : round64 ((ob.limitAt l).TotalVolume + (ob.orderAt o).Size) =
      (ob.limitAt l).TotalVolume + (ob.orderAt o).Size) :
    F64.addOrder ob l o = addOrder ob l o := by
  unfold F64.addOrder addOrder
  simp only [add64, setLimit, setOrder, Function.update_same, h]
theorem setVolume_queue (ob : OrderBook) (l : Nat) (v : Int) (l' : Nat) :
    ((setVolume ob l v).limitAt l').Orders = (ob.limitAt l').Orders := by
  rw [setVolume_limitAt, Function.update_apply]
  split
  · subst_vars; rfl
  · rfl

theorem setVolume_price (ob : OrderBook) (l : Nat) (v : Int) (l' : Nat) :
    ((setVolume ob l v).limitAt l').Price = (ob.limitAt l').Price := by
  rw [setVolume_limitAt, Function.update_apply]
  split
  · subst_vars; rfl
  · rfl

theorem setVolume_totalVolume (ob : OrderBook) (l : Nat) (v : Int) :
    ((setVolume ob l v).limitAt l).TotalVolume = v := by
  rw [setVolume_limitAt, Function.update_same]

theorem setVolume_limitAt_other (ob : OrderBook) (l : Nat) (v : Int) (l' : Nat) (h : l' ≠ l) :
    (setVolume ob l v).limitAt l' = ob.limitAt l' := by
  rw [setVolume_limitAt, Function.update_noteq h]

theorem clearLimit_setVolume (ob : OrderBook) (l : Nat) (v : Int) (b : Bool) (l' : Nat) :
    clearLimit (setVolume ob l v) b l' = setVolume (clearLimit ob b l') l v := by
  unfold clearLimit
  cases b
  · simp only [Bool.false_eq_true, if_false, setVolume_price]
    rfl
  · simp only [if_true, setVolume_price]
    rfl

theorem PlaceLimitOrder64_found (ob : OrderBook) (price : Int) (order l : Nat)
    (h : lookupLimit ob price order = some l) :
    F64.PlaceLimitOrder ob price order =
      setVolume (PlaceLimitOrder ob price order) l
        (add64 (ob.limitAt l).TotalVolume (ob.orderAt order).Size) := by
  unfold F64.PlaceLimitOrder PlaceLimitOrder
  simp only [h]
  rw [addOrder64_eq]
  rfl

theorem PlaceLimitOrder64_new (ob : OrderBook) (price : Int) (order : Nat)
    (h : lookupLimit ob price order = none) :
    F64.PlaceLimitOrder ob price order =
      setVolume (PlaceLimitOrder ob price order) ob.nextLimit
        (add64 0 (ob.orderAt order).Size) := by
  unfold F64.PlaceLimitOrder PlaceLimitOrder
  simp only [h]
  rw [addOrder64_eq]
  unfold registerLimit NewLimit
  by_cases hb : (ob.orderAt order).Bid = true
  · simp [hb, setIndex, setLimit]
  · simp [hb, setIndex, setLimit]

theorem CancelOrder64_nil (ob : OrderBook) (order : Nat) (h : (ob.orderAt order).Limit = none) :
    F64.CancelOrder ob order = CancelOrder ob order := by
  unfold F64.CancelOrder CancelOrder
  simp only [h]

theorem CancelOrder64_some (ob : OrderBook) (order l : Nat)
    (h : (ob.orderAt order).Limit = some l) :
    F64.CancelOrder ob order =
      (setVolume (CancelOrder ob order).1 l
        (sub64 (ob.limitAt l).TotalVolume (ob.orderAt order).Size), .ok ()) := by
  unfold F64.CancelOrder CancelOrder
  simp only [h]
  rw [DeleteOrder64_eq]
  simp only [setVolume_queue]
  split
  · rw [clearLimit_setVolume]; rfl
  · rfl
theorem setVolume_asks (ob : OrderBook) (l : Nat) (v : Int) : (setVolume ob l v).asks = ob.asks := rfl
theorem setVolume_bids (ob : OrderBook) (l : Nat) (v : Int) : (setVolume ob l v).bids = ob.bids := rfl
theorem setVolume_AskLimits (ob : OrderBook) (l : Nat) (v : Int) :
    (setVolume ob l v).AskLimits = ob.AskLimits := rfl
theorem setVolume_BidLimits (ob : OrderBook) (l : Nat) (v : Int) :
    (setVolume ob l v).BidLimits = ob.BidLimits := rfl
theorem setVolume_orderAt (ob : OrderBook) (l : Nat) (v : Int) :
    (setVolume ob l v).orderAt = ob.orderAt := rfl
theorem setVolume_ownLimits (ob : OrderBook) (l : Nat) (v : Int) (o : Nat) :
    ownLimits (setVolume ob l v) o = ownLimits ob o := rfl
theorem setVolume_oppositeLimits (ob : OrderBook) (l : Nat) (v : Int) (o : Nat) :
    oppositeLimits (setVolume ob l v) o = oppositeLimits ob o := rfl
theorem setVolume_ownMap (ob : OrderBook) (l : Nat) (v : Int) (o : Nat) :
    ownMap (setVolume ob l v) o = ownMap ob o := rfl
theorem setVolume_sameShape (ob : OrderBook) (l : Nat) (v : Int) :
    SameShape ob (setVolume ob l v) :=
  ⟨rfl, rfl, rfl, rfl, rfl, rfl, fun l' => setVolume_price ob l v l',
    fun l' => setVolume_queue ob l v l', fun _ => rfl, fun _ => rfl, fun _ => rfl, fun _ => rfl⟩

theorem wellFormed_setVolume {ob : OrderBook} (h : WellFormed ob) (l : Nat) (v : Int) :
    WellFormed (setVolume ob l v) :=
  h.of_sameShape (setVolume_sameShape ob l v)

theorem placedVolume_found (ob : OrderBook) (price : Int) (order l : Nat)
    (h : lookupLimit ob price order = some l) :
    placedVolume ob price order = (ob.limitAt l).TotalVolume := by
  unfold placedVolume; rw [h]

theorem placedVolume_new (ob : OrderBook) (price : Int) (order : Nat)
    (h : lookupLimit ob price order = none) : placedVolume ob price order = 0 := by
  unfold placedVolume; rw [h]

/-- The `float64` run of `PlaceLimitOrder` differs from the exact run in the
volume stored in the limit the order is added to, and only there. -/
theorem PlaceLimitOrder64_eq (ob : OrderBook) (price : Int) (order : Nat) :
    F64.PlaceLimitOrder ob price order =
      setVolume (PlaceLimitOrder ob price order) (placedLimit ob price order)
        (add64 (placedVolume ob price order) (ob.orderAt order).Size) := by
  cases hf : lookupLimit ob price order with
  | some l =>
    rw [PlaceLimitOrder64_found _ _ _ _ hf, placedLimit_found _ _ _ _ hf,
      placedVolume_found _ _ _ _ hf]
  | none =>
    rw [PlaceLimitOrder64_new _ _ _ hf, placedLimit_new _ _ _ hf, placedVolume_new _ _ _ hf]

/-- The volume the exact run of `PlaceLimitOrder` stores in the limit the
order is added to. -/
theorem PlaceLimitOrder_placedVolume (ob : OrderBook) (price : Int) (order : Nat) :
    ((PlaceLimitOrder ob price order).limitAt (placedLimit ob price order)).TotalVolume =
      placedVolume ob price order + (ob.orderAt order).Size := by
  cases hf : lookupLimit ob price order with
  | some l =>
    rw [placedLimit_found _ _ _ _ hf, placedVolume_found _ _ _ _ hf,
      PlaceLimitOrder_limitAt_found _ _ _ _ hf, Function.update_same]
  | none =>
    rw [placedLimit_new _ _ _ hf, placedVolume_new _ _ _ hf,
      PlaceLimitOrder_limitAt_new _ _ _ hf, Function.update_same, zero_add]

theorem PlaceLimitOrder64_exact (ob : OrderBook) (price : Int) (order : Nat)
    (h : round64 (placedVolume ob price order + (ob.orderAt order).Size) =
      placedVolume ob price order + (ob.orderAt order).Size) :
    F64.PlaceLimitOrder ob price order = PlaceLimitOrder ob price order := by
  rw [PlaceLimitOrder64_eq, add64, h, ← PlaceLimitOrder_placedVolume, setVolume_same]

theorem wellFormed_PlaceLimitOrder64 {ob : OrderBook} (h : WellFormed ob) (price : Int)
    {order : Nat} (hr : ¬ Resting ob order) : WellFormed (F64.PlaceLimitOrder ob price order) := by
  rw [PlaceLimitOrder64_eq]
  exact wellFormed_setVolume (wellFormed_PlaceLimitOrder h price hr) _ _
theorem sumVolume_ownLimits (ob : OrderBook) (order : Nat) :
    sumVolume ob (ownLimits ob order) = ownVolume ob order := by
  unfold sumVolume ownLimits ownVolume AskTotalVolume BidTotalVolume
  split <;> rfl

theorem totalVolume64_ownLimits (ob : OrderBook) (order : Nat) :
    F64.totalVolume ob (ownLimits ob order) = F64.ownVolume ob order := by
  unfold ownLimits F64.ownVolume F64.AskTotalVolume F64.BidTotalVolume
  split <;> rfl

theorem volumeInvOn_ownLimits {ob : OrderBook} (hv : VolumeInv ob) (order : Nat) :
    VolumeInvOn ob (ownLimits ob order) :=
  fun l hl => hv l (ownLimits_sub ob order l hl)

/-- On a grid the `float64` total of the order's own side is the sum of its
volumes. -/
theorem ownVolume64_exact {k : Nat} {ob : OrderBook} (order : Nat)
    (hg : GridVolumes k ob (ownLimits ob order)) :
    F64.ownVolume ob order = ownVolume ob order := by
  rw [← totalVolume64_ownLimits, ← sumVolume_ownLimits]
  exact totalVolume64_exact hg

theorem totalVolume64_congr (ob ob' : OrderBook) (ls : List Nat)
    (h : ∀ l ∈ ls, (ob'.limitAt l).TotalVolume = (ob.limitAt l).TotalVolume) :
    F64.totalVolume ob' ls = F64.totalVolume ob ls := by
  unfold F64.totalVolume
  generalize (0 : Int) = acc
  induction ls generalizing acc with
  | nil => rfl
  | cons l rest ih =>
    rw [List.foldl_cons, List.foldl_cons, h l (List.mem_cons_self _ _)]
    exact ih (fun l' hl' => h l' (List.mem_cons_of_mem _ hl')) _

/-- On a grid, placing a limit order of a size on the grid that the side has
room for is exact, and leaves the volumes of the side on the grid. -/
theorem PlaceLimitOrder_gridVolumes {k : Nat} {ob : OrderBook} (hwf : WellFormed ob)
    (price : Int) (order : Nat) (hg : GridVolumes k ob (ownLimits ob order))
    (hs : OnGrid k (ob.orderAt order).Size) (h0 : 0 ≤ (ob.orderAt order).Size)
    (hb : ownVolume ob order + (ob.orderAt order).Size < ((2 ^ (k + 53) : Nat) : Int)) :
    F64.PlaceLimitOrder ob price order = PlaceLimitOrder ob price order ∧
      GridVolumes k (PlaceLimitOrder ob price order)
        (ownLimits (PlaceLimitOrder ob price order) order) := by
  rw [← sumVolume_ownLimits] at hb
  have hsum0 : 0 ≤ sumVolume ob (ownLimits ob order) := by
    unfold sumVolume
    exact List.sum_nonneg (fun x hx => by
      obtain ⟨m, hm, rfl⟩ := List.mem_map.1 hx
      exact (hg.2.1 m hm).2)
  have hle : ∀ l ∈ ownLimits ob order,
      (ob.limitAt l).TotalVolume ≤ sumVolume ob (ownLimits ob order) := by
    intro l hl
    unfold sumVolume
    exact List.single_le_sum (fun x hx => by
      obtain ⟨m, hm, rfl⟩ := List.mem_map.1 hx
      exact (hg.2.1 m hm).2) _ (List.mem_map.2 ⟨l, hl, rfl⟩)
  have hS : Fits k (ob.orderAt order).Size := ⟨hs, h0, by omega⟩
  have hV : Fits k (placedVolume ob price order) ∧
      placedVolume ob price order ≤ sumVolume ob (ownLimits ob order) := by
    cases hf : lookupLimit ob price order with
    | some l =>
      rw [placedVolume_found _ _ _ _ hf]
      have hl := (lookupLimit_found hwf hf).1
      have := hle l hl
      exact ⟨⟨(hg.2.1 l hl).1, (hg.2.1 l hl).2, by omega⟩, this⟩
    | none => rw [placedVolume_new _ _ _ hf]; exact ⟨fits_zero k, hsum0⟩
  have hP : Fits k (placedVolume ob price order + (ob.orderAt order).Size) :=
    fits_add hV.1 hS (by have := hV.2; omega)
  refine ⟨PlaceLimitOrder64_exact ob price order (fits_round hP), hg.1, ?_, ?_⟩
  · intro l hl
    by_cases hp : l = placedLimit ob price order
    · rw [hp, PlaceLimitOrder_placedVolume]
      exact ⟨hP.1, hP.2.1⟩
    · rw [PlaceLimitOrder_limitAt_other _ _ _ _ hp]
      refine hg.2.1 l ?_
      rw [PlaceLimitOrder_ownLimits] at hl
      split at hl
      · rename_i hn
        rcases List.mem_append.1 hl with h1 | h1
        · exact h1
        · rw [placedLimit_new _ _ _ hn] at hp
          exact absurd (List.mem_singleton.1 h1) hp
      · exact hl
  · rw [sumVolume_ownLimits, PlaceLimitOrder_ownVolume hwf, ← sumVolume_ownLimits]
    exact hb
theorem sortOrders_sorted (ob : OrderBook) (q : List Nat) : TimeOrdered ob (sortOrders ob q) := by
  have : IsTotal Nat (fun a b => (ob.orderAt a).TimeStamp ≤ (ob.orderAt b).TimeStamp) :=
    ⟨fun a b => le_total _ _⟩
  have : IsTrans Nat (fun a b => (ob.orderAt a).TimeStamp ≤ (ob.orderAt b).TimeStamp) :=
    ⟨fun a b c => le_trans⟩
  exact List.sorted_insertionSort _ q

theorem F64_oppositeVolume_setVolume (ob : OrderBook) (l : Nat) (v : Int) (order : Nat)
    (h : l ∉ oppositeLimits ob order) :
    F64.oppositeVolume (setVolume ob l v) order = F64.oppositeVolume ob order := by
  rw [← totalVolume64_oppositeLimits, ← totalVolume64_oppositeLimits, setVolume_oppositeLimits]
  exact totalVolume64_congr _ _ _ (fun l' hl' => by
    rw [setVolume_limitAt_other _ _ _ _ (fun he : l' = l => h (he ▸ hl'))])

theorem F64_oppositeVolume_CancelOrder {ob : OrderBook} (hwf : WellFormed ob)
    {order l : Nat} (hl : l ∈ ob.asks ++ ob.bids) (hb : (ob.orderAt order).Limit = some l)
    (ho : order ∈ (ob.limitAt l).Orders) :
    F64.oppositeVolume (CancelOrder ob order).1 order = F64.oppositeVolume ob order := by
  have hown := resting_side hwf hl ho
  rw [← totalVolume64_oppositeLimits, ← totalVolume64_oppositeLimits,
    CancelOrder_oppositeLimits ob order l hb]
  exact totalVolume64_congr _ _ _ (fun x hx => by
    have hne : x ≠ l := fun he : x = l => own_not_opposite hwf hown (he ▸ hx)
    rw [CancelOrder_limitAt ob order l hb, Function.update_noteq hne])

/-- On a grid, cancelling a resting order is exact and leaves the volumes of
the side on the grid. -/
theorem CancelOrder_gridVolumes {k : Nat} {ob : OrderBook} (hwf : WellFormed ob)
    (hv : VolumeInv ob) {order l : Nat} (hl : l ∈ ob.asks ++ ob.bids)
    (hb : (ob.orderAt order).Limit = some l) (ho : order ∈ (ob.limitAt l).Orders)
    (hg : GridSide k ob (ownLimits ob order)) :
    F64.CancelOrder ob order = CancelOrder ob order ∧
      GridVolumes k (CancelOrder ob order).1 (ownLimits (CancelOrder ob order).1 order) := by
  have hown := resting_side hwf hl ho
  have hvo := volumeInvOn_ownLimits hv order
  have hV := gridSide_volume hg hvo hown
  have hS := gridSide_size hg hown ho
  have hle : (ob.orderAt order).Size ≤ (ob.limitAt l).TotalVolume := by
    rw [hv l hl]
    exact size_le_queueVolume (fun m hm => (hg.2.1 l hown m hm).2) ho
  have hT : ((CancelOrder ob order).1.limitAt l).TotalVolume =
      (ob.limitAt l).TotalVolume - (ob.orderAt order).Size := by
    rw [CancelOrder_limitAt ob order l hb, Function.update_same]
  have hres := CancelOrder_result ob order l hb
  refine ⟨?_, hg.1, ?_, ?_⟩
  · rw [CancelOrder64_some ob order l hb, fits_sub64 hV hS hle, ← hT, setVolume_same, ← hres]
  · intro l' hl'
    by_cases hll : l' = l
    · rw [hll, hT]
      have := fits_sub hV hS hle
      exact ⟨this.1, this.2.1⟩
    · rw [CancelOrder_limitAt ob order l hb, Function.update_noteq hll]
      have hmem : l' ∈ ownLimits ob order := by
        rw [CancelOrder_ownLimits ob order l hb] at hl'
        split at hl'
        · exact List.mem_of_mem_erase hl'
        · exact hl'
      have := gridSide_volume hg hvo hmem
      exact ⟨this.1, this.2.1⟩
  · rw [sumVolume_ownLimits, CancelOrder_ownVolume hwf hv hl hb ho, ← sumVolume_ownLimits,
      sumVolume_eq_sumSizes hvo]
    have := hg.2.2
    have := hS.2.1
    omega
/-! ## The `float64` loop of `Fill` -/

theorem remaining64_nil (s : Int) : remaining64 s [] = s := rfl

theorem remaining64_cons (s x : Int) (xs : List Int) :
    remaining64 s (x :: xs) = remaining64 (sub64 s x) xs := rfl

theorem levelFills64_nil (s : Int) : levelFills64 s [] = [] := rfl

theorem levelFills64_cons_filled (s z : Int) (zs : List Int) (h : sub64 s (min s z) = 0) :
    levelFills64 s (z :: zs) = [min s z] := by
  simp [levelFills64, h]

theorem levelFills64_cons_open (s z : Int) (zs : List Int) (h : sub64 s (min s z) ≠ 0) :
    levelFills64 s (z :: zs) = min s z :: levelFills64 (sub64 s (min s z)) zs := by
  simp [levelFills64, h]

theorem levelFills64_length_le (s : Int) (zs : List Int) :
    (levelFills64 s zs).length ≤ zs.length := by
  induction zs generalizing s with
  | nil => simp [levelFills64_nil]
  | cons z zs ih =>
    by_cases h : sub64 s (min s z) = 0
    · rw [levelFills64_cons_filled _ _ _ h]; simp
    · rw [levelFills64_cons_open _ _ _ h]
      simpa using ih (sub64 s (min s z))

theorem levelFills64_length_pos (s : Int) (zs : List Int) (h : zs ≠ []) :
    0 < (levelFills64 s zs).length := by
  cases zs with
  | nil => exact absurd rfl h
  | cons z zs =>
    by_cases h : sub64 s (min s z) = 0
    · rw [levelFills64_cons_filled _ _ _ h]; simp
    · rw [levelFills64_cons_open _ _ _ h]; simp

/-- Each filled size is the minimum of the taker's remaining size and the
maker's size. -/
theorem levelFills64_getD (s : Int) (zs : List Int) (i : Nat)
    (hi : i < (levelFills64 s zs).length) :
    (levelFills64 s zs).getD i 0 =
      min (remaining64 s ((levelFills64 s zs).take i)) (zs.getD i 0) := by
  induction zs generalizing s i with
  | nil => simp [levelFills64_nil] at hi
  | cons z zs ih =>
    by_cases h : sub64 s (min s z) = 0
    · rw [levelFills64_cons_filled _ _ _ h] at hi ⊢
      have : i = 0 := by simpa using hi
      subst this
      simp [remaining64_nil]
    · rw [levelFills64_cons_open _ _ _ h] at hi ⊢
      cases i with
      | zero => simp [remaining64_nil]
      | succ i =>
        have hi' : i < (levelFills64 (sub64 s (min s z)) zs).length := by simpa using hi
        have := ih (sub64 s (min s z)) i hi'
        simp only [List.getD_cons_succ, List.take_succ_cons, remaining64_cons]
        exact this

/-- The taker is open after each match but the last. -/
theorem levelFills64_open (s : Int) (zs : List Int) (j : Nat) (h0 : 0 < j)
    (hj : j < (levelFills64 s zs).length) :
    remaining64 s ((levelFills64 s zs).take j) ≠ 0 := by
  induction zs generalizing s j with
  | nil => simp [levelFills64_nil] at hj
  | cons z zs ih =>
    by_cases h : sub64 s (min s z) = 0
    · rw [levelFills64_cons_filled _ _ _ h] at hj
      simp at hj; omega
    · rw [levelFills64_cons_open _ _ _ h] at hj ⊢
      cases j with
      | zero => omega
      | succ j =>
        simp only [List.take_succ_cons, remaining64_cons]
        cases j with
        | zero => simpa [remaining64_nil] using h
        | succ j =>
          have hj' : j + 1 < (levelFills64 (sub64 s (min s z)) zs).length := by simpa using hj
          exact ih (sub64 s (min s z)) (j + 1) (by omega) hj'

/-- When the matches end before the queue does, the taker is filled. -/
theorem levelFills64_filled (s : Int) (zs : List Int)
    (h : (levelFills64 s zs).length < zs.length) :
    remaining64 s (levelFills64 s zs) = 0 := by
  induction zs generalizing s with
  | nil => simp at h
  | cons z zs ih =>
    by_cases hf : sub64 s (min s z) = 0
    · rw [levelFills64_cons_filled _ _ _ hf]; simpa [remaining64_cons, remaining64_nil] using hf
    · rw [levelFills64_cons_open _ _ _ hf] at h ⊢
      have h' : (levelFills64 (sub64 s (min s z)) zs).length < zs.length := by simpa using h
      rw [remaining64_cons]
      exact ih (sub64 s (min s z)) h'

theorem fillOrder64_fst (ob : OrderBook) (l a b : Nat) :
    (F64.fillOrder ob l a b).1 =
      if (ob.orderAt a).Size ≥ (ob.orderAt b).Size then
        setSize (setSize ob a (sub64 (ob.orderAt a).Size (ob.orderAt b).Size)) b 0
      else
        setSize (setSize ob b (sub64 (ob.orderAt b).Size (ob.orderAt a).Size)) a 0 := by
  unfold F64.fillOrder
  simp only []
  split <;> rfl

theorem fillOrder64_snd (ob : OrderBook) (l a b : Nat) :
    (F64.fillOrder ob l a b).2 =
      { Ask := if (ob.orderAt a).Bid then b else a
        Bid := if (ob.orderAt a).Bid then a else b
        SizeFilled :=
          if (ob.orderAt a).Size ≥ (ob.orderAt b).Size then
            ((setSize ob a (sub64 (ob.orderAt a).Size (ob.orderAt b).Size)).orderAt b).Size
          else
            ((setSize ob b (sub64 (ob.orderAt b).Size (ob.orderAt a).Size)).orderAt a).Size
        Price := (ob.limitAt l).Price } := by
  unfold F64.fillOrder
  simp only []
  split <;> rfl

theorem fillOrder64_sameShape (ob : OrderBook) (l a b : Nat) :
    SameShape ob (F64.fillOrder ob l a b).1 := by
  rw [fillOrder64_fst]
  split
  · exact (setSize_sameShape _ _ _).trans (setSize_sameShape _ _ _)
  · exact (setSize_sameShape _ _ _).trans (setSize_sameShape _ _ _)

theorem fillOrder64_limitAt (ob : OrderBook) (l a b : Nat) :
    (F64.fillOrder ob l a b).1.limitAt = ob.limitAt := by
  rw [fillOrder64_fst]
  split <;> rfl

theorem fillOrder64_orderAt_other (ob : OrderBook) (l a b o : Nat) (ha : o ≠ a) (hb : o ≠ b) :
    (F64.fillOrder ob l a b).1.orderAt o = ob.orderAt o := by
  rw [fillOrder64_fst]
  split <;> simp [setSize_orderAt_ne, ha, hb]

theorem fillOrder64_sizeFilled (ob : OrderBook) (l a b : Nat) (h : a ≠ b) :
    (F64.fillOrder ob l a b).2.SizeFilled = min (ob.orderAt a).Size (ob.orderAt b).Size := by
  rw [fillOrder64_snd]
  simp only []
  split
  · rename_i hge
    simp only [setSize_size, if_neg (Ne.symm h)]
    omega
  · rename_i hge
    simp only [setSize_size, if_neg h, if_true]
    omega

/-- The taker is lowered by the size filled, on `float64`. -/
theorem fillOrder64_size_taker (ob : OrderBook) (l a b : Nat) (h : a ≠ b) :
    ((F64.fillOrder ob l a b).1.orderAt a).Size =
      sub64 (ob.orderAt a).Size (min (ob.orderAt a).Size (ob.orderAt b).Size) := by
  rw [fillOrder64_fst]
  split
  · rename_i hge
    simp only [setSize_size, if_neg h, if_true]
    rw [min_eq_right hge]
  · rename_i hge
    simp only [setSize_size, if_true]
    rw [min_eq_left (by omega), sub64_self]

/-- The maker is lowered by the size filled, on `float64`. -/
theorem fillOrder64_size_maker (ob : OrderBook) (l a b : Nat) (h : a ≠ b) :
    ((F64.fillOrder ob l a b).1.orderAt b).Size =
      sub64 (ob.orderAt b).Size (min (ob.orderAt a).Size (ob.orderAt b).Size) := by
  rw [fillOrder64_fst]
  split
  · rename_i hge
    simp only [setSize_size, if_true]
    rw [min_eq_right hge, sub64_self]
  · rename_i hge
    simp only [setSize_size, if_neg (Ne.symm h), if_true]
    rw [min_eq_left (by omega)]

/-- When the taker is left open by a `float64` step, the maker is filled. -/
theorem fillOrder64_maker_filled (ob : OrderBook) (l a b : Nat)
    (hopen : ((F64.fillOrder ob l a b).1.orderAt a).Size ≠ 0) :
    ((F64.fillOrder ob l a b).1.orderAt b).Size = 0 := by
  rw [fillOrder64_fst] at hopen ⊢
  split
  · simp only [setSize_size, if_true]
  · rename_i hge
    rw [if_neg hge] at hopen
    simp only [setSize_size, if_true] at hopen
    exact absurd rfl hopen
theorem fillStep64_orderAt (ob : OrderBook) (l a o : Nat) :
    (F64.fillStep ob l a o).1.orderAt = (F64.fillOrder ob l a o).1.orderAt := rfl

theorem fillStep64_snd (ob : OrderBook) (l a o : Nat) :
    (F64.fillStep ob l a o).2 = (F64.fillOrder ob l a o).2 := rfl

theorem fillStep64_limitAt (ob : OrderBook) (l a o : Nat) :
    (F64.fillStep ob l a o).1.limitAt = Function.update ob.limitAt l
      { ob.limitAt l with
        TotalVolume := sub64 (ob.limitAt l).TotalVolume (F64.fillOrder ob l a o).2.SizeFilled } := by
  simp only [F64.fillStep, setLimit_limitAt, fillOrder64_limitAt]

theorem fillStep64_sameShape (ob : OrderBook) (l a o : Nat) :
    SameShape ob (F64.fillStep ob l a o).1 := by
  have h := fillOrder64_sameShape ob l a o
  refine ⟨h.asks, h.bids, h.askLimits, h.bidLimits, h.index, h.nextLimit, ?_, ?_, h.id, h.bid,
    h.limit, h.timeStamp⟩
  · intro l'
    rw [fillStep64_limitAt, Function.update_apply]
    split
    · subst_vars; rfl
    · rfl
  · intro l'
    rw [fillStep64_limitAt, Function.update_apply]
    split
    · subst_vars; rfl
    · rfl

theorem fillStep64_orderAt_other (ob : OrderBook) (l a o o' : Nat) (h1 : o' ≠ a) (h2 : o' ≠ o) :
    (F64.fillStep ob l a o).1.orderAt o' = ob.orderAt o' := by
  rw [fillStep64_orderAt]; exact fillOrder64_orderAt_other ob l a o o' h1 h2

theorem fillStep64_match (ob : OrderBook) (l order o : Nat) (h : order ≠ o) :
    (F64.fillStep ob l order o).2 =
      matchOf ob l order o (min (ob.orderAt order).Size (ob.orderAt o).Size) := by
  have h1 := fillOrder64_sizeFilled ob l order o h
  rw [fillStep64_snd]
  rw [fillOrder64_snd] at h1 ⊢
  simp only [] at h1
  unfold matchOf
  rw [h1]

theorem fillStep64_taker (ob : OrderBook) (l order o : Nat) (h : order ≠ o) :
    ((F64.fillStep ob l order o).1.orderAt order).Size =
      sub64 (ob.orderAt order).Size (min (ob.orderAt order).Size (ob.orderAt o).Size) := by
  rw [fillStep64_orderAt, fillOrder64_size_taker ob l order o h]

theorem fillStep64_maker (ob : OrderBook) (l order o : Nat) (h : order ≠ o) :
    ((F64.fillStep ob l order o).1.orderAt o).Size =
      sub64 (ob.orderAt o).Size (min (ob.orderAt order).Size (ob.orderAt o).Size) := by
  rw [fillStep64_orderAt, fillOrder64_size_maker ob l order o h]

theorem fillStep64_maker_filled (ob : OrderBook) (l a o : Nat)
    (hopen : ((F64.fillStep ob l a o).1.orderAt a).Size ≠ 0) :
    ((F64.fillStep ob l a o).1.orderAt o).Size = 0 := by
  rw [fillStep64_orderAt] at hopen ⊢
  exact fillOrder64_maker_filled ob l a o hopen

theorem fillStep64_sizes_rest (ob : OrderBook) (l order o : Nat) (rest : List Nat)
    (hr : order ∉ rest) (hor : o ∉ rest) :
    rest.map (fun m => ((F64.fillStep ob l order o).1.orderAt m).Size) =
      rest.map (fun m => (ob.orderAt m).Size) :=
  List.map_congr_left (fun m hm => by
    rw [fillStep64_orderAt_other ob l order o m (fun he => hr (he ▸ hm)) (fun he => hor (he ▸ hm))])

theorem fillLoop64_nil (l order : Nat) (ob : OrderBook) :
    F64.fillLoop l order [] ob = (ob, [], []) := rfl

theorem fillLoop64_cons_filled (l order o : Nat) (rest : List Nat) (ob : OrderBook)
    (h : ((F64.fillStep ob l order o).1.orderAt order).Size = 0) :
    F64.fillLoop l order (o :: rest) ob =
      ((F64.fillStep ob l order o).1, [(F64.fillStep ob l order o).2],
        if ((F64.fillStep ob l order o).1.orderAt o).Size = 0 then [o] else []) := by
  simp [F64.fillLoop, Order.IsFilled, h]

theorem fillLoop64_cons_open (l order o : Nat) (rest : List Nat) (ob : OrderBook)
    (h : ((F64.fillStep ob l order o).1.orderAt order).Size ≠ 0) :
    F64.fillLoop l order (o :: rest) ob =
      ((F64.fillLoop l order rest (F64.fillStep ob l order o).1).1,
        (F64.fillStep ob l order o).2 ::
          (F64.fillLoop l order rest (F64.fillStep ob l order o).1).2.1,
        (if ((F64.fillStep ob l order o).1.orderAt o).Size = 0 then [o] else []) ++
          (F64.fillLoop l order rest (F64.fillStep ob l order o).1).2.2) := by
  simp [F64.fillLoop, Order.IsFilled, h]

theorem fillLoop64_sameShape (l order : Nat) (q : List Nat) (ob : OrderBook) :
    SameShape ob (F64.fillLoop l order q ob).1 := by
  induction q generalizing ob with
  | nil => exact SameShape.refl ob
  | cons o rest ih =>
    by_cases h : ((F64.fillStep ob l order o).1.orderAt order).Size = 0
    · rw [fillLoop64_cons_filled _ _ _ _ _ h]
      exact fillStep64_sameShape ob l order o
    · rw [fillLoop64_cons_open _ _ _ _ _ h]
      exact (fillStep64_sameShape ob l order o).trans (ih _)

theorem fillLoop64_orderAt_other (l order : Nat) (q : List Nat) (ob : OrderBook) (o : Nat)
    (h1 : o ≠ order) (h2 : o ∉ q) : (F64.fillLoop l order q ob).1.orderAt o = ob.orderAt o := by
  induction q generalizing ob with
  | nil => rfl
  | cons m rest ih =>
    have hm : o ≠ m := fun h => h2 (h ▸ List.mem_cons_self _ _)
    have hr : o ∉ rest := fun h => h2 (List.mem_cons_of_mem _ h)
    have hstep : (F64.fillStep ob l order m).1.orderAt o = ob.orderAt o :=
      fillStep64_orderAt_other ob l order m o h1 hm
    by_cases h : ((F64.fillStep ob l order m).1.orderAt order).Size = 0
    · rw [fillLoop64_cons_filled _ _ _ _ _ h]; exact hstep
    · rw [fillLoop64_cons_open _ _ _ _ _ h]
      exact (ih _ hr).trans hstep

/-- The matches of the `float64` loop are the matches of the taker against the
makers of the queue, in queue order, for the sizes of `levelFills64`. -/
theorem fillLoop64_matches (l order : Nat) (q : List Nat) (ob : OrderBook) (hq : order ∉ q)
    (hnd : q.Nodup) :
    (F64.fillLoop l order q ob).2.1 =
      List.zipWith (matchOf ob l order) q
        (levelFills64 (ob.orderAt order).Size (q.map (fun o => (ob.orderAt o).Size))) := by
  induction q generalizing ob with
  | nil => simp [fillLoop64_nil, levelFills64_nil]
  | cons o rest ih =>
    have hne : order ≠ o := fun h => hq (h ▸ List.mem_cons_self _ _)
    have hr : order ∉ rest := fun h => hq (List.mem_cons_of_mem _ h)
    have hor : o ∉ rest := (List.nodup_cons.1 hnd).1
    have ht := fillStep64_taker ob l order o hne
    by_cases h : ((F64.fillStep ob l order o).1.orderAt order).Size = 0
    · rw [fillLoop64_cons_filled _ _ _ _ _ h, List.map_cons,
        levelFills64_cons_filled _ _ _ (ht ▸ h), fillStep64_match ob l order o hne]
      simp
    · rw [fillLoop64_cons_open _ _ _ _ _ h, List.map_cons,
        levelFills64_cons_open _ _ _ (ht ▸ h), fillStep64_match ob l order o hne]
      simp only [List.zipWith_cons_cons]
      rw [ih _ hr (List.nodup_cons.1 hnd).2, matchOf_congr (fillStep64_sameShape ob l order o),
        fillStep64_sizes_rest ob l order o rest hr hor, ht]

/-- The taker after the `float64` loop: its size lowered by the filled sizes,
one after the other. -/
theorem fillLoop64_taker (l order : Nat) (q : List Nat) (ob : OrderBook) (hq : order ∉ q)
    (hnd : q.Nodup) :
    ((F64.fillLoop l order q ob).1.orderAt order).Size =
      remaining64 (ob.orderAt order).Size
        (levelFills64 (ob.orderAt order).Size (q.map (fun o => (ob.orderAt o).Size))) := by
  induction q generalizing ob with
  | nil => simp [fillLoop64_nil, levelFills64_nil, remaining64_nil]
  | cons o rest ih =>
    have hne : order ≠ o := fun h => hq (h ▸ List.mem_cons_self _ _)
    have hr : order ∉ rest := fun h => hq (List.mem_cons_of_mem _ h)
    have hor : o ∉ rest := (List.nodup_cons.1 hnd).1
    have ht := fillStep64_taker ob l order o hne
    by_cases h : ((F64.fillStep ob l order o).1.orderAt order).Size = 0
    · rw [fillLoop64_cons_filled _ _ _ _ _ h, List.map_cons,
        levelFills64_cons_filled _ _ _ (ht ▸ h), remaining64_cons, remaining64_nil, ← ht]
    · rw [fillLoop64_cons_open _ _ _ _ _ h, List.map_cons,
        levelFills64_cons_open _ _ _ (ht ▸ h), remaining64_cons]
      simp only []
      rw [ih _ hr (List.nodup_cons.1 hnd).2, fillStep64_sizes_rest ob l order o rest hr hor, ht]

/-- The sizes of the makers after the `float64` loop: the matched makers are
lowered by the sizes of `levelFills64`, the others keep their size. -/
theorem fillLoop64_sizes (l order : Nat) (q : List Nat) (ob : OrderBook) (hq : order ∉ q)
    (hnd : q.Nodup) :
    q.map (fun o => ((F64.fillLoop l order q ob).1.orderAt o).Size) =
      List.zipWith (fun z x => sub64 z x) (q.map (fun o => (ob.orderAt o).Size))
          (levelFills64 (ob.orderAt order).Size (q.map (fun o => (ob.orderAt o).Size))) ++
        (q.drop (levelFills64 (ob.orderAt order).Size
          (q.map (fun o => (ob.orderAt o).Size))).length).map (fun o => (ob.orderAt o).Size) := by
  induction q generalizing ob with
  | nil => simp [fillLoop64_nil, levelFills64_nil]
  | cons o rest ih =>
    have hne : order ≠ o := fun h => hq (h ▸ List.mem_cons_self _ _)
    have hr : order ∉ rest := fun h => hq (List.mem_cons_of_mem _ h)
    have hor : o ∉ rest := (List.nodup_cons.1 hnd).1
    have ht := fillStep64_taker ob l order o hne
    have hm := fillStep64_maker ob l order o hne
    have hrest := fillStep64_sizes_rest ob l order o rest hr hor
    by_cases h : ((F64.fillStep ob l order o).1.orderAt order).Size = 0
    · rw [fillLoop64_cons_filled _ _ _ _ _ h, List.map_cons, List.map_cons,
        levelFills64_cons_filled _ _ _ (ht ▸ h)]
      simp only [List.zipWith_cons_cons, List.zipWith_nil_right, List.length_singleton,
        List.drop_succ_cons, List.drop_zero, List.cons_append, List.nil_append]
      rw [hm, hrest]
    · rw [fillLoop64_cons_open _ _ _ _ _ h, List.map_cons, List.map_cons,
        levelFills64_cons_open _ _ _ (ht ▸ h)]
      simp only [List.zipWith_cons_cons, List.length_cons, List.drop_succ_cons,
        List.cons_append]
      rw [fillLoop64_orderAt_other l order rest _ o (Ne.symm hne) hor, hm,
        ih _ hr (List.nodup_cons.1 hnd).2, hrest, ht]
      congr 2
      exact List.map_congr_left (fun m hm' => by
        have hmr : m ∈ rest := List.mem_of_mem_drop hm'
        rw [fillStep64_orderAt_other ob l order o m (fun he => hr (he ▸ hmr))
          (fun he => hor (he ▸ hmr))])

/-- Every maker matched before the last match ends with size 0. -/
theorem fillLoop64_earlier_filled (l order : Nat) (q : List Nat) (ob : OrderBook)
    (hq : order ∉ q) (hnd : q.Nodup) :
    ∀ o ∈ q.take ((levelFills64 (ob.orderAt order).Size
        (q.map (fun o => (ob.orderAt o).Size))).length - 1),
      ((F64.fillLoop l order q ob).1.orderAt o).Size = 0 := by
  induction q generalizing ob with
  | nil => simp
  | cons o rest ih =>
    have hne : order ≠ o := fun h => hq (h ▸ List.mem_cons_self _ _)
    have hr : order ∉ rest := fun h => hq (List.mem_cons_of_mem _ h)
    have hor : o ∉ rest := (List.nodup_cons.1 hnd).1
    have ht := fillStep64_taker ob l order o hne
    have hrest := fillStep64_sizes_rest ob l order o rest hr hor
    by_cases h : ((F64.fillStep ob l order o).1.orderAt order).Size = 0
    · rw [List.map_cons, levelFills64_cons_filled _ _ _ (ht ▸ h)]
      simp
    · rw [fillLoop64_cons_open _ _ _ _ _ h, List.map_cons, levelFills64_cons_open _ _ _ (ht ▸ h)]
      simp only [List.length_cons, Nat.add_sub_cancel]
      have hih := ih (F64.fillStep ob l order o).1 hr (List.nodup_cons.1 hnd).2
      rw [hrest, ht] at hih
      intro x hx
      cases hk : (levelFills64 (sub64 (ob.orderAt order).Size
          (min (ob.orderAt order).Size (ob.orderAt o).Size))
          (rest.map (fun o => (ob.orderAt o).Size))).length with
      | zero => rw [hk] at hx; simp at hx
      | succ j =>
        rw [hk, List.take_succ_cons] at hx
        rcases List.mem_cons.1 hx with rfl | hx
        · rw [fillLoop64_orderAt_other l order rest _ x (Ne.symm hne) hor]
          exact fillStep64_maker_filled ob l order x h
        · rw [hk] at hih
          exact hih x (by simpa using hx)

/-- The orders the `float64` loop collects for deletion are the matched makers
that ended with size 0. -/
theorem fillLoop64_deletes (l order : Nat) (q : List Nat) (ob : OrderBook) (hq : order ∉ q)
    (hnd : q.Nodup) :
    (F64.fillLoop l order q ob).2.2 =
      (q.take (levelFills64 (ob.orderAt order).Size
          (q.map (fun o => (ob.orderAt o).Size))).length).filter
        (fun o => decide (((F64.fillLoop l order q ob).1.orderAt o).Size = 0)) := by
  induction q generalizing ob with
  | nil => simp [fillLoop64_nil]
  | cons o rest ih =>
    have hne : order ≠ o := fun h => hq (h ▸ List.mem_cons_self _ _)
    have hr : order ∉ rest := fun h => hq (List.mem_cons_of_mem _ h)
    have hor : o ∉ rest := (List.nodup_cons.1 hnd).1
    have ht := fillStep64_taker ob l order o hne
    have hrest := fillStep64_sizes_rest ob l order o rest hr hor
    by_cases h : ((F64.fillStep ob l order o).1.orderAt order).Size = 0
    · rw [fillLoop64_cons_filled _ _ _ _ _ h, List.map_cons,
        levelFills64_cons_filled _ _ _ (ht ▸ h)]
      simp only [List.length_singleton, List.take_succ_cons, List.take_zero]
      by_cases hz : ((F64.fillStep ob l order o).1.orderAt o).Size = 0
      · simp [hz]
      · simp [hz]
    · rw [fillLoop64_cons_open _ _ _ _ _ h, List.map_cons, levelFills64_cons_open _ _ _ (ht ▸ h)]
      simp only [List.length_cons, List.take_succ_cons]
      have hih := ih (F64.fillStep ob l order o).1 hr (List.nodup_cons.1 hnd).2
      rw [hrest, ht] at hih
      rw [hih, List.filter_cons,
        fillLoop64_orderAt_other l order rest _ o (Ne.symm hne) hor]
      by_cases hz : ((F64.fillStep ob l order o).1.orderAt o).Size = 0
      · simp [hz]
      · simp [hz]
theorem setVolume_setVolume (ob : OrderBook) (l : Nat) (a b : Int) :
    setVolume (setVolume ob l a) l b = setVolume ob l b := by
  unfold setVolume setLimit
  simp

theorem DeleteOrder_setVolume (ob : OrderBook) (l : Nat) (v : Int) (d : Nat) :
    DeleteOrder (setVolume ob l v) l d =
      setVolume (DeleteOrder ob l d) l (v - (ob.orderAt d).Size) := by
  unfold DeleteOrder setVolume
  simp [setLimit, setOrder, sortOrders]

/-- The second loop of `Fill` on `float64` differs from the exact loop in the
volume stored, and only there. -/
theorem deleteOrders64_setVolume (l : Nat) (dels : List Nat) (ob : OrderBook) (v : Int) :
    ∃ w, F64.deleteOrders (setVolume ob l v) l dels = setVolume (deleteOrders ob l dels) l w := by
  induction dels generalizing ob v with
  | nil => exact ⟨v, rfl⟩
  | cons d ds ih =>
    show ∃ w, F64.deleteOrders (F64.DeleteOrder (setVolume ob l v) l d) l ds =
      setVolume (deleteOrders (DeleteOrder ob l d) l ds) l w
    rw [DeleteOrder64_eq, DeleteOrder_setVolume, setVolume_setVolume]
    exact ih _ _

theorem deleteOrders64_eq (ob : OrderBook) (l : Nat) (dels : List Nat) :
    ∃ w, F64.deleteOrders ob l dels = setVolume (deleteOrders ob l dels) l w := by
  have := deleteOrders64_setVolume l dels ob (ob.limitAt l).TotalVolume
  rwa [setVolume_same] at this

theorem Fill64_snd (ob : OrderBook) (l order : Nat) :
    (F64.Fill ob l order).2 = (F64.fillLoop l order (ob.limitAt l).Orders ob).2.1 := rfl

theorem Fill64_fst (ob : OrderBook) (l order : Nat) :
    ∃ w, (F64.Fill ob l order).1 =
      setVolume (deleteOrders (F64.fillLoop l order (ob.limitAt l).Orders ob).1 l
        (F64.fillLoop l order (ob.limitAt l).Orders ob).2.2) l w :=
  deleteOrders64_eq _ l _

theorem Fill64_size (ob : OrderBook) (l order o : Nat) :
    ((F64.Fill ob l order).1.orderAt o).Size =
      ((F64.fillLoop l order (ob.limitAt l).Orders ob).1.orderAt o).Size := by
  obtain ⟨w, e⟩ := Fill64_fst ob l order
  rw [e, setVolume_orderAt, deleteOrders_size]

theorem Fill64_queue_perm (ob : OrderBook) (l order : Nat) :
    ((F64.Fill ob l order).1.limitAt l).Orders.Perm
      ((ob.limitAt l).Orders.diff (F64.fillLoop l order (ob.limitAt l).Orders ob).2.2) := by
  obtain ⟨w, e⟩ := Fill64_fst ob l order
  rw [e, setVolume_queue]
  have h := deleteOrders_queue_perm (F64.fillLoop l order (ob.limitAt l).Orders ob).1 l
    (F64.fillLoop l order (ob.limitAt l).Orders ob).2.2
  rw [(fillLoop64_sameShape _ _ _ _).queue l] at h
  exact h

/-- After `Fill` on `float64` the queue holds the orders of the old queue but
the matched makers that ended with size 0. -/
theorem Fill64_queue_mem (ob : OrderBook) (l order : Nat) (hq : order ∉ (ob.limitAt l).Orders)
    (hnd : (ob.limitAt l).Orders.Nodup) (o : Nat) :
    o ∈ ((F64.Fill ob l order).1.limitAt l).Orders ↔
      o ∈ (ob.limitAt l).Orders ∧
        ¬ (o ∈ (ob.limitAt l).Orders.take (levelFills64 (ob.orderAt order).Size
              ((ob.limitAt l).Orders.map (fun o => (ob.orderAt o).Size))).length ∧
            ((F64.Fill ob l order).1.orderAt o).Size = 0) := by
  rw [(Fill64_queue_perm ob l order).mem_iff, hnd.mem_diff_iff, fillLoop64_deletes _ _ _ _ hq hnd,
    List.mem_filter, Fill64_size]
  simp

theorem Fill64_queue_nodup (ob : OrderBook) (l order : Nat) (hnd : (ob.limitAt l).Orders.Nodup) :
    ((F64.Fill ob l order).1.limitAt l).Orders.Nodup :=
  (Fill64_queue_perm ob l order).nodup_iff.2 (hnd.sublist (List.diff_sublist _ _))

theorem zipWith_matchOf_parties (ob : OrderBook) (l order : Nat) (q : List Nat)
    (fills : List Int) :
    ∀ m ∈ List.zipWith (matchOf ob l order) q fills,
      takerOf ob order m = order ∧ m.Price = (ob.limitAt l).Price := by
  induction q generalizing fills with
  | nil => simp
  | cons o rest ih =>
    cases fills with
    | nil => simp
    | cons x xs =>
      intro m hm
      rw [List.zipWith_cons_cons] at hm
      rcases List.mem_cons.1 hm with rfl | hm
      · exact ⟨takerOf_matchOf ob l order o x, rfl⟩
      · exact ih xs m hm
/-! ## Facts about the `float64` example states -/

theorem unit64_eq : unit64 = 2 ^ 1074 := by
  unfold unit64
  norm_num

set_option maxRecDepth 100000 in
theorem tenthsBook_wellFormed : WellFormed tenthsBook :=
  wellFormed_PlaceLimitOrder64
    (wellFormed_PlaceLimitOrder64 (wellFormed_NewOrderBook floatOrders) _ (by decide))
    _ (by decide)

set_option maxRecDepth 100000 in
theorem wideBook_wellFormed : WellFormed wideBook :=
  wellFormed_PlaceLimitOrder64
    (wellFormed_PlaceLimitOrder64 (wellFormed_NewOrderBook floatOrders) _ (by decide))
    _ (by decide)

set_option maxRecDepth 100000 in
theorem largeBook_wellFormed : WellFormed largeBook :=
  wellFormed_PlaceLimitOrder64 (wellFormed_NewOrderBook floatOrders) _ (by decide)

set_option maxRecDepth 100000 in
theorem largeQueueBook_wellFormed : WellFormed largeQueueBook :=
  wellFormed_PlaceLimitOrder64
    (wellFormed_PlaceLimitOrder64
      (wellFormed_PlaceLimitOrder64 (wellFormed_NewOrderBook floatOrders) _ (by decide))
      _ (by decide))
    _ (by decide)

set_option maxRecDepth 100000 in
theorem tenthsQueueBook_wellFormed : WellFormed tenthsQueueBook :=
  wellFormed_PlaceLimitOrder64
    (wellFormed_PlaceLimitOrder64
      (wellFormed_PlaceLimitOrder64 (wellFormed_NewOrderBook floatOrders) _ (by decide))
      _ (by decide))
    _ (by decide)

set_option maxRecDepth 100000 in
theorem fifthsBook_wellFormed : WellFormed fifthsBook :=
  wellFormed_PlaceLimitOrder64
    (wellFormed_PlaceLimitOrder64 (wellFormed_NewOrderBook floatOrders) _ (by decide))
    _ (by decide)

set_option maxRecDepth 100000 in
theorem hollowBook_wellFormed : WellFormed hollowBook := by
  unfold hollowBook
  rw [DeleteOrder64_eq]
  refine wellFormed_setVolume (wellFormed_deleteOrder
    (wellFormed_PlaceLimitOrder64
      (wellFormed_PlaceLimitOrder64 (wellFormed_NewOrderBook floatOrders) _ (by decide))
      _ (by decide)) (by decide) (by decide)) _ _

set_option maxRecDepth 100000 in
theorem wholeBook_wellFormed : WellFormed wholeBook :=
  wellFormed_PlaceLimitOrder64
    (wellFormed_PlaceLimitOrder64
      (wellFormed_PlaceLimitOrder64 (wellFormed_NewOrderBook wholeOrders) _ (by decide))
      _ (by decide))
    _ (by decide)

set_option maxRecDepth 100000 in
theorem wholeSplitBook_wellFormed : WellFormed wholeSplitBook :=
  wellFormed_PlaceLimitOrder64
    (wellFormed_PlaceLimitOrder64
      (wellFormed_PlaceLimitOrder64 (wellFormed_NewOrderBook wholeSplitOrders) _ (by decide))
      _ (by decide))
    _ (by decide)
/-! ## Sides and totals on a grid -/

theorem F64_ownVolume_PlaceMarketOrder {ob : OrderBook} (hwf : WellFormed ob) (order : Nat) :
    F64.ownVolume (PlaceMarketOrder ob order).1 order = F64.ownVolume ob order := by
  by_cases hle : (ob.orderAt order).Size ≤ oppositeVolume ob order
  · rw [← totalVolume64_ownLimits, ← totalVolume64_ownLimits, PlaceMarketOrder_ownLimits]
    apply totalVolume64_congr
    intro l hl
    rw [PlaceMarketOrder_limitAt ob order hle, marketLoop_limitAt_other, opposite_limitAt]
    intro hm
    exact own_not_opposite hwf hl ((opposite_snd ob order).mem_iff.1 hm)
  · rw [PlaceMarketOrder_eq, if_pos (not_le.1 hle)]

theorem gridBook_own {k : Nat} {ob : OrderBook} (h : GridBook k ob) (order : Nat) :
    GridSide k ob (ownLimits ob order) := by
  unfold ownLimits
  split
  · exact h.2
  · exact h.1

theorem gridBook_opposite {k : Nat} {ob : OrderBook} (h : GridBook k ob) (order : Nat) :
    GridSide k ob (oppositeLimits ob order) := by
  unfold oppositeLimits
  split
  · exact h.1
  · exact h.2

theorem sumVolume_perm (ob : OrderBook) {ls ls' : List Nat} (h : ls.Perm ls') :
    sumVolume ob ls = sumVolume ob ls' :=
  (h.map _).sum_eq

theorem gridVolumes_perm {k : Nat} {ob : OrderBook} {ls ls' : List Nat} (h : ls.Perm ls')
    (hg : GridVolumes k ob ls') : GridVolumes k ob ls :=
  ⟨hg.1, fun l hl => hg.2.1 l (h.mem_iff.1 hl), by rw [sumVolume_perm ob h]; exact hg.2.2⟩

/-- On a grid the `float64` total of a list of limits does not depend on the
order of the list. -/
theorem totalVolume64_perm {k : Nat} {ob : OrderBook} {ls ls' : List Nat} (h : ls.Perm ls')
    (hg : GridVolumes k ob ls') : F64.totalVolume ob ls = F64.totalVolume ob ls' := by
  rw [totalVolume64_exact hg, totalVolume64_exact (gridVolumes_perm h hg), sumVolume_perm ob h]

/-- On a grid the `float64` sum of the sizes of a queue is their sum. -/
theorem queueVolume64_exact {k : Nat} {ob : OrderBook} {q : List Nat}
    (h : ∀ o ∈ q, OnGrid k (ob.orderAt o).Size ∧ 0 ≤ (ob.orderAt o).Size)
    (hb : queueVolume ob q < ((2 ^ (k + 53) : Nat) : Int)) :
    queueVolume64 ob q = queueVolume ob q := by
  unfold queueVolume64 queueVolume
  rw [foldl_add64_exact k (fun o => (ob.orderAt o).Size) q 0 (fits_zero k) h
    (by rw [zero_add]; exact hb), zero_add]

/-- On a grid the volume invariant is the same whether the sizes are added up
as numbers or on `float64`. -/
theorem volumeInv64_iff {k : Nat} {ob : OrderBook} (hg : GridBook k ob) :
    VolumeInv64 ob ↔ VolumeInv ob := by
  have hq : ∀ l ∈ ob.asks ++ ob.bids,
      queueVolume64 ob (ob.limitAt l).Orders = queueVolume ob (ob.limitAt l).Orders := by
    intro l hl
    rcases List.mem_append.1 hl with h | h
    · exact queueVolume64_exact (hg.1.2.1 l h)
        (lt_of_le_of_lt (queueVolume_le_sumSizes hg.1 h) hg.1.2.2)
    · exact queueVolume64_exact (hg.2.2.1 l h)
        (lt_of_le_of_lt (queueVolume_le_sumSizes hg.2 h) hg.2.2.2)
  constructor
  · intro h l hl
    rw [h l hl, hq l hl]
  · intro h l hl
    rw [h l hl, hq l hl]
/-! ## C1 -/

/-- In exact arithmetic: on a well-formed book with the volume invariant, a market order with
`0 ≤ size ≤` total volume of the opposite side succeeds, leaves the order
filled (`IsFilled`, size 0), and the `SizeFilled` values of the returned
matches add up to the size the order had at the start.  (Well-formedness
includes that an order rests in one queue once; non-negativity of the resting
sizes is not needed.) -/
theorem placeMarketOrder_fills (ob : OrderBook) (order : Nat) (hwf : WellFormed ob)
    (hv : VolumeInv ob) (h0 : 0 ≤ (ob.orderAt order).Size)
    (hle : (ob.orderAt order).Size ≤ oppositeVolume ob order) :
    ∃ ms, (PlaceMarketOrder ob order).2 = .ok ms ∧
      ((PlaceMarketOrder ob order).1.orderAt order).IsFilled = true ∧
      ((PlaceMarketOrder ob order).1.orderAt order).Size = 0 ∧
      filledTotal ms = (ob.orderAt order).Size := by
  have hz := marketLoop_fills hwf hv order h0 hle
  have hT := marketLoop_taker order (opposite ob order).2 (opposite ob order).1
    (opposite_snd_free hwf order)
  rw [opposite_orderAt, hz] at hT
  refine ⟨(marketLoop order (opposite ob order).2 (opposite ob order).1).2.1, ?_, ?_, ?_, ?_⟩
  · rw [PlaceMarketOrder_ok ob order hle]
  · rw [PlaceMarketOrder_orderAt ob order hle]
    simp [Order.IsFilled, hz]
  · rw [PlaceMarketOrder_orderAt ob order hle]; exact hz
  · omega

set_option maxRecDepth 100000 in
/-- C2 as stated fails on `float64`.  In `wideBook` (asks of 1 at price 10 and
`2^53 + 2` at price 20; well formed, every volume the sum of the queued sizes,
sizes non-negative) a market buy of `2^53 + 2` is within the total volume of the
asks, whether the total is the `float64` value of `AskTotalVolume` (`2^53 + 4`)
or the sum of the volumes as numbers (`2^53 + 3`).  The call succeeds and
leaves the order filled, but the two matches are for 1 and `2^53`: after the
first match the order's size `2^53 + 1` is stored as `2^53`.  The sizes filled
add up to `2^53 + 1`, not to `2^53 + 2`, whether added as numbers or on
`float64`.  In `tenthsBook` (asks of 0.1 at price 10 and 0.2 at price 20) a
market buy of 0.30000000000000004, the value of `AskTotalVolume`, succeeds
with matches for 0.1 and 0.2 and is not filled: its size is left at
`2^-55`. -/
theorem placeMarketOrder_fills_counterexample :
    (WellFormed wideBook ∧ VolumeInv wideBook ∧ NonNegSizes wideBook ∧
      0 ≤ (wideBook.orderAt 14).Size ∧
      (wideBook.orderAt 14).Size ≤ F64.oppositeVolume wideBook 14 ∧
      (wideBook.orderAt 14).Size ≤ oppositeVolume wideBook 14 ∧
      (F64.PlaceMarketOrder wideBook 14).2 =
        .ok [{ Ask := 10, Bid := 14, SizeFilled := dyadic 1 0, Price := dyadic 10 0 },
          { Ask := 11, Bid := 14, SizeFilled := dyadic 9007199254740992 0,
                 Price := dyadic 20 0 }] ∧
      ((F64.PlaceMarketOrder wideBook 14).1.orderAt 14).IsFilled = true ∧
      dyadic 1 0 + dyadic 9007199254740992 0 ≠ (wideBook.orderAt 14).Size ∧
      add64 (dyadic 1 0) (dyadic 9007199254740992 0) ≠ (wideBook.orderAt 14).Size) ∧
    (WellFormed tenthsBook ∧ VolumeInv tenthsBook ∧ NonNegSizes tenthsBook ∧
      0 ≤ (tenthsBook.orderAt 7).Size ∧
      (tenthsBook.orderAt 7).Size ≤ F64.oppositeVolume tenthsBook 7 ∧
      (F64.PlaceMarketOrder tenthsBook 7).2 =
        .ok [{ Ask := 0, Bid := 7, SizeFilled := dyadic 3602879701896397 55,
                 Price := dyadic 10 0 },
          { Ask := 1, Bid := 7, SizeFilled := dyadic 3602879701896397 54,
                 Price := dyadic 20 0 }] ∧
      ((F64.PlaceMarketOrder tenthsBook 7).1.orderAt 7).IsFilled = false ∧
      ((F64.PlaceMarketOrder tenthsBook 7).1.orderAt 7).Size = dyadic 1 55) :=
  ⟨⟨wideBook_wellFormed, by decide, by decide, by decide, by decide, by decide, by decide,
      by decide, by decide, by decide⟩,
    ⟨tenthsBook_wellFormed, by decide, by decide, by decide, by decide, by decide, by decide,
      by decide⟩⟩

/-- C2 (amended): on a well-formed book with the volume invariant whose sizes
resting on the opposite side are non-negative multiples of `2^k` units (of
`2^-1074`, `k ≤ 2045`) with a sum below `2^(k+53)` units, a market order whose
size is a multiple of `2^k` units with `0 ≤ size ≤` total volume of the
opposite side succeeds on `float64`, leaves the order filled (`IsFilled`,
size 0), and the `SizeFilled` values of the returned matches add up to the size
the order had at the start. -/
theorem placeMarketOrder_fills_on_grid (k : Nat) (ob : OrderBook) (order : Nat)
    (hwf : WellFormed ob) (hv : VolumeInv ob) (hg : GridSide k ob (oppositeLimits ob order))
    (hs : OnGrid k (ob.orderAt order).Size) (h0 : 0 ≤ (ob.orderAt order).Size)
    (hle : (ob.orderAt order).Size ≤ F64.oppositeVolume ob order) :
    ∃ ms, (F64.PlaceMarketOrder ob order).2 = .ok ms ∧
      ((F64.PlaceMarketOrder ob order).1.orderAt order).IsFilled = true ∧
      ((F64.PlaceMarketOrder ob order).1.orderAt order).Size = 0 ∧
      filledTotal ms = (ob.orderAt order).Size := by
  rw [oppositeVolume64_exact hv order hg] at hle
  rw [PlaceMarketOrder64_exact hwf hv order hg hs h0]
  exact placeMarketOrder_fills ob order hwf hv h0 hle

set_option maxRecDepth 100000 in
/-- C2 (amended) at `wholeBook` (bids of 5, 8 and 10, whole numbers: multiples
of `2^1074` units) and a market sell of 4. -/
theorem placeMarketOrder_fills_on_grid_witness :
    ∃ ms, (F64.PlaceMarketOrder wholeBook 3).2 = .ok ms ∧
      ((F64.PlaceMarketOrder wholeBook 3).1.orderAt 3).IsFilled = true ∧
      ((F64.PlaceMarketOrder wholeBook 3).1.orderAt 3).Size = 0 ∧
      filledTotal ms = (wholeBook.orderAt 3).Size :=
  placeMarketOrder_fills_on_grid 1074 wholeBook 3 wholeBook_wellFormed (by decide) (by decide)
    (by decide) (by decide) (by decide)
/-! ## C3 -/

set_option maxRecDepth 100000 in
/-- C4 as stated fails.  First, in `crossBook` (well formed, volume invariant
holding) the resting buy order at 0 (size 5, alone in the bid limit of volume
5) is submitted again as a market order: the call succeeds with one match of
size 5 and sets the order's size to 0, but the order stays in its bid limit,
whose `TotalVolume` is still 5.  Second, rounding: in `largeBook` (one ask of
`2^53 + 2`, volume `2^53 + 2`) a sell of 1 that is not resting is placed at the
same price; the volume becomes `2^53 + 4`, the sum of the sizes is `2^53 + 3`.
Third, with the sums taken on `float64`: in `tenthsQueueBook` (bids of 0.1, 0.2
and 0.3 at one price, volume 0.6000000000000001, which is their `float64` sum)
the bid of 0.1 is cancelled; the volume becomes 0.5000000000000001, the sum of
0.2 and 0.3 is 0.5, as numbers and on `float64`. -/
theorem volumeInv_counterexample :
    (WellFormed crossBook ∧ VolumeInv crossBook ∧
      (F64.PlaceMarketOrder crossBook 0).2 =
        .ok [{ Ask := 5, Bid := 0, SizeFilled := 5, Price := 20 }] ∧
      ((F64.PlaceMarketOrder crossBook 0).1.limitAt 0).Orders = [0] ∧
      ((F64.PlaceMarketOrder crossBook 0).1.limitAt 0).TotalVolume = 5 ∧
      ((F64.PlaceMarketOrder crossBook 0).1.orderAt 0).Size = 0 ∧
      ¬ VolumeInv (F64.PlaceMarketOrder crossBook 0).1 ∧
      ¬ VolumeInv64 (F64.PlaceMarketOrder crossBook 0).1) ∧
    (WellFormed largeBook ∧ VolumeInv largeBook ∧ VolumeInv64 largeBook ∧
      ¬ Resting largeBook 10 ∧
      ((F64.PlaceLimitOrder largeBook (dyadic 10 0) 10).limitAt 0).Orders = [11, 10] ∧
      ((F64.PlaceLimitOrder largeBook (dyadic 10 0) 10).limitAt 0).TotalVolume =
        dyadic 9007199254740996 0 ∧
      queueVolume (F64.PlaceLimitOrder largeBook (dyadic 10 0) 10) [11, 10] =
        dyadic 9007199254740995 0 ∧
      ¬ VolumeInv (F64.PlaceLimitOrder largeBook (dyadic 10 0) 10)) ∧
    (WellFormed tenthsQueueBook ∧ VolumeInv64 tenthsQueueBook ∧ Resting tenthsQueueBook 4 ∧
      (tenthsQueueBook.limitAt 0).TotalVolume = dyadic 1351079888211149 51 ∧
      ((F64.CancelOrder tenthsQueueBook 4).1.limitAt 0).Orders = [5, 6] ∧
      ((F64.CancelOrder tenthsQueueBook 4).1.limitAt 0).TotalVolume =
        dyadic 4503599627370497 53 ∧
      queueVolume (F64.CancelOrder tenthsQueueBook 4).1 [5, 6] = dyadic 1 1 ∧
      queueVolume64 (F64.CancelOrder tenthsQueueBook 4).1 [5, 6] = dyadic 1 1 ∧
      ¬ VolumeInv (F64.CancelOrder tenthsQueueBook 4).1 ∧
      ¬ VolumeInv64 (F64.CancelOrder tenthsQueueBook 4).1) :=
  ⟨⟨crossBook_wellFormed, crossBook_volumeInv, by decide, by decide, by decide, by decide,
      by decide, by decide⟩,
    ⟨largeBook_wellFormed, by decide, by decide, by decide, by decide, by decide, by decide,
      by decide⟩,
    ⟨tenthsQueueBook_wellFormed, by decide, by decide, by decide, by decide, by decide,
      by decide, by decide, by decide, by decide⟩⟩

/-- C4 (amended): in a well-formed book in which every listed limit has
`TotalVolume` equal to the sum of the sizes of the orders in its queue, and
whose resting sizes are, on each side, non-negative multiples of `2^k` units
(of `2^-1074`, `k ≤ 2045`) with a sum below `2^(k+53)` units, the same equality
holds, on `float64`, after `PlaceLimitOrder` of an order that is not resting
and whose size is a non-negative multiple of `2^k` units that keeps the sum of
its side below `2^(k+53)` units, after a successful `PlaceMarketOrder` of an
order that is not resting and whose size is a non-negative multiple of `2^k`
units, and after `CancelOrder` of a resting order. -/
theorem volumeInv_preserved_on_grid (k : Nat) (ob : OrderBook) (hwf : WellFormed ob)
    (hv : VolumeInv ob) (hg : GridBook k ob) :
    (∀ price order, ¬ Resting ob order → OnGrid k (ob.orderAt order).Size →
        0 ≤ (ob.orderAt order).Size →
        sumSizes ob (ownLimits ob order) + (ob.orderAt order).Size < ((2 ^ (k + 53) : Nat) : Int) →
        VolumeInv (F64.PlaceLimitOrder ob price order)) ∧
      (∀ order ms, ¬ Resting ob order → OnGrid k (ob.orderAt order).Size →
        0 ≤ (ob.orderAt order).Size → (F64.PlaceMarketOrder ob order).2 = .ok ms →
        VolumeInv (F64.PlaceMarketOrder ob order).1) ∧
      (∀ order, Resting ob order → VolumeInv (F64.CancelOrder ob order).1) := by
  refine ⟨?_, ?_, ?_⟩
  · intro price order _ hs h0 hb
    have hvo := volumeInvOn_ownLimits hv order
    rw [← sumVolume_eq_sumSizes hvo, sumVolume_ownLimits] at hb
    rw [(PlaceLimitOrder_gridVolumes hwf price order
      (gridVolumes_of_gridSide (gridBook_own hg order) hvo) hs h0 hb).1]
    exact volumeInv_PlaceLimitOrder hv price order
  · intro order _ hr hs h0 _
    rw [PlaceMarketOrder64_exact hwf hv order (gridBook_opposite hg order) hs h0]
    exact volumeInv_PlaceMarketOrder hwf hv hr
  · intro order hr
    obtain ⟨l, hl, hb, ho⟩ := hr
    rw [(CancelOrder_gridVolumes hwf hv hl hb ho (gridBook_own hg order)).1]
    exact volumeInv_CancelOrder hwf hv ⟨l, hl, hb, ho⟩

set_option maxRecDepth 100000 in
/-- C4 (amended) at `wholeBook` (bids of 5, 8 and 10, whole numbers): a new sell
limit order of 4, a market sell of 18, and the cancellation of the bid of 8. -/
theorem volumeInv_preserved_on_grid_witness :
    VolumeInv (F64.PlaceLimitOrder wholeBook (dyadic 12000 0) 3) ∧
      VolumeInv (F64.PlaceMarketOrder wholeBook 4).1 ∧
      VolumeInv (F64.CancelOrder wholeBook 1).1 :=
  ⟨(volumeInv_preserved_on_grid 1074 wholeBook wholeBook_wellFormed (by decide) (by decide)).1
      (dyadic 12000 0) 3 (by decide) (by decide) (by decide) (by decide),
    (volumeInv_preserved_on_grid 1074 wholeBook wholeBook_wellFormed (by decide) (by decide)).2.1 4
      [{ Ask := 4, Bid := 0, SizeFilled := dyadic 5 0, Price := dyadic 10000 0 },
       { Ask := 4, Bid := 1, SizeFilled := dyadic 8 0, Price := dyadic 9000 0 },
       { Ask := 4, Bid := 2, SizeFilled := dyadic 5 0, Price := dyadic 5000 0 }]
      (by decide) (by decide) (by decide) (by decide),
    (volumeInv_preserved_on_grid 1074 wholeBook wholeBook_wellFormed (by decide) (by decide)).2.2 1
      (by decide)⟩
/-! ## C5 -/

/-- C6 fails on the code: after the market sell of size 18 on the book of
`TestPlaceMarketOrderMultiFill` (a reachable state) the bid at 10000 (the order
at 0, id 100) is filled and has been removed from its limit, which has been
removed from the book, yet the id index still maps 100 to it.  `Fill` never
deletes from `ob.Orders`; only `CancelOrder` does. -/
theorem filled_order_stays_in_index :
    Reachable drainedBook ∧
      drainedBook.Orders 100 = some 0 ∧
      (drainedBook.orderAt 0).Size = 0 ∧
      (drainedBook.orderAt 0).Limit = none ∧
      ¬ Resting drainedBook 0 ∧
      (∀ l ∈ drainedBook.asks ++ drainedBook.bids, 0 ∉ (drainedBook.limitAt l).Orders) :=
  ⟨drainedBook_reachable, by decide, by decide, by decide, by decide, by decide⟩

/-! ## C7 -/

/-- In exact arithmetic: in a well-formed book with the volume invariant, `CancelOrder` of a
resting order succeeds and, with `l` the order's limit: the order's id is
removed from the id index and every other index entry is unchanged; the order
is removed from the queue of `l` (the queue is the old one without the order,
sorted by time stamp); the `TotalVolume` of `l` drops by the order's size and
its price is kept; `l` is erased from its side's list and its price from
the side's price map exactly when the queue became empty, and otherwise list
and map are unchanged; the other side's list and map, every other limit and
every other order are unchanged, the order keeps its size; the total volume of
the order's side drops by exactly the order's size and the other side's total
is unchanged. -/
theorem cancelOrder_effect (ob : OrderBook) (order : Nat) (hwf : WellFormed ob)
    (hv : VolumeInv ob) (hr : Resting ob order) :
    ∃ l, (ob.orderAt order).Limit = some l ∧ l ∈ ownLimits ob order ∧
      order ∈ (ob.limitAt l).Orders ∧
      (CancelOrder ob order).2 = .ok () ∧
      (CancelOrder ob order).1.Orders (ob.orderAt order).ID = none ∧
      (∀ i, i ≠ (ob.orderAt order).ID → (CancelOrder ob order).1.Orders i = ob.Orders i) ∧
      ((CancelOrder ob order).1.limitAt l).Orders =
        sortOrders ob ((ob.limitAt l).Orders.erase order) ∧
      ((CancelOrder ob order).1.limitAt l).Orders.Perm ((ob.limitAt l).Orders.erase order) ∧
      order ∉ ((CancelOrder ob order).1.limitAt l).Orders ∧
      ((CancelOrder ob order).1.limitAt l).TotalVolume =
        (ob.limitAt l).TotalVolume - (ob.orderAt order).Size ∧
      ((CancelOrder ob order).1.limitAt l).Price = (ob.limitAt l).Price ∧
      ownLimits (CancelOrder ob order).1 order =
        (if ((CancelOrder ob order).1.limitAt l).Orders = [] then (ownLimits ob order).erase l
          else ownLimits ob order) ∧
      ownMap (CancelOrder ob order).1 order =
        (if ((CancelOrder ob order).1.limitAt l).Orders = [] then
          Function.update (ownMap ob order) (ob.limitAt l).Price none
          else ownMap ob order) ∧
      (l ∈ (CancelOrder ob order).1.asks ++ (CancelOrder ob order).1.bids ↔
        ((CancelOrder ob order).1.limitAt l).Orders ≠ []) ∧
      oppositeLimits (CancelOrder ob order).1 order = oppositeLimits ob order ∧
      oppositeMap (CancelOrder ob order).1 order = oppositeMap ob order ∧
      (∀ l', l' ≠ l → (CancelOrder ob order).1.limitAt l' = ob.limitAt l') ∧
      (∀ o, o ≠ order → (CancelOrder ob order).1.orderAt o = ob.orderAt o) ∧
      ((CancelOrder ob order).1.orderAt order).Size = (ob.orderAt order).Size ∧
      ownVolume (CancelOrder ob order).1 order = ownVolume ob order - (ob.orderAt order).Size ∧
      oppositeVolume (CancelOrder ob order).1 order = oppositeVolume ob order := by
  obtain ⟨l, hl, hb, ho⟩ := hr
  have hq := CancelOrder_queue ob order l hb
  have hperm : ((CancelOrder ob order).1.limitAt l).Orders.Perm ((ob.limitAt l).Orders.erase order) := by
    rw [hq]; exact sortOrders_perm ob _
  refine ⟨l, hb, resting_side hwf hl ho, ho, CancelOrder_result ob order l hb, ?_, ?_, hq, hperm,
    ?_, ?_, ?_, CancelOrder_ownLimits ob order l hb, CancelOrder_ownMap ob order l hb, ?_,
    CancelOrder_oppositeLimits ob order l hb, CancelOrder_oppositeMap ob order l hb, ?_, ?_,
    CancelOrder_size ob order l hb order, CancelOrder_ownVolume hwf hv hl hb ho,
    CancelOrder_oppositeVolume hwf hl hb ho⟩
  · rw [CancelOrder_Orders ob order l hb, Function.update_same]
  · intro i hi
    rw [CancelOrder_Orders ob order l hb, Function.update_noteq hi]
  · intro hm
    exact List.Nodup.not_mem_erase (hwf.queue_nodup l hl) (hperm.mem_iff.1 hm)
  · rw [CancelOrder_limitAt ob order l hb, Function.update_same]
  · rw [CancelOrder_limitAt ob order l hb, Function.update_same]
  · rw [CancelOrder_mem_book hwf hl hb ho l]
    exact ⟨fun h1 => h1.2 rfl, fun h1 => ⟨hl, fun _ => h1⟩⟩
  · intro l' hl'
    rw [CancelOrder_limitAt ob order l hb, Function.update_noteq hl']
  · intro o hne
    rw [CancelOrder_orderAt ob order l hb, Function.update_noteq hne]

set_option maxRecDepth 100000 in
/-- C7 as stated fails on `float64`.  In `tenthsBook` (asks of 0.1 at price 10
and 0.2 at price 20; well formed, every volume the sum of the queued sizes) the
resting ask of 0.1 is cancelled: `AskTotalVolume` was 0.30000000000000004 and
is 0.2 afterwards, which is neither 0.30000000000000004 - 0.1 as a number nor
its `float64` value 0.20000000000000004.  In `largeQueueBook` (asks of 1,
`2^53 + 2` and 1 queued at one price, with volume `2^53 + 4`, the sum of the
sizes) the first ask of 1 is cancelled: the volume `2^53 + 3` is stored as
`2^53 + 4`, so the volume of the limit and `AskTotalVolume` are what they were
and have not dropped by 1. -/
theorem cancelOrder_volume_counterexample :
    (WellFormed tenthsBook ∧ VolumeInv tenthsBook ∧ Resting tenthsBook 0 ∧
      (tenthsBook.orderAt 0).Size = dyadic 3602879701896397 55 ∧
      F64.ownVolume tenthsBook 0 = dyadic 1351079888211149 52 ∧
      (F64.CancelOrder tenthsBook 0).2 = .ok () ∧
      F64.ownVolume (F64.CancelOrder tenthsBook 0).1 0 = dyadic 3602879701896397 54 ∧
      F64.ownVolume (F64.CancelOrder tenthsBook 0).1 0 ≠
        F64.ownVolume tenthsBook 0 - (tenthsBook.orderAt 0).Size ∧
      F64.ownVolume (F64.CancelOrder tenthsBook 0).1 0 ≠
        sub64 (F64.ownVolume tenthsBook 0) (tenthsBook.orderAt 0).Size) ∧
    (WellFormed largeQueueBook ∧ VolumeInv largeQueueBook ∧ Resting largeQueueBook 10 ∧
      (largeQueueBook.orderAt 10).Size = dyadic 1 0 ∧
      (largeQueueBook.limitAt 0).TotalVolume = dyadic 9007199254740996 0 ∧
      F64.ownVolume largeQueueBook 10 = dyadic 9007199254740996 0 ∧
      (F64.CancelOrder largeQueueBook 10).2 = .ok () ∧
      ((F64.CancelOrder largeQueueBook 10).1.limitAt 0).TotalVolume =
        dyadic 9007199254740996 0 ∧
      F64.ownVolume (F64.CancelOrder largeQueueBook 10).1 10 = dyadic 9007199254740996 0) :=
  ⟨⟨tenthsBook_wellFormed, by decide, by decide, by decide, by decide, by decide, by decide,
      by decide, by decide⟩,
    ⟨largeQueueBook_wellFormed, by decide, by decide, by decide, by decide, by decide, by decide,
      by decide, by decide⟩⟩

/-- C7 (amended): in a well-formed book with the volume invariant, `CancelOrder`
of a resting order on `float64` succeeds and, with `l` the order's limit: the
order's id is removed from the id index and every other index entry is
unchanged; the order is removed from the queue of `l`, whose other members
stay, in non-decreasing `TimeStamp` order; the `TotalVolume` of `l` becomes the
`float64` difference of its old value and the order's size, and its price is
kept; `l` is erased from its side's list and its price from the side's price
map exactly when the queue became empty, and otherwise list and map are
unchanged; the other side's list, map and total volume, every other limit and
every other order are unchanged, and the order keeps its size.  When moreover
the sizes resting on the order's side are non-negative multiples of `2^k`
units (of `2^-1074`, `k ≤ 2045`) with a sum below `2^(k+53)` units, the
`TotalVolume` of `l` and the total volume of the side drop by exactly the
order's size. -/
theorem cancelOrder_effect_on_grid (k : Nat) (ob : OrderBook) (order : Nat)
    (hwf : WellFormed ob) (hv : VolumeInv ob) (hr : Resting ob order) :
    ∃ l, (ob.orderAt order).Limit = some l ∧ l ∈ ownLimits ob order ∧
      order ∈ (ob.limitAt l).Orders ∧
      (F64.CancelOrder ob order).2 = .ok () ∧
      (F64.CancelOrder ob order).1.Orders (ob.orderAt order).ID = none ∧
      (∀ i, i ≠ (ob.orderAt order).ID →
        (F64.CancelOrder ob order).1.Orders i = ob.Orders i) ∧
      ((F64.CancelOrder ob order).1.limitAt l).Orders.Perm ((ob.limitAt l).Orders.erase order) ∧
      TimeOrdered ob ((F64.CancelOrder ob order).1.limitAt l).Orders ∧
      order ∉ ((F64.CancelOrder ob order).1.limitAt l).Orders ∧
      ((F64.CancelOrder ob order).1.limitAt l).TotalVolume =
        sub64 (ob.limitAt l).TotalVolume (ob.orderAt order).Size ∧
      ((F64.CancelOrder ob order).1.limitAt l).Price = (ob.limitAt l).Price ∧
      ownLimits (F64.CancelOrder ob order).1 order =
        (if ((F64.CancelOrder ob order).1.limitAt l).Orders = [] then (ownLimits ob order).erase l
          else ownLimits ob order) ∧
      ownMap (F64.CancelOrder ob order).1 order =
        (if ((F64.CancelOrder ob order).1.limitAt l).Orders = [] then
          Function.update (ownMap ob order) (ob.limitAt l).Price none
          else ownMap ob order) ∧
      (l ∈ (F64.CancelOrder ob order).1.asks ++ (F64.CancelOrder ob order).1.bids ↔
        ((F64.CancelOrder ob order).1.limitAt l).Orders ≠ []) ∧
      oppositeLimits (F64.CancelOrder ob order).1 order = oppositeLimits ob order ∧
      oppositeMap (F64.CancelOrder ob order).1 order = oppositeMap ob order ∧
      (∀ l', l' ≠ l → (F64.CancelOrder ob order).1.limitAt l' = ob.limitAt l') ∧
      (∀ o, o ≠ order → (F64.CancelOrder ob order).1.orderAt o = ob.orderAt o) ∧
      ((F64.CancelOrder ob order).1.orderAt order).Size = (ob.orderAt order).Size ∧
      F64.oppositeVolume (F64.CancelOrder ob order).1 order = F64.oppositeVolume ob order ∧
      (GridSide k ob (ownLimits ob order) →
        ((F64.CancelOrder ob order).1.limitAt l).TotalVolume =
          (ob.limitAt l).TotalVolume - (ob.orderAt order).Size ∧
        F64.ownVolume (F64.CancelOrder ob order).1 order =
          F64.ownVolume ob order - (ob.orderAt order).Size) := by
  obtain ⟨l, c1, c2, c3, c4, c5, c6, c7, c8, c9, _, c11, c12, c13, c14, c15, c16, c17, c18, c19,
    _, _⟩ := cancelOrder_effect ob order hwf hv hr
  have hl := ownLimits_sub ob order l c2
  have e := CancelOrder64_some ob order l c1
  refine ⟨l, c1, c2, c3, ?_, ?_, ?_, ?_, ?_, ?_, ?_, ?_, ?_, ?_, ?_, ?_, ?_, ?_, ?_, ?_, ?_, ?_⟩
  · rw [e]
  · rw [e]; exact c5
  · rw [e]; exact c6
  · rw [e]; simp only [setVolume_queue]; exact c8
  · rw [e]; simp only [setVolume_queue]; rw [c7]; exact sortOrders_sorted ob _
  · rw [e]; simp only [setVolume_queue]; exact c9
  · rw [e]; simp only [setVolume_totalVolume]
  · rw [e]; simp only [setVolume_price]; exact c11
  · rw [e]; simp only [setVolume_queue, setVolume_ownLimits]; exact c12
  · rw [e]; simp only [setVolume_queue, setVolume_ownMap]; exact c13
  · rw [e]; simp only [setVolume_queue, setVolume_asks, setVolume_bids]; exact c14
  · rw [e]; exact c15
  · rw [e]; exact c16
  · intro l' hl'
    rw [e]; simp only [setVolume_limitAt_other _ _ _ _ hl']; exact c17 l' hl'
  · rw [e]; exact c18
  · rw [e]; exact c19
  · rw [e]
    simp only []
    rw [F64_oppositeVolume_setVolume _ _ _ _ (by
      rw [CancelOrder_oppositeLimits ob order l c1]; exact own_not_opposite hwf c2)]
    exact F64_oppositeVolume_CancelOrder hwf hl c1 c3
  · intro hg
    obtain ⟨e', hg'⟩ := CancelOrder_gridVolumes hwf hv hl c1 c3 hg
    rw [e', ownVolume64_exact order hg',
      ownVolume64_exact order (gridVolumes_of_gridSide hg (volumeInvOn_ownLimits hv order)),
      CancelOrder_ownVolume hwf hv hl c1 c3, CancelOrder_limitAt ob order l c1,
      Function.update_same]
    exact ⟨rfl, rfl⟩

set_option maxRecDepth 100000 in
/-- C7 (amended) at `wholeBook` (bids of 5, 8 and 10, whole numbers): cancelling
the bid of 8 at price 9000 (the order at 1, alone in limit 1) succeeds, removes
its id from the index, empties and unlists limit 1, whose volume drops from 8
to 0, and lowers `BidTotalVolume` by 8. -/
theorem cancelOrder_effect_on_grid_witness :
    ∃ l, (wholeBook.orderAt 1).Limit = some l ∧
      (F64.CancelOrder wholeBook 1).2 = .ok () ∧
      (F64.CancelOrder wholeBook 1).1.Orders (wholeBook.orderAt 1).ID = none ∧
      1 ∉ ((F64.CancelOrder wholeBook 1).1.limitAt l).Orders ∧
      (l ∈ (F64.CancelOrder wholeBook 1).1.asks ++ (F64.CancelOrder wholeBook 1).1.bids ↔
        ((F64.CancelOrder wholeBook 1).1.limitAt l).Orders ≠ []) ∧
      ((F64.CancelOrder wholeBook 1).1.limitAt l).TotalVolume =
        (wholeBook.limitAt l).TotalVolume - (wholeBook.orderAt 1).Size ∧
      F64.ownVolume (F64.CancelOrder wholeBook 1).1 1 =
        F64.ownVolume wholeBook 1 - (wholeBook.orderAt 1).Size :=
  (cancelOrder_effect_on_grid 1074 wholeBook 1 wholeBook_wellFormed (by decide) (by decide)).imp
    (fun _ h => ⟨h.1, h.2.2.2.1, h.2.2.2.2.1, h.2.2.2.2.2.2.2.2.1,
      h.2.2.2.2.2.2.2.2.2.2.2.2.2.1,
      (h.2.2.2.2.2.2.2.2.2.2.2.2.2.2.2.2.2.2.2.2 (by decide)).1,
      (h.2.2.2.2.2.2.2.2.2.2.2.2.2.2.2.2.2.2.2.2 (by decide)).2⟩)
/-! ## C8 -/

/-- C8: for every book and every order resting in it, the first `CancelOrder`
succeeds and a second `CancelOrder` of the same order fails: the back
reference is nil by then and the call panics with the nil-pointer failure (the
way the code fails on an order that is not resting), neither a no-op nor a
success. -/
theorem cancelOrder_twice (ob : OrderBook) (order : Nat) (hr : Resting ob order) :
    (CancelOrder ob order).2 = .ok () ∧
      (CancelOrder (CancelOrder ob order).1 order).2 = .error .nilPointer := by
  obtain ⟨l, _, hb, _⟩ := hr
  refine ⟨CancelOrder_result ob order l hb, ?_⟩
  have hnil : ((CancelOrder ob order).1.orderAt order).Limit = none := by
    rw [CancelOrder_orderAt ob order l hb, Function.update_same]
  rw [CancelOrder_nil _ _ hnil]

/-- C8 at the book of `TestPlaceMarketOrderMultiFill` and its bid at 9000. -/
theorem cancelOrder_twice_witness :
    (CancelOrder bidBook 1).2 = .ok () ∧
      (CancelOrder (CancelOrder bidBook 1).1 1).2 = .error .nilPointer :=
  cancelOrder_twice bidBook 1 (by decide)

/-! ## C9 -/

/-- C11: in a book whose side index is in step (`SideIndexed`, which holds in
every state that arises from the empty book, also after an order has been
placed twice) `PlaceLimitOrder` never matches, whatever the price (a buy at or
above the lowest ask and a sell at or below the highest bid included) and
whatever the order: the list and the price map of the opposite side are
unchanged,
every limit of the opposite side is unchanged (queue, `TotalVolume`, price),
and every order, the placed one included, keeps its size.  The function
returns no matches at all: it has no result. -/
theorem placeLimitOrder_never_matches (ob : OrderBook) (price : Int) (order : Nat)
    (hsi : SideIndexed ob) :
    oppositeLimits (PlaceLimitOrder ob price order) order = oppositeLimits ob order ∧
      oppositeMap (PlaceLimitOrder ob price order) order = oppositeMap ob order ∧
      (∀ l ∈ oppositeLimits ob order, (PlaceLimitOrder ob price order).limitAt l = ob.limitAt l) ∧
      (∀ o, ((PlaceLimitOrder ob price order).orderAt o).Size = (ob.orderAt o).Size) ∧
      oppositeVolume (PlaceLimitOrder ob price order) order = oppositeVolume ob order := by
  have hsame : ∀ l ∈ oppositeLimits ob order,
      (PlaceLimitOrder ob price order).limitAt l = ob.limitAt l := by
    intro l hl
    apply PlaceLimitOrder_limitAt_other
    intro he
    cases hf : lookupLimit ob price order with
    | some l0 =>
      rw [placedLimit_found _ _ _ _ hf] at he
      exact hsi.own_apart (hsi.lookup hf) (he ▸ hl)
    | none =>
      rw [placedLimit_new _ _ _ hf] at he
      exact hsi.unallocated (oppositeLimits_sub ob order l hl |> fun h => he ▸ h)
  refine ⟨PlaceLimitOrder_oppositeLimits ob price order, PlaceLimitOrder_oppositeMap ob price order,
    hsame, fun o => PlaceLimitOrder_size ob price order o, ?_⟩
  rw [oppositeVolume_eq, oppositeVolume_eq, PlaceLimitOrder_oppositeLimits]
  exact sum_map_same _ _ _ (fun l hl => by rw [hsame l hl])

/-- C11 at `askBook` (asks at 10000 and 9000) and a buy of size 5 placed at
20000, above both asks: the asks are untouched. -/
theorem placeLimitOrder_never_matches_witness :
    oppositeLimits (PlaceLimitOrder askBook 20000 0) 0 = oppositeLimits askBook 0 ∧
      oppositeMap (PlaceLimitOrder askBook 20000 0) 0 = oppositeMap askBook 0 ∧
      (∀ l ∈ oppositeLimits askBook 0, (PlaceLimitOrder askBook 20000 0).limitAt l = askBook.limitAt l) ∧
      (∀ o, ((PlaceLimitOrder askBook 20000 0).orderAt o).Size = (askBook.orderAt o).Size) ∧
      oppositeVolume (PlaceLimitOrder askBook 20000 0) 0 = oppositeVolume askBook 0 :=
  placeLimitOrder_never_matches askBook 20000 0 (SideIndexed.of_wellFormed askBook_wellFormed)

/-! ## C12 -/

/-- In exact arithmetic: on a well-formed book with the volume invariant, after a market order
with `0 ≤ size ≤` total volume of the opposite side, the total volume of the
opposite side (`AskTotalVolume` for a buy, `BidTotalVolume` for a sell) is its
value before the call minus the size the order had, and the total volume and
the list of the order's own side are unchanged: the market order does not
rest. -/
theorem placeMarketOrder_volumes (ob : OrderBook) (order : Nat) (hwf : WellFormed ob)
    (hv : VolumeInv ob) (h0 : 0 ≤ (ob.orderAt order).Size)
    (hle : (ob.orderAt order).Size ≤ oppositeVolume ob order) :
    oppositeVolume (PlaceMarketOrder ob order).1 order =
        oppositeVolume ob order - (ob.orderAt order).Size ∧
      ownVolume (PlaceMarketOrder ob order).1 order = ownVolume ob order ∧
      ownLimits (PlaceMarketOrder ob order).1 order = ownLimits ob order := by
  refine ⟨?_, PlaceMarketOrder_ownVolume hwf order, PlaceMarketOrder_ownLimits ob order⟩
  have hz := marketLoop_fills hwf hv order h0 hle
  have hT := marketLoop_taker order (opposite ob order).2 (opposite ob order).1
    (opposite_snd_free hwf order)
  rw [opposite_orderAt, hz] at hT
  rw [PlaceMarketOrder_oppositeVolume hwf hv order hle]
  omega

set_option maxRecDepth 100000 in
/-- C12 as stated fails on `float64`.  In `tenthsBook` (asks of 0.1 at price 10
and 0.2 at price 20; well formed, every volume the sum of the queued sizes) a
market buy of 0.1 succeeds; `AskTotalVolume` was 0.30000000000000004 and is
0.2 afterwards, which is neither 0.30000000000000004 - 0.1 as a number nor its
`float64` value 0.20000000000000004.  In `largeBook` (one ask of `2^53 + 2`) a
market buy of 1 succeeds; the ask and the volume of its limit are left at
`2^53`, so `AskTotalVolume` has dropped by 2. -/
theorem placeMarketOrder_volumes_counterexample :
    (WellFormed tenthsBook ∧ VolumeInv tenthsBook ∧ NonNegSizes tenthsBook ∧
      (tenthsBook.orderAt 4).Size = dyadic 3602879701896397 55 ∧
      (tenthsBook.orderAt 4).Size ≤ F64.oppositeVolume tenthsBook 4 ∧
      (tenthsBook.orderAt 4).Size ≤ oppositeVolume tenthsBook 4 ∧
      F64.oppositeVolume tenthsBook 4 = dyadic 1351079888211149 52 ∧
      (F64.PlaceMarketOrder tenthsBook 4).2 =
        .ok [{ Ask := 0, Bid := 4, SizeFilled := dyadic 3602879701896397 55,
               Price := dyadic 10 0 }] ∧
      F64.oppositeVolume (F64.PlaceMarketOrder tenthsBook 4).1 4 =
        dyadic 3602879701896397 54 ∧
      F64.oppositeVolume (F64.PlaceMarketOrder tenthsBook 4).1 4 ≠
        F64.oppositeVolume tenthsBook 4 - (tenthsBook.orderAt 4).Size ∧
      F64.oppositeVolume (F64.PlaceMarketOrder tenthsBook 4).1 4 ≠
        sub64 (F64.oppositeVolume tenthsBook 4) (tenthsBook.orderAt 4).Size) ∧
    (WellFormed largeBook ∧ VolumeInv largeBook ∧ NonNegSizes largeBook ∧
      (largeBook.orderAt 13).Size = dyadic 1 0 ∧
      F64.oppositeVolume largeBook 13 = dyadic 9007199254740994 0 ∧
      oppositeVolume largeBook 13 = dyadic 9007199254740994 0 ∧
      (F64.PlaceMarketOrder largeBook 13).2 =
        .ok [{ Ask := 11, Bid := 13, SizeFilled := dyadic 1 0, Price := dyadic 10 0 }] ∧
      F64.oppositeVolume (F64.PlaceMarketOrder largeBook 13).1 13 =
        dyadic 9007199254740992 0 ∧
      oppositeVolume (F64.PlaceMarketOrder largeBook 13).1 13 = dyadic 9007199254740992 0) :=
  ⟨⟨tenthsBook_wellFormed, by decide, by decide, by decide, by decide, by decide, by decide,
      by decide, by decide, by decide, by decide⟩,
    ⟨largeBook_wellFormed, by decide, by decide, by decide, by decide, by decide, by decide,
      by decide, by decide⟩⟩

/-- C12 (amended): on a well-formed book with the volume invariant whose sizes
resting on the opposite side are non-negative multiples of `2^k` units (of
`2^-1074`, `k ≤ 2045`) with a sum below `2^(k+53)` units, after a market order
on `float64` whose size is a multiple of `2^k` units with `0 ≤ size ≤` total
volume of the opposite side, the total volume of the opposite side
(`AskTotalVolume` for a buy, `BidTotalVolume` for a sell) is its value before
the call minus the size the order had, and the total volume and the list of
the order's own side are unchanged: the market order does not rest. -/
theorem placeMarketOrder_volumes_on_grid (k : Nat) (ob : OrderBook) (order : Nat)
    (hwf : WellFormed ob) (hv : VolumeInv ob) (hg : GridSide k ob (oppositeLimits ob order))
    (hs : OnGrid k (ob.orderAt order).Size) (h0 : 0 ≤ (ob.orderAt order).Size)
    (hle : (ob.orderAt order).Size ≤ F64.oppositeVolume ob order) :
    F64.oppositeVolume (F64.PlaceMarketOrder ob order).1 order =
        F64.oppositeVolume ob order - (ob.orderAt order).Size ∧
      F64.ownVolume (F64.PlaceMarketOrder ob order).1 order = F64.ownVolume ob order ∧
      ownLimits (F64.PlaceMarketOrder ob order).1 order = ownLimits ob order := by
  have hV := oppositeVolume64_exact hv order hg
  rw [hV] at hle
  obtain ⟨hg', hv'⟩ := PlaceMarketOrder_gridSide hwf hv order hg hs h0 hle
  have hV' : F64.oppositeVolume (PlaceMarketOrder ob order).1 order =
      oppositeVolume (PlaceMarketOrder ob order).1 order := by
    rw [← totalVolume64_oppositeLimits, ← sumVolume_oppositeLimits]
    exact totalVolume64_exact (gridVolumes_of_gridSide hg' hv')
  rw [PlaceMarketOrder64_exact hwf hv order hg hs h0, hV, hV']
  exact ⟨(placeMarketOrder_volumes ob order hwf hv h0 hle).1,
    F64_ownVolume_PlaceMarketOrder hwf order, PlaceMarketOrder_ownLimits ob order⟩

set_option maxRecDepth 100000 in
/-- C12 (amended) at `wholeBook` (bids of 5, 8 and 10, whole numbers) and a
market sell of 18: the bid volume goes from 23 to 5. -/
theorem placeMarketOrder_volumes_on_grid_witness :
    F64.oppositeVolume (F64.PlaceMarketOrder wholeBook 4).1 4 =
        F64.oppositeVolume wholeBook 4 - (wholeBook.orderAt 4).Size ∧
      F64.ownVolume (F64.PlaceMarketOrder wholeBook 4).1 4 = F64.ownVolume wholeBook 4 ∧
      ownLimits (F64.PlaceMarketOrder wholeBook 4).1 4 = ownLimits wholeBook 4 :=
  placeMarketOrder_volumes_on_grid 1074 wholeBook 4 wholeBook_wellFormed (by decide) (by decide)
    (by decide) (by decide) (by decide)
/-! ## C13 -/

/-- C13 as stated fails: in `drainedBook` the order at 0 (id 100) has been
filled and removed from its limit but is still in the id index.  `CancelOrder`
on it fails with the nil-pointer failure, and the index entry of id 100 has
been deleted by then: the id index is not the one before the call. -/
theorem cancelOrder_failure_counterexample :
    ¬ Resting drainedBook 0 ∧
      (CancelOrder drainedBook 0).2 = .error .nilPointer ∧
      drainedBook.Orders 100 = some 0 ∧
      (CancelOrder drainedBook 0).1.Orders 100 = none := by
  decide

/-- C13 (amended): whenever `CancelOrder` fails, the failure is the nil-pointer
failure raised on the order's nil back reference, and the state reached is the
state before the call with the order's id deleted from the id index: both side
lists, both price maps, every limit (queue, `TotalVolume`, price), every order
and the allocation counter are identical, and so is every index entry other
than the one of the order's id; when that id was not in the index, the whole
state is identical. -/
theorem cancelOrder_failure (ob : OrderBook) (order : Nat) (e : Failure)
    (hfail : (CancelOrder ob order).2 = .error e) :
    e = .nilPointer ∧ (ob.orderAt order).Limit = none ∧
      (CancelOrder ob order).1 = setIndex ob (ob.orderAt order).ID none ∧
      (CancelOrder ob order).1.asks = ob.asks ∧
      (CancelOrder ob order).1.bids = ob.bids ∧
      (CancelOrder ob order).1.AskLimits = ob.AskLimits ∧
      (CancelOrder ob order).1.BidLimits = ob.BidLimits ∧
      (CancelOrder ob order).1.limitAt = ob.limitAt ∧
      (CancelOrder ob order).1.orderAt = ob.orderAt ∧
      (CancelOrder ob order).1.nextLimit = ob.nextLimit ∧
      (∀ i, i ≠ (ob.orderAt order).ID → (CancelOrder ob order).1.Orders i = ob.Orders i) ∧
      (CancelOrder ob order).1.Orders (ob.orderAt order).ID = none ∧
      (ob.Orders (ob.orderAt order).ID = none → (CancelOrder ob order).1 = ob) := by
  cases hl : (ob.orderAt order).Limit with
  | some l =>
    rw [CancelOrder_result ob order l hl] at hfail
    cases hfail
  | none =>
    rw [CancelOrder_nil ob order hl] at hfail ⊢
    refine ⟨(Except.error.inj hfail).symm, rfl, rfl, rfl, rfl, rfl, rfl, rfl, rfl, rfl, ?_, ?_, ?_⟩
    · intro i hi
      show (setIndex ob (ob.orderAt order).ID none).Orders i = ob.Orders i
      rw [setIndex_Orders, Function.update_noteq hi]
    · show (setIndex ob (ob.orderAt order).ID none).Orders (ob.orderAt order).ID = none
      rw [setIndex_Orders, Function.update_same]
    · intro hnone
      have : Function.update ob.Orders (ob.orderAt order).ID none = ob.Orders := by
        rw [← hnone]; exact Function.update_eq_self _ _
      show setIndex ob (ob.orderAt order).ID none = ob
      unfold setIndex
      rw [this]

/-- C13 (amended) at `drainedBook` and the filled order at 0. -/
theorem cancelOrder_failure_witness :
    (CancelOrder drainedBook 0).1.asks = drainedBook.asks ∧
      (CancelOrder drainedBook 0).1.bids = drainedBook.bids ∧
      (CancelOrder drainedBook 0).1.limitAt = drainedBook.limitAt ∧
      (CancelOrder drainedBook 0).1.orderAt = drainedBook.orderAt ∧
      (CancelOrder drainedBook 0).1.Orders (drainedBook.orderAt 0).ID = none :=
  ⟨(cancelOrder_failure drainedBook 0 .nilPointer (by decide)).2.2.2.1,
    (cancelOrder_failure drainedBook 0 .nilPointer (by decide)).2.2.2.2.1,
    (cancelOrder_failure drainedBook 0 .nilPointer (by decide)).2.2.2.2.2.2.2.1,
    (cancelOrder_failure drainedBook 0 .nilPointer (by decide)).2.2.2.2.2.2.2.2.1,
    (cancelOrder_failure drainedBook 0 .nilPointer (by decide)).2.2.2.2.2.2.2.2.2.2.2.1⟩

/-! ## C14 -/

/-- In exact arithmetic: `Asks()` returns the book's ask list, which is then a permutation of
the ask limits sorted by ascending price, so its first element (when there is
one) has the lowest ask price; `Bids()` returns the bid list as a permutation
of the bid limits sorted by descending price, first element the highest bid.
Neither call writes a limit or an order, nor the other list or a map, so
`AskTotalVolume` and `BidTotalVolume` are the same before and after. -/
theorem asks_bids_sorted (ob : OrderBook) :
    ((Asks ob).2 = (Asks ob).1.asks ∧
      (Asks ob).2.Perm ob.asks ∧
      (Asks ob).2.Pairwise (fun a b => (ob.limitAt a).Price ≤ (ob.limitAt b).Price) ∧
      (∀ x xs, (Asks ob).2 = x :: xs → ∀ l ∈ ob.asks, (ob.limitAt x).Price ≤ (ob.limitAt l).Price) ∧
      (Asks ob).1.limitAt = ob.limitAt ∧ (Asks ob).1.orderAt = ob.orderAt ∧
      (Asks ob).1.bids = ob.bids ∧
      (Asks ob).1.AskLimits = ob.AskLimits ∧ (Asks ob).1.BidLimits = ob.BidLimits ∧
      (Asks ob).1.Orders = ob.Orders ∧
      AskTotalVolume (Asks ob).1 = AskTotalVolume ob ∧
      BidTotalVolume (Asks ob).1 = BidTotalVolume ob) ∧
    ((Bids ob).2 = (Bids ob).1.bids ∧
      (Bids ob).2.Perm ob.bids ∧
      (Bids ob).2.Pairwise (fun a b => (ob.limitAt b).Price ≤ (ob.limitAt a).Price) ∧
      (∀ x xs, (Bids ob).2 = x :: xs → ∀ l ∈ ob.bids, (ob.limitAt l).Price ≤ (ob.limitAt x).Price) ∧
      (Bids ob).1.limitAt = ob.limitAt ∧ (Bids ob).1.orderAt = ob.orderAt ∧
      (Bids ob).1.asks = ob.asks ∧
      (Bids ob).1.AskLimits = ob.AskLimits ∧ (Bids ob).1.BidLimits = ob.BidLimits ∧
      (Bids ob).1.Orders = ob.Orders ∧
      AskTotalVolume (Bids ob).1 = AskTotalVolume ob ∧
      BidTotalVolume (Bids ob).1 = BidTotalVolume ob) := by
  have ha : (Asks ob).2 = sortAsks ob ob.asks := rfl
  have hb : (Bids ob).2 = sortBids ob ob.bids := rfl
  refine ⟨⟨rfl, sortAsks_perm ob ob.asks, sortAsks_sorted ob ob.asks, ?_, rfl, rfl, rfl, rfl, rfl,
    rfl, ?_, rfl⟩, ⟨rfl, sortBids_perm ob ob.bids, sortBids_sorted ob ob.bids, ?_, rfl, rfl, rfl, rfl,
    rfl, rfl, rfl, ?_⟩⟩
  · intro x xs hx l hl
    have hs := sortAsks_sorted ob ob.asks
    rw [← ha, hx] at hs
    have hmem : l ∈ x :: xs := by
      rw [← hx, ha]; exact (sortAsks_perm ob ob.asks).mem_iff.2 hl
    rcases List.mem_cons.1 hmem with h1 | h1
    · rw [h1]
    · exact (List.pairwise_cons.1 hs).1 l h1
  · show ((sortAsks ob ob.asks).map (fun l => (ob.limitAt l).TotalVolume)).sum = _
    exact ((sortAsks_perm ob ob.asks).map _).sum_eq
  · intro x xs hx l hl
    have hs := sortBids_sorted ob ob.bids
    rw [← hb, hx] at hs
    have hmem : l ∈ x :: xs := by
      rw [← hx, hb]; exact (sortBids_perm ob ob.bids).mem_iff.2 hl
    rcases List.mem_cons.1 hmem with h1 | h1
    · rw [h1]
    · exact (List.pairwise_cons.1 hs).1 l h1
  · show ((sortBids ob ob.bids).map (fun l => (ob.limitAt l).TotalVolume)).sum = _
    exact ((sortBids_perm ob ob.bids).map _).sum_eq

set_option maxRecDepth 100000 in
/-- C14 as stated fails on `float64`.  In `unsortedBook` the asks of 0.1, 0.2 and
0.3 are listed in the order placed, at prices 30, 20 and 10, and
`AskTotalVolume` is (0.1 + 0.2) + 0.3 = 0.6000000000000001.  `Asks()` sorts
the list by price and changes no limit; `AskTotalVolume` is then
(0.3 + 0.2) + 0.1 = 0.6. -/
theorem asks_volume_counterexample :
    unsortedBook.asks = [0, 1, 2] ∧
      (Asks unsortedBook).2 = [2, 1, 0] ∧
      (Asks unsortedBook).1.limitAt = unsortedBook.limitAt ∧
      F64.AskTotalVolume unsortedBook = dyadic 1351079888211149 51 ∧
      F64.AskTotalVolume (Asks unsortedBook).1 = dyadic 5404319552844595 53 ∧
      F64.AskTotalVolume (Asks unsortedBook).1 ≠ F64.AskTotalVolume unsortedBook :=
  ⟨by decide, by decide, rfl, by decide, by decide, by decide⟩

/-- C14 (amended): `Asks()` returns the book's ask list, which is then a
permutation of the ask limits sorted by ascending price, so its first element
(when there is one) has the lowest ask price; `Bids()` returns the bid list as
a permutation of the bid limits sorted by descending price, first element the
highest bid.  Neither call writes a limit or an order, nor the other list or a
map, so the total of the other side is the same before and after; the total of
the sorted side, added up on `float64` in the new order, is the same before and
after when the `TotalVolume`s of that side are non-negative multiples of `2^k`
units (of `2^-1074`, `k ≤ 2045`) with a sum below `2^(k+53)` units. -/
theorem asks_bids_sorted_on_grid (k : Nat) (ob : OrderBook) :
    ((Asks ob).2 = (Asks ob).1.asks ∧
      (Asks ob).2.Perm ob.asks ∧
      (Asks ob).2.Pairwise (fun a b => (ob.limitAt a).Price ≤ (ob.limitAt b).Price) ∧
      (∀ x xs, (Asks ob).2 = x :: xs → ∀ l ∈ ob.asks, (ob.limitAt x).Price ≤ (ob.limitAt l).Price) ∧
      (Asks ob).1.limitAt = ob.limitAt ∧ (Asks ob).1.orderAt = ob.orderAt ∧
      (Asks ob).1.bids = ob.bids ∧
      (Asks ob).1.AskLimits = ob.AskLimits ∧ (Asks ob).1.BidLimits = ob.BidLimits ∧
      (Asks ob).1.Orders = ob.Orders ∧
      F64.BidTotalVolume (Asks ob).1 = F64.BidTotalVolume ob ∧
      (GridVolumes k ob ob.asks → F64.AskTotalVolume (Asks ob).1 = F64.AskTotalVolume ob)) ∧
    ((Bids ob).2 = (Bids ob).1.bids ∧
      (Bids ob).2.Perm ob.bids ∧
      (Bids ob).2.Pairwise (fun a b => (ob.limitAt b).Price ≤ (ob.limitAt a).Price) ∧
      (∀ x xs, (Bids ob).2 = x :: xs → ∀ l ∈ ob.bids, (ob.limitAt l).Price ≤ (ob.limitAt x).Price) ∧
      (Bids ob).1.limitAt = ob.limitAt ∧ (Bids ob).1.orderAt = ob.orderAt ∧
      (Bids ob).1.asks = ob.asks ∧
      (Bids ob).1.AskLimits = ob.AskLimits ∧ (Bids ob).1.BidLimits = ob.BidLimits ∧
      (Bids ob).1.Orders = ob.Orders ∧
      F64.AskTotalVolume (Bids ob).1 = F64.AskTotalVolume ob ∧
      (GridVolumes k ob ob.bids → F64.BidTotalVolume (Bids ob).1 = F64.BidTotalVolume ob)) := by
  obtain ⟨⟨a1, a2, a3, a4, a5, a6, a7, a8, a9, a10, _, _⟩,
    ⟨b1, b2, b3, b4, b5, b6, b7, b8, b9, b10, _, _⟩⟩ := asks_bids_sorted ob
  refine ⟨⟨a1, a2, a3, a4, a5, a6, a7, a8, a9, a10, rfl, ?_⟩,
    ⟨b1, b2, b3, b4, b5, b6, b7, b8, b9, b10, rfl, ?_⟩⟩
  · intro hg
    exact totalVolume64_perm (sortAsks_perm ob ob.asks) hg
  · intro hg
    exact totalVolume64_perm (sortBids_perm ob ob.bids) hg

set_option maxRecDepth 100000 in
/-- C14 (amended) at `wholeAskBook` (asks of 4 at 10000 and 18 at 9000, whole
numbers) and `wholeBook`: the lists are sorted and the totals are kept. -/
theorem asks_bids_sorted_on_grid_witness :
    (Asks wholeAskBook).2 = [1, 0] ∧
      F64.AskTotalVolume (Asks wholeAskBook).1 = F64.AskTotalVolume wholeAskBook ∧
      F64.BidTotalVolume (Bids wholeBook).1 = F64.BidTotalVolume wholeBook :=
  ⟨by decide,
    (asks_bids_sorted_on_grid 1074 wholeAskBook).1.2.2.2.2.2.2.2.2.2.2.2 (by decide),
    (asks_bids_sorted_on_grid 1074 wholeBook).2.2.2.2.2.2.2.2.2.2.2.2 (by decide)⟩
/-! ## C15 -/

/-- C17: let `q` be the queue of a limit, made of distinct orders, let the taker
`order` be no member of it, and let `fills` be the sizes the specification
gives for the taker's size and the makers' sizes (`levelFills64`; `k` is its
length).  Then `Fill`, on `float64`, returns the matches of the taker against
the first `k` makers of `q`, in queue order, with these sizes and the limit's
price; `k` is at most the length of `q` and at least 1 on a non-empty queue;
the i-th size is the minimum of the taker's remaining size just before it and
the maker's size; the taker and the matched makers are lowered by the sizes
filled, each by a `float64` subtraction, and the other makers keep their size;
every maker before the k-th ends with size 0; the taker is open after each
match but the last and filled when `k` is less than the length of `q`; and
afterwards the queue holds the old members but the matched makers that reached
size 0 (a maker beyond the k-th is not matched and stays, whatever its size).
Non-negativity of the sizes is not needed. -/
theorem fill_time_priority (ob : OrderBook) (l order : Nat) (q : List Nat) (fills : List Int)
    (hq : (ob.limitAt l).Orders = q) (hfree : order ∉ q) (hnd : q.Nodup)
    (hf : levelFills64 (ob.orderAt order).Size (q.map (fun o => (ob.orderAt o).Size)) = fills) :
    (F64.Fill ob l order).2 = List.zipWith (matchOf ob l order) q fills ∧
      (F64.Fill ob l order).2.map (makerOf ob order) = q.take fills.length ∧
      (F64.Fill ob l order).2.map (fun m => m.SizeFilled) = fills ∧
      (∀ m ∈ (F64.Fill ob l order).2,
        takerOf ob order m = order ∧ m.Price = (ob.limitAt l).Price) ∧
      fills.length ≤ q.length ∧
      (q ≠ [] → 0 < fills.length) ∧
      (∀ i, i < fills.length →
        fills.getD i 0 = min (remaining64 (ob.orderAt order).Size (fills.take i))
          ((q.map (fun o => (ob.orderAt o).Size)).getD i 0)) ∧
      ((F64.Fill ob l order).1.orderAt order).Size =
        remaining64 (ob.orderAt order).Size fills ∧
      q.map (fun o => ((F64.Fill ob l order).1.orderAt o).Size) =
        List.zipWith (fun z x => sub64 z x) (q.map (fun o => (ob.orderAt o).Size)) fills ++
          (q.drop fills.length).map (fun o => (ob.orderAt o).Size) ∧
      (∀ o ∈ q.take (fills.length - 1), ((F64.Fill ob l order).1.orderAt o).Size = 0) ∧
      (∀ j, 0 < j → j < fills.length →
        remaining64 (ob.orderAt order).Size (fills.take j) ≠ 0) ∧
      (fills.length < q.length → ((F64.Fill ob l order).1.orderAt order).Size = 0) ∧
      (∀ o, o ∈ ((F64.Fill ob l order).1.limitAt l).Orders ↔
        o ∈ q ∧ ¬ (o ∈ q.take fills.length ∧ ((F64.Fill ob l order).1.orderAt o).Size = 0)) ∧
      ((F64.Fill ob l order).1.limitAt l).Orders.Nodup := by
  subst hq
  subst hf
  have hlen := levelFills64_length_le (ob.orderAt order).Size
    ((ob.limitAt l).Orders.map (fun o => (ob.orderAt o).Size))
  rw [List.length_map] at hlen
  have hms : (F64.Fill ob l order).2 = List.zipWith (matchOf ob l order) (ob.limitAt l).Orders
      (levelFills64 (ob.orderAt order).Size
        ((ob.limitAt l).Orders.map (fun o => (ob.orderAt o).Size))) := by
    rw [Fill64_snd, fillLoop64_matches _ _ _ _ hfree hnd]
  have hsz := zipWith_matchOf_sizes ob l order _ _ hlen
  have htk : ((F64.Fill ob l order).1.orderAt order).Size =
      remaining64 (ob.orderAt order).Size (levelFills64 (ob.orderAt order).Size
        ((ob.limitAt l).Orders.map (fun o => (ob.orderAt o).Size))) := by
    rw [Fill64_size, fillLoop64_taker _ _ _ _ hfree hnd]
  refine ⟨hms, ?_, ?_, ?_, hlen, ?_, ?_, htk, ?_, ?_, ?_, ?_, ?_, ?_⟩
  · rw [hms]; exact zipWith_matchOf_makers ob l order _ _
  · rw [hms]; exact hsz
  · rw [hms]; exact zipWith_matchOf_parties ob l order _ _
  · intro hne
    exact levelFills64_length_pos _ _ (by simpa using hne)
  · intro i hi
    exact levelFills64_getD _ _ i hi
  · have := fillLoop64_sizes l order _ ob hfree hnd
    rw [← this]
    exact List.map_congr_left (fun o _ => Fill64_size ob l order o)
  · intro o ho
    rw [Fill64_size]
    exact fillLoop64_earlier_filled l order _ ob hfree hnd o ho
  · intro j h0 hj
    exact levelFills64_open _ _ j h0 hj
  · intro hk
    rw [htk]
    exact levelFills64_filled _ _ (by simpa using hk)
  · intro o
    exact Fill64_queue_mem ob l order hfree hnd o
  · exact Fill64_queue_nodup ob l order hnd

set_option maxRecDepth 100000 in
/-- C17 at `levelBook` (asks of 0.1, 0.1 and 0.3 queued at one price) and a buy
of 0.4: the matches are for 0.1, 0.1 and 0.20000000000000004, which is what
`float64` leaves of 0.4 after 0.1 has been subtracted twice; the first two
makers are filled and leave the queue, the third stays with
0.09999999999999995. -/
theorem fill_time_priority_witness :
    (F64.Fill levelBook 0 8).2 = List.zipWith (matchOf levelBook 0 8) [0, 17, 2] levelBookFills ∧
      (F64.Fill levelBook 0 8).2.map (makerOf levelBook 8) = [0, 17, 2].take levelBookFills.length ∧
      (F64.Fill levelBook 0 8).2.map (fun m => m.SizeFilled) = levelBookFills ∧
      (∀ m ∈ (F64.Fill levelBook 0 8).2,
        takerOf levelBook 8 m = 8 ∧ m.Price = (levelBook.limitAt 0).Price) ∧
      levelBookFills.length ≤ [0, 17, 2].length ∧
      ([0, 17, 2] ≠ [] → 0 < levelBookFills.length) ∧
      (∀ i, i < levelBookFills.length →
        levelBookFills.getD i 0 = min (remaining64 (levelBook.orderAt 8).Size (levelBookFills.take i))
          (([0, 17, 2].map (fun o => (levelBook.orderAt o).Size)).getD i 0)) ∧
      ((F64.Fill levelBook 0 8).1.orderAt 8).Size =
        remaining64 (levelBook.orderAt 8).Size levelBookFills ∧
      [0, 17, 2].map (fun o => ((F64.Fill levelBook 0 8).1.orderAt o).Size) =
        List.zipWith (fun z x => sub64 z x) ([0, 17, 2].map (fun o => (levelBook.orderAt o).Size)) levelBookFills ++
          ([0, 17, 2].drop levelBookFills.length).map (fun o => (levelBook.orderAt o).Size) ∧
      (∀ o ∈ [0, 17, 2].take (levelBookFills.length - 1), ((F64.Fill levelBook 0 8).1.orderAt o).Size = 0) ∧
      (∀ j, 0 < j → j < levelBookFills.length →
        remaining64 (levelBook.orderAt 8).Size (levelBookFills.take j) ≠ 0) ∧
      (levelBookFills.length < [0, 17, 2].length → ((F64.Fill levelBook 0 8).1.orderAt 8).Size = 0) ∧
      (∀ o, o ∈ ((F64.Fill levelBook 0 8).1.limitAt 0).Orders ↔
        o ∈ [0, 17, 2] ∧ ¬ (o ∈ [0, 17, 2].take levelBookFills.length ∧ ((F64.Fill levelBook 0 8).1.orderAt o).Size = 0)) ∧
      ((F64.Fill levelBook 0 8).1.limitAt 0).Orders.Nodup :=
  fill_time_priority levelBook 0 8 [0, 17, 2] levelBookFills (by decide) (by decide) (by decide) (by decide)
/-! ## C18 -/

/-- C19 fails on the code: in `bidBook` the order at 1 (size 8) is queued in
limit 1, not in limit 0 (queue `[0]`, volume 5).  `DeleteOrder` of the order at
1 on limit 0 finds nothing to remove and leaves the queue as it is, but still
runs `o.Limit = nil` and `l.TotalVolume -= o.Size`: the volume of limit 0
becomes -3 and the order loses its back reference to limit 1. -/
theorem deleteOrder_non_member_writes :
    1 ∉ (bidBook.limitAt 0).Orders ∧
      ((DeleteOrder bidBook 0 1).limitAt 0).Orders = (bidBook.limitAt 0).Orders ∧
      (bidBook.limitAt 0).TotalVolume = 5 ∧
      ((DeleteOrder bidBook 0 1).limitAt 0).TotalVolume = -3 ∧
      (bidBook.orderAt 1).Limit = some 1 ∧
      ((DeleteOrder bidBook 0 1).orderAt 1).Limit = none := by
  decide

/-! ## C20 -/

/-- In exact arithmetic: let the book be well formed, with no listed limit that has an empty
queue, every `TotalVolume` the sum of the queued sizes, all queued sizes
positive and every queue in non-decreasing `TimeStamp` order (distinct prices
per side are part of well-formedness).  Let `t`, `t1`, `t2` be market orders of
the same side that are not resting, of sizes `a + b`, `a` and `b` with
`a, b ≥ 0` and `a + b` at most the volume of the opposite side.  Then
`PlaceMarketOrder` of `t` succeeds, so do `PlaceMarketOrder` of `t1` and then
of `t2`, and the two runs end in the same book: the same side lists in the
same order, the same price maps, the same id index and allocation counter, the
same limits (queue, `TotalVolume`, price), and the same orders (size, back
reference and all) apart from the three market orders themselves; and for
every maker the total `SizeFilled` is the same in both runs. -/
theorem order_splitting (ob : OrderBook) (t t1 t2 : Nat) (a b : Int)
    (hwf : WellFormed ob) (hne : NoEmptyLimit ob) (hv : VolumeInv ob) (hpos : PositiveSizes ob)
    (hts : TimeOrderedBook ob) (ha : 0 ≤ a) (hb : 0 ≤ b) (hab : a + b ≤ oppositeVolume ob t)
    (hs : (ob.orderAt t).Size = a + b) (hs1 : (ob.orderAt t1).Size = a)
    (hs2 : (ob.orderAt t2).Size = b)
    (hb1 : (ob.orderAt t1).Bid = (ob.orderAt t).Bid)
    (hb2 : (ob.orderAt t2).Bid = (ob.orderAt t).Bid)
    (hr : ¬ Resting ob t) (hr1 : ¬ Resting ob t1) (hr2 : ¬ Resting ob t2) (h12 : t1 ≠ t2) :
    ∃ ms ms1 ms2,
      (PlaceMarketOrder ob t).2 = .ok ms ∧
      (PlaceMarketOrder ob t1).2 = .ok ms1 ∧
      (PlaceMarketOrder (PlaceMarketOrder ob t1).1 t2).2 = .ok ms2 ∧
      (PlaceMarketOrder (PlaceMarketOrder ob t1).1 t2).1.asks = (PlaceMarketOrder ob t).1.asks ∧
      (PlaceMarketOrder (PlaceMarketOrder ob t1).1 t2).1.bids = (PlaceMarketOrder ob t).1.bids ∧
      (PlaceMarketOrder (PlaceMarketOrder ob t1).1 t2).1.AskLimits =
        (PlaceMarketOrder ob t).1.AskLimits ∧
      (PlaceMarketOrder (PlaceMarketOrder ob t1).1 t2).1.BidLimits =
        (PlaceMarketOrder ob t).1.BidLimits ∧
      (PlaceMarketOrder (PlaceMarketOrder ob t1).1 t2).1.Orders =
        (PlaceMarketOrder ob t).1.Orders ∧
      (PlaceMarketOrder (PlaceMarketOrder ob t1).1 t2).1.nextLimit =
        (PlaceMarketOrder ob t).1.nextLimit ∧
      (PlaceMarketOrder (PlaceMarketOrder ob t1).1 t2).1.limitAt =
        (PlaceMarketOrder ob t).1.limitAt ∧
      (∀ o, o ≠ t → o ≠ t1 → o ≠ t2 →
        (PlaceMarketOrder (PlaceMarketOrder ob t1).1 t2).1.orderAt o =
          (PlaceMarketOrder ob t).1.orderAt o) ∧
      (∀ o, fillsOf (ob.orderAt t).Bid o ms =
        fillsOf (ob.orderAt t).Bid o ms1 + fillsOf (ob.orderAt t).Bid o ms2) := by
  have hS : Split ob t t1 t2 a b :=
    ⟨⟨hwf, hne, hv, hpos, hts⟩, ⟨hs, by omega, hab, hr⟩,
      ⟨hs1, ha, by rw [oppositeVolume_of_bid ob hb1]; omega, hr1⟩, hs2, hb, hr2, hb1, hb2,
      h12.symm⟩
  have hbA : ((PlaceMarketOrder ob t1).1.orderAt t2).Bid = (ob.orderAt t).Bid := by
    rw [hS.bidA, hb2]
  refine ⟨_, _, _, by rw [PlaceMarketOrder_ok ob t hS.whole.le],
    by rw [PlaceMarketOrder_ok ob t1 hS.first.le],
    by rw [PlaceMarketOrder_ok _ t2 hS.second.le],
    hS.lists_eq.1, hS.lists_eq.2, hS.maps_eq.1, hS.maps_eq.2, hS.rest_eq.1, hS.rest_eq.2,
    hS.limitAt_eq, hS.orderAt_eq, ?_⟩
  intro o
  have fC := PlaceMarketOrder_fillsOf hS.ready hS.whole o
  have fA := PlaceMarketOrder_fillsOf hS.ready hS.first o
  have fB := PlaceMarketOrder_fillsOf hS.readyA hS.second o
  have zC := PlaceMarketOrder_fillsOf_other ob t o
  have zA := fun hm : o ∉ makers ob (opposite ob t).2 =>
    PlaceMarketOrder_fillsOf_other ob t1 o (by rw [hS.opp1]; exact hm)
  have zB := fun hm : o ∉ (makers ob (opposite ob t).2).filter
      (fun o => decide (sizes (PlaceMarketOrder ob t1).1 o ≠ 0)) =>
    PlaceMarketOrder_fillsOf_other (PlaceMarketOrder ob t1).1 t2 o
      (by rw [hS.makersA]; exact hm)
  rw [hb1] at fA zA
  rw [hbA] at fB zB
  by_cases hoM : o ∈ makers ob (opposite ob t).2
  · obtain ⟨n0, n1, n2⟩ := hS.takers_apart o hoM
    have e := hS.sizes_eq o n0 n1 n2
    have := fC n0
    have := fA n1
    have := fB n2
    omega
  · rw [zC hoM, zA hoM, zB (fun hm => hoM (List.mem_of_mem_filter hm))]
    rfl

set_option maxRecDepth 100000 in
/-- C20 as stated fails.  First, on `float64`: in `fifthsBook` (asks of 0.1 at
price 10 and 0.4 at price 20; well formed, every volume the sum of the queued
sizes, sizes positive, one order per queue) the asks total 0.5, and 0.2 and
0.3 add up to 0.5.  One market buy of 0.5 takes both asks and leaves no ask
limit.  A market buy of 0.2 followed by one of 0.3 leaves the limit at price
20 listed, with the ask of 0.4 still queued at a size of `2^-54`: the first
buy leaves 0.4 - 0.1 there, stored as 0.30000000000000004.  Second, a listed
limit with an empty queue: in `hollowBook` (an ask of 1 at price 10, and an
empty limit listed at price 20; whole sizes) one market buy of 1 leaves the
empty limit listed, a market buy of 1 followed by one of 0 unlists it. -/
theorem order_splitting_counterexample :
    (WellFormed fifthsBook ∧ NoEmptyLimit fifthsBook ∧ VolumeInv fifthsBook ∧
      PositiveSizes fifthsBook ∧ StrictTimeOrderedBook fifthsBook ∧
      0 ≤ (fifthsBook.orderAt 5).Size ∧ 0 ≤ (fifthsBook.orderAt 6).Size ∧
      (fifthsBook.orderAt 9).Size = (fifthsBook.orderAt 5).Size + (fifthsBook.orderAt 6).Size ∧
      (fifthsBook.orderAt 9).Size ≤ F64.oppositeVolume fifthsBook 9 ∧
      (fifthsBook.orderAt 9).Size ≤ oppositeVolume fifthsBook 9 ∧
      ¬ Resting fifthsBook 9 ∧ ¬ Resting fifthsBook 5 ∧ ¬ Resting fifthsBook 6 ∧
      (F64.PlaceMarketOrder fifthsBook 9).2 =
        .ok [{ Ask := 0, Bid := 9, SizeFilled := dyadic 3602879701896397 55,
               Price := dyadic 10 0 },
             { Ask := 3, Bid := 9, SizeFilled := dyadic 3602879701896397 53,
               Price := dyadic 20 0 }] ∧
      (F64.PlaceMarketOrder fifthsBook 5).2 =
        .ok [{ Ask := 0, Bid := 5, SizeFilled := dyadic 3602879701896397 55,
               Price := dyadic 10 0 },
             { Ask := 3, Bid := 5, SizeFilled := dyadic 3602879701896397 55,
               Price := dyadic 20 0 }] ∧
      (F64.PlaceMarketOrder (F64.PlaceMarketOrder fifthsBook 5).1 6).2 =
        .ok [{ Ask := 3, Bid := 6, SizeFilled := dyadic 5404319552844595 54,
               Price := dyadic 20 0 }] ∧
      (F64.PlaceMarketOrder fifthsBook 9).1.asks = [] ∧
      (F64.PlaceMarketOrder (F64.PlaceMarketOrder fifthsBook 5).1 6).1.asks = [1] ∧
      ((F64.PlaceMarketOrder (F64.PlaceMarketOrder fifthsBook 5).1 6).1.limitAt 1).Orders = [3] ∧
      ((F64.PlaceMarketOrder (F64.PlaceMarketOrder fifthsBook 5).1 6).1.orderAt 3).Size =
        dyadic 1 54) ∧
    (WellFormed hollowBook ∧ VolumeInv hollowBook ∧ PositiveSizes hollowBook ∧
      StrictTimeOrderedBook hollowBook ∧ GridSide 1074 hollowBook hollowBook.asks ∧
      ¬ NoEmptyLimit hollowBook ∧
      (hollowBook.orderAt 13).Size = dyadic 1 0 ∧ (hollowBook.orderAt 16).Size = dyadic 1 0 ∧
      (hollowBook.orderAt 15).Size = 0 ∧
      (hollowBook.orderAt 13).Size ≤ F64.oppositeVolume hollowBook 13 ∧
      ¬ Resting hollowBook 13 ∧ ¬ Resting hollowBook 16 ∧ ¬ Resting hollowBook 15 ∧
      (F64.PlaceMarketOrder hollowBook 13).2 =
        .ok [{ Ask := 10, Bid := 13, SizeFilled := dyadic 1 0, Price := dyadic 10 0 }] ∧
      (F64.PlaceMarketOrder hollowBook 16).2 =
        .ok [{ Ask := 10, Bid := 16, SizeFilled := dyadic 1 0, Price := dyadic 10 0 }] ∧
      (F64.PlaceMarketOrder (F64.PlaceMarketOrder hollowBook 16).1 15).2 = .ok [] ∧
      (F64.PlaceMarketOrder hollowBook 13).1.asks = [1] ∧
      (F64.PlaceMarketOrder (F64.PlaceMarketOrder hollowBook 16).1 15).1.asks = []) :=
  ⟨⟨fifthsBook_wellFormed, by
      refine ⟨?_, ?_, ?_, ?_, ?_, ?_, ?_, ?_, ?_, ?_, ?_, ?_, ?_⟩ <;> decide⟩,
    ⟨hollowBook_wellFormed, by
      refine ⟨?_, ?_, ?_, ?_, ?_, ?_, ?_, ?_, ?_, ?_, ?_⟩ <;> decide⟩⟩

/-- C20 (amended): let the book be well formed, with no listed limit that has
an empty queue, every `TotalVolume` the sum of the queued sizes, all queued
sizes positive and every queue in strictly increasing `TimeStamp` order, and let
the sizes resting on the opposite side be multiples of `2^k` units (of
`2^-1074`, `k ≤ 2045`) with a sum below `2^(k+53)` units.  Let `t`, `t1`, `t2`
be market orders of the same side that are not resting, of sizes `a + b`, `a`
and `b`, where `a, b ≥ 0` are multiples of `2^k` units and `a + b` is at most
the volume of the opposite side.  Then, on `float64`, `PlaceMarketOrder` of `t`
succeeds, so do `PlaceMarketOrder` of `t1` and then of `t2`, and the two runs
end in the same book: the same side lists in the same order, the same price
maps, the same id index and allocation counter, the same limits (queue,
`TotalVolume`, price), and the same orders (size, back reference and all)
apart from the three market orders themselves; and for every maker the total
`SizeFilled` is the same in both runs. -/
theorem order_splitting_on_grid (k : Nat) (ob : OrderBook) (t t1 t2 : Nat) (a b : Int)
    (hwf : WellFormed ob) (hne : NoEmptyLimit ob) (hv : VolumeInv ob) (hpos : PositiveSizes ob)
    (hts : StrictTimeOrderedBook ob) (hg : GridSide k ob (oppositeLimits ob t))
    (hga : OnGrid k a) (hgb : OnGrid k b) (ha : 0 ≤ a) (hb : 0 ≤ b)
    (hab : a + b ≤ F64.oppositeVolume ob t)
    (hs : (ob.orderAt t).Size = a + b) (hs1 : (ob.orderAt t1).Size = a)
    (hs2 : (ob.orderAt t2).Size = b)
    (hb1 : (ob.orderAt t1).Bid = (ob.orderAt t).Bid)
    (hb2 : (ob.orderAt t2).Bid = (ob.orderAt t).Bid)
    (hr : ¬ Resting ob t) (hr1 : ¬ Resting ob t1) (hr2 : ¬ Resting ob t2) (h12 : t1 ≠ t2) :
    ∃ ms ms1 ms2,
      (F64.PlaceMarketOrder ob t).2 = .ok ms ∧
      (F64.PlaceMarketOrder ob t1).2 = .ok ms1 ∧
      (F64.PlaceMarketOrder (F64.PlaceMarketOrder ob t1).1 t2).2 = .ok ms2 ∧
      (F64.PlaceMarketOrder (F64.PlaceMarketOrder ob t1).1 t2).1.asks =
        (F64.PlaceMarketOrder ob t).1.asks ∧
      (F64.PlaceMarketOrder (F64.PlaceMarketOrder ob t1).1 t2).1.bids =
        (F64.PlaceMarketOrder ob t).1.bids ∧
      (F64.PlaceMarketOrder (F64.PlaceMarketOrder ob t1).1 t2).1.AskLimits =
        (F64.PlaceMarketOrder ob t).1.AskLimits ∧
      (F64.PlaceMarketOrder (F64.PlaceMarketOrder ob t1).1 t2).1.BidLimits =
        (F64.PlaceMarketOrder ob t).1.BidLimits ∧
      (F64.PlaceMarketOrder (F64.PlaceMarketOrder ob t1).1 t2).1.Orders =
        (F64.PlaceMarketOrder ob t).1.Orders ∧
      (F64.PlaceMarketOrder (F64.PlaceMarketOrder ob t1).1 t2).1.nextLimit =
        (F64.PlaceMarketOrder ob t).1.nextLimit ∧
      (F64.PlaceMarketOrder (F64.PlaceMarketOrder ob t1).1 t2).1.limitAt =
        (F64.PlaceMarketOrder ob t).1.limitAt ∧
      (∀ o, o ≠ t → o ≠ t1 → o ≠ t2 →
        (F64.PlaceMarketOrder (F64.PlaceMarketOrder ob t1).1 t2).1.orderAt o =
          (F64.PlaceMarketOrder ob t).1.orderAt o) ∧
      (∀ o, fillsOf (ob.orderAt t).Bid o ms =
        fillsOf (ob.orderAt t).Bid o ms1 + fillsOf (ob.orderAt t).Bid o ms2) := by
  rw [oppositeVolume64_exact hv t hg] at hab
  have hto : TimeOrderedBook ob := fun l hl => (hts l hl).imp (fun h => le_of_lt h)
  have hS : Split ob t t1 t2 a b :=
    ⟨⟨hwf, hne, hv, hpos, hto⟩, ⟨hs, by omega, hab, hr⟩,
      ⟨hs1, ha, by rw [oppositeVolume_of_bid ob hb1]; omega, hr1⟩, hs2, hb, hr2, hb1, hb2,
      h12.symm⟩
  have hg1 : GridSide k ob (oppositeLimits ob t1) := by
    rw [oppositeLimits_of_bid ob hb1]; exact hg
  have e : F64.PlaceMarketOrder ob t = PlaceMarketOrder ob t :=
    PlaceMarketOrder64_exact hwf hv t hg (by rw [hs]; exact onGrid_add hga hgb) (by omega)
  have e1 : F64.PlaceMarketOrder ob t1 = PlaceMarketOrder ob t1 :=
    PlaceMarketOrder64_exact hwf hv t1 hg1 (by rw [hs1]; exact hga) (by omega)
  have hgA := (PlaceMarketOrder_gridSide hwf hv t1 hg1 (by rw [hs1]; exact hga) (by omega)
    hS.first.le).1
  have hbA : ((PlaceMarketOrder ob t1).1.orderAt t2).Bid =
      ((PlaceMarketOrder ob t1).1.orderAt t1).Bid := by
    rw [hS.bidA, hS.bidA, hb2, hb1]
  have e2 : F64.PlaceMarketOrder (PlaceMarketOrder ob t1).1 t2 =
      PlaceMarketOrder (PlaceMarketOrder ob t1).1 t2 :=
    PlaceMarketOrder64_exact hS.readyA.wf hS.readyA.vol t2
      (by rw [oppositeLimits_of_bid _ hbA]; exact hgA)
      (by have := hS.second.size; unfold sizes at this; rw [this]; exact hgb)
      (by have := hS.second.size; unfold sizes at this; rw [this]; exact hb)
  rw [e1, e2, e]
  exact order_splitting ob t t1 t2 a b hwf hne hv hpos hto ha hb hab hs hs1 hs2 hb1 hb2 hr hr1 hr2
    h12

set_option maxRecDepth 100000 in
/-- C20 (amended) at `wholeSplitBook` (bids of 5 and 8 queued at 10000 and a bid
of 10 at 9000, whole numbers): a sell of 11 against sells of 7 and 4. -/
theorem order_splitting_on_grid_witness :
    ∃ ms ms1 ms2,
      (F64.PlaceMarketOrder wholeSplitBook 3).2 = .ok ms ∧
      (F64.PlaceMarketOrder wholeSplitBook 4).2 = .ok ms1 ∧
      (F64.PlaceMarketOrder (F64.PlaceMarketOrder wholeSplitBook 4).1 5).2 = .ok ms2 ∧
      (F64.PlaceMarketOrder (F64.PlaceMarketOrder wholeSplitBook 4).1 5).1.asks =
        (F64.PlaceMarketOrder wholeSplitBook 3).1.asks ∧
      (F64.PlaceMarketOrder (F64.PlaceMarketOrder wholeSplitBook 4).1 5).1.bids =
        (F64.PlaceMarketOrder wholeSplitBook 3).1.bids ∧
      (F64.PlaceMarketOrder (F64.PlaceMarketOrder wholeSplitBook 4).1 5).1.AskLimits =
        (F64.PlaceMarketOrder wholeSplitBook 3).1.AskLimits ∧
      (F64.PlaceMarketOrder (F64.PlaceMarketOrder wholeSplitBook 4).1 5).1.BidLimits =
        (F64.PlaceMarketOrder wholeSplitBook 3).1.BidLimits ∧
      (F64.PlaceMarketOrder (F64.PlaceMarketOrder wholeSplitBook 4).1 5).1.Orders =
        (F64.PlaceMarketOrder wholeSplitBook 3).1.Orders ∧
      (F64.PlaceMarketOrder (F64.PlaceMarketOrder wholeSplitBook 4).1 5).1.nextLimit =
        (F64.PlaceMarketOrder wholeSplitBook 3).1.nextLimit ∧
      (F64.PlaceMarketOrder (F64.PlaceMarketOrder wholeSplitBook 4).1 5).1.limitAt =
        (F64.PlaceMarketOrder wholeSplitBook 3).1.limitAt ∧
      (∀ o, o ≠ 3 → o ≠ 4 → o ≠ 5 →
        (F64.PlaceMarketOrder (F64.PlaceMarketOrder wholeSplitBook 4).1 5).1.orderAt o =
          (F64.PlaceMarketOrder wholeSplitBook 3).1.orderAt o) ∧
      (∀ o, fillsOf (wholeSplitBook.orderAt 3).Bid o ms =
        fillsOf (wholeSplitBook.orderAt 3).Bid o ms1 + fillsOf (wholeSplitBook.orderAt 3).Bid o ms2) :=
  order_splitting_on_grid 1074 wholeSplitBook 3 4 5 (dyadic 7 0) (dyadic 4 0)
    wholeSplitBook_wellFormed (by decide) (by decide) (by decide) (by decide) (by decide)
    (by decide) (by decide) (by decide) (by decide) (by decide) (by decide) (by decide)
    (by decide) (by decide) (by decide) (by decide) (by decide) (by decide) (by decide)
end Orderbook
